import Mathlib

/-!
# Shallow embeddings of `jvm.c`, `compile.c`, `queue.c`, `mm-implicit.c`, `mm-explicit.c`

Each program has a namespace of its own (`TeenyJVM`, `Compile`, `Queue`, `MMImplicit`,
`MMExplicit`); the definitions of all programs come first, the theorems follow.

## TeenyJVM interpreter (`project01/jvm.c`)

The function `execute` of `jvm.c` is embedded as a step function over an explicit
frame state.  Conventions of the embedding:

* `int`, `int32_t` values are mathematical integers kept in `[-2^31, 2^31)`; the
  results of the arithmetic opcodes that overflow wrap (`to_int32`), as on the two's
  complement targets the program is built for. The sum in the guard of `newarray`,
  which overflows for the count `INT_MAX`, is undefined behaviour.
* C array accesses (`operand_stack[i]`, `locals[i]`, `code[i]`, heap arrays) are
  bounds-checked by `rd` / `wr`; an access outside the buffer, a division by zero, the
  quotient `INT_MIN / -1` and a shift amount outside `0..31` are C undefined behaviour
  and make the step `undefined`.
* `printf("%d\n", v)` appends the decimal rendering of `v` and a newline to `out`.
* Recursion (`invokestatic`) and the `while` loop are bounded by a fuel argument;
  `Outcome.timeout` is reported when the fuel runs out.
-/

namespace TeenyJVM

/-! ## Machine integers -/

/-- Conversion of an integer to `int32_t` (two's complement wrap). -/
def to_int32 (x : Int) : Int := (x + 2 ^ 31) % 2 ^ 32 - 2 ^ 31

/-- Conversion of an integer to `int16_t`. -/
def to_int16 (x : Int) : Int := (x + 2 ^ 15) % 2 ^ 16 - 2 ^ 15

/-- Conversion of an integer to `int8_t`. -/
def to_int8 (x : Int) : Int := (x + 2 ^ 7) % 2 ^ 8 - 2 ^ 7

/-- Conversion of an integer to `u4` (`uint32_t`). -/
def to_u4 (x : Int) : Int := x % 2 ^ 32

/-- Smallest `int32_t`. -/
def INT_MIN : Int := -2 ^ 31

/-! ## Data model (`jvm.h`, `read_class.h`, `heap.h`) -/

/-- One byte of bytecode (`u1`). -/
abbrev u1 := Fin 256

/-- Optional return value of a method (`optional_value_t`). A brace initialiser that
names only `has_value` leaves `value` zero. -/
structure optional_value_t where
  has_value : Bool
  value : Int
deriving DecidableEq, Repr

/-- Code attribute of a method (`code_t`); `code_length` is the length of `code`. -/
structure code_t where
  max_stack : Nat
  max_locals : Nat
  code : List u1
deriving DecidableEq, Repr

/-- Modelled from the spec: `read_class.h` is not part of the sources. A method owns
its code attribute; `number_of_parameters` stands for what `get_number_of_parameters`
computes from the method descriptor. -/
structure method_t where
  code : code_t
  number_of_parameters : Nat
deriving DecidableEq, Repr

/-- Modelled from the spec: a constant-pool entry (`cp_info`); only integer constants
carry a payload that `ldc` may read. -/
inductive cp_info where
  | Integer (bytes : Int)
  | other
deriving DecidableEq, Repr

/-- Modelled from the spec: the parsed class (`class_file_t`): the constant pool and the
resolution of a method index to a method (`find_method_from_index`), `none` when the
index does not resolve. -/
structure class_file_t where
  constant_pool : List cp_info
  find_method_from_index : Int → Option method_t

/-- Modelled from the spec: `heap.h` is not part of the sources. The heap is the list of
the arrays added so far; a reference is the position of an array in that list. -/
abbrev heap_t := List (List Int)

/-- Read `xs[i]` of a C buffer; `none` outside the buffer. -/
def rd {α : Type} (xs : List α) (i : Int) : Option α :=
  if 0 ≤ i then xs[i.toNat]? else none

/-- Write `xs[i] = v` into a C buffer; `none` outside the buffer. -/
def wr {α : Type} (xs : List α) (i : Int) (v : α) : Option (List α) :=
  if 0 ≤ i ∧ i.toNat < xs.length then some (xs.set i.toNat v) else none

/-- Modelled from the spec: `heap_add` stores a new array and returns a fresh
reference to it (the number of arrays stored before). -/
def heap_add (heap : heap_t) (ptr : List Int) : heap_t × Int :=
  (heap ++ [ptr], (heap.length : Int))

/-- Modelled from the spec: `heap_get` returns the array a reference stands for. -/
def heap_get (heap : heap_t) (ref : Int) : Option (List Int) :=
  rd heap ref

/-- Heap effect of the assignment `heap_get(heap, refe)[index] = val`. -/
def heap_store (heap : heap_t) (refe index val : Int) : Option heap_t :=
  match heap_get heap refe with
  | none => none
  | some arr =>
    match wr arr index val with
    | none => none
    | some arr' => wr heap refe arr'

/-! ## Opcodes

Modelled from the spec: the enumeration of `jvm.h` is not part of the sources; the
values are the standard JVM opcode numbers, which agree with `ILOAD_OFFSET`,
`ISTORE_OFFSET` and `opcode - 0x03` of `jvm.c`. -/

/-- Modelled from the spec: opcode `nop` of the absent `jvm.h`, standard JVM number. -/
abbrev i_nop : u1 := 0x00
/-- Modelled from the spec: opcode `iconst_m1` of the absent `jvm.h`, standard JVM number. -/
abbrev i_iconst_m1 : u1 := 0x02
/-- Modelled from the spec: opcode `iconst_0` of the absent `jvm.h`, standard JVM number. -/
abbrev i_iconst_0 : u1 := 0x03
/-- Modelled from the spec: opcode `iconst_1` of the absent `jvm.h`, standard JVM number. -/
abbrev i_iconst_1 : u1 := 0x04
/-- Modelled from the spec: opcode `iconst_2` of the absent `jvm.h`, standard JVM number. -/
abbrev i_iconst_2 : u1 := 0x05
/-- Modelled from the spec: opcode `iconst_3` of the absent `jvm.h`, standard JVM number. -/
abbrev i_iconst_3 : u1 := 0x06
/-- Modelled from the spec: opcode `iconst_4` of the absent `jvm.h`, standard JVM number. -/
abbrev i_iconst_4 : u1 := 0x07
/-- Modelled from the spec: opcode `iconst_5` of the absent `jvm.h`, standard JVM number. -/
abbrev i_iconst_5 : u1 := 0x08
/-- Modelled from the spec: opcode `bipush` of the absent `jvm.h`, standard JVM number. -/
abbrev i_bipush : u1 := 0x10
/-- Modelled from the spec: opcode `sipush` of the absent `jvm.h`, standard JVM number. -/
abbrev i_sipush : u1 := 0x11
/-- Modelled from the spec: opcode `ldc` of the absent `jvm.h`, standard JVM number. -/
abbrev i_ldc : u1 := 0x12
/-- Modelled from the spec: opcode `iload` of the absent `jvm.h`, standard JVM number. -/
abbrev i_iload : u1 := 0x15
/-- Modelled from the spec: opcode `aload` of the absent `jvm.h`, standard JVM number. -/
abbrev i_aload : u1 := 0x19
/-- Modelled from the spec: opcode `iload_0` of the absent `jvm.h`, standard JVM number. -/
abbrev i_iload_0 : u1 := 0x1a
/-- Modelled from the spec: opcode `iload_1` of the absent `jvm.h`, standard JVM number. -/
abbrev i_iload_1 : u1 := 0x1b
/-- Modelled from the spec: opcode `iload_2` of the absent `jvm.h`, standard JVM number. -/
abbrev i_iload_2 : u1 := 0x1c
/-- Modelled from the spec: opcode `iload_3` of the absent `jvm.h`, standard JVM number. -/
abbrev i_iload_3 : u1 := 0x1d
/-- Modelled from the spec: opcode `aload_0` of the absent `jvm.h`, standard JVM number. -/
abbrev i_aload_0 : u1 := 0x2a
/-- Modelled from the spec: opcode `aload_1` of the absent `jvm.h`, standard JVM number. -/
abbrev i_aload_1 : u1 := 0x2b
/-- Modelled from the spec: opcode `aload_2` of the absent `jvm.h`, standard JVM number. -/
abbrev i_aload_2 : u1 := 0x2c
/-- Modelled from the spec: opcode `aload_3` of the absent `jvm.h`, standard JVM number. -/
abbrev i_aload_3 : u1 := 0x2d
/-- Modelled from the spec: opcode `iaload` of the absent `jvm.h`, standard JVM number. -/
abbrev i_iaload : u1 := 0x2e
/-- Modelled from the spec: opcode `istore` of the absent `jvm.h`, standard JVM number. -/
abbrev i_istore : u1 := 0x36
/-- Modelled from the spec: opcode `astore` of the absent `jvm.h`, standard JVM number. -/
abbrev i_astore : u1 := 0x3a
/-- Modelled from the spec: opcode `istore_0` of the absent `jvm.h`, standard JVM number. -/
abbrev i_istore_0 : u1 := 0x3b
/-- Modelled from the spec: opcode `istore_1` of the absent `jvm.h`, standard JVM number. -/
abbrev i_istore_1 : u1 := 0x3c
/-- Modelled from the spec: opcode `istore_2` of the absent `jvm.h`, standard JVM number. -/
abbrev i_istore_2 : u1 := 0x3d
/-- Modelled from the spec: opcode `istore_3` of the absent `jvm.h`, standard JVM number. -/
abbrev i_istore_3 : u1 := 0x3e
/-- Modelled from the spec: opcode `astore_0` of the absent `jvm.h`, standard JVM number. -/
abbrev i_astore_0 : u1 := 0x4b
/-- Modelled from the spec: opcode `astore_1` of the absent `jvm.h`, standard JVM number. -/
abbrev i_astore_1 : u1 := 0x4c
/-- Modelled from the spec: opcode `astore_2` of the absent `jvm.h`, standard JVM number. -/
abbrev i_astore_2 : u1 := 0x4d
/-- Modelled from the spec: opcode `astore_3` of the absent `jvm.h`, standard JVM number. -/
abbrev i_astore_3 : u1 := 0x4e
/-- Modelled from the spec: opcode `iastore` of the absent `jvm.h`, standard JVM number. -/
abbrev i_iastore : u1 := 0x4f
/-- Modelled from the spec: opcode `dup` of the absent `jvm.h`, standard JVM number. -/
abbrev i_dup : u1 := 0x59
/-- Modelled from the spec: opcode `iadd` of the absent `jvm.h`, standard JVM number. -/
abbrev i_iadd : u1 := 0x60
/-- Modelled from the spec: opcode `isub` of the absent `jvm.h`, standard JVM number. -/
abbrev i_isub : u1 := 0x64
/-- Modelled from the spec: opcode `imul` of the absent `jvm.h`, standard JVM number. -/
abbrev i_imul : u1 := 0x68
/-- Modelled from the spec: opcode `idiv` of the absent `jvm.h`, standard JVM number. -/
abbrev i_idiv : u1 := 0x6c
/-- Modelled from the spec: opcode `irem` of the absent `jvm.h`, standard JVM number. -/
abbrev i_irem : u1 := 0x70
/-- Modelled from the spec: opcode `ineg` of the absent `jvm.h`, standard JVM number. -/
abbrev i_ineg : u1 := 0x74
/-- Modelled from the spec: opcode `ishl` of the absent `jvm.h`, standard JVM number. -/
abbrev i_ishl : u1 := 0x78
/-- Modelled from the spec: opcode `ishr` of the absent `jvm.h`, standard JVM number. -/
abbrev i_ishr : u1 := 0x7a
/-- Modelled from the spec: opcode `iushr` of the absent `jvm.h`, standard JVM number. -/
abbrev i_iushr : u1 := 0x7c
/-- Modelled from the spec: opcode `iand` of the absent `jvm.h`, standard JVM number. -/
abbrev i_iand : u1 := 0x7e
/-- Modelled from the spec: opcode `ior` of the absent `jvm.h`, standard JVM number. -/
abbrev i_ior : u1 := 0x80
/-- Modelled from the spec: opcode `ixor` of the absent `jvm.h`, standard JVM number. -/
abbrev i_ixor : u1 := 0x82
/-- Modelled from the spec: opcode `iinc` of the absent `jvm.h`, standard JVM number. -/
abbrev i_iinc : u1 := 0x84
/-- Modelled from the spec: opcode `ifeq` of the absent `jvm.h`, standard JVM number. -/
abbrev i_ifeq : u1 := 0x99
/-- Modelled from the spec: opcode `ifne` of the absent `jvm.h`, standard JVM number. -/
abbrev i_ifne : u1 := 0x9a
/-- Modelled from the spec: opcode `iflt` of the absent `jvm.h`, standard JVM number. -/
abbrev i_iflt : u1 := 0x9b
/-- Modelled from the spec: opcode `ifge` of the absent `jvm.h`, standard JVM number. -/
abbrev i_ifge : u1 := 0x9c
/-- Modelled from the spec: opcode `ifgt` of the absent `jvm.h`, standard JVM number. -/
abbrev i_ifgt : u1 := 0x9d
/-- Modelled from the spec: opcode `ifle` of the absent `jvm.h`, standard JVM number. -/
abbrev i_ifle : u1 := 0x9e
/-- Modelled from the spec: opcode `if_icmpeq` of the absent `jvm.h`, standard JVM number. -/
abbrev i_if_icmpeq : u1 := 0x9f
/-- Modelled from the spec: opcode `if_icmpne` of the absent `jvm.h`, standard JVM number. -/
abbrev i_if_icmpne : u1 := 0xa0
/-- Modelled from the spec: opcode `if_icmplt` of the absent `jvm.h`, standard JVM number. -/
abbrev i_if_icmplt : u1 := 0xa1
/-- Modelled from the spec: opcode `if_icmpge` of the absent `jvm.h`, standard JVM number. -/
abbrev i_if_icmpge : u1 := 0xa2
/-- Modelled from the spec: opcode `if_icmpgt` of the absent `jvm.h`, standard JVM number. -/
abbrev i_if_icmpgt : u1 := 0xa3
/-- Modelled from the spec: opcode `if_icmple` of the absent `jvm.h`, standard JVM number. -/
abbrev i_if_icmple : u1 := 0xa4
/-- Modelled from the spec: opcode `goto` of the absent `jvm.h`, standard JVM number. -/
abbrev i_goto : u1 := 0xa7
/-- Modelled from the spec: opcode `ireturn` of the absent `jvm.h`, standard JVM number. -/
abbrev i_ireturn : u1 := 0xac
/-- Modelled from the spec: opcode `areturn` of the absent `jvm.h`, standard JVM number. -/
abbrev i_areturn : u1 := 0xb0
/-- Modelled from the spec: opcode `return` of the absent `jvm.h`, standard JVM number. -/
abbrev i_return : u1 := 0xb1
/-- Modelled from the spec: opcode `getstatic` of the absent `jvm.h`, standard JVM number. -/
abbrev i_getstatic : u1 := 0xb2
/-- Modelled from the spec: opcode `invokevirtual` of the absent `jvm.h`, standard JVM number. -/
abbrev i_invokevirtual : u1 := 0xb6
/-- Modelled from the spec: opcode `invokestatic` of the absent `jvm.h`, standard JVM number. -/
abbrev i_invokestatic : u1 := 0xb8
/-- Modelled from the spec: opcode `newarray` of the absent `jvm.h`, standard JVM number. -/
abbrev i_newarray : u1 := 0xbc
/-- Modelled from the spec: opcode `arraylength` of the absent `jvm.h`, standard JVM number. -/
abbrev i_arraylength : u1 := 0xbe

/-- The constant `ILOAD_OFFSET` of `jvm.c`. -/
abbrev ILOAD_OFFSET : u1 := 0x1a

/-- The constant `ISTORE_OFFSET` of `jvm.c`. -/
abbrev ISTORE_OFFSET : u1 := 0x3b

/-! ## Frame state -/

/-- Variables of one activation of `execute`: the local variables `operand_stack`,
`stack_pointer`, `counter`, `ret_flag`, the caller-provided `locals` buffer, and the two
process-wide resources the activation can change: the heap and standard output. -/
structure State where
  operand_stack : List Int
  stack_pointer : Int
  counter : Int
  ret_flag : Bool
  locals : List Int
  heap : heap_t
  out : String
deriving DecidableEq, Repr

/-- How a call of `execute` ends: it returns `result` (leaving the heap and the output
as given), it runs into C undefined behaviour, or the fuel of the model runs out. -/
inductive Outcome where
  | returned (result : optional_value_t) (heap : heap_t) (out : String)
  | undefined
  | timeout
deriving DecidableEq, Repr

/-- Result of one pass through the body of the `while` loop: control is back at the loop
head with a new state, or `execute` is left. -/
inductive Step where
  | cont (s : State)
  | stop (o : Outcome)
deriving DecidableEq, Repr

/-- A `switch` case without `return`: back to the loop head, or undefined behaviour. -/
def Step.ofOption : Option State → Step
  | some s => Step.cont s
  | none => Step.stop Outcome.undefined

/-! ## The cases of the `switch` in `execute` -/

/-- The `int16_t` formed from two operand bytes, `(b1 << 8) | b2`, as used for branch
offsets and by `sipush`. -/
def operand16 (b1 b2 : u1) : Int :=
  to_int16 (((b1.val <<< 8) ||| b2.val : Nat) : Int)

/-- Cases `i_iconst_m1 .. i_iconst_5`: `operand_stack[stack_pointer++] = opcode - 0x03`. -/
def case_iconst (opcode : u1) (s : State) : Option State := do
  let st ← wr s.operand_stack s.stack_pointer ((opcode.val : Int) - 0x03)
  some { s with operand_stack := st, stack_pointer := s.stack_pointer + 1,
                counter := s.counter + 1 }

/-- Case `i_bipush`: pushes `(int8_t) code[counter + 1]`. -/
def case_bipush (m : method_t) (s : State) : Option State := do
  let b ← rd m.code.code (s.counter + 1)
  let byte_val := to_int8 (b.val : Int)
  let st ← wr s.operand_stack s.stack_pointer byte_val
  some { s with operand_stack := st, stack_pointer := s.stack_pointer + 1,
                counter := s.counter + 1 + 1 }

/-- Case `i_sipush`: pushes the `int16_t` made of the two operand bytes. -/
def case_sipush (m : method_t) (s : State) : Option State := do
  let sipush_b1 ← rd m.code.code (s.counter + 1)
  let sipush_b2 ← rd m.code.code (s.counter + 2)
  let val := operand16 sipush_b1 sipush_b2
  let st ← wr s.operand_stack s.stack_pointer val
  some { s with operand_stack := st, stack_pointer := s.stack_pointer + 1,
                counter := s.counter + 3 }

/-- Common shape of the cases `i_iadd .. i_ixor`: `counter++`; when `stack_pointer >= 2`
the slot `stack_pointer - 2` receives `op a b`, where `a` is the old content of that slot
and `b` the content of slot `stack_pointer - 1`, and `stack_pointer--`. The operator
returns `none` where the C expression has undefined behaviour. -/
def binary_case (op : Int → Int → Option Int) (s : State) : Option State :=
  if 2 ≤ s.stack_pointer then do
    let a ← rd s.operand_stack (s.stack_pointer - 2)
    let b ← rd s.operand_stack (s.stack_pointer - 1)
    let r ← op a b
    let st ← wr s.operand_stack (s.stack_pointer - 2) r
    some { s with operand_stack := st, stack_pointer := s.stack_pointer - 1,
                  counter := s.counter + 1 }
  else some { s with counter := s.counter + 1 }

/-- Operator of `i_iadd`: `operand_stack[sp - 1] + operand_stack[sp - 2]`. -/
def op_iadd (a b : Int) : Option Int := some (to_int32 (b + a))

/-- Operator of `i_isub`: `operand_stack[sp - 2] - operand_stack[sp - 1]`. -/
def op_isub (a b : Int) : Option Int := some (to_int32 (a - b))

/-- Operator of `i_imul`: `operand_stack[sp - 1] * operand_stack[sp - 2]`. -/
def op_imul (a b : Int) : Option Int := some (to_int32 (b * a))

/-- Operator of `i_idiv`: C `/` on `int` (quotient truncated toward zero); undefined for
a zero divisor and for `INT_MIN / -1`. -/
def op_idiv (a b : Int) : Option Int :=
  if b = 0 ∨ (a = INT_MIN ∧ b = -1) then none else some (Int.tdiv a b)

/-- Operator of `i_irem`: C `%` on `int`; undefined where `/` is. -/
def op_irem (a b : Int) : Option Int :=
  if b = 0 ∨ (a = INT_MIN ∧ b = -1) then none else some (Int.tmod a b)

/-- Operator of `i_ishl`: C `<<` on `int`, the shift amount used as it is; undefined for
an amount outside `0..31`. -/
def op_ishl (a b : Int) : Option Int :=
  if 0 ≤ b ∧ b < 32 then some (to_int32 (a * 2 ^ b.toNat)) else none

/-- Operator of `i_ishr`: C `>>` on `int` (arithmetic shift). -/
def op_ishr (a b : Int) : Option Int :=
  if 0 ≤ b ∧ b < 32 then some (a >>> b.toNat) else none

/-- Operator of `i_iushr`: `(int) ((u4) a >> b)`. -/
def op_iushr (a b : Int) : Option Int :=
  if 0 ≤ b ∧ b < 32 then some (to_int32 (((to_u4 a).toNat >>> b.toNat : Nat) : Int)) else none

/-- Operator of `i_iand`. -/
def op_iand (a b : Int) : Option Int := some (Int.land a b)

/-- Operator of `i_ior`. -/
def op_ior (a b : Int) : Option Int := some (Int.lor a b)

/-- Operator of `i_ixor`. -/
def op_ixor (a b : Int) : Option Int := some (Int.xor a b)

/-- Case `i_ineg`: `counter++`; when `stack_pointer >= 1` the top slot is negated. -/
def case_ineg (s : State) : Option State :=
  if 1 ≤ s.stack_pointer then do
    let a ← rd s.operand_stack (s.stack_pointer - 1)
    let st ← wr s.operand_stack (s.stack_pointer - 1) (to_int32 (-a))
    some { s with operand_stack := st, counter := s.counter + 1 }
  else some { s with counter := s.counter + 1 }

/-- Case `i_getstatic`: `counter += 3`. -/
def case_getstatic (s : State) : Option State :=
  some { s with counter := s.counter + 3 }

/-- Case `i_return`: `ret_flag = true`. -/
def case_return (s : State) : Option State :=
  some { s with ret_flag := true }

/-- Case `i_invokevirtual`: prints `operand_stack[stack_pointer - 1]` in decimal with a
newline, `stack_pointer--`, `counter += 3`. -/
def case_invokevirtual (s : State) : Option State := do
  let v ← rd s.operand_stack (s.stack_pointer - 1)
  some { s with out := s.out ++ toString v ++ "\n", stack_pointer := s.stack_pointer - 1,
                counter := s.counter + 3 }

/-- Case `i_iload`: pushes `locals[code[counter + 1]]`. -/
def case_iload (m : method_t) (s : State) : Option State := do
  let k ← rd m.code.code (s.counter + 1)
  let v ← rd s.locals (k.val : Int)
  let st ← wr s.operand_stack s.stack_pointer v
  some { s with operand_stack := st, counter := s.counter + 1 + 1,
                stack_pointer := s.stack_pointer + 1 }

/-- Case `i_istore`: `counter++`; only when `stack_pointer > 0` the top is stored into
`locals[code[counter]]`, followed by `counter++` and `stack_pointer--`. -/
def case_istore (m : method_t) (s : State) : Option State :=
  if 0 < s.stack_pointer then do
    let k ← rd m.code.code (s.counter + 1)
    let v ← rd s.operand_stack (s.stack_pointer - 1)
    let ls ← wr s.locals (k.val : Int) v
    some { s with locals := ls, counter := s.counter + 1 + 1,
                  stack_pointer := s.stack_pointer - 1 }
  else some { s with counter := s.counter + 1 }

/-- Case `i_iinc`: `locals[code[counter + 1]] += (int8_t) code[counter + 2]`. -/
def case_iinc (m : method_t) (s : State) : Option State := do
  let k ← rd m.code.code (s.counter + 1)
  let c ← rd m.code.code (s.counter + 1 + 1)
  let v ← rd s.locals (k.val : Int)
  let ls ← wr s.locals (k.val : Int) (to_int32 (v + to_int8 (c.val : Int)))
  some { s with locals := ls, counter := s.counter + 1 + 2 }

/-- Cases `i_iload_0 .. i_iload_3`: pushes `locals[opcode - ILOAD_OFFSET]`. -/
def case_iload_n (opcode : u1) (s : State) : Option State := do
  let v ← rd s.locals ((opcode.val : Int) - (ILOAD_OFFSET.val : Int))
  let st ← wr s.operand_stack s.stack_pointer v
  some { s with operand_stack := st, counter := s.counter + 1,
                stack_pointer := s.stack_pointer + 1 }

/-- Cases `i_istore_0 .. i_istore_3`: when `stack_pointer >= 1` the top is stored into
`locals[code[counter] - ISTORE_OFFSET]` and popped; `counter++` in both branches. -/
def case_istore_n (opcode : u1) (s : State) : Option State :=
  if 1 ≤ s.stack_pointer then do
    let v ← rd s.operand_stack (s.stack_pointer - 1)
    let ls ← wr s.locals ((opcode.val : Int) - (ISTORE_OFFSET.val : Int)) v
    some { s with locals := ls, stack_pointer := s.stack_pointer - 1,
                  counter := s.counter + 1 }
  else some { s with counter := s.counter + 1 }

/-- Case `i_ldc`: pushes the `bytes` of the integer constant `constant_pool[index - 1]`;
reading another kind of entry through the cast is undefined. -/
def case_ldc (m : method_t) (cls : class_file_t) (s : State) : Option State := do
  let index ← rd m.code.code (s.counter + 1)
  let entry ← rd cls.constant_pool ((index.val : Int) - 1)
  match entry with
  | cp_info.Integer bytes =>
    let st ← wr s.operand_stack s.stack_pointer bytes
    some { s with operand_stack := st, counter := s.counter + 1 + 1,
                  stack_pointer := s.stack_pointer + 1 }
  | cp_info.other => none

/-- Cases `i_ifeq .. i_ifle`: the offset is read first, then
`operand_stack[--stack_pointer]` is compared with zero by `cond`; `counter += offset`
when the comparison holds, `counter += 3` otherwise. -/
def case_if (cond : Int → Bool) (m : method_t) (s : State) : Option State := do
  let b1 ← rd m.code.code (s.counter + 1)
  let b2 ← rd m.code.code (s.counter + 2)
  let offset := operand16 b1 b2
  let v ← rd s.operand_stack (s.stack_pointer - 1)
  if cond v then
    some { s with stack_pointer := s.stack_pointer - 1, counter := s.counter + offset }
  else
    some { s with stack_pointer := s.stack_pointer - 1, counter := s.counter + 3 }

/-- Cases `i_if_icmpeq .. i_if_icmple`: `val2 = operand_stack[--stack_pointer]`,
`val1 = operand_stack[--stack_pointer]`, and the test is `cond val1 val2`. -/
def case_if_icmp (cond : Int → Int → Bool) (m : method_t) (s : State) : Option State := do
  let b1 ← rd m.code.code (s.counter + 1)
  let b2 ← rd m.code.code (s.counter + 2)
  let offset := operand16 b1 b2
  let val2 ← rd s.operand_stack (s.stack_pointer - 1)
  let val1 ← rd s.operand_stack (s.stack_pointer - 1 - 1)
  if cond val1 val2 then
    some { s with stack_pointer := s.stack_pointer - 1 - 1, counter := s.counter + offset }
  else
    some { s with stack_pointer := s.stack_pointer - 1 - 1, counter := s.counter + 3 }

/-- Case `i_goto`: `counter += offset`. -/
def case_goto (m : method_t) (s : State) : Option State := do
  let b1 ← rd m.code.code (s.counter + 1)
  let b2 ← rd m.code.code (s.counter + 2)
  let offset := operand16 b1 b2
  some { s with counter := s.counter + offset }

/-- The argument loop of `i_invokestatic`,
`for (i = numArgs - 1; i >= 0; i--) { stack_pointer--; calleeLocals[i] = operand_stack[stack_pointer]; }`,
with `numArgs` iterations left; it returns the filled locals and the new stack pointer. -/
def pop_args (operand_stack : List Int) :
    Nat → Int → List Int → Option (List Int × Int)
  | 0, stack_pointer, calleeLocals => some (calleeLocals, stack_pointer)
  | i + 1, stack_pointer, calleeLocals =>
    match rd operand_stack (stack_pointer - 1) with
    | none => none
    | some v =>
      match wr calleeLocals (i : Int) v with
      | none => none
      | some calleeLocals' => pop_args operand_stack i (stack_pointer - 1) calleeLocals'

/-- The method index of `i_invokestatic`:
`(int16_t)(code[counter + 1] << 8) | code[counter + 2]`, stored in an `int16_t`. -/
def method_index (b1 b2 : u1) : Int :=
  to_int16 (Int.lor (to_int16 ((b1.val <<< 8 : Nat) : Int)) (b2.val : Int))

/-- The end of case `i_invokestatic`, after the recursive call has come back with
outcome `results` and the argument loop has left `stack_pointer`: a returned value is
stored with `operand_stack[stack_pointer++] = results.value`, and `counter += 3`.
Undefined behaviour and exhausted fuel of the callee end the caller as well. -/
def finish_invokestatic (s : State) (stack_pointer : Int) : Outcome → Step
  | Outcome.returned results heap out =>
    if results.has_value then
      match wr s.operand_stack stack_pointer results.value with
      | none => Step.stop Outcome.undefined
      | some st =>
        Step.cont { s with operand_stack := st, stack_pointer := stack_pointer + 1,
                           counter := s.counter + 3, heap := heap, out := out }
    else
      Step.cont { s with stack_pointer := stack_pointer, counter := s.counter + 3,
                         heap := heap, out := out }
  | Outcome.undefined => Step.stop Outcome.undefined
  | Outcome.timeout => Step.stop Outcome.timeout

/-- Case `i_invokestatic`. `call` stands for the recursive call of `execute` on the
target method (with the same class); the callee gets a zeroed `calleeLocals` of
`max_locals` slots filled by `pop_args`, and runs on the current heap and output. -/
def case_invokestatic (call : method_t → List Int → heap_t → String → Outcome)
    (m : method_t) (cls : class_file_t) (s : State) : Step :=
  match rd m.code.code (s.counter + 1), rd m.code.code (s.counter + 2) with
  | some b1, some b2 =>
    match cls.find_method_from_index (method_index b1 b2) with
    | none => Step.stop Outcome.undefined
    | some methodToCall =>
      let numArgs := methodToCall.number_of_parameters
      match pop_args s.operand_stack numArgs s.stack_pointer
          (List.replicate methodToCall.code.max_locals 0) with
      | none => Step.stop Outcome.undefined
      | some (calleeLocals, stack_pointer) =>
        finish_invokestatic s stack_pointer (call methodToCall calleeLocals s.heap s.out)
  | _, _ => Step.stop Outcome.undefined

/-- Cases `i_ireturn` and `i_areturn`: `stack_pointer--` and
`return {.has_value = true, .value = operand_stack[stack_pointer]}`. -/
def case_ireturn (s : State) : Step :=
  match rd s.operand_stack (s.stack_pointer - 1) with
  | none => Step.stop Outcome.undefined
  | some v => Step.stop (Outcome.returned { has_value := true, value := v } s.heap s.out)

/-- Case `i_nop`: `counter++`. -/
def case_nop (s : State) : Option State :=
  some { s with counter := s.counter + 1 }

/-- Case `i_dup`: `operand_stack[stack_pointer] = operand_stack[stack_pointer - 1]`. -/
def case_dup (s : State) : Option State := do
  let v ← rd s.operand_stack (s.stack_pointer - 1)
  let st ← wr s.operand_stack s.stack_pointer v
  some { s with operand_stack := st, stack_pointer := s.stack_pointer + 1,
                counter := s.counter + 1 }

/-- Case `i_newarray`: only when `operand_stack[stack_pointer - 1] + 1 > 0` a zeroed
array of that many slots is allocated, its slot 0 set to the count, the top of the stack
replaced by the reference from `heap_add`, and `counter += 2`. The sum is computed in
`int`: for the count `INT_MAX` it overflows, which is undefined behaviour (the test is
not evaluated on a wrapped sum). -/
def case_newarray (s : State) : Option State := do
  let count ← rd s.operand_stack (s.stack_pointer - 1)
  if 2 ^ 31 ≤ count + 1 then none
  else if 0 < count + 1 then
    let iarray ← wr (List.replicate (count + 1).toNat (0 : Int)) 0 count
    let added := heap_add s.heap iarray
    let st ← wr s.operand_stack (s.stack_pointer - 1) added.2
    some { s with operand_stack := st, heap := added.1, counter := s.counter + 2 }
  else some s

/-- Case `i_arraylength`: the top of the stack is replaced by slot 0 of the array it
refers to. -/
def case_arraylength (s : State) : Option State := do
  let ref ← rd s.operand_stack (s.stack_pointer - 1)
  let arr ← heap_get s.heap ref
  let len ← rd arr 0
  let st ← wr s.operand_stack (s.stack_pointer - 1) len
  some { s with operand_stack := st, counter := s.counter + 1 }

/-- Case `i_iastore`: pops `val`, `index`, `refe` and stores
`heap_get(heap, refe)[index + 1] = val`. -/
def case_iastore (s : State) : Option State := do
  let val ← rd s.operand_stack (s.stack_pointer - 1)
  let index ← rd s.operand_stack (s.stack_pointer - 1 - 1)
  let refe ← rd s.operand_stack (s.stack_pointer - 1 - 1 - 1)
  let heap ← heap_store s.heap refe (to_int32 (index + 1)) val
  some { s with heap := heap, stack_pointer := s.stack_pointer - 1 - 1 - 1,
                counter := s.counter + 1 }

/-- Case `i_iaload`: pops `index`, `refe` and pushes `heap_get(heap, refe)[index + 1]`. -/
def case_iaload (s : State) : Option State := do
  let index ← rd s.operand_stack (s.stack_pointer - 1)
  let refe ← rd s.operand_stack (s.stack_pointer - 1 - 1)
  let arr ← heap_get s.heap refe
  let v ← rd arr (to_int32 (index + 1))
  let st ← wr s.operand_stack (s.stack_pointer - 1 - 1) v
  some { s with operand_stack := st, stack_pointer := s.stack_pointer - 1 - 1 + 1,
                counter := s.counter + 1 }

/-- Case `i_aload`: `operand_stack[stack_pointer++] = locals[code[counter + 1]]`. -/
def case_aload (m : method_t) (s : State) : Option State := do
  let k ← rd m.code.code (s.counter + 1)
  let v ← rd s.locals (k.val : Int)
  let st ← wr s.operand_stack s.stack_pointer v
  some { s with operand_stack := st, stack_pointer := s.stack_pointer + 1,
                counter := s.counter + 2 }

/-- Case `i_astore`: `stack_pointer--` without a guard, then
`locals[code[counter + 1]] = operand_stack[stack_pointer]`. -/
def case_astore (m : method_t) (s : State) : Option State := do
  let k ← rd m.code.code (s.counter + 1)
  let v ← rd s.operand_stack (s.stack_pointer - 1)
  let ls ← wr s.locals (k.val : Int) v
  some { s with locals := ls, stack_pointer := s.stack_pointer - 1,
                counter := s.counter + 2 }

/-- Cases `i_aload_0 .. i_aload_3`: pushes `locals[opcode - i_aload_0]`. -/
def case_aload_n (opcode : u1) (s : State) : Option State := do
  let v ← rd s.locals ((opcode.val : Int) - (i_aload_0.val : Int))
  let st ← wr s.operand_stack s.stack_pointer v
  some { s with operand_stack := st, stack_pointer := s.stack_pointer + 1,
                counter := s.counter + 1 }

/-- Cases `i_astore_0 .. i_astore_3`: `stack_pointer--` without a guard, then
`locals[opcode - i_astore_0] = operand_stack[stack_pointer]`. -/
def case_astore_n (opcode : u1) (s : State) : Option State := do
  let v ← rd s.operand_stack (s.stack_pointer - 1)
  let ls ← wr s.locals ((opcode.val : Int) - (i_astore_0.val : Int)) v
  some { s with locals := ls, stack_pointer := s.stack_pointer - 1,
                counter := s.counter + 1 }

/-! ## The interpreter loop -/

/-- One pass through the `switch (opcode)` of `execute`, the opcode read from
`code[counter]`. An opcode without a case falls to `default: break;`, which changes
nothing. -/
def step (call : method_t → List Int → heap_t → String → Outcome)
    (m : method_t) (cls : class_file_t) (s : State) : Step :=
  match rd m.code.code s.counter with
  | none => Step.stop Outcome.undefined
  | some opcode =>
    if opcode = i_iconst_m1 ∨ opcode = i_iconst_0 ∨ opcode = i_iconst_1 ∨
       opcode = i_iconst_2 ∨ opcode = i_iconst_3 ∨ opcode = i_iconst_4 ∨
       opcode = i_iconst_5 then Step.ofOption (case_iconst opcode s)
    else if opcode = i_bipush then Step.ofOption (case_bipush m s)
    else if opcode = i_sipush then Step.ofOption (case_sipush m s)
    else if opcode = i_iadd then Step.ofOption (binary_case op_iadd s)
    else if opcode = i_isub then Step.ofOption (binary_case op_isub s)
    else if opcode = i_imul then Step.ofOption (binary_case op_imul s)
    else if opcode = i_idiv then Step.ofOption (binary_case op_idiv s)
    else if opcode = i_irem then Step.ofOption (binary_case op_irem s)
    else if opcode = i_ineg then Step.ofOption (case_ineg s)
    else if opcode = i_ishl then Step.ofOption (binary_case op_ishl s)
    else if opcode = i_ishr then Step.ofOption (binary_case op_ishr s)
    else if opcode = i_iushr then Step.ofOption (binary_case op_iushr s)
    else if opcode = i_iand then Step.ofOption (binary_case op_iand s)
    else if opcode = i_ior then Step.ofOption (binary_case op_ior s)
    else if opcode = i_ixor then Step.ofOption (binary_case op_ixor s)
    else if opcode = i_getstatic then Step.ofOption (case_getstatic s)
    else if opcode = i_return then Step.ofOption (case_return s)
    else if opcode = i_invokevirtual then Step.ofOption (case_invokevirtual s)
    else if opcode = i_iload then Step.ofOption (case_iload m s)
    else if opcode = i_istore then Step.ofOption (case_istore m s)
    else if opcode = i_iinc then Step.ofOption (case_iinc m s)
    else if opcode = i_iload_0 ∨ opcode = i_iload_1 ∨ opcode = i_iload_2 ∨
       opcode = i_iload_3 then Step.ofOption (case_iload_n opcode s)
    else if opcode = i_istore_0 ∨ opcode = i_istore_1 ∨ opcode = i_istore_2 ∨
       opcode = i_istore_3 then Step.ofOption (case_istore_n opcode s)
    else if opcode = i_ldc then Step.ofOption (case_ldc m cls s)
    else if opcode = i_ifeq then Step.ofOption (case_if (fun v => decide (v = 0)) m s)
    else if opcode = i_ifne then Step.ofOption (case_if (fun v => decide (v ≠ 0)) m s)
    else if opcode = i_iflt then Step.ofOption (case_if (fun v => decide (v < 0)) m s)
    else if opcode = i_ifge then Step.ofOption (case_if (fun v => decide (v ≥ 0)) m s)
    else if opcode = i_ifgt then Step.ofOption (case_if (fun v => decide (v > 0)) m s)
    else if opcode = i_ifle then Step.ofOption (case_if (fun v => decide (v ≤ 0)) m s)
    else if opcode = i_if_icmpeq then
      Step.ofOption (case_if_icmp (fun val1 val2 => decide (val1 = val2)) m s)
    else if opcode = i_if_icmpne then
      Step.ofOption (case_if_icmp (fun val1 val2 => decide (val1 ≠ val2)) m s)
    else if opcode = i_if_icmplt then
      Step.ofOption (case_if_icmp (fun val1 val2 => decide (val1 < val2)) m s)
    else if opcode = i_if_icmpge then
      Step.ofOption (case_if_icmp (fun val1 val2 => decide (val1 ≥ val2)) m s)
    else if opcode = i_if_icmpgt then
      Step.ofOption (case_if_icmp (fun val1 val2 => decide (val1 > val2)) m s)
    else if opcode = i_if_icmple then
      Step.ofOption (case_if_icmp (fun val1 val2 => decide (val1 ≤ val2)) m s)
    else if opcode = i_goto then Step.ofOption (case_goto m s)
    else if opcode = i_invokestatic then case_invokestatic call m cls s
    else if opcode = i_ireturn then case_ireturn s
    else if opcode = i_nop then Step.ofOption (case_nop s)
    else if opcode = i_dup then Step.ofOption (case_dup s)
    else if opcode = i_newarray then Step.ofOption (case_newarray s)
    else if opcode = i_arraylength then Step.ofOption (case_arraylength s)
    else if opcode = i_areturn then case_ireturn s
    else if opcode = i_iastore then Step.ofOption (case_iastore s)
    else if opcode = i_iaload then Step.ofOption (case_iaload s)
    else if opcode = i_aload then Step.ofOption (case_aload m s)
    else if opcode = i_astore then Step.ofOption (case_astore m s)
    else if opcode = i_aload_0 ∨ opcode = i_aload_1 ∨ opcode = i_aload_2 ∨
       opcode = i_aload_3 then Step.ofOption (case_aload_n opcode s)
    else if opcode = i_astore_0 ∨ opcode = i_astore_1 ∨ opcode = i_astore_2 ∨
       opcode = i_astore_3 then Step.ofOption (case_astore_n opcode s)
    else Step.cont s

/-- The loop `while (counter < (int) code_length && !ret_flag)` of `execute`, with
at most `fuel` passes; after the loop `execute` returns `result`, which has no value. -/
def loop (call : method_t → List Int → heap_t → String → Outcome)
    (m : method_t) (cls : class_file_t) : Nat → State → Outcome
  | 0, _ => Outcome.timeout
  | fuel + 1, s =>
    if s.counter < (m.code.code.length : Int) ∧ s.ret_flag = false then
      match step call m cls s with
      | Step.cont s' => loop call m cls fuel s'
      | Step.stop o => o
    else Outcome.returned { has_value := false, value := 0 } s.heap s.out

/-- State of `execute` before the loop: a zeroed operand stack of `max_stack` slots,
`stack_pointer = 0`, `counter = 0`, `ret_flag = false`. -/
def initial_state (m : method_t) (locals : List Int) (heap : heap_t) (out : String) :
    State :=
  { operand_stack := List.replicate m.code.max_stack 0, stack_pointer := 0, counter := 0,
    ret_flag := false, locals := locals, heap := heap, out := out }

/-- The function `execute(method, locals, class, heap)`. The fuel bounds both the
depth of nested calls and the number of loop passes of each activation. -/
def execute : Nat → class_file_t → method_t → List Int → heap_t → String → Outcome
  | 0, _, _, _, _, _ => Outcome.timeout
  | fuel + 1, cls, m, locals, heap, out =>
    loop (execute fuel cls) m cls (fuel + 1) (initial_state m locals heap out)

/-! ## Example programs -/

/-- Bytecode of `static int factorial(int n) { return n <= 1 ? 1 : n * factorial(n - 1); }`:
`iload_0; iconst_1; if_icmpgt +5; iconst_1; ireturn; iload_0; iload_0; iconst_1; isub;
invokestatic #2; imul; ireturn`. -/
def factorial_method : method_t :=
  { code := { max_stack := 3, max_locals := 1,
              code := [i_iload_0, i_iconst_1, i_if_icmpgt, 0x00, 0x05, i_iconst_1, i_ireturn,
                       i_iload_0, i_iload_0, i_iconst_1, i_isub, i_invokestatic, 0x00, 0x02,
                       i_imul, i_ireturn] },
    number_of_parameters := 1 }

/-- Class in which constant-pool index 2 resolves to `factorial_method`. -/
def factorial_class : class_file_t :=
  { constant_pool := [],
    find_method_from_index := fun i => if i = 2 then some factorial_method else none }

/-- Bytecode that allocates an array of length 3, stores 11, 22, 33 at the indices
0, 1, 2, then prints the three elements and the array length:
`iconst_3; newarray int; astore_1;` three times `aload_1; iconst_k; bipush v; iastore`,
three times `aload_1; iconst_k; iaload; invokevirtual`, and
`aload_1; arraylength; invokevirtual; return`. -/
def array_method : method_t :=
  { code := { max_stack := 3, max_locals := 2,
              code := [i_iconst_3, i_newarray, 10, i_astore_1,
                       i_aload_1, i_iconst_0, i_bipush, 11, i_iastore,
                       i_aload_1, i_iconst_1, i_bipush, 22, i_iastore,
                       i_aload_1, i_iconst_2, i_bipush, 33, i_iastore,
                       i_aload_1, i_iconst_0, i_iaload, i_invokevirtual, 0, 0,
                       i_aload_1, i_iconst_1, i_iaload, i_invokevirtual, 0, 0,
                       i_aload_1, i_iconst_2, i_iaload, i_invokevirtual, 0, 0,
                       i_aload_1, i_arraylength, i_invokevirtual, 0, 0,
                       i_return] },
    number_of_parameters := 1 }

/-- Class without constants and methods to resolve. -/
def empty_class : class_file_t :=
  { constant_pool := [], find_method_from_index := fun _ => none }

/-- Bytecode of `static int sub(int x, int y) { return x - y; }` with two spare locals:
`iload_0; iload_1; isub; ireturn`. -/
def sub_method : method_t :=
  { code := { max_stack := 2, max_locals := 4,
              code := [i_iload_0, i_iload_1, i_isub, i_ireturn] },
    number_of_parameters := 2 }

/-- Class in which constant-pool index 2 resolves to `sub_method`. -/
def sub_class : class_file_t :=
  { constant_pool := [],
    find_method_from_index := fun i => if i = 2 then some sub_method else none }

/-- Bytecode of `static void show(int x) { print(x); }`:
`getstatic; iload_0; invokevirtual; return`. -/
def show_method : method_t :=
  { code := { max_stack := 2, max_locals := 1,
              code := [i_getstatic, 0, 0, i_iload_0, i_invokevirtual, 0, 0, i_return] },
    number_of_parameters := 1 }

/-- Class in which constant-pool index 2 resolves to `show_method`. -/
def show_class : class_file_t :=
  { constant_pool := [],
    find_method_from_index := fun i => if i = 2 then some show_method else none }

/-- Heap after a sequence of `iastore`s on the array `refe`, each given as
`(index, val)`: every store is `heap_get(heap, refe)[index + 1] = val`. -/
def heap_stores (refe : Int) : heap_t → List (Int × Int) → Option heap_t
  | heap, [] => some heap
  | heap, (index, val) :: rest =>
    match heap_store heap refe (to_int32 (index + 1)) val with
    | none => none
    | some heap' => heap_stores refe heap' rest

/-- Method made of the given bytecode, with room for four stack slots and four
locals. -/
def method_of_code (code : List u1) : method_t :=
  { code := { max_stack := 4, max_locals := 4, code := code }, number_of_parameters := 0 }

/-- Frame with the given operand stack buffer, stack pointer, program counter and
locals, on an empty heap and with no output so far. -/
def frame_at (operand_stack : List Int) (stack_pointer counter : Int)
    (locals : List Int) : State :=
  { operand_stack := operand_stack, stack_pointer := stack_pointer, counter := counter,
    ret_flag := false, locals := locals, heap := [], out := "" }

/-- Callee executor for frames that make no call. -/
def no_call : method_t → List Int → heap_t → String → Outcome :=
  fun _ _ _ _ => Outcome.timeout

/-- The 16-bit operand `hi * 256 + lo` read as a signed 16-bit integer. -/
def signed16 (hi lo : u1) : Int :=
  if hi.val * 256 + lo.val < 32768 then (hi.val * 256 + lo.val : Int)
  else (hi.val * 256 + lo.val : Int) - 65536

/-- The first `n` passes of the loop of `execute` from state `s`: each pass needs the
loop guard `counter < code_length && !ret_flag` to hold and the `switch` to come back
to the loop head; `none` when `execute` is left before. -/
def passes (call : method_t → List Int → heap_t → String → Outcome)
    (m : method_t) (cls : class_file_t) : Nat → State → Option State
  | 0, s => some s
  | n + 1, s =>
    if s.counter < (m.code.code.length : Int) ∧ s.ret_flag = false then
      match step call m cls s with
      | Step.cont s' => passes call m cls n s'
      | Step.stop _ => none
    else none

/-- Bytecode of a `main` that prints `2 + 3`:
`getstatic #2; iconst_2; iconst_3; iadd; invokevirtual #3; return`. -/
def print_sum_method : method_t :=
  { code := { max_stack := 2, max_locals := 1,
              code := [i_getstatic, 0x00, 0x02, i_iconst_2, i_iconst_3, i_iadd,
                       i_invokevirtual, 0x00, 0x03, i_return] },
    number_of_parameters := 1 }

/-- Bytecode without a return instruction: `iconst_1; nop`. -/
def fall_off_method : method_t :=
  { code := { max_stack := 1, max_locals := 1, code := [i_iconst_1, i_nop] },
    number_of_parameters := 0 }

/-- Bytecode without any instruction. -/
def empty_method : method_t :=
  { code := { max_stack := 0, max_locals := 0, code := [] }, number_of_parameters := 0 }

/-- Class in which constant-pool index 2 resolves to `empty_method`, a method without
parameters that returns no value. -/
def idle_class : class_file_t :=
  { constant_pool := [],
    find_method_from_index := fun i => if i = 2 then some empty_method else none }

/-- The opcodes that have a `case` label in the `switch` of `execute`. -/
def handled_opcodes : List u1 :=
  [i_iconst_m1, i_iconst_0, i_iconst_1, i_iconst_2, i_iconst_3, i_iconst_4, i_iconst_5,
   i_bipush, i_sipush, i_iadd, i_isub, i_imul, i_idiv, i_irem, i_ineg, i_ishl, i_ishr,
   i_iushr, i_iand, i_ior, i_ixor, i_getstatic, i_return, i_invokevirtual, i_iload,
   i_istore, i_iinc, i_iload_0, i_iload_1, i_iload_2, i_iload_3, i_istore_0, i_istore_1,
   i_istore_2, i_istore_3, i_ldc, i_ifeq, i_ifne, i_iflt, i_ifge, i_ifgt, i_ifle,
   i_if_icmpeq, i_if_icmpne, i_if_icmplt, i_if_icmpge, i_if_icmpgt, i_if_icmple, i_goto,
   i_invokestatic, i_ireturn, i_nop, i_dup, i_newarray, i_arraylength, i_areturn,
   i_iastore, i_iaload, i_aload, i_astore, i_aload_0, i_aload_1, i_aload_2, i_aload_3,
   i_astore_0, i_astore_1, i_astore_2, i_astore_3]

/-- Class with the constant pool `[other, Integer 100000, Integer (-7)]` and no
methods to resolve. -/
def pool_class : class_file_t :=
  { constant_pool := [cp_info.other, cp_info.Integer 100000, cp_info.Integer (-7)],
    find_method_from_index := fun _ => none }

/-- Bytecode of `static int bump(int x) { x += 5; int y = x; return y; }`:
`iinc 0 5; iload_0; istore_1; iload_1; ireturn`. -/
def bump_method : method_t :=
  { code := { max_stack := 1, max_locals := 2,
              code := [i_iinc, 0x00, 0x05, i_iload_0, i_istore_1, i_iload_1, i_ireturn] },
    number_of_parameters := 1 }

/-- Class in which constant-pool index 2 resolves to `bump_method`. -/
def bump_class : class_file_t :=
  { constant_pool := [],
    find_method_from_index := fun i => if i = 2 then some bump_method else none }

/-- The opcodes of the binary cases, each guarded by `if (stack_pointer >= 2)`. -/
def binary_opcodes : List u1 :=
  [i_iadd, i_isub, i_imul, i_idiv, i_irem, i_ishl, i_ishr, i_iushr, i_iand, i_ior, i_ixor]

/-- The integer `x` is a value of type `int32_t`. -/
def is_int32 (x : Int) : Prop := -2 ^ 31 ≤ x ∧ x < 2 ^ 31

/-- Every slot of the buffer holds an `int32_t`. -/
def all_int32 (xs : List Int) : Prop := ∀ x ∈ xs, is_int32 x

/-- Every slot of the operand stack buffer, of the locals and of every heap array of
the state holds an `int32_t`. -/
def int32_state (s : State) : Prop :=
  all_int32 s.operand_stack ∧ all_int32 s.locals ∧ ∀ arr ∈ s.heap, all_int32 arr

/-- The pass from `s` to `t` removes no heap array, and it keeps the `int32_t` typing of
the state as long as the references of the arrays of `t` still fit the type `int32_t`
(at most `2^31` arrays). -/
def keeps_int32 (s t : State) : Prop :=
  s.heap.length ≤ t.heap.length ∧
  (int32_state s → (t.heap.length : Int) ≤ 2 ^ 31 → int32_state t)

/-- The callee executor removes no heap array, and from `int32_t` locals and heap arrays
it returns an `int32_t` value and `int32_t` heap arrays, as long as the references of
the arrays it returns still fit the type `int32_t`. -/
def returns_int32 (call : method_t → List Int → heap_t → String → Outcome) : Prop :=
  ∀ (target : method_t) (locals : List Int) (heap0 : heap_t) (out0 : String)
    (r : optional_value_t) (heap : heap_t) (out : String),
    call target locals heap0 out0 = Outcome.returned r heap out →
    heap0.length ≤ heap.length ∧
    (all_int32 locals → (∀ arr ∈ heap0, all_int32 arr) →
      (heap.length : Int) ≤ 2 ^ 31 →
      (r.has_value = true → is_int32 r.value) ∧ ∀ arr ∈ heap, all_int32 arr)

/-- Written from the specification, not from the code: the result of a binary opcode on
the mathematical integers, before it is truncated to 32 bits. `a` is the value below the
top and `b` the top: the sum, the difference `a - b`, the product, the quotient and the
remainder of the division of `a` by `b` that truncates toward zero, `a` times `2^b`, the
floor of `a / 2^b`, the floor of `(a mod 2^32) / 2^b`, and the bitwise and, or and
exclusive or of the two's complement representations. -/
def spec_exact_result (op : u1) (a b : Int) : Int :=
  if op = i_iadd then a + b
  else if op = i_isub then a - b
  else if op = i_imul then a * b
  else if op = i_idiv then Int.tdiv a b
  else if op = i_irem then Int.tmod a b
  else if op = i_ishl then a * 2 ^ b.toNat
  else if op = i_ishr then a / 2 ^ b.toNat
  else if op = i_iushr then (a % 2 ^ 32) / 2 ^ b.toNat
  else if op = i_iand then Int.land a b
  else if op = i_ior then Int.lor a b
  else Int.xor a b

end TeenyJVM

namespace Compile

/-! # Constant folding in the compiler (`project02b/src/compile.c`)

Conventions of the embedding:

* `value_t` is `int64_t`; `+`, `-` and `*` that overflow wrap (`to_int64`); a division
  by zero and the quotient `INT64_MIN / -1` are C undefined behaviour (the `idiv`
  instruction traps on both), and make the result `none`.
* `printf` appends to the output string `out` of the compiler state; the function-local
  `static` counters of `compile_ast` are fields of that state.
* Node pointers are never `NULL`, except `else_branch`, which the code tests.
-/

/-- Conversion of an integer to `int64_t` (two's complement wrap). -/
def to_int64 (x : Int) : Int := (x + 2 ^ 63) % 2 ^ 64 - 2 ^ 63

/-- Conversion of an integer to `int` (two's complement wrap). -/
def to_int (x : Int) : Int := (x + 2 ^ 31) % 2 ^ 32 - 2 ^ 31

/-- The offset `VAR_OFFSET`. -/
def VAR_OFFSET : Int := -8

/-- Modelled from the uses in `compile.c` (the header declaring the syntax tree is not
among the sources): a node carries its `type` tag and the fields that `compile.c` reads
after the cast for that tag. The field `op` and the variable names are characters. -/
inductive node_t where
  | NUM (value : Int)
  | PRINT (expr : node_t)
  | SEQUENCE (statements : List node_t)
  | BINARY_OP (op : Char) (left right : node_t)
  | VAR (name : Char)
  | LET (var : Char) (value : node_t)
  | IF (condition if_branch : node_t) (else_branch : Option node_t)
  | WHILE (condition body : node_t)

/-- The function `constant_tree_found`: a `NUM` node is constant; a `BINARY_OP` node
whose operator is one of `bad_types` (`>`, `=`, `<`) is not, any other `BINARY_OP` node
is constant when both operands are; every other node is not. -/
def constant_tree_found : node_t → Bool
  | node_t.NUM _ => true
  | node_t.BINARY_OP op left right =>
    if op = '>' ∨ op = '=' ∨ op = '<' then false
    else constant_tree_found left && constant_tree_found right
  | _ => false

/-- The quotient `a / b` of C on `int64_t`; undefined for `b = 0` and for
`INT64_MIN / -1`. -/
def div_int64 (a b : Int) : Option Int :=
  if b = 0 ∨ (a = -2 ^ 63 ∧ b = -1) then none else some (Int.tdiv a b)

/-- The function `evaluation_tree`: the `switch` on the operator of a `BINARY_OP` node
has the cases `+`, `-`, `*`, `/` and no default, so that any other operator, like any
node that is neither `BINARY_OP` nor `NUM`, reaches the final `return 1`. -/
def evaluation_tree : node_t → Option Int
  | node_t.BINARY_OP op left right =>
    if op = '+' then do
      let a ← evaluation_tree left
      let b ← evaluation_tree right
      some (to_int64 (a + b))
    else if op = '-' then do
      let a ← evaluation_tree left
      let b ← evaluation_tree right
      some (to_int64 (a - b))
    else if op = '*' then do
      let a ← evaluation_tree left
      let b ← evaluation_tree right
      some (to_int64 (a * b))
    else if op = '/' then do
      let a ← evaluation_tree left
      let b ← evaluation_tree right
      div_int64 a b
    else some 1
  | node_t.NUM value => some value
  | _ => some 1

/-- The state that `compile_ast` works on: its two `static` counters and the text
written to the standard output so far. -/
structure compiler_t where
  if_label_count : Int
  while_count_l : Int
  out : String
deriving DecidableEq, Repr

/-- The call `printf(text)`: the text is appended to the output. -/
def emit (s : compiler_t) (text : String) : compiler_t :=
  { s with out := s.out ++ text }

/-- The field `op` read through the cast `(binary_node_t *)`; defined for a `BINARY_OP`
node only. -/
def op_of : node_t → Option Char
  | node_t.BINARY_OP op _ _ => some op
  | _ => none

/-- The conditional jump printed for the condition of an `if`: nothing is printed for
an operator other than `=`, `<`, `>`. -/
def if_jump (op : Char) (if_cur : Int) (s : compiler_t) : compiler_t :=
  if op = '=' then emit s ("je IF_" ++ toString if_cur ++ "\n")
  else if op = '<' then emit s ("jl IF_" ++ toString if_cur ++ "\n")
  else if op = '>' then emit s ("jg IF_" ++ toString if_cur ++ "\n")
  else s

/-- The conditional jump printed for the condition of a `while`. -/
def while_jump (op : Char) (while_count : Int) (s : compiler_t) : compiler_t :=
  if op = '=' then emit s ("jne WHILE_END_" ++ toString while_count ++ "\n")
  else if op = '<' then emit s ("jge WHILE_END_" ++ toString while_count ++ "\n")
  else if op = '>' then emit s ("jle WHILE_END_" ++ toString while_count ++ "\n")
  else s

/-- The inner `switch (binary_node->op)` of the case `BINARY_OP`. -/
def emit_operator (op : Char) (s : compiler_t) : compiler_t :=
  if op = '+' then emit s "addq %rsi, %rdi\n"
  else if op = '-' then emit s "subq %rsi, %rdi\n"
  else if op = '*' then emit s "imulq %rsi, %rdi\n"
  else if op = '/' then
    emit (emit (emit (emit s "movq %rdi, %rax\n") "cqto\n") "idivq %rsi\n")
      "movq %rax, %rdi\n"
  else emit s "cmp %rsi, %rdi\n"

mutual
/-- The function `compile_ast` on a node that is not `NULL`: the returned boolean and
the state after the call, or `none` when the call runs into undefined behaviour. The
`default` case of the `switch` is for type tags that no node of `node_t` carries. -/
def compile_ast : node_t → compiler_t → Option (Bool × compiler_t)
  | node_t.NUM value, s =>
    some (true, emit s ("movq $" ++ toString value ++ ", %rdi\n"))
  | node_t.PRINT expr, s =>
    match compile_ast expr s with
    | none => none
    | some (false, s1) => some (false, s1)
    | some (true, s1) => some (true, emit s1 "callq print_int\n")
  | node_t.SEQUENCE statements, s => compile_statements statements s
  | node_t.BINARY_OP op left right, s =>
    if constant_tree_found (node_t.BINARY_OP op left right) then
      match evaluation_tree (node_t.BINARY_OP op left right) with
      | none => none
      | some v => some (true, emit s ("movq $" ++ toString v ++ ", %rdi\n"))
    else
      match compile_ast right s with
      | none => none
      | some (false, s1) => some (false, s1)
      | some (true, s1) =>
        match compile_ast left (emit s1 "push %rdi\n") with
        | none => none
        | some (false, s2) => some (false, s2)
        | some (true, s2) => some (true, emit_operator op (emit s2 "pop %rsi\n"))
  | node_t.VAR name, s =>
    some (true, emit s ("movq " ++
      toString (to_int (VAR_OFFSET * ((name.toNat : Int) - 65 + 1))) ++ "(%rbp), %rdi\n"))
  | node_t.LET var value, s =>
    match compile_ast value s with
    | none => none
    | some (false, s1) => some (false, s1)
    | some (true, s1) =>
      some (true, emit s1 ("movq %rdi, " ++
        toString (to_int (VAR_OFFSET * ((var.toNat : Int) - 65 + 1))) ++ "(%rbp)\n"))
  | node_t.IF condition if_branch else_branch, s =>
    let if_cur := to_int (s.if_label_count + 1)
    match compile_ast condition { s with if_label_count := if_cur } with
    | none => none
    | some (_, s1) =>
      match op_of condition with
      | none => none
      | some op =>
        match compile_else else_branch
            (emit (if_jump op if_cur s1) ("ELSE_" ++ toString if_cur ++ ":\n")) with
        | none => none
        | some s2 =>
          match compile_ast if_branch
              (emit (emit s2 ("jmp END_IF_" ++ toString if_cur ++ "\n"))
                ("IF_" ++ toString if_cur ++ ":\n")) with
          | none => none
          | some (_, s3) =>
            some (true, emit (emit s3 ("jmp END_IF_" ++ toString if_cur ++ "\n"))
              ("END_IF_" ++ toString if_cur ++ ":\n"))
  | node_t.WHILE condition body, s =>
    let while_count := to_int (s.while_count_l + 1)
    match compile_ast condition
        (emit { s with while_count_l := while_count }
          ("WHILE_" ++ toString while_count ++ ":\n")) with
    | none => none
    | some (_, s1) =>
      match op_of condition with
      | none => none
      | some op =>
        match compile_ast body (while_jump op while_count s1) with
        | none => none
        | some (_, s2) =>
          some (true, emit (emit s2 ("jmp WHILE_" ++ toString while_count ++ "\n"))
            ("WHILE_END_" ++ toString while_count ++ ":\n"))
/-- The loop of the case `SEQUENCE`: the statements are compiled in order, and the
first one whose compilation returns `false` ends the call with `false`. -/
def compile_statements : List node_t → compiler_t → Option (Bool × compiler_t)
  | [], s => some (true, s)
  | statement :: rest, s =>
    match compile_ast statement s with
    | none => none
    | some (false, s1) => some (false, s1)
    | some (true, s1) => compile_statements rest s1
/-- The statement `if (if_node->else_branch) compile_ast(if_node->else_branch)`, whose
returned boolean is not used. -/
def compile_else : Option node_t → compiler_t → Option compiler_t
  | none, s => some s
  | some else_branch, s =>
    match compile_ast else_branch s with
    | none => none
    | some (_, s1) => some s1
end

/-- The compiler state before anything is compiled. -/
def initial : compiler_t := { if_label_count := 0, while_count_l := 0, out := "" }

/-- The integer `x` is a value of type `int64_t`. -/
def is_int64 (x : Int) : Prop := -2 ^ 63 ≤ x ∧ x < 2 ^ 63

/-- The value of an expression as the claim on constant folding words it: the value of
a literal is the literal, and the operators `+`, `-`, `*`, `/` act on 64-bit signed
integers, the division truncating toward zero. -/
def expr_value : node_t → Int
  | node_t.NUM value => value
  | node_t.BINARY_OP op left right =>
    if op = '+' then to_int64 (expr_value left + expr_value right)
    else if op = '-' then to_int64 (expr_value left - expr_value right)
    else if op = '*' then to_int64 (expr_value left * expr_value right)
    else to_int64 (Int.tdiv (expr_value left) (expr_value right))
  | _ => 0

/-- Expression trees built only from `NUM` leaves, whose values are of type `int64_t`,
and from `BINARY_OP` nodes with the operators `+`, `-`, `*`, `/`. -/
def arithmetic_tree : node_t → Bool
  | node_t.NUM value => decide (-2 ^ 63 ≤ value ∧ value < 2 ^ 63)
  | node_t.BINARY_OP op left right =>
    decide (op = '+' ∨ op = '-' ∨ op = '*' ∨ op = '/') &&
      (arithmetic_tree left && arithmetic_tree right)
  | _ => false

/-- No division of the tree has a right operand that evaluates to 0. -/
def no_zero_divisor : node_t → Bool
  | node_t.BINARY_OP op left right =>
    decide (op = '/' → expr_value right ≠ 0) &&
      (no_zero_divisor left && no_zero_divisor right)
  | _ => true

/-- No division of the tree has a left operand that evaluates to `-2^63` and a right
operand that evaluates to `-1`. -/
def no_overflowing_division : node_t → Bool
  | node_t.BINARY_OP op left right =>
    decide (op = '/' → ¬ (expr_value left = -2 ^ 63 ∧ expr_value right = -1)) &&
      (no_overflowing_division left && no_overflowing_division right)
  | _ => true

mutual
/-- The tree has a `VAR` leaf or a node with one of the operators `<`, `=`, `>`. -/
def has_var_or_comparison : node_t → Bool
  | node_t.NUM _ => false
  | node_t.PRINT expr => has_var_or_comparison expr
  | node_t.SEQUENCE statements => any_has_var_or_comparison statements
  | node_t.BINARY_OP op left right =>
    decide (op = '<' ∨ op = '=' ∨ op = '>') ||
      (has_var_or_comparison left || has_var_or_comparison right)
  | node_t.VAR _ => true
  | node_t.LET _ value => has_var_or_comparison value
  | node_t.IF condition if_branch else_branch =>
    has_var_or_comparison condition ||
      (has_var_or_comparison if_branch || else_has_var_or_comparison else_branch)
  | node_t.WHILE condition body =>
    has_var_or_comparison condition || has_var_or_comparison body
/-- One of the statements has a `VAR` leaf or a comparison operator. -/
def any_has_var_or_comparison : List node_t → Bool
  | [] => false
  | statement :: rest =>
    has_var_or_comparison statement || any_has_var_or_comparison rest
/-- The `else` branch, if there is one, has a `VAR` leaf or a comparison operator. -/
def else_has_var_or_comparison : Option node_t → Bool
  | none => false
  | some else_branch => has_var_or_comparison else_branch
end

/-- The expression `(0 - 9223372036854775807 - 1) / (0 - 1)`. -/
def min_over_minus_one : node_t :=
  node_t.BINARY_OP '/'
    (node_t.BINARY_OP '-'
      (node_t.BINARY_OP '-' (node_t.NUM 0) (node_t.NUM 9223372036854775807))
      (node_t.NUM 1))
    (node_t.BINARY_OP '-' (node_t.NUM 0) (node_t.NUM 1))

/-- The expression `(2 + 3) * 4 - 20 / 6`. -/
def sample_expression : node_t :=
  node_t.BINARY_OP '-'
    (node_t.BINARY_OP '*' (node_t.BINARY_OP '+' (node_t.NUM 2) (node_t.NUM 3))
      (node_t.NUM 4))
    (node_t.BINARY_OP '/' (node_t.NUM 20) (node_t.NUM 6))

end Compile

namespace Queue

/-! # Linked queue (`project05/src/queue.c`)

The queue is embedded sequentially: the mutex and the condition variable are left out,
and a `queue_dequeue` that finds the queue empty, which would wait for another thread
for ever, is the result `waits`. The nodes live in a store indexed by their addresses;
`malloc` yields an address, `free` removes the node from the store, and an access to a
node that is not in the store, or through `NULL`, is undefined behaviour. Values (of
type `void *`) are integers.
-/

/-- The `struct node`: the value and the pointer to the next node, `none` for `NULL`. -/
structure node_t where
  value : Int
  nextptr : Option Nat
deriving DecidableEq, Repr

/-- The `struct queue` (without `lock` and `cond`), together with the store of the
nodes obtained from `malloc` and not yet freed. -/
structure queue_t where
  queue_head : Option Nat
  queue_tail : Option Nat
  heap : Nat → Option node_t

/-- The function `queue_init`: both pointers are `NULL`; no node is allocated. -/
def queue_init : queue_t :=
  { queue_head := none, queue_tail := none, heap := fun _ => none }

/-- The function `queue_enqueue`, where `node` is the address that `malloc` returns: the
node is initialised with the value and a `NULL` successor; on an empty queue it becomes
the head, otherwise it is linked behind the tail; in both cases it becomes the tail. -/
def queue_enqueue (queue : queue_t) (node : Nat) (value : Int) : Option queue_t :=
  let heap := Function.update queue.heap node (some { value := value, nextptr := none })
  if queue.queue_head = none ∧ queue.queue_tail = none then
    some { queue_head := some node, queue_tail := some node, heap := heap }
  else
    match queue.queue_tail with
    | none => none
    | some tail =>
      match heap tail with
      | none => none
      | some last =>
        some { queue_head := queue.queue_head,
               queue_tail := some node,
               heap := Function.update heap tail (some { last with nextptr := some node }) }

/-- What a call of `queue_dequeue` does. -/
inductive dequeue_t where
  | returned (value : Int) (queue : queue_t)
  | waits
  | undefined

/-- The function `queue_dequeue` on a queue pointer that is not `NULL`: with both
pointers `NULL` the call waits; otherwise the value of the head node is returned and
the head node freed, both pointers becoming `NULL` when head and tail are the same
node, and the head moving to its successor when they are not. -/
def queue_dequeue (queue : queue_t) : dequeue_t :=
  if queue.queue_head = none ∧ queue.queue_tail = none then dequeue_t.waits
  else
    match queue.queue_head with
    | none => dequeue_t.undefined
    | some first_head =>
      match queue.heap first_head with
      | none => dequeue_t.undefined
      | some first =>
        if queue.queue_head = queue.queue_tail then
          dequeue_t.returned first.value
            { queue_head := none,
              queue_tail := none,
              heap := Function.update queue.heap first_head none }
        else
          dequeue_t.returned first.value
            { queue_head := first.nextptr,
              queue_tail := queue.queue_tail,
              heap := Function.update queue.heap first_head none }

/-- A call on the queue: `queue_enqueue` with the address that its `malloc` returns and
the value, or `queue_dequeue`. -/
inductive call_t where
  | enqueue (node : Nat) (value : Int)
  | dequeue
deriving DecidableEq, Repr

/-- The calls are made one after the other; the result is the list of the values
returned by the calls of `queue_dequeue`, in order, and the queue after the last call,
or `none` when one of the calls has undefined behaviour or waits. -/
def run : List call_t → queue_t → Option (List Int × queue_t)
  | [], queue => some ([], queue)
  | call_t.enqueue node value :: rest, queue =>
    match queue_enqueue queue node value with
    | none => none
    | some queue1 => run rest queue1
  | call_t.dequeue :: rest, queue =>
    match queue_dequeue queue with
    | dequeue_t.returned value queue1 =>
      match run rest queue1 with
      | none => none
      | some (values, queue2) => some (value :: values, queue2)
    | _ => none

/-- The conditions under which a sequence of calls is considered: the address returned
by each `malloc` is not the address of a node of the store (the contract of `malloc`),
and no `queue_dequeue` is called on an empty queue, one with both pointers `NULL`. The
conditions on the calls that follow a call are on the queue that the call leaves. -/
def admissible : List call_t → queue_t → Bool
  | [], _ => true
  | call_t.enqueue node value :: rest, queue =>
    (queue.heap node).isNone &&
      match queue_enqueue queue node value with
      | none => true
      | some queue1 => admissible rest queue1
  | call_t.dequeue :: rest, queue =>
    !(queue.queue_head.isNone && queue.queue_tail.isNone) &&
      match queue_dequeue queue with
      | dequeue_t.returned _ queue1 => admissible rest queue1
      | _ => true

/-- The values passed to the calls of `queue_enqueue`, in order. -/
def enqueued : List call_t → List Int
  | [] => []
  | call_t.enqueue _ value :: rest => value :: enqueued rest
  | call_t.dequeue :: rest => enqueued rest

/-- The number of calls of `queue_dequeue`. -/
def dequeues : List call_t → Nat
  | [] => 0
  | call_t.enqueue _ _ :: rest => dequeues rest
  | call_t.dequeue :: rest => dequeues rest + 1

/-- The nodes at the addresses and with the values of the list are linked in the store
in the order of the list, and the last one has no successor. -/
def linked (heap : Nat → Option node_t) : List (Nat × Int) → Prop
  | [] => True
  | [(a, v)] => heap a = some { value := v, nextptr := none }
  | (a, v) :: (b, w) :: rest =>
    heap a = some { value := v, nextptr := some b } ∧ linked heap ((b, w) :: rest)

/-- The queue holds the nodes of the list, oldest first: the head points to the first
one and the tail to the last one, the nodes are linked in that order and are distinct,
and both pointers are `NULL` when the list is empty. -/
def holds (queue : queue_t) (nodes : List (Nat × Int)) : Prop :=
  queue.queue_head = (nodes.head?).map Prod.fst ∧
  queue.queue_tail = (nodes.getLast?).map Prod.fst ∧
  linked queue.heap nodes ∧ (nodes.map Prod.fst).Nodup

/-- A sequence of calls in which the addresses 100, 101, 100 are handed out by `malloc`,
the last one after the node at 100 has been freed. -/
def sample_calls : List call_t :=
  [call_t.enqueue 100 7, call_t.enqueue 101 8, call_t.dequeue, call_t.enqueue 100 9,
    call_t.dequeue, call_t.dequeue]

end Queue

namespace MMImplicit

/-! # Implicit-list allocator (`project03/src/mm-implicit.c`)

Conventions of the embedding:

* `size_t` values are natural numbers below `2^64`; arithmetic on them wraps
  (`to_size_t`). Pointers are addresses, and `NULL` is the address 0.
* The heap is the range of addresses from `lo` up to `brk`; `mem` gives the `size_t` word
  stored at an address. Only the block headers are words of interest; all of them are
  at addresses that are 8 modulo 16, so that two different addresses never share bytes.
  An access to a word that is not inside the heap is undefined behaviour.
* Modelled from its uses in `mm-implicit.c` (`memlib.c` is not among the sources):
  `mem_sbrk(incr)` extends the heap by `incr` bytes and returns the address of the
  first new byte, or fails when the heap would grow beyond `hi`.
* The loops are bounded by a fuel argument. The result `none` of a function of the
  allocator stands for undefined behaviour or for fuel that has run out.
-/

/-- Conversion of a natural number to `size_t`. -/
def to_size_t (x : Nat) : Nat := x % 2 ^ 64

/-- The constant `ALIGNMENT`, `2 * sizeof(size_t)`. -/
def ALIGNMENT : Nat := 16

/-- The size `sizeof(block_t)`: the header. -/
def sizeof_block_t : Nat := 8

/-- The state of the allocator: the heap of `memlib` and the two static pointers. -/
structure mm_t where
  mem : Nat → Nat
  lo : Nat
  brk : Nat
  hi : Nat
  mm_heap_first : Nat
  mm_heap_last : Nat

/-- Reading the `size_t` at an address. -/
def load (s : mm_t) (addr : Nat) : Option Nat :=
  if s.lo ≤ addr ∧ addr + 8 ≤ s.brk then some (s.mem addr) else none

/-- Writing a `size_t` at an address. -/
def store (s : mm_t) (addr value : Nat) : Option mm_t :=
  if s.lo ≤ addr ∧ addr + 8 ≤ s.brk then
    some { s with mem := Function.update s.mem addr value }
  else none

/-- The call `mem_sbrk(incr)`: the old end of the heap and the extended heap, or `none`
when the call fails and returns `(void *) -1`. -/
def mem_sbrk (s : mm_t) (incr : Nat) : Option (Nat × mm_t) :=
  if s.brk + incr ≤ s.hi then some (s.brk, { s with brk := s.brk + incr }) else none

/-- The function `round_up`: `(size + (n - 1)) / n * n` on `size_t`. -/
def round_up (size n : Nat) : Nat := to_size_t (size + (n - 1)) / n * n

/-- The function `set_header`: `block->header = size | is_allocated`. -/
def set_header (s : mm_t) (block size : Nat) (is_allocated : Bool) : Option mm_t :=
  store s block (size ||| (if is_allocated then 1 else 0))

/-- The function `get_size`: `block->header & ~1`. -/
def get_size (s : mm_t) (block : Nat) : Option Nat :=
  (load s block).map (fun header => header &&& (2 ^ 64 - 2))

/-- The function `is_allocated`: `block->header & 1`. -/
def is_allocated (s : mm_t) (block : Nat) : Option Bool :=
  (load s block).map (fun header => decide (header &&& 1 ≠ 0))

/-- The loop of `find_fit` from the block `curr` on: the first free block of at least
`size` bytes that is not behind `mm_heap_last`, or `NULL`. -/
def find_fit_from (s : mm_t) (size : Nat) : Nat → Nat → Option Nat
  | 0, _ => none
  | fuel + 1, curr =>
    if s.mm_heap_last ≠ 0 ∧ curr ≤ s.mm_heap_last then do
      let allocated ← is_allocated s curr
      let curr_size ← get_size s curr
      if allocated = false ∧ size ≤ curr_size then some curr
      else find_fit_from s size fuel (curr + curr_size)
    else some 0

/-- The function `find_fit`. -/
def find_fit (fuel : Nat) (s : mm_t) (size : Nat) : Option Nat :=
  find_fit_from s size fuel s.mm_heap_first

/-- The function `mm_init`: 8 bytes of padding are requested, and there is no block. -/
def mm_init (s : mm_t) : Option (Bool × mm_t) :=
  match mem_sbrk s (ALIGNMENT - sizeof_block_t) with
  | none => some (false, s)
  | some (_, s1) => some (true, { s1 with mm_heap_first := 0, mm_heap_last := 0 })

/-- The inner loop of the coalescing pass of `mm_malloc`: the sizes of the free blocks
that follow are added to `total_size` as long as `next` is not behind `mm_heap_last`. -/
def coalesce_next (s : mm_t) : Nat → Nat → Nat → Option (Nat × Nat)
  | 0, _, _ => none
  | fuel + 1, total_size, next =>
    if next ≤ s.mm_heap_last then do
      let allocated ← is_allocated s next
      if allocated = false then do
        let next_size ← get_size s next
        coalesce_next s fuel (to_size_t (total_size + next_size)) (next + next_size)
      else some (total_size, next)
    else some (total_size, next)

/-- The coalescing pass of `mm_malloc` from the block `current` on: every free block is
given the total size of the run of free blocks that it starts. The pointer
`mm_heap_last` is not assigned. -/
def coalesce_from : Nat → mm_t → Nat → Option mm_t
  | 0, _, _ => none
  | fuel + 1, s, current =>
    if current ≠ 0 ∧ current ≤ s.mm_heap_last then do
      let allocated ← is_allocated s current
      if allocated = false then do
        let size ← get_size s current
        let (total_size, next) ← coalesce_next s fuel size (current + size)
        let s1 ← set_header s current total_size false
        coalesce_from fuel s1 next
      else do
        let size ← get_size s current
        coalesce_from fuel s (current + size)
    else some s

/-- The statement `if (block_size >= size + sizeof(block_t))` of `mm_malloc`: a free
block of `block_size - size` bytes is made behind the first `size` bytes of the block,
and becomes the last block of the heap when the block was. -/
def split_block (s : mm_t) (block size block_size : Nat) : Option mm_t :=
  if to_size_t (size + sizeof_block_t) ≤ block_size then
    match set_header s (block + size) (to_size_t (block_size + 2 ^ 64 - size)) false with
    | none => none
    | some s1 =>
      if block = s1.mm_heap_last then some { s1 with mm_heap_last := block + size }
      else some s1
  else some s

/-- The branch `if (block)` of `mm_malloc`: the free block found is split when it has
room for the request and one more header, and is marked allocated with the requested
size in either case. -/
def place (s : mm_t) (block size : Nat) : Option mm_t := do
  let block_size ← get_size s block
  let s1 ← split_block s block size block_size
  set_header s1 block size true

/-- The end of `mm_malloc`: a new block is requested from `mem_sbrk` and becomes the
last block of the heap. -/
def extend (s : mm_t) (size : Nat) : Option (Nat × mm_t) :=
  match mem_sbrk s size with
  | none => some (0, s)
  | some (block, s1) => do
    let s2 := { s1 with
                mm_heap_first := if s1.mm_heap_first = 0 then block else s1.mm_heap_first,
                mm_heap_last := block }
    let s3 ← set_header s2 block size true
    some (block + sizeof_block_t, s3)

/-- The function `mm_malloc`: the returned payload pointer and the state after the
call. -/
def mm_malloc (fuel : Nat) (s : mm_t) (size : Nat) : Option (Nat × mm_t) := do
  let size := round_up (to_size_t (sizeof_block_t + size)) ALIGNMENT
  let s1 ← coalesce_from fuel s s.mm_heap_first
  let block ← find_fit fuel s1 size
  if block ≠ 0 then do
    let s2 ← place s1 block size
    some (block + sizeof_block_t, s2)
  else extend s1 size

/-- The function `mm_free`. -/
def mm_free (s : mm_t) (ptr : Nat) : Option mm_t :=
  if ptr = 0 then some s
  else do
    let block := ptr - sizeof_block_t
    let size ← get_size s block
    set_header s block size false

/-- The blocks met from `curr` on by stepping from each block to the address behind it,
when the steps arrive exactly at the block `last`. -/
def block_walk (s : mm_t) (last : Nat) : Nat → Nat → Option (List Nat)
  | 0, _ => none
  | fuel + 1, curr =>
    if curr = last then some [curr]
    else if last < curr then none
    else
      match get_size s curr with
      | none => none
      | some size => (block_walk s last fuel (curr + size)).map (fun l => curr :: l)

/-- The block walk from `mm_heap_first` reaches `mm_heap_last`. -/
def reaches_last (fuel : Nat) (s : mm_t) : Bool :=
  (block_walk s s.mm_heap_last fuel s.mm_heap_first).isSome

/-- An empty heap at the addresses from 4096 on, before `mm_init`. -/
def empty_heap : mm_t :=
  { mem := fun _ => 0, lo := 4096, brk := 4096, hi := 8192, mm_heap_first := 0,
    mm_heap_last := 0 }

/-- The heap after `mm_init`, two calls `mm_malloc(24)` and the release of both blocks:
two free blocks of 32 bytes each, at 4104 and 4136. -/
def two_free_blocks : Option mm_t := do
  let (_, s0) ← mm_init empty_heap
  let (p, s1) ← mm_malloc 8 s0 24
  let (q, s2) ← mm_malloc 8 s1 24
  let s3 ← mm_free s2 p
  mm_free s3 q

/-- A heap with one free block of 64 bytes at 4104. -/
def one_free_block : mm_t :=
  { mem := fun a => if a = 4104 then 64 else 0, lo := 4096, brk := 4168, hi := 8192,
    mm_heap_first := 4104, mm_heap_last := 4104 }

end MMImplicit

namespace MMExplicit

/-! # Explicit-free-list allocator (`project03/src/mm-explicit.c`)

The conventions are those of the implicit-list allocator: `size_t` arithmetic wraps,
pointers are addresses with `NULL` the address 0, `mem` gives the word stored at an
address of the heap, an access outside the heap is undefined behaviour, `mem_sbrk` is
modelled from its uses, and the loop of `find_fit` is bounded by a fuel argument. The
links `prev` and `next` of a free block are the words at the offsets 8 and 16 of the
block (`link_free_blocks_t`), and its footer (`foot_t`) is the last word of the block.
-/

/-- Conversion of a natural number to `size_t`. -/
def to_size_t (x : Nat) : Nat := x % 2 ^ 64

/-- The constant `ALIGNMENT`, `2 * sizeof(size_t)`. -/
def ALIGNMENT : Nat := 16

/-- The size `sizeof(block_t)`: the header. -/
def sizeof_block_t : Nat := 8

/-- The size `sizeof(foot_t)`. -/
def sizeof_foot_t : Nat := 8

/-- The offset of the field `prev` in `link_free_blocks_t`. -/
def offsetof_prev : Nat := 8

/-- The offset of the field `next` in `link_free_blocks_t`. -/
def offsetof_next : Nat := 16

/-- The state of the allocator: the heap of `memlib` and the three static pointers. -/
structure mm_t where
  mem : Nat → Nat
  lo : Nat
  brk : Nat
  hi : Nat
  head : Nat
  mm_heap_first : Nat
  mm_heap_last : Nat

/-- Reading the word at an address. -/
def load (s : mm_t) (addr : Nat) : Option Nat :=
  if s.lo ≤ addr ∧ addr + 8 ≤ s.brk then some (s.mem addr) else none

/-- Writing a word at an address. -/
def store (s : mm_t) (addr value : Nat) : Option mm_t :=
  if s.lo ≤ addr ∧ addr + 8 ≤ s.brk then
    some { s with mem := Function.update s.mem addr value }
  else none

/-- The call `mem_sbrk(incr)`: the old end of the heap and the extended heap, or `none`
when the call fails and returns `(void *) -1`. -/
def mem_sbrk (s : mm_t) (incr : Nat) : Option (Nat × mm_t) :=
  if s.brk + incr ≤ s.hi then some (s.brk, { s with brk := s.brk + incr }) else none

/-- The function `insert_into_free_list`: the block becomes the head of the free list;
its `next` is the old head, whose `prev` is set to the block, and its `prev` is
`NULL`. -/
def insert_into_free_list (s : mm_t) (block : Nat) : Option mm_t := do
  let s1 ← store s (block + offsetof_next) s.head
  let s2 ← (if s1.head ≠ 0 then store s1 (s1.head + offsetof_prev) block else some s1)
  let s3 ← store s2 (block + offsetof_prev) 0
  some { s3 with head := block }

/-- The function `remove_from_free_list`: the neighbours of the block in the free list,
or `head`, are linked past the block. -/
def remove_from_free_list (s : mm_t) (block : Nat) : Option mm_t := do
  let prev ← load s (block + offsetof_prev)
  let next ← load s (block + offsetof_next)
  let s1 ← (if prev ≠ 0 then store s (prev + offsetof_next) next
    else some { s with head := next })
  let next1 ← load s1 (block + offsetof_next)
  if next1 ≠ 0 then do
    let prev1 ← load s1 (block + offsetof_prev)
    store s1 (next1 + offsetof_prev) prev1
  else some s1

/-- The function `round_up`: `(size + (n - 1)) / n * n` on `size_t`. -/
def round_up (size n : Nat) : Nat := to_size_t (size + (n - 1)) / n * n

/-- The function `set_header`: the header is `size | is_allocated`, and the footer, the
word that ends `size` bytes behind the start of the block, is `size`. -/
def set_header (s : mm_t) (block size : Nat) (is_allocated : Bool) : Option mm_t := do
  let s1 ← store s block (size ||| (if is_allocated then 1 else 0))
  store s1 (block + size - sizeof_foot_t) size

/-- The function `get_size`: `block->header & ~1`. -/
def get_size (s : mm_t) (block : Nat) : Option Nat :=
  (load s block).map (fun header => header &&& (2 ^ 64 - 2))

/-- The function `is_allocated`: `block->header & 1`. -/
def is_allocated (s : mm_t) (block : Nat) : Option Bool :=
  (load s block).map (fun header => decide (header &&& 1 ≠ 0))

/-- The loop of `find_fit` from the free block `curr` on: the first block of the free
list with at least `size` bytes, or `NULL`. -/
def find_fit_from (s : mm_t) (size : Nat) : Nat → Nat → Option Nat
  | 0, _ => none
  | fuel + 1, curr =>
    if curr ≠ 0 then do
      let curr_size ← get_size s curr
      if size ≤ curr_size then some curr
      else do
        let next ← load s (curr + offsetof_next)
        find_fit_from s size fuel next
    else some 0

/-- The function `find_fit`. -/
def find_fit (fuel : Nat) (s : mm_t) (size : Nat) : Option Nat :=
  find_fit_from s size fuel s.head

/-- The function `mm_init`. -/
def mm_init (s : mm_t) : Option (Bool × mm_t) :=
  match mem_sbrk s (ALIGNMENT - sizeof_block_t) with
  | none => some (false, s)
  | some (_, s1) => some (true, { s1 with head := 0, mm_heap_first := 0, mm_heap_last := 0 })

/-- The sum of two or three sizes in `coalesce`. -/
def add_sizes (a b : Nat) : Nat := to_size_t (a + b)

/-- The block before `block` in `coalesce`, found through its footer, or `NULL` for the
first block of the heap. -/
def prev_block (s : mm_t) (block : Nat) : Option Nat :=
  if block ≠ s.mm_heap_first then
    (load s (block - sizeof_foot_t)).map (fun prev_size => block - prev_size)
  else some 0

/-- The block behind `block` in `coalesce`, or `NULL` for the last block of the heap. -/
def next_block (s : mm_t) (block : Nat) : Option Nat :=
  if block ≠ s.mm_heap_last then (get_size s block).map (fun size => block + size)
  else some 0

/-- The function `coalesce`: the block just freed is merged with the free blocks before
and behind it. -/
def coalesce (s : mm_t) (block : Nat) : Option mm_t := do
  let prev ← prev_block s block
  let next ← next_block s block
  let prev_free ←
    (if prev ≠ 0 ∧ next ≠ 0 then (is_allocated s prev).map not else some false)
  let both_free ← (if prev_free then (is_allocated s next).map not else some false)
  if both_free then do
    let size ← get_size s block
    let prev_size ← get_size s prev
    let next_size ← get_size s next
    let s1 ← set_header s prev (add_sizes (add_sizes size prev_size) next_size) false
    let s2 ← remove_from_free_list s1 next
    let s3 ← remove_from_free_list s2 block
    if next = s3.mm_heap_last then some { s3 with mm_heap_last := prev } else some s3
  else do
    let next_free ← (if next ≠ 0 then (is_allocated s next).map not else some false)
    if next_free then do
      let size ← get_size s block
      let next_size ← get_size s next
      let s1 ← set_header s block (add_sizes size next_size) false
      let s2 ← remove_from_free_list s1 next
      if next = s2.mm_heap_last then some { s2 with mm_heap_last := block } else some s2
    else do
      let prev_free1 ← (if prev ≠ 0 then (is_allocated s prev).map not else some false)
      if prev_free1 then do
        let size ← get_size s block
        let prev_size ← get_size s prev
        let s1 ← set_header s prev (add_sizes size prev_size) false
        let s2 ← remove_from_free_list s1 block
        if block = s2.mm_heap_last then some { s2 with mm_heap_last := prev } else some s2
      else do
        let size ← get_size s block
        set_header s block size false

/-- The block size that `mm_malloc` computes for a request of `size` bytes:
`round_up(sizeof(block_t) + size + sizeof(foot_t), ALIGNMENT)`. -/
def request_size (size : Nat) : Nat :=
  round_up (to_size_t (to_size_t (sizeof_block_t + size) + sizeof_foot_t)) ALIGNMENT

/-- The size of the remainder that `mm_malloc` splits off a free block of `block_size`
bytes used for a block of `size` bytes, when the test
`block_size > size + sizeof(block_t) + sizeof(foot_t)` succeeds. -/
def split_remainder (block_size size : Nat) : Option Nat :=
  if to_size_t (to_size_t (size + sizeof_block_t) + sizeof_foot_t) < block_size then
    some (to_size_t (block_size + 2 ^ 64 - size))
  else none

/-- The branch `if (block != NULL)` of `mm_malloc`: the block leaves the free list, and
its remainder, if one is split off, enters it. -/
def place (s : mm_t) (block size : Nat) : Option mm_t := do
  let s1 ← remove_from_free_list s block
  let end_block := block + size
  let block_size ← get_size s1 block
  match split_remainder block_size size with
  | some remainder => do
    let s2 := if block = s1.mm_heap_last then { s1 with mm_heap_last := end_block } else s1
    let s3 ← set_header s2 end_block remainder false
    let s4 ← insert_into_free_list s3 end_block
    set_header s4 block size true
  | none => set_header s1 block block_size true

/-- The end of `mm_malloc`: a new block is requested from `mem_sbrk` and becomes the
last block of the heap. -/
def extend (s : mm_t) (size : Nat) : Option (Nat × mm_t) :=
  match mem_sbrk s size with
  | none => some (0, s)
  | some (block, s1) => do
    let s2 := { s1 with
                mm_heap_first := if s1.mm_heap_first = 0 then block else s1.mm_heap_first,
                mm_heap_last := block }
    let s3 ← set_header s2 block size true
    some (block + sizeof_block_t, s3)

/-- The function `mm_malloc`: the returned payload pointer and the state after the
call. -/
def mm_malloc (fuel : Nat) (s : mm_t) (size : Nat) : Option (Nat × mm_t) := do
  let size := request_size size
  let block ← find_fit fuel s size
  if block ≠ 0 then do
    let s1 ← place s block size
    some (block + sizeof_block_t, s1)
  else extend s size

/-- The function `mm_free`. -/
def mm_free (s : mm_t) (ptr : Nat) : Option mm_t :=
  if ptr = 0 then some s
  else do
    let block := ptr - sizeof_block_t
    let size ← get_size s block
    let s1 ← set_header s block size false
    let s2 ← insert_into_free_list s1 block
    coalesce s2 block

/-- The addresses of the four words of a free block of `size` bytes: the header, the
links `prev` and `next`, and the footer. -/
def free_block_words (block size : Nat) : List Nat :=
  [block, block + offsetof_prev, block + offsetof_next, block + size - sizeof_foot_t]

/-- An empty heap at the addresses from 4096 on, before `mm_init`. -/
def empty_heap : mm_t :=
  { mem := fun _ => 0, lo := 4096, brk := 4096, hi := 8192, head := 0,
    mm_heap_first := 0, mm_heap_last := 0 }

/-- The heap after `mm_init`, `mm_malloc(0)` and `mm_malloc(24)`, with the two payload
pointers. -/
def small_then_large : Option (Nat × Nat × mm_t) := do
  let (_, s0) ← mm_init empty_heap
  let (p, s1) ← mm_malloc 8 s0 0
  let (q, s2) ← mm_malloc 8 s1 24
  some (p, q, s2)

end MMExplicit

namespace TeenyJVM

/-! ## Buffers and machine integers: basic facts -/

theorem rd_eq_some_iff {α : Type} (xs : List α) (i : Int) (a : α) :
    rd xs i = some a ↔ 0 ≤ i ∧ xs[i.toNat]? = some a := by
  unfold rd
  split <;> simp [*]

theorem rd_lt_length {α : Type} {xs : List α} {i : Int} {a : α} (h : rd xs i = some a) :
    0 ≤ i ∧ i.toNat < xs.length := by
  rw [rd_eq_some_iff] at h
  refine ⟨h.1, ?_⟩
  have h2 := h.2
  rw [List.getElem?_eq_some_iff] at h2
  exact h2.1

theorem wr_of_rd {α : Type} {xs : List α} {i : Int} {a : α} (h : rd xs i = some a)
    (v : α) : wr xs i v = some (xs.set i.toNat v) := by
  have hb := rd_lt_length h
  unfold wr
  rw [if_pos hb]

theorem wr_eq_some {α : Type} {xs ys : List α} {i : Int} {v : α}
    (h : wr xs i v = some ys) : 0 ≤ i ∧ i.toNat < xs.length ∧ ys = xs.set i.toNat v := by
  unfold wr at h
  split at h
  · rename_i hc
    exact ⟨hc.1, hc.2, (Option.some.inj h).symm⟩
  · exact absurd h (by simp)

theorem rd_set_same {α : Type} (xs : List α) (i : Int) (v : α) (h0 : 0 ≤ i)
    (h1 : i.toNat < xs.length) : rd (xs.set i.toNat v) i = some v := by
  unfold rd
  rw [if_pos h0]
  simp [h1]

theorem rd_set_ne {α : Type} (xs : List α) (i j : Int) (v : α) (h0 : 0 ≤ i)
    (hne : j ≠ i) : rd (xs.set i.toNat v) j = rd xs j := by
  unfold rd
  split
  · rename_i hj
    have : i.toNat ≠ j.toNat := by omega
    simp [List.getElem?_set_ne this]
  · rfl

theorem to_int32_range (x : Int) : -2 ^ 31 ≤ to_int32 x ∧ to_int32 x < 2 ^ 31 := by
  unfold to_int32
  constructor <;> omega

theorem to_int32_modEq (x : Int) : to_int32 x ≡ x [ZMOD 2 ^ 32] := by
  unfold to_int32 Int.ModEq
  omega

theorem to_int32_of_range (x : Int) (h0 : -2 ^ 31 ≤ x) (h1 : x < 2 ^ 31) :
    to_int32 x = x := by
  unfold to_int32
  omega

theorem tmod_facts (a b : Int) (hb : b ≠ 0) :
    |Int.tmod a b| < |b| ∧ (0 ≤ a → 0 ≤ Int.tmod a b) ∧ (a ≤ 0 → Int.tmod a b ≤ 0) := by
  have key : ∀ x y : Int, 0 ≤ x → 0 < y → 0 ≤ Int.tmod x y ∧ Int.tmod x y < y := by
    intro x y hx hy
    exact ⟨Int.tmod_nonneg y hx, Int.tmod_lt_of_pos x hy⟩
  have hneg : ∀ x y : Int, Int.tmod (-x) y = -Int.tmod x y := by
    intro x y
    rw [Int.tmod_def, Int.tmod_def, Int.neg_tdiv]
    ring
  rcases le_total 0 a with ha | ha <;> rcases lt_or_gt_of_ne hb with hb' | hb'
  · have h := key a (-b) ha (by omega)
    rw [Int.tmod_neg] at h
    rw [abs_of_nonneg h.1, abs_of_neg hb']
    exact ⟨h.2, fun _ => h.1, fun h0 => by have e : a = 0 := le_antisymm h0 ha; simp [e]⟩
  · have h := key a b ha hb'
    rw [abs_of_nonneg h.1, abs_of_pos hb']
    exact ⟨h.2, fun _ => h.1, fun h0 => by have e : a = 0 := le_antisymm h0 ha; simp [e]⟩
  · have h := key (-a) (-b) (by omega) (by omega)
    rw [Int.tmod_neg, hneg] at h
    rw [abs_of_nonpos (by omega), abs_of_neg hb']
    exact ⟨by omega, fun h0 => by have e : a = 0 := le_antisymm ha h0; simp [e], fun _ => by omega⟩
  · have h := key (-a) b (by omega) hb'
    rw [hneg] at h
    rw [abs_of_nonpos (by omega), abs_of_pos hb']
    exact ⟨by omega, fun h0 => by have e : a = 0 := le_antisymm ha h0; simp [e], fun _ => by omega⟩

theorem tdiv_sign_facts (a b : Int) :
    (0 ≤ a * b → 0 ≤ Int.tdiv a b) ∧ (a * b ≤ 0 → Int.tdiv a b ≤ 0) := by
  rcases le_total 0 a with ha | ha <;> rcases le_total 0 b with hb | hb
  · refine ⟨fun _ => Int.tdiv_nonneg ha hb, fun h => ?_⟩
    have : a = 0 ∨ b = 0 := by
      by_contra hc
      push_neg at hc
      have : 0 < a * b := mul_pos (lt_of_le_of_ne ha (Ne.symm hc.1)) (lt_of_le_of_ne hb (Ne.symm hc.2))
      omega
    rcases this with h0 | h0 <;> simp [h0]
  · refine ⟨fun h => ?_, fun _ => Int.tdiv_nonpos ha hb⟩
    have : a = 0 ∨ b = 0 := by
      by_contra hc
      push_neg at hc
      have : a * b < 0 := mul_neg_of_pos_of_neg (lt_of_le_of_ne ha (Ne.symm hc.1)) (lt_of_le_of_ne hb hc.2)
      omega
    rcases this with h0 | h0 <;> simp [h0]
  · have e : Int.tdiv a b = -Int.tdiv (-a) b := by simp
    have h1 : 0 ≤ Int.tdiv (-a) b := Int.tdiv_nonneg (by omega) hb
    refine ⟨fun h => ?_, fun _ => by omega⟩
    have : a = 0 ∨ b = 0 := by
      by_contra hc
      push_neg at hc
      have : a * b < 0 := mul_neg_of_neg_of_pos (lt_of_le_of_ne ha hc.1) (lt_of_le_of_ne hb (Ne.symm hc.2))
      omega
    rcases this with h0 | h0 <;> simp [h0]
  · have e : Int.tdiv a b = Int.tdiv (-a) (-b) := by simp
    have h1 : 0 ≤ Int.tdiv (-a) (-b) := Int.tdiv_nonneg (by omega) (by omega)
    refine ⟨fun _ => by omega, fun h => ?_⟩
    have : a = 0 ∨ b = 0 := by
      by_contra hc
      push_neg at hc
      have : 0 < a * b := mul_pos_of_neg_of_neg (lt_of_le_of_ne ha hc.1) (lt_of_le_of_ne hb hc.2)
      omega
    rcases this with h0 | h0 <;> simp [h0]
/-! ## Dispatch of the `switch` -/

theorem step_iadd (call : method_t → List Int → heap_t → String → Outcome)
    (m : method_t) (cls : class_file_t) (s : State)
    (h : rd m.code.code s.counter = some i_iadd) :
    step call m cls s = Step.ofOption (binary_case op_iadd s) := by
  unfold step
  rw [h]
  rfl

theorem step_idiv (call : method_t → List Int → heap_t → String → Outcome)
    (m : method_t) (cls : class_file_t) (s : State)
    (h : rd m.code.code s.counter = some i_idiv) :
    step call m cls s = Step.ofOption (binary_case op_idiv s) := by
  unfold step
  rw [h]
  rfl

theorem step_irem (call : method_t → List Int → heap_t → String → Outcome)
    (m : method_t) (cls : class_file_t) (s : State)
    (h : rd m.code.code s.counter = some i_irem) :
    step call m cls s = Step.ofOption (binary_case op_irem s) := by
  unfold step
  rw [h]
  rfl

theorem step_goto (call : method_t → List Int → heap_t → String → Outcome)
    (m : method_t) (cls : class_file_t) (s : State)
    (h : rd m.code.code s.counter = some i_goto) :
    step call m cls s = Step.ofOption (case_goto m s) := by
  unfold step
  rw [h]
  rfl

theorem step_ifeq (call : method_t → List Int → heap_t → String → Outcome)
    (m : method_t) (cls : class_file_t) (s : State)
    (h : rd m.code.code s.counter = some i_ifeq) :
    step call m cls s = Step.ofOption (case_if (fun v => decide (v = 0)) m s) := by
  unfold step
  rw [h]
  rfl

theorem step_ifne (call : method_t → List Int → heap_t → String → Outcome)
    (m : method_t) (cls : class_file_t) (s : State)
    (h : rd m.code.code s.counter = some i_ifne) :
    step call m cls s = Step.ofOption (case_if (fun v => decide (v ≠ 0)) m s) := by
  unfold step
  rw [h]
  rfl

theorem step_iflt (call : method_t → List Int → heap_t → String → Outcome)
    (m : method_t) (cls : class_file_t) (s : State)
    (h : rd m.code.code s.counter = some i_iflt) :
    step call m cls s = Step.ofOption (case_if (fun v => decide (v < 0)) m s) := by
  unfold step
  rw [h]
  rfl

theorem step_ifge (call : method_t → List Int → heap_t → String → Outcome)
    (m : method_t) (cls : class_file_t) (s : State)
    (h : rd m.code.code s.counter = some i_ifge) :
    step call m cls s = Step.ofOption (case_if (fun v => decide (v ≥ 0)) m s) := by
  unfold step
  rw [h]
  rfl

theorem step_ifgt (call : method_t → List Int → heap_t → String → Outcome)
    (m : method_t) (cls : class_file_t) (s : State)
    (h : rd m.code.code s.counter = some i_ifgt) :
    step call m cls s = Step.ofOption (case_if (fun v => decide (v > 0)) m s) := by
  unfold step
  rw [h]
  rfl

theorem step_ifle (call : method_t → List Int → heap_t → String → Outcome)
    (m : method_t) (cls : class_file_t) (s : State)
    (h : rd m.code.code s.counter = some i_ifle) :
    step call m cls s = Step.ofOption (case_if (fun v => decide (v ≤ 0)) m s) := by
  unfold step
  rw [h]
  rfl

theorem step_if_icmpeq (call : method_t → List Int → heap_t → String → Outcome)
    (m : method_t) (cls : class_file_t) (s : State)
    (h : rd m.code.code s.counter = some i_if_icmpeq) :
    step call m cls s = Step.ofOption (case_if_icmp (fun val1 val2 => decide (val1 = val2)) m s) := by
  unfold step
  rw [h]
  rfl

theorem step_if_icmpne (call : method_t → List Int → heap_t → String → Outcome)
    (m : method_t) (cls : class_file_t) (s : State)
    (h : rd m.code.code s.counter = some i_if_icmpne) :
    step call m cls s = Step.ofOption (case_if_icmp (fun val1 val2 => decide (val1 ≠ val2)) m s) := by
  unfold step
  rw [h]
  rfl

theorem step_if_icmplt (call : method_t → List Int → heap_t → String → Outcome)
    (m : method_t) (cls : class_file_t) (s : State)
    (h : rd m.code.code s.counter = some i_if_icmplt) :
    step call m cls s = Step.ofOption (case_if_icmp (fun val1 val2 => decide (val1 < val2)) m s) := by
  unfold step
  rw [h]
  rfl

theorem step_if_icmpge (call : method_t → List Int → heap_t → String → Outcome)
    (m : method_t) (cls : class_file_t) (s : State)
    (h : rd m.code.code s.counter = some i_if_icmpge) :
    step call m cls s = Step.ofOption (case_if_icmp (fun val1 val2 => decide (val1 ≥ val2)) m s) := by
  unfold step
  rw [h]
  rfl

theorem step_if_icmpgt (call : method_t → List Int → heap_t → String → Outcome)
    (m : method_t) (cls : class_file_t) (s : State)
    (h : rd m.code.code s.counter = some i_if_icmpgt) :
    step call m cls s = Step.ofOption (case_if_icmp (fun val1 val2 => decide (val1 > val2)) m s) := by
  unfold step
  rw [h]
  rfl

theorem step_if_icmple (call : method_t → List Int → heap_t → String → Outcome)
    (m : method_t) (cls : class_file_t) (s : State)
    (h : rd m.code.code s.counter = some i_if_icmple) :
    step call m cls s = Step.ofOption (case_if_icmp (fun val1 val2 => decide (val1 ≤ val2)) m s) := by
  unfold step
  rw [h]
  rfl

/-- The two operand bytes of a branch, combined by shift and or and converted to
`int16_t`, are the number `hi * 256 + lo` read as a signed 16-bit integer. -/
theorem operand16_eq_signed16 (hi lo : u1) : operand16 hi lo = signed16 hi lo := by
  have h1 := hi.isLt
  have h2 := lo.isLt
  have e : (hi.val <<< 8) ||| lo.val = hi.val * 256 + lo.val := by
    have h := Nat.mul_add_lt_is_or (show lo.val < 2 ^ 8 by omega) hi.val
    rw [Nat.shiftLeft_eq, Nat.mul_comm, ← h]
  unfold operand16 signed16 to_int16
  rw [e]
  push_cast
  split <;> omega

/-- What a one-operand conditional branch does on a non-empty stack. -/
theorem case_if_eq (cond : Int → Bool) (m : method_t) (s : State) (hi lo : u1) (v : Int)
    (h1 : rd m.code.code (s.counter + 1) = some hi)
    (h2 : rd m.code.code (s.counter + 2) = some lo)
    (hv : rd s.operand_stack (s.stack_pointer - 1) = some v) :
    Step.ofOption (case_if cond m s) =
      Step.cont { s with stack_pointer := s.stack_pointer - 1,
                         counter := if cond v = true then s.counter + signed16 hi lo
                                    else s.counter + 3 } := by
  simp only [case_if, h1, h2, hv, operand16_eq_signed16, Option.bind_eq_bind,
    Option.some_bind]
  split <;> rfl

/-- What a two-operand conditional branch does on a stack of depth at least two. -/
theorem case_if_icmp_eq (cond : Int → Int → Bool) (m : method_t) (s : State) (hi lo : u1)
    (val1 val2 : Int)
    (h1 : rd m.code.code (s.counter + 1) = some hi)
    (h2 : rd m.code.code (s.counter + 2) = some lo)
    (hv2 : rd s.operand_stack (s.stack_pointer - 1) = some val2)
    (hv1 : rd s.operand_stack (s.stack_pointer - 2) = some val1) :
    Step.ofOption (case_if_icmp cond m s) =
      Step.cont { s with stack_pointer := s.stack_pointer - 2,
                         counter := if cond val1 val2 = true then s.counter + signed16 hi lo
                                    else s.counter + 3 } := by
  have e : s.stack_pointer - 1 - 1 = s.stack_pointer - 2 := by ring
  simp only [case_if_icmp, h1, h2, hv2, e, hv1, operand16_eq_signed16, Option.bind_eq_bind,
    Option.some_bind]
  split <;> rfl

/-- What a binary case does on a stack of depth at least two when the operator is
defined on the two top values. -/
theorem binary_case_eq (op : Int → Int → Option Int) (s : State) (a b r : Int)
    (hsp : 2 ≤ s.stack_pointer)
    (ha : rd s.operand_stack (s.stack_pointer - 2) = some a)
    (hb : rd s.operand_stack (s.stack_pointer - 1) = some b)
    (hr : op a b = some r) :
    binary_case op s =
      some { s with operand_stack := s.operand_stack.set (s.stack_pointer - 2).toNat r,
                    stack_pointer := s.stack_pointer - 1, counter := s.counter + 1 } := by
  have hw := wr_of_rd ha r
  simp [binary_case, hsp, ha, hb, hr, hw]

/-- The top of the stack after a binary case is the slot the result was written to. -/
theorem rd_top_after_binary (s : State) (a r : Int)
    (ha : rd s.operand_stack (s.stack_pointer - 2) = some a) :
    rd (s.operand_stack.set (s.stack_pointer - 2).toNat r) (s.stack_pointer - 1 - 1) =
      some r := by
  have hr := rd_lt_length ha
  have : s.stack_pointer - 1 - 1 = s.stack_pointer - 2 := by ring
  rw [this]
  exact rd_set_same _ _ _ hr.1 hr.2

/-! ## Claims -/

/-- C1: in a frame whose operand stack has depth at least two, with `a` second from the
top and `b` on top, `iadd` leaves `a + b` wrapped to 32-bit two's complement on top,
lowers the depth by exactly one, keeps every slot below and the locals, and advances
the program counter by one. -/
theorem iadd_pushes_wrapped_sum (call : method_t → List Int → heap_t → String → Outcome)
    (m : method_t) (cls : class_file_t) (s : State) (a b : Int)
    (hop : rd m.code.code s.counter = some i_iadd)
    (hsp : 2 ≤ s.stack_pointer)
    (ha : rd s.operand_stack (s.stack_pointer - 2) = some a)
    (hb : rd s.operand_stack (s.stack_pointer - 1) = some b) :
    ∃ s', step call m cls s = Step.cont s' ∧
      s'.stack_pointer = s.stack_pointer - 1 ∧
      rd s'.operand_stack (s'.stack_pointer - 1) = some (to_int32 (a + b)) ∧
      (-2 ^ 31 ≤ to_int32 (a + b) ∧ to_int32 (a + b) < 2 ^ 31 ∧
        to_int32 (a + b) ≡ a + b [ZMOD 2 ^ 32]) ∧
      (∀ i : Int, i < s.stack_pointer - 2 →
        rd s'.operand_stack i = rd s.operand_stack i) ∧
      s'.operand_stack.length = s.operand_stack.length ∧
      s'.locals = s.locals ∧ s'.counter = s.counter + 1 ∧
      s'.ret_flag = s.ret_flag ∧ s'.heap = s.heap ∧ s'.out = s.out := by
  have hw := wr_of_rd ha (to_int32 (b + a))
  have hr := rd_lt_length ha
  refine ⟨{ s with operand_stack := s.operand_stack.set (s.stack_pointer - 2).toNat
                      (to_int32 (b + a)),
                   stack_pointer := s.stack_pointer - 1, counter := s.counter + 1 }, ?_, ?_⟩
  · rw [step_iadd call m cls s hop]
    simp [binary_case, hsp, ha, hb, op_iadd, hw, Step.ofOption]
  · refine ⟨rfl, ?_, ⟨(to_int32_range _).1, (to_int32_range _).2, to_int32_modEq _⟩,
      ?_, ?_, rfl, rfl, rfl, rfl, rfl⟩
    · show rd _ (s.stack_pointer - 1 - 1) = _
      have : s.stack_pointer - 1 - 1 = s.stack_pointer - 2 := by ring
      rw [this, Int.add_comm a b]
      exact rd_set_same _ _ _ hr.1 hr.2
    · intro i hi
      exact rd_set_ne _ _ _ _ hr.1 (by omega)
    · simp

/-- Witness of C1: `2147483647 iadd 1` leaves `-2147483648` on a stack of depth one. -/
theorem iadd_pushes_wrapped_sum_witness :
    ∃ s', step no_call (method_of_code [i_iadd]) empty_class
        (frame_at [2147483647, 1, 0, 0] 2 0 []) = Step.cont s' ∧
      s'.stack_pointer = 1 ∧ rd s'.operand_stack 0 = some (-2147483648) ∧
      s'.counter = 1 := by
  obtain ⟨s', h1, h2, h3, _, _, _, _, h4, _⟩ :=
    iadd_pushes_wrapped_sum no_call (method_of_code [i_iadd]) empty_class
      (frame_at [2147483647, 1, 0, 0] 2 0 []) 2147483647 1
      (by decide) (by decide) (by decide) (by decide)
  refine ⟨s', h1, h2, ?_, h4⟩
  rw [h2] at h3
  exact h3

/-- C2: with dividend `a` second from the top and divisor `b` on top, `b` not zero and
not the pair `a = -2^31`, `b = -1`, `idiv` pushes the quotient `q` truncated toward zero
and `irem` pushes the remainder `r` carrying the sign of `a`: `q * b + r = a`,
`|r| < |b|`, `|q|` is the floor of `|a| / |b|`; for `a = -7`, `b = 2` they are `-3`
and `-1`. -/
theorem idiv_irem_truncate_toward_zero
    (call : method_t → List Int → heap_t → String → Outcome)
    (m : method_t) (cls : class_file_t) (s t : State) (a b : Int)
    (hdiv : rd m.code.code s.counter = some i_idiv)
    (hrem : rd m.code.code t.counter = some i_irem)
    (hs : 2 ≤ s.stack_pointer) (ht : 2 ≤ t.stack_pointer)
    (hsa : rd s.operand_stack (s.stack_pointer - 2) = some a)
    (hsb : rd s.operand_stack (s.stack_pointer - 1) = some b)
    (hta : rd t.operand_stack (t.stack_pointer - 2) = some a)
    (htb : rd t.operand_stack (t.stack_pointer - 1) = some b)
    (hb0 : b ≠ 0) (hmin : ¬ (a = -2 ^ 31 ∧ b = -1)) :
    ∃ s' t' q r, step call m cls s = Step.cont s' ∧ step call m cls t = Step.cont t' ∧
      s'.stack_pointer = s.stack_pointer - 1 ∧ t'.stack_pointer = t.stack_pointer - 1 ∧
      rd s'.operand_stack (s'.stack_pointer - 1) = some q ∧
      rd t'.operand_stack (t'.stack_pointer - 1) = some r ∧
      q * b + r = a ∧ |r| < |b| ∧ (0 ≤ a → 0 ≤ r) ∧ (a ≤ 0 → r ≤ 0) ∧
      q.natAbs = a.natAbs / b.natAbs ∧ (0 ≤ a * b → 0 ≤ q) ∧ (a * b ≤ 0 → q ≤ 0) ∧
      (a = -7 → b = 2 → q = -3 ∧ r = -1) := by
  have hg : ¬ (b = 0 ∨ (a = INT_MIN ∧ b = -1)) := by
    unfold INT_MIN
    tauto
  have hq : op_idiv a b = some (Int.tdiv a b) := by simp [op_idiv, hg]
  have hr : op_irem a b = some (Int.tmod a b) := by simp [op_irem, hg]
  have hm := tmod_facts a b hb0
  have hd := tdiv_sign_facts a b
  refine ⟨{ s with operand_stack := s.operand_stack.set (s.stack_pointer - 2).toNat
                      (Int.tdiv a b),
                   stack_pointer := s.stack_pointer - 1, counter := s.counter + 1 },
    { t with operand_stack := t.operand_stack.set (t.stack_pointer - 2).toNat
                      (Int.tmod a b),
             stack_pointer := t.stack_pointer - 1, counter := t.counter + 1 },
    Int.tdiv a b, Int.tmod a b, ?_, ?_, ?_⟩
  · rw [step_idiv call m cls s hdiv, binary_case_eq op_idiv s a b _ hs hsa hsb hq]
    rfl
  · rw [step_irem call m cls t hrem, binary_case_eq op_irem t a b _ ht hta htb hr]
    rfl
  · refine ⟨rfl, rfl, rd_top_after_binary s a _ hsa, rd_top_after_binary t a _ hta,
      Int.tdiv_add_tmod' a b, hm.1, hm.2.1, hm.2.2, Int.natAbs_tdiv a b, hd.1, hd.2, ?_⟩
    intro e1 e2
    subst e1 e2
    decide

/-- Witness of C2: `(-7) idiv 2` pushes `-3` and `(-7) irem 2` pushes `-1`. -/
theorem idiv_irem_truncate_toward_zero_witness :
    ∃ s' t', step no_call (method_of_code [i_idiv, i_irem]) empty_class
        (frame_at [-7, 2, 0, 0] 2 0 []) = Step.cont s' ∧
      step no_call (method_of_code [i_idiv, i_irem]) empty_class
        (frame_at [-7, 2, 0, 0] 2 1 []) = Step.cont t' ∧
      s'.stack_pointer = 1 ∧ t'.stack_pointer = 1 ∧
      rd s'.operand_stack 0 = some (-3) ∧ rd t'.operand_stack 0 = some (-1) := by
  obtain ⟨s', t', q, r, h1, h2, h3, h4, h5, h6, _, _, _, _, _, _, _, h7⟩ :=
    idiv_irem_truncate_toward_zero no_call (method_of_code [i_idiv, i_irem]) empty_class
      (frame_at [-7, 2, 0, 0] 2 0 []) (frame_at [-7, 2, 0, 0] 2 1 []) (-7) 2
      (by decide) (by decide) (by decide) (by decide) (by decide) (by decide) (by decide)
      (by decide) (by decide) (by decide)
  obtain ⟨hq, hr⟩ := h7 rfl rfl
  subst hq hr
  rw [h3] at h5
  rw [h4] at h6
  exact ⟨s', t', h1, h2, h3, h4, h5, h6⟩

/-- C3: a `goto` at program counter `pc` with operand bytes `hi`, `lo` sets the next
program counter to `pc + s`, where `s` is `hi * 256 + lo` read as a signed 16-bit
integer (relative to the address of the `goto` opcode), and changes nothing else; with
operand `-3` (bytes `0xff 0xfd`) at offset 10 the next program counter is 7. -/
theorem goto_is_relative_to_opcode
    (call : method_t → List Int → heap_t → String → Outcome)
    (m : method_t) (cls : class_file_t) (s : State) (hi lo : u1)
    (hop : rd m.code.code s.counter = some i_goto)
    (h1 : rd m.code.code (s.counter + 1) = some hi)
    (h2 : rd m.code.code (s.counter + 2) = some lo) :
    step call m cls s = Step.cont { s with counter := s.counter + signed16 hi lo } ∧
    (s.counter = 10 → hi = 0xff → lo = 0xfd →
      signed16 hi lo = -3 ∧ step call m cls s = Step.cont { s with counter := 7 }) := by
  have key : step call m cls s = Step.cont { s with counter := s.counter + signed16 hi lo } := by
    rw [step_goto call m cls s hop]
    simp only [case_goto, h1, h2, operand16_eq_signed16, Option.bind_eq_bind,
      Option.some_bind]
    rfl
  refine ⟨key, ?_⟩
  intro e1 e2 e3
  have e4 : signed16 hi lo = -3 := by
    subst e2 e3
    decide
  refine ⟨e4, ?_⟩
  rw [key, e4, e1]
  rfl

/-- Witness of C3: a `goto -3` at offset 10 continues at offset 7 with stack and locals
as they were. -/
theorem goto_is_relative_to_opcode_witness :
    step no_call
        (method_of_code [i_nop, i_nop, i_nop, i_nop, i_nop, i_nop, i_nop, i_nop, i_nop,
          i_nop, i_goto, 0xff, 0xfd])
        empty_class (frame_at [5, 6, 0, 0] 2 10 [1, 2, 3, 4]) =
      Step.cont (frame_at [5, 6, 0, 0] 2 7 [1, 2, 3, 4]) :=
  ((goto_is_relative_to_opcode no_call
      (method_of_code [i_nop, i_nop, i_nop, i_nop, i_nop, i_nop, i_nop, i_nop, i_nop,
        i_nop, i_goto, 0xff, 0xfd])
      empty_class (frame_at [5, 6, 0, 0] 2 10 [1, 2, 3, 4]) 0xff 0xfd
      (by decide) (by decide) (by decide)).2 rfl rfl rfl).2

/-- C4: on a non-empty stack with top `v`, each of `ifeq`, `ifne`, `iflt`, `ifge`,
`ifgt`, `ifle` pops exactly one value and continues at `pc + s` (`s` the signed 16-bit
big-endian operand) when `v = 0`, `v ≠ 0`, `v < 0`, `v ≥ 0`, `v > 0`, `v ≤ 0`
respectively, and at `pc + 3` otherwise; the stack buffer, the locals and everything
else stay as they were. -/
theorem if_cond_pops_one_and_branches
    (call : method_t → List Int → heap_t → String → Outcome)
    (m : method_t) (cls : class_file_t) (s : State) (op hi lo : u1) (v : Int)
    (hop : rd m.code.code s.counter = some op)
    (h1 : rd m.code.code (s.counter + 1) = some hi)
    (h2 : rd m.code.code (s.counter + 2) = some lo)
    (hv : rd s.operand_stack (s.stack_pointer - 1) = some v) :
    (op = i_ifeq → step call m cls s =
      Step.cont { s with stack_pointer := s.stack_pointer - 1,
                         counter := if v = 0 then s.counter + signed16 hi lo
                                    else s.counter + 3 }) ∧
    (op = i_ifne → step call m cls s =
      Step.cont { s with stack_pointer := s.stack_pointer - 1,
                         counter := if v ≠ 0 then s.counter + signed16 hi lo
                                    else s.counter + 3 }) ∧
    (op = i_iflt → step call m cls s =
      Step.cont { s with stack_pointer := s.stack_pointer - 1,
                         counter := if v < 0 then s.counter + signed16 hi lo
                                    else s.counter + 3 }) ∧
    (op = i_ifge → step call m cls s =
      Step.cont { s with stack_pointer := s.stack_pointer - 1,
                         counter := if v ≥ 0 then s.counter + signed16 hi lo
                                    else s.counter + 3 }) ∧
    (op = i_ifgt → step call m cls s =
      Step.cont { s with stack_pointer := s.stack_pointer - 1,
                         counter := if v > 0 then s.counter + signed16 hi lo
                                    else s.counter + 3 }) ∧
    (op = i_ifle → step call m cls s =
      Step.cont { s with stack_pointer := s.stack_pointer - 1,
                         counter := if v ≤ 0 then s.counter + signed16 hi lo
                                    else s.counter + 3 }) := by
  refine ⟨?_, ?_, ?_, ?_, ?_, ?_⟩
  · intro e
    subst e
    rw [step_ifeq call m cls s hop, case_if_eq _ m s hi lo v h1 h2 hv]
    simp only [decide_eq_true_eq]
  · intro e
    subst e
    rw [step_ifne call m cls s hop, case_if_eq _ m s hi lo v h1 h2 hv]
    simp only [decide_eq_true_eq]
  · intro e
    subst e
    rw [step_iflt call m cls s hop, case_if_eq _ m s hi lo v h1 h2 hv]
    simp only [decide_eq_true_eq]
  · intro e
    subst e
    rw [step_ifge call m cls s hop, case_if_eq _ m s hi lo v h1 h2 hv]
    simp only [decide_eq_true_eq]
  · intro e
    subst e
    rw [step_ifgt call m cls s hop, case_if_eq _ m s hi lo v h1 h2 hv]
    simp only [decide_eq_true_eq]
  · intro e
    subst e
    rw [step_ifle call m cls s hop, case_if_eq _ m s hi lo v h1 h2 hv]
    simp only [decide_eq_true_eq]

/-- Witness of C4: `iflt` with operand 6 at offset 1 on top value `-4` pops it and
continues at offset 7. -/
theorem if_cond_pops_one_and_branches_witness :
    step no_call (method_of_code [i_nop, i_iflt, 0x00, 0x06]) empty_class
        (frame_at [9, -4, 0, 0] 2 1 [1, 2, 3, 4]) =
      Step.cont (frame_at [9, -4, 0, 0] 1 7 [1, 2, 3, 4]) := by
  have h := (if_cond_pops_one_and_branches no_call
      (method_of_code [i_nop, i_iflt, 0x00, 0x06])
      empty_class (frame_at [9, -4, 0, 0] 2 1 [1, 2, 3, 4]) i_iflt 0x00 0x06 (-4)
      (by decide) (by decide) (by decide) (by decide)).2.2.1 rfl
  rw [h]
  decide

/-- C5: on a stack of depth at least two with `val2` on top and `val1` just below,
each of `if_icmpeq`, `if_icmpne`, `if_icmplt`, `if_icmpge`, `if_icmpgt`, `if_icmple`
pops both values, compares with `val1` (the second value popped) on the left and `val2`
on the right, and continues at `pc + s` (`s` the signed 16-bit operand) when the
comparison holds and at `pc + 3` otherwise. -/
theorem if_icmp_pops_two_and_branches
    (call : method_t → List Int → heap_t → String → Outcome)
    (m : method_t) (cls : class_file_t) (s : State) (op hi lo : u1) (val1 val2 : Int)
    (hop : rd m.code.code s.counter = some op)
    (h1 : rd m.code.code (s.counter + 1) = some hi)
    (h2 : rd m.code.code (s.counter + 2) = some lo)
    (hv2 : rd s.operand_stack (s.stack_pointer - 1) = some val2)
    (hv1 : rd s.operand_stack (s.stack_pointer - 2) = some val1) :
    (op = i_if_icmpeq → step call m cls s =
      Step.cont { s with stack_pointer := s.stack_pointer - 2,
                         counter := if val1 = val2 then s.counter + signed16 hi lo
                                    else s.counter + 3 }) ∧
    (op = i_if_icmpne → step call m cls s =
      Step.cont { s with stack_pointer := s.stack_pointer - 2,
                         counter := if val1 ≠ val2 then s.counter + signed16 hi lo
                                    else s.counter + 3 }) ∧
    (op = i_if_icmplt → step call m cls s =
      Step.cont { s with stack_pointer := s.stack_pointer - 2,
                         counter := if val1 < val2 then s.counter + signed16 hi lo
                                    else s.counter + 3 }) ∧
    (op = i_if_icmpge → step call m cls s =
      Step.cont { s with stack_pointer := s.stack_pointer - 2,
                         counter := if val1 ≥ val2 then s.counter + signed16 hi lo
                                    else s.counter + 3 }) ∧
    (op = i_if_icmpgt → step call m cls s =
      Step.cont { s with stack_pointer := s.stack_pointer - 2,
                         counter := if val1 > val2 then s.counter + signed16 hi lo
                                    else s.counter + 3 }) ∧
    (op = i_if_icmple → step call m cls s =
      Step.cont { s with stack_pointer := s.stack_pointer - 2,
                         counter := if val1 ≤ val2 then s.counter + signed16 hi lo
                                    else s.counter + 3 }) := by
  refine ⟨?_, ?_, ?_, ?_, ?_, ?_⟩
  · intro e
    subst e
    rw [step_if_icmpeq call m cls s hop, case_if_icmp_eq _ m s hi lo val1 val2 h1 h2 hv2 hv1]
    simp only [decide_eq_true_eq]
  · intro e
    subst e
    rw [step_if_icmpne call m cls s hop, case_if_icmp_eq _ m s hi lo val1 val2 h1 h2 hv2 hv1]
    simp only [decide_eq_true_eq]
  · intro e
    subst e
    rw [step_if_icmplt call m cls s hop, case_if_icmp_eq _ m s hi lo val1 val2 h1 h2 hv2 hv1]
    simp only [decide_eq_true_eq]
  · intro e
    subst e
    rw [step_if_icmpge call m cls s hop, case_if_icmp_eq _ m s hi lo val1 val2 h1 h2 hv2 hv1]
    simp only [decide_eq_true_eq]
  · intro e
    subst e
    rw [step_if_icmpgt call m cls s hop, case_if_icmp_eq _ m s hi lo val1 val2 h1 h2 hv2 hv1]
    simp only [decide_eq_true_eq]
  · intro e
    subst e
    rw [step_if_icmple call m cls s hop, case_if_icmp_eq _ m s hi lo val1 val2 h1 h2 hv2 hv1]
    simp only [decide_eq_true_eq]

/-- Witness of C5: `if_icmplt` with `val1 = 3` below `val2 = 8` takes the branch
(`3 < 8`), and with the two values exchanged it falls through. -/
theorem if_icmp_pops_two_and_branches_witness :
    step no_call (method_of_code [i_if_icmplt, 0x00, 0x09]) empty_class
        (frame_at [3, 8, 0, 0] 2 0 [1, 2, 3, 4]) =
      Step.cont (frame_at [3, 8, 0, 0] 0 9 [1, 2, 3, 4]) ∧
    step no_call (method_of_code [i_if_icmplt, 0x00, 0x09]) empty_class
        (frame_at [8, 3, 0, 0] 2 0 [1, 2, 3, 4]) =
      Step.cont (frame_at [8, 3, 0, 0] 0 3 [1, 2, 3, 4]) := by
  have h := (if_icmp_pops_two_and_branches no_call
      (method_of_code [i_if_icmplt, 0x00, 0x09])
      empty_class (frame_at [3, 8, 0, 0] 2 0 [1, 2, 3, 4]) i_if_icmplt 0x00 0x09 3 8
      (by decide) (by decide) (by decide) (by decide) (by decide)).2.2.1 rfl
  have h' := (if_icmp_pops_two_and_branches no_call
      (method_of_code [i_if_icmplt, 0x00, 0x09])
      empty_class (frame_at [8, 3, 0, 0] 2 0 [1, 2, 3, 4]) i_if_icmplt 0x00 0x09 8 3
      (by decide) (by decide) (by decide) (by decide) (by decide)).2.2.1 rfl
  rw [h, h']
  decide

theorem drop_set_self {α : Type} (l : List α) (n : Nat) (x : α) (h : n < l.length) :
    (l.set n x).drop n = x :: l.drop (n + 1) := by
  induction l generalizing n with
  | nil => simp at h
  | cons a l ih =>
    cases n with
    | zero => simp
    | succ k =>
      simp only [List.set_cons_succ, List.drop_succ_cons]
      exact ih k (by simpa using h)

/-- The argument loop of `invokestatic`: when the `vs.length` slots below the stack
pointer hold `vs` (last argument on top) and the locals buffer has room, the loop
writes `vs` to the first slots of the buffer and lowers the stack pointer by
`vs.length`. -/
theorem pop_args_eq (os : List Int) (vs : List Int) :
    ∀ (sp : Int) (locs : List Int), vs.length ≤ locs.length →
      (∀ i : Nat, (hi : i < vs.length) →
        rd os (sp - (vs.length : Int) + (i : Int)) = some vs[i]) →
      pop_args os vs.length sp locs =
        some (vs ++ locs.drop vs.length, sp - (vs.length : Int)) := by
  induction vs using List.reverseRecOn with
  | nil =>
    intro sp locs _ _
    simp [pop_args]
  | append_singleton xs x ih =>
    intro sp locs hlen hargs
    have hl : (xs ++ [x]).length = xs.length + 1 := by simp
    rw [hl] at hlen
    have hx : rd os (sp - 1) = some x := by
      have h := hargs xs.length (by simp)
      simp only [List.getElem_concat_length] at h
      rw [← h]
      congr 1
      rw [hl]
      push_cast
      ring
    have hw : wr locs (xs.length : Int) x = some (locs.set xs.length x) := by
      unfold wr
      rw [if_pos]
      · simp
      · constructor
        · omega
        · simp only [Int.toNat_ofNat]
          omega
    have hrec := ih (sp - 1) (locs.set xs.length x) (by simp; omega) (by
      intro i hi
      have h := hargs i (by simp; omega)
      rw [List.getElem_append_left hi] at h
      rw [← h]
      congr 1
      rw [hl]
      push_cast
      ring)
    rw [hl]
    simp only [pop_args, hx, hw, hrec]
    rw [drop_set_self locs xs.length x (by omega)]
    simp only [List.append_assoc, List.singleton_append, Option.some.injEq, Prod.mk.injEq,
      true_and]
    push_cast
    ring

theorem step_invokestatic (call : method_t → List Int → heap_t → String → Outcome)
    (m : method_t) (cls : class_file_t) (s : State)
    (h : rd m.code.code s.counter = some i_invokestatic) :
    step call m cls s = case_invokestatic call m cls s := by
  unfold step
  rw [h]
  rfl

/-- An `invokestatic` whose index resolves to `target`, executed with the arguments `vs`
on top of the stack: the callee is run on the locals `vs ++ 0 ... 0` and the caller
goes on from `finish_invokestatic` with the stack pointer below the arguments. -/
theorem step_invokestatic_eq (call : method_t → List Int → heap_t → String → Outcome)
    (m : method_t) (cls : class_file_t) (s : State) (b1 b2 : u1) (target : method_t)
    (vs : List Int)
    (hop : rd m.code.code s.counter = some i_invokestatic)
    (h1 : rd m.code.code (s.counter + 1) = some b1)
    (h2 : rd m.code.code (s.counter + 2) = some b2)
    (hres : cls.find_method_from_index (method_index b1 b2) = some target)
    (hN : vs.length = target.number_of_parameters)
    (hM : target.number_of_parameters ≤ target.code.max_locals)
    (hargs : ∀ i : Nat, (hi : i < vs.length) →
      rd s.operand_stack (s.stack_pointer - (vs.length : Int) + (i : Int)) = some vs[i]) :
    step call m cls s =
      finish_invokestatic s (s.stack_pointer - (vs.length : Int))
        (call target
          (vs ++ List.replicate (target.code.max_locals - target.number_of_parameters) 0)
          s.heap s.out) := by
  have hp := pop_args_eq s.operand_stack vs s.stack_pointer
    (List.replicate target.code.max_locals 0) (by simp; omega) hargs
  rw [List.drop_replicate] at hp
  rw [step_invokestatic call m cls s hop]
  simp only [case_invokestatic, h1, h2, hres, ← hN, hp]

/-- C6: an `invokestatic` on a method with `N` parameters and `max_locals = M ≥ N`,
executed with `v1 .. vN` pushed in that order (`vN` on top), starts the callee on a
locals array of exactly `M` slots whose slot `i` holds the `i`-th argument (counting
from zero, in declaration order) and whose slots `N .. M-1` hold zero; for `N = 0` all
`M` slots are zero. -/
theorem invokestatic_callee_locals
    (call : method_t → List Int → heap_t → String → Outcome)
    (m : method_t) (cls : class_file_t) (s : State) (b1 b2 : u1) (target : method_t)
    (vs : List Int)
    (hop : rd m.code.code s.counter = some i_invokestatic)
    (h1 : rd m.code.code (s.counter + 1) = some b1)
    (h2 : rd m.code.code (s.counter + 2) = some b2)
    (hres : cls.find_method_from_index (method_index b1 b2) = some target)
    (hN : vs.length = target.number_of_parameters)
    (hM : target.number_of_parameters ≤ target.code.max_locals)
    (hargs : ∀ i : Nat, (hi : i < vs.length) →
      rd s.operand_stack (s.stack_pointer - (vs.length : Int) + (i : Int)) = some vs[i]) :
    ∃ calleeLocals : List Int,
      step call m cls s =
        finish_invokestatic s (s.stack_pointer - (vs.length : Int))
          (call target calleeLocals s.heap s.out) ∧
      calleeLocals.length = target.code.max_locals ∧
      (∀ i : Nat, (hi : i < vs.length) → calleeLocals[i]? = some vs[i]) ∧
      (∀ j : Nat, target.number_of_parameters ≤ j → j < target.code.max_locals →
        calleeLocals[j]? = some 0) ∧
      (target.number_of_parameters = 0 →
        calleeLocals = List.replicate target.code.max_locals 0) := by
  refine ⟨vs ++ List.replicate (target.code.max_locals - target.number_of_parameters) 0,
    step_invokestatic_eq call m cls s b1 b2 target vs hop h1 h2 hres hN hM hargs,
    ?_, ?_, ?_, ?_⟩
  · simp
    omega
  · intro i hi
    rw [List.getElem?_append_left hi, List.getElem?_eq_getElem hi]
  · intro j hj1 hj2
    rw [List.getElem?_append_right (by omega), List.getElem?_replicate]
    rw [if_pos (by omega)]
  · intro h0
    have : vs = [] := List.length_eq_zero.mp (by omega)
    rw [this, h0]
    simp

/-- Witness of C6: calling `sub(x, y)` with 8 pushed before 9 runs the callee on the
locals `[8, 9, 0, 0]`, so that it returns `8 - 9 = -1`. -/
theorem invokestatic_callee_locals_witness :
    ∃ calleeLocals : List Int,
      step (execute 4 sub_class) (method_of_code [i_invokestatic, 0x00, 0x02]) sub_class
          (frame_at [7, 8, 9, 0] 3 0 []) =
        finish_invokestatic (frame_at [7, 8, 9, 0] 3 0 []) 1
          (execute 4 sub_class sub_method calleeLocals [] "") ∧
      calleeLocals = [8, 9, 0, 0] ∧
      execute 4 sub_class sub_method calleeLocals [] "" =
        Outcome.returned { has_value := true, value := -1 } [] "" := by
  obtain ⟨L, h1, h2, h3, h4, _⟩ :=
    invokestatic_callee_locals (execute 4 sub_class)
      (method_of_code [i_invokestatic, 0x00, 0x02]) sub_class
      (frame_at [7, 8, 9, 0] 3 0 []) 0x00 0x02 sub_method [8, 9]
      (by decide) (by decide) (by decide) (by decide) (by decide) (by decide)
      (by intro i hi
          have : i = 0 ∨ i = 1 := by simp at hi; omega
          rcases this with e | e <;> subst e <;> rfl)
  have hL : L = [8, 9, 0, 0] := by
    apply List.ext_getElem?
    intro i
    rcases i with _ | _ | _ | _ | i
    · exact h3 0 (by decide)
    · exact h3 1 (by decide)
    · exact h4 2 (by decide) (by decide)
    · exact h4 3 (by decide) (by decide)
    · have hlen : L.length = 4 := h2
      rw [List.getElem?_eq_none (by omega), List.getElem?_eq_none (by simp)]
  subst hL
  exact ⟨_, h1, rfl, by decide⟩

/-- C7: an `invokestatic` on an `N`-parameter method from a caller stack of depth
`d ≥ N` whose callee comes back with `returned r`: when `r` has a value the caller's
depth becomes `d - N + 1` with `r.value` on top, otherwise it becomes `d - N` and the
stack buffer is not written; in both cases the slots below the arguments stay as they
were, the locals are kept and the program counter advances by three. Only a callee
without parameters that returns a value needs a free slot in the frame; a callee that
returns no value needs none, whatever `N`. -/
theorem invokestatic_pushes_returned_value
    (call : method_t → List Int → heap_t → String → Outcome)
    (m : method_t) (cls : class_file_t) (s : State) (b1 b2 : u1) (target : method_t)
    (vs : List Int) (r : optional_value_t) (heap : heap_t) (out : String)
    (hop : rd m.code.code s.counter = some i_invokestatic)
    (h1 : rd m.code.code (s.counter + 1) = some b1)
    (h2 : rd m.code.code (s.counter + 2) = some b2)
    (hres : cls.find_method_from_index (method_index b1 b2) = some target)
    (hN : vs.length = target.number_of_parameters)
    (hM : target.number_of_parameters ≤ target.code.max_locals)
    (hd : (vs.length : Int) ≤ s.stack_pointer)
    (hargs : ∀ i : Nat, (hi : i < vs.length) →
      rd s.operand_stack (s.stack_pointer - (vs.length : Int) + (i : Int)) = some vs[i])
    (hcap : r.has_value = true → vs.length = 0 →
      s.stack_pointer < s.operand_stack.length)
    (hcall : call target
        (vs ++ List.replicate (target.code.max_locals - target.number_of_parameters) 0)
        s.heap s.out = Outcome.returned r heap out) :
    ∃ s', step call m cls s = Step.cont s' ∧
      (r.has_value = true →
        s'.stack_pointer = s.stack_pointer - (vs.length : Int) + 1 ∧
        rd s'.operand_stack (s'.stack_pointer - 1) = some r.value) ∧
      (r.has_value = false →
        s'.stack_pointer = s.stack_pointer - (vs.length : Int) ∧
        s'.operand_stack = s.operand_stack) ∧
      (∀ i : Int, i < s.stack_pointer - (vs.length : Int) →
        rd s'.operand_stack i = rd s.operand_stack i) ∧
      s'.operand_stack.length = s.operand_stack.length ∧
      s'.locals = s.locals ∧ s'.counter = s.counter + 3 ∧
      s'.heap = heap ∧ s'.out = out ∧ s'.ret_flag = s.ret_flag := by
  have hstep := step_invokestatic_eq call m cls s b1 b2 target vs hop h1 h2 hres hN hM hargs
  rw [hcall] at hstep
  cases hv : r.has_value with
  | true =>
    have hbound : 0 ≤ s.stack_pointer - (vs.length : Int) ∧
        (s.stack_pointer - (vs.length : Int)).toNat < s.operand_stack.length := by
      rcases Nat.eq_zero_or_pos vs.length with h0 | hpos
      · have := hcap hv h0
        rw [h0]
        omega
      · have h := rd_lt_length (hargs 0 hpos)
        simpa using h
    have hw : wr s.operand_stack (s.stack_pointer - (vs.length : Int)) r.value =
        some (s.operand_stack.set (s.stack_pointer - (vs.length : Int)).toNat r.value) := by
      unfold wr
      rw [if_pos hbound]
    refine ⟨{ s with
              operand_stack :=
                s.operand_stack.set (s.stack_pointer - (vs.length : Int)).toNat r.value,
              stack_pointer := s.stack_pointer - (vs.length : Int) + 1,
              counter := s.counter + 3, heap := heap, out := out }, ?_, ?_, ?_, ?_, ?_,
      rfl, rfl, rfl, rfl, rfl⟩
    · rw [hstep]
      simp only [finish_invokestatic, hv, hw, if_true]
    · intro _
      refine ⟨rfl, ?_⟩
      show rd _ (s.stack_pointer - (vs.length : Int) + 1 - 1) = _
      rw [Int.add_sub_cancel]
      exact rd_set_same _ _ _ hbound.1 hbound.2
    · intro h
      exact absurd h (by simp)
    · intro i hi
      exact rd_set_ne _ _ _ _ hbound.1 (by omega)
    · simp
  | false =>
    refine ⟨{ s with
              stack_pointer := s.stack_pointer - (vs.length : Int),
              counter := s.counter + 3, heap := heap, out := out }, ?_, ?_, ?_, ?_,
      rfl, rfl, rfl, rfl, rfl, rfl⟩
    · rw [hstep]
      simp [finish_invokestatic, hv]
    · intro h
      exact absurd h (by simp)
    · intro _
      exact ⟨rfl, rfl⟩
    · intro i _
      rfl

/-- Witness of C7: a call of `factorial(5)` from depth two replaces the argument by the
returned 120 (depth two again, the slot below untouched), a call of the void method
`show(42)` from depth two leaves depth one and pushes nothing, and a call of a void
method without parameters from a frame whose four slots are all in use keeps the depth
four and the buffer. -/
theorem invokestatic_pushes_returned_value_witness :
    (∃ s', step (execute 20 factorial_class) (method_of_code [i_invokestatic, 0x00, 0x02])
          factorial_class (frame_at [3, 5, 0, 0] 2 0 []) = Step.cont s' ∧
        s'.stack_pointer = 2 ∧ rd s'.operand_stack 1 = some 120 ∧
        rd s'.operand_stack 0 = some 3 ∧ s'.counter = 3) ∧
    (∃ t', step (execute 20 show_class) (method_of_code [i_invokestatic, 0x00, 0x02])
          show_class (frame_at [3, 42, 0, 0] 2 0 []) = Step.cont t' ∧
        t'.stack_pointer = 1 ∧ t'.operand_stack = [3, 42, 0, 0] ∧ t'.counter = 3 ∧
        t'.out = "42\n") ∧
    (∃ u', step (execute 20 idle_class) (method_of_code [i_invokestatic, 0x00, 0x02])
          idle_class (frame_at [3, 42, 7, 9] 4 0 []) = Step.cont u' ∧
        u'.stack_pointer = 4 ∧ u'.operand_stack = [3, 42, 7, 9] ∧ u'.counter = 3) := by
  refine ⟨?_, ?_, ?_⟩
  · obtain ⟨s', h1, h2, _, h4, _, _, h5, _⟩ :=
      invokestatic_pushes_returned_value (execute 20 factorial_class)
        (method_of_code [i_invokestatic, 0x00, 0x02]) factorial_class
        (frame_at [3, 5, 0, 0] 2 0 []) 0x00 0x02 factorial_method [5]
        { has_value := true, value := 120 } [] ""
        (by decide) (by decide) (by decide) (by decide) (by decide) (by decide) (by decide)
        (by intro i hi
            have : i = 0 := by simp at hi; omega
            subst this
            rfl)
        (by intro _ h; simp at h) (by decide)
    obtain ⟨h2a, h2b⟩ := h2 rfl
    rw [h2a] at h2b
    exact ⟨s', h1, h2a, h2b, (h4 0 (by decide)).trans (by decide), h5⟩
  · obtain ⟨t', h1, _, h3, _, _, _, h5, _, h6, _⟩ :=
      invokestatic_pushes_returned_value (execute 20 show_class)
        (method_of_code [i_invokestatic, 0x00, 0x02]) show_class
        (frame_at [3, 42, 0, 0] 2 0 []) 0x00 0x02 show_method [42]
        { has_value := false, value := 0 } [] "42\n"
        (by decide) (by decide) (by decide) (by decide) (by decide) (by decide) (by decide)
        (by intro i hi
            have : i = 0 := by simp at hi; omega
            subst this
            rfl)
        (by intro h; simp at h) (by decide)
    obtain ⟨h3a, h3b⟩ := h3 rfl
    exact ⟨t', h1, h3a, h3b, h5, h6⟩
  · obtain ⟨u', h1, _, h3, _, _, _, h5, _⟩ :=
      invokestatic_pushes_returned_value (execute 20 idle_class)
        (method_of_code [i_invokestatic, 0x00, 0x02]) idle_class
        (frame_at [3, 42, 7, 9] 4 0 []) 0x00 0x02 empty_method []
        { has_value := false, value := 0 } [] ""
        (by decide) (by decide) (by decide) (by decide) (by decide) (by decide) (by decide)
        (by intro i hi; simp at hi)
        (by intro h; simp at h) (by decide)
    obtain ⟨h3a, h3b⟩ := h3 rfl
    exact ⟨u', h1, h3a, h3b, h5⟩

/-- One pass of the loop that goes back to the loop head. -/
theorem loop_cont {call : method_t → List Int → heap_t → String → Outcome}
    {m : method_t} {cls : class_file_t} {s s' : State} (fuel : Nat)
    (hs : step call m cls s = Step.cont s')
    (hc : decide (s.counter < (m.code.code.length : Int)) = true)
    (hr : s.ret_flag = false) :
    loop call m cls (fuel + 1) s = loop call m cls fuel s' := by
  have hc' := of_decide_eq_true hc
  simp only [loop, hc', hr, hs, and_self, if_true]

/-- One pass of the loop that leaves `execute`. -/
theorem loop_stop {call : method_t → List Int → heap_t → String → Outcome}
    {m : method_t} {cls : class_file_t} {s : State} {o : Outcome} (fuel : Nat)
    (hs : step call m cls s = Step.stop o)
    (hc : decide (s.counter < (m.code.code.length : Int)) = true)
    (hr : s.ret_flag = false) :
    loop call m cls (fuel + 1) s = o := by
  have hc' := of_decide_eq_true hc
  simp only [loop, hc', hr, hs, and_self, if_true]

/-- The activation `factorial(n)` for `n ≤ 1`: five instructions, returns 1. -/
theorem factorial_base (call : method_t → List Int → heap_t → String → Outcome)
    (n : Int) (hn : n ≤ 1) (h : heap_t) (o : String) (fuel : Nat) :
    loop call factorial_method factorial_class (fuel + 5)
        (initial_state factorial_method [n] h o) =
      Outcome.returned { has_value := true, value := 1 } h o := by
  have e1 : step call factorial_method factorial_class
      (initial_state factorial_method [n] h o) =
      Step.cont ⟨[n, 0, 0], 1, 1, false, [n], h, o⟩ := rfl
  have e2 : step call factorial_method factorial_class ⟨[n, 0, 0], 1, 1, false, [n], h, o⟩ =
      Step.cont ⟨[n, 1, 0], 2, 2, false, [n], h, o⟩ := rfl
  have e3 : step call factorial_method factorial_class ⟨[n, 1, 0], 2, 2, false, [n], h, o⟩ =
      Step.cont ⟨[n, 1, 0], 0, 5, false, [n], h, o⟩ := by
    rw [step_if_icmpgt call factorial_method factorial_class
        ⟨[n, 1, 0], 2, 2, false, [n], h, o⟩ rfl,
      case_if_icmp_eq _ factorial_method ⟨[n, 1, 0], 2, 2, false, [n], h, o⟩ 0x00 0x05 n 1
        rfl rfl rfl rfl]
    have : ¬ (n > 1) := by omega
    simp only [decide_eq_true_eq, this, if_false]
    rfl
  have e4 : step call factorial_method factorial_class ⟨[n, 1, 0], 0, 5, false, [n], h, o⟩ =
      Step.cont ⟨[1, 1, 0], 1, 6, false, [n], h, o⟩ := rfl
  have e5 : step call factorial_method factorial_class ⟨[1, 1, 0], 1, 6, false, [n], h, o⟩ =
      Step.stop (Outcome.returned { has_value := true, value := 1 } h o) := rfl
  rw [loop_cont _ e1 rfl rfl, loop_cont _ e2 rfl rfl, loop_cont _ e3 rfl rfl,
    loop_cont _ e4 rfl rfl, loop_stop _ e5 rfl rfl]

/-- The activation `factorial(n)` for `n > 1`, given that the nested call on `n - 1`
returns `r`: ten instructions, returns `r * n` wrapped. -/
theorem factorial_rec (call : method_t → List Int → heap_t → String → Outcome)
    (n r : Int) (hn : 1 < n) (h h' : heap_t) (o o' : String) (fuel : Nat)
    (hcall : call factorial_method [to_int32 (n - 1)] h o =
      Outcome.returned { has_value := true, value := r } h' o') :
    loop call factorial_method factorial_class (fuel + 10)
        (initial_state factorial_method [n] h o) =
      Outcome.returned { has_value := true, value := to_int32 (r * n) } h' o' := by
  have e1 : step call factorial_method factorial_class
      (initial_state factorial_method [n] h o) =
      Step.cont ⟨[n, 0, 0], 1, 1, false, [n], h, o⟩ := rfl
  have e2 : step call factorial_method factorial_class ⟨[n, 0, 0], 1, 1, false, [n], h, o⟩ =
      Step.cont ⟨[n, 1, 0], 2, 2, false, [n], h, o⟩ := rfl
  have e3 : step call factorial_method factorial_class ⟨[n, 1, 0], 2, 2, false, [n], h, o⟩ =
      Step.cont ⟨[n, 1, 0], 0, 7, false, [n], h, o⟩ := by
    rw [step_if_icmpgt call factorial_method factorial_class
        ⟨[n, 1, 0], 2, 2, false, [n], h, o⟩ rfl,
      case_if_icmp_eq _ factorial_method ⟨[n, 1, 0], 2, 2, false, [n], h, o⟩ 0x00 0x05 n 1
        rfl rfl rfl rfl]
    have : n > 1 := hn
    simp only [decide_eq_true_eq, this, if_true]
    rfl
  have e4 : step call factorial_method factorial_class ⟨[n, 1, 0], 0, 7, false, [n], h, o⟩ =
      Step.cont ⟨[n, 1, 0], 1, 8, false, [n], h, o⟩ := rfl
  have e5 : step call factorial_method factorial_class ⟨[n, 1, 0], 1, 8, false, [n], h, o⟩ =
      Step.cont ⟨[n, n, 0], 2, 9, false, [n], h, o⟩ := rfl
  have e6 : step call factorial_method factorial_class ⟨[n, n, 0], 2, 9, false, [n], h, o⟩ =
      Step.cont ⟨[n, n, 1], 3, 10, false, [n], h, o⟩ := rfl
  have e7 : step call factorial_method factorial_class ⟨[n, n, 1], 3, 10, false, [n], h, o⟩ =
      Step.cont ⟨[n, to_int32 (n - 1), 1], 2, 11, false, [n], h, o⟩ := rfl
  have e8 : step call factorial_method factorial_class
      ⟨[n, to_int32 (n - 1), 1], 2, 11, false, [n], h, o⟩ =
      Step.cont ⟨[n, r, 1], 2, 14, false, [n], h', o'⟩ := by
    have e := step_invokestatic_eq call factorial_method factorial_class
      ⟨[n, to_int32 (n - 1), 1], 2, 11, false, [n], h, o⟩ 0x00 0x02 factorial_method
      [to_int32 (n - 1)] rfl rfl rfl (by decide) rfl (by decide)
      (by intro i hi
          have : i = 0 := by simp at hi; omega
          subst this
          rfl)
    have e' : ([to_int32 (n - 1)] : List Int) ++
        List.replicate (factorial_method.code.max_locals -
          factorial_method.number_of_parameters) 0 = [to_int32 (n - 1)] := rfl
    rw [e, e', hcall]
    rfl
  have e9 : step call factorial_method factorial_class ⟨[n, r, 1], 2, 14, false, [n], h', o'⟩ =
      Step.cont ⟨[to_int32 (r * n), r, 1], 1, 15, false, [n], h', o'⟩ := rfl
  have e10 : step call factorial_method factorial_class
      ⟨[to_int32 (r * n), r, 1], 1, 15, false, [n], h', o'⟩ =
      Step.stop (Outcome.returned { has_value := true, value := to_int32 (r * n) } h' o') :=
    rfl
  rw [loop_cont _ e1 rfl rfl, loop_cont _ e2 rfl rfl, loop_cont _ e3 rfl rfl,
    loop_cont _ e4 rfl rfl, loop_cont _ e5 rfl rfl, loop_cont _ e6 rfl rfl,
    loop_cont _ e7 rfl rfl, loop_cont _ e8 rfl rfl, loop_cont _ e9 rfl rfl,
    loop_stop _ e10 rfl rfl]

theorem to_int32_congr {a b : Int} (h : a ≡ b [ZMOD 2 ^ 32]) : to_int32 a = to_int32 b := by
  unfold to_int32
  have h2 : (a + 2 ^ 31) % 2 ^ 32 = (b + 2 ^ 31) % 2 ^ 32 := Int.ModEq.add_right _ h
  rw [h2]

theorem execute_succ (fuel : Nat) (cls : class_file_t) (m : method_t) (locals : List Int)
    (heap : heap_t) (out : String) :
    execute (fuel + 1) cls m locals heap out =
      loop (execute fuel cls) m cls (fuel + 1) (initial_state m locals heap out) := rfl

/-- Fuel `n + 10` (or more) is enough for `factorial(n)`. -/
theorem factorial_fuel (n : Nat) (h1 : 1 ≤ n) (h2 : n < 2 ^ 31) (heap : heap_t)
    (out : String) (k : Nat) :
    execute (n + 10 + k) factorial_class factorial_method [(n : Int)] heap out =
      Outcome.returned { has_value := true, value := to_int32 (n.factorial : Int) }
        heap out := by
  induction n, h1 using Nat.le_induction with
  | base =>
    have e : 1 + 10 + k = (k + 10) + 1 := by ring
    have e2 : k + 10 + 1 = (k + 6) + 5 := by ring
    rw [e, execute_succ, e2, factorial_base _ _ (by simp) heap out (k + 6)]
    rfl
  | succ n hn ih =>
    have ih' := ih (by omega)
    have e : n + 1 + 10 + k = (n + 10 + k) + 1 := by ring
    have e2 : n + 10 + k + 1 = (n + k + 1) + 10 := by ring
    have harg : to_int32 (((n + 1 : Nat) : Int) - 1) = (n : Int) := by
      push_cast
      rw [Int.add_sub_cancel]
      exact to_int32_of_range _ (by omega) (by omega)
    have hv : to_int32 (to_int32 (n.factorial : Int) * ((n + 1 : Nat) : Int)) =
        to_int32 (((n + 1).factorial : Nat) : Int) := by
      apply to_int32_congr
      rw [Nat.factorial_succ]
      push_cast
      rw [mul_comm]
      exact Int.ModEq.mul_left _ (to_int32_modEq _)
    rw [e, execute_succ, e2,
      factorial_rec (execute (n + 10 + k) factorial_class) ((n + 1 : Nat) : Int)
      (to_int32 (n.factorial : Int)) (by push_cast; omega) heap heap out out (n + k + 1)
      (by rw [harg]; exact ih'), hv]

/-- C8: the self-recursive bytecode `factorial_method` (`iload_0`, `iconst_1`,
`if_icmpgt`, `isub`, `invokestatic` on itself, `imul`, `ireturn`), started with
`locals[0] = n` for `1 ≤ n` (an `int`, so `n < 2^31`), terminates (any fuel from
`n + 10` on suffices) and returns `n!` wrapped to 32-bit two's complement, leaving heap
and output as they were; started with `locals[0] = 5` it returns 120. -/
theorem factorial_returns_factorial (n : Nat) (h1 : 1 ≤ n) (h2 : n < 2 ^ 31)
    (heap : heap_t) (out : String) :
    (∀ k : Nat,
      execute (n + 10 + k) factorial_class factorial_method [(n : Int)] heap out =
        Outcome.returned { has_value := true, value := to_int32 (n.factorial : Int) }
          heap out) ∧
    (n = 5 →
      execute 15 factorial_class factorial_method [5] heap out =
        Outcome.returned { has_value := true, value := 120 } heap out) := by
  refine ⟨fun k => factorial_fuel n h1 h2 heap out k, ?_⟩
  intro _
  have h := factorial_fuel 5 (by decide) (by decide) heap out 0
  have e : to_int32 ((Nat.factorial 5 : Nat) : Int) = 120 := by decide
  rw [e] at h
  exact h

/-- Witness of C8: `factorial(5)` returns 120. -/
theorem factorial_returns_factorial_witness :
    execute 15 factorial_class factorial_method [5] [] "" =
      Outcome.returned { has_value := true, value := 120 } [] "" :=
  (factorial_returns_factorial 5 (by decide) (by decide) [] "").2 rfl

theorem step_newarray (call : method_t → List Int → heap_t → String → Outcome)
    (m : method_t) (cls : class_file_t) (s : State)
    (h : rd m.code.code s.counter = some i_newarray) :
    step call m cls s = Step.ofOption (case_newarray s) := by
  unfold step
  rw [h]
  rfl

theorem step_arraylength (call : method_t → List Int → heap_t → String → Outcome)
    (m : method_t) (cls : class_file_t) (s : State)
    (h : rd m.code.code s.counter = some i_arraylength) :
    step call m cls s = Step.ofOption (case_arraylength s) := by
  unfold step
  rw [h]
  rfl

theorem step_iastore (call : method_t → List Int → heap_t → String → Outcome)
    (m : method_t) (cls : class_file_t) (s : State)
    (h : rd m.code.code s.counter = some i_iastore) :
    step call m cls s = Step.ofOption (case_iastore s) := by
  unfold step
  rw [h]
  rfl

theorem step_iaload (call : method_t → List Int → heap_t → String → Outcome)
    (m : method_t) (cls : class_file_t) (s : State)
    (h : rd m.code.code s.counter = some i_iaload) :
    step call m cls s = Step.ofOption (case_iaload s) := by
  unfold step
  rw [h]
  rfl

/-- Storing into slot `index` of the array behind `refe`, when that slot exists. -/
theorem heap_store_eq (heap : heap_t) (refe index val : Int) (arr : List Int)
    (harr : heap_get heap refe = some arr) (h0 : 0 ≤ index)
    (h1 : index < (arr.length : Int)) :
    heap_store heap refe index val =
      some (heap.set refe.toNat (arr.set index.toNat val)) := by
  have hw : wr arr index val = some (arr.set index.toNat val) := by
    unfold wr
    rw [if_pos ⟨h0, by omega⟩]
  unfold heap_store
  rw [harr]
  simp only [hw]
  exact wr_of_rd harr _

/-- After a store the reference stands for the updated array. -/
theorem heap_get_set_same (heap : heap_t) (refe : Int) (arr arr' : List Int)
    (harr : heap_get heap refe = some arr) :
    heap_get (heap.set refe.toNat arr') refe = some arr' := by
  have hb := rd_lt_length harr
  exact rd_set_same _ _ _ hb.1 hb.2

/-- A store through one reference leaves the arrays of all other references alone. -/
theorem heap_get_set_ne (heap : heap_t) (refe other : Int) (arr' : List Int)
    (h0 : 0 ≤ refe) (hne : other ≠ refe) :
    heap_get (heap.set refe.toNat arr') other = heap_get heap other :=
  rd_set_ne _ _ _ _ h0 hne

/-- What `iastore` does with `refe`, `index`, `val` on top of the stack when the slot
`index + 1` of the array exists. -/
theorem case_iastore_eq (s : State) (refe index val : Int) (arr : List Int)
    (hv : rd s.operand_stack (s.stack_pointer - 1) = some val)
    (hi : rd s.operand_stack (s.stack_pointer - 2) = some index)
    (hr : rd s.operand_stack (s.stack_pointer - 3) = some refe)
    (harr : heap_get s.heap refe = some arr)
    (h0 : 0 ≤ to_int32 (index + 1)) (h1 : to_int32 (index + 1) < (arr.length : Int)) :
    case_iastore s =
      some { s with heap := s.heap.set refe.toNat (arr.set (to_int32 (index + 1)).toNat val),
                    stack_pointer := s.stack_pointer - 3, counter := s.counter + 1 } := by
  have e2 : s.stack_pointer - 1 - 1 = s.stack_pointer - 2 := by ring
  have e3 : s.stack_pointer - 2 - 1 = s.stack_pointer - 3 := by ring
  simp only [case_iastore, hv, e2, hi, e3, hr, heap_store_eq s.heap refe _ val arr harr h0 h1,
    Option.bind_eq_bind, Option.some_bind]

/-- What `iaload` does with `refe`, `index` on top of the stack when the slot
`index + 1` of the array holds `v`. -/
theorem case_iaload_eq (s : State) (refe index v : Int) (arr : List Int)
    (hi : rd s.operand_stack (s.stack_pointer - 1) = some index)
    (hr : rd s.operand_stack (s.stack_pointer - 2) = some refe)
    (harr : heap_get s.heap refe = some arr)
    (hv : rd arr (to_int32 (index + 1)) = some v) :
    case_iaload s =
      some { s with operand_stack := s.operand_stack.set (s.stack_pointer - 2).toNat v,
                    stack_pointer := s.stack_pointer - 1, counter := s.counter + 1 } := by
  have e2 : s.stack_pointer - 1 - 1 = s.stack_pointer - 2 := by ring
  have e3 : s.stack_pointer - 2 + 1 = s.stack_pointer - 1 := by ring
  simp only [case_iaload, hi, e2, hr, harr, hv, wr_of_rd hr v, e3,
    Option.bind_eq_bind, Option.some_bind]

/-- C9: let `r` refer to an array of `n` elements as `newarray` lays it out (`n + 1`
slots), `0 ≤ i < n` and `v` any value. `iastore` executed with `r`, `i`, `v` on the
stack pops the three values, and an `iaload` executed afterwards with `r`, `i` on the
stack (in any frame that sees the heap the store left) replaces them by exactly `v`.
The program `array_method` (`newarray` of length 3, stores of 11, 22, 33 at the indices
0, 1, 2, then the three loads) prints the three stored values. -/
theorem iastore_iaload_round_trip
    (call : method_t → List Int → heap_t → String → Outcome)
    (m : method_t) (cls : class_file_t) (s : State) (r i v n : Int) (arr : List Int)
    (hop : rd m.code.code s.counter = some i_iastore)
    (harr : heap_get s.heap r = some arr) (hlen : (arr.length : Int) = n + 1)
    (hn : n < 2 ^ 31) (hi0 : 0 ≤ i) (hin : i < n)
    (hsv : rd s.operand_stack (s.stack_pointer - 1) = some v)
    (hsi : rd s.operand_stack (s.stack_pointer - 2) = some i)
    (hsr : rd s.operand_stack (s.stack_pointer - 3) = some r) :
    (∃ s', step call m cls s = Step.cont s' ∧
      s'.stack_pointer = s.stack_pointer - 3 ∧ s'.counter = s.counter + 1 ∧
      ∀ t : State, rd m.code.code t.counter = some i_iaload → t.heap = s'.heap →
        rd t.operand_stack (t.stack_pointer - 1) = some i →
        rd t.operand_stack (t.stack_pointer - 2) = some r →
        ∃ t', step call m cls t = Step.cont t' ∧
          t'.stack_pointer = t.stack_pointer - 1 ∧
          rd t'.operand_stack (t'.stack_pointer - 1) = some v ∧
          t'.counter = t.counter + 1 ∧ t'.heap = t.heap) ∧
    execute 50 empty_class array_method [0, 0] [] "" =
      Outcome.returned { has_value := false, value := 0 } [[3, 11, 22, 33]]
        "11\n22\n33\n3\n" := by
  have hidx : to_int32 (i + 1) = i + 1 := to_int32_of_range _ (by omega) (by omega)
  have hb0 : 0 ≤ to_int32 (i + 1) := by omega
  have hb1 : to_int32 (i + 1) < (arr.length : Int) := by omega
  refine ⟨⟨{ s with
              heap := s.heap.set r.toNat (arr.set (to_int32 (i + 1)).toNat v),
              stack_pointer := s.stack_pointer - 3, counter := s.counter + 1 },
    ?_, rfl, rfl, ?_⟩, by decide⟩
  · rw [step_iastore call m cls s hop,
      case_iastore_eq s r i v arr hsv hsi hsr harr hb0 hb1]
    rfl
  · intro t hld hheap hti htr
    have harr' : heap_get t.heap r =
        some (arr.set (to_int32 (i + 1)).toNat v) := by
      rw [hheap]
      exact heap_get_set_same s.heap r arr _ harr
    have hv : rd (arr.set (to_int32 (i + 1)).toNat v) (to_int32 (i + 1)) = some v :=
      rd_set_same _ _ _ hb0 (by omega)
    refine ⟨{ t with
              operand_stack := t.operand_stack.set (t.stack_pointer - 2).toNat v,
              stack_pointer := t.stack_pointer - 1, counter := t.counter + 1 },
      ?_, rfl, ?_, rfl, rfl⟩
    · rw [step_iaload call m cls t hld, case_iaload_eq t r i v _ hti htr harr' hv]
      rfl
    · exact rd_top_after_binary t r v htr

/-- Witness of C9: storing 77 at index 1 of a three-element array and loading index 1
again leaves 77 on top of the stack. -/
theorem iastore_iaload_round_trip_witness :
    ∃ s', step no_call (method_of_code [i_iastore, i_iaload]) empty_class
        { operand_stack := [0, 1, 77, 0], stack_pointer := 3, counter := 0,
          ret_flag := false, locals := [], heap := [[3, 0, 0, 0]], out := "" } =
        Step.cont s' ∧
      ∃ t', step no_call (method_of_code [i_iastore, i_iaload]) empty_class
          { operand_stack := [0, 1, 0, 0], stack_pointer := 2, counter := 1,
            ret_flag := false, locals := [], heap := s'.heap, out := "" } = Step.cont t' ∧
        t'.stack_pointer = 1 ∧ rd t'.operand_stack 0 = some 77 := by
  obtain ⟨s', h1, _, _, h4⟩ :=
    (iastore_iaload_round_trip no_call (method_of_code [i_iastore, i_iaload]) empty_class
      { operand_stack := [0, 1, 77, 0], stack_pointer := 3, counter := 0,
        ret_flag := false, locals := [], heap := [[3, 0, 0, 0]], out := "" }
      0 1 77 3 [3, 0, 0, 0] (by decide) (by decide) (by decide) (by decide) (by decide)
      (by decide) (by decide) (by decide) (by decide)).1
  obtain ⟨t', g1, g2, g3, _⟩ := h4
    { operand_stack := [0, 1, 0, 0], stack_pointer := 2, counter := 1,
      ret_flag := false, locals := [], heap := s'.heap, out := "" }
    rfl rfl rfl rfl
  rw [g2] at g3
  exact ⟨s', h1, t', g1, g2, g3⟩

/-- What `newarray` does with a count `n` on top of the stack, `0 ≤ n ≤ 2^31 - 2`. -/
theorem case_newarray_eq (s : State) (n : Int)
    (hn : rd s.operand_stack (s.stack_pointer - 1) = some n)
    (h0 : 0 ≤ n) (h1 : n < 2 ^ 31 - 1) :
    case_newarray s =
      some { s with
             operand_stack :=
               s.operand_stack.set (s.stack_pointer - 1).toNat (s.heap.length : Int),
             heap := s.heap ++ [n :: List.replicate n.toNat 0],
             counter := s.counter + 2 } := by
  have hov : ¬ ((2 : Int) ^ 31 ≤ n + 1) := by omega
  have hpos : 0 < n + 1 := by omega
  have hnat : (n + 1).toNat = n.toNat + 1 := by omega
  have hw : wr (List.replicate (n + 1).toNat (0 : Int)) 0 n =
      some (n :: List.replicate n.toNat 0) := by
    rw [hnat]
    unfold wr
    simp [List.replicate_succ]
  simp only [case_newarray, hn, hov, hpos, hw, heap_add, wr_of_rd hn _, if_true, if_false,
    Option.bind_eq_bind, Option.some_bind]

/-- What `arraylength` does with a reference on top of the stack whose array has
`len` in slot 0. -/
theorem case_arraylength_eq (s : State) (ref len : Int) (arr : List Int)
    (hr : rd s.operand_stack (s.stack_pointer - 1) = some ref)
    (harr : heap_get s.heap ref = some arr) (hlen : rd arr 0 = some len) :
    case_arraylength s =
      some { s with
             operand_stack := s.operand_stack.set (s.stack_pointer - 1).toNat len,
             counter := s.counter + 1 } := by
  simp only [case_arraylength, hr, harr, hlen, wr_of_rd hr _, Option.bind_eq_bind,
    Option.some_bind]

/-- Stores into the elements `0 .. n-1` of an array of `n` elements are defined and
keep the number of slots and the stored length of the array. -/
theorem heap_stores_keep_length (n : Int) (hn : n < 2 ^ 31) (r : Int) :
    ∀ (stores : List (Int × Int)) (h : heap_t) (a : List Int),
      heap_get h r = some a → (a.length : Int) = n + 1 → rd a 0 = some n →
      (∀ p ∈ stores, 0 ≤ p.1 ∧ p.1 < n) →
      ∃ h' a', heap_stores r h stores = some h' ∧ heap_get h' r = some a' ∧
        (a'.length : Int) = n + 1 ∧ rd a' 0 = some n := by
  intro stores
  induction stores with
  | nil =>
    intro h a ha hl h0 _
    exact ⟨h, a, rfl, ha, hl, h0⟩
  | cons p rest ih =>
    intro h a ha hl h0 hall
    obtain ⟨hp0, hp1⟩ := hall p (List.mem_cons_self _ _)
    have hidx : to_int32 (p.1 + 1) = p.1 + 1 := to_int32_of_range _ (by omega) (by omega)
    have hst := heap_store_eq h r (to_int32 (p.1 + 1)) p.2 a ha (by omega) (by omega)
    have ha' := heap_get_set_same h r a (a.set (to_int32 (p.1 + 1)).toNat p.2) ha
    have h0' : rd (a.set (to_int32 (p.1 + 1)).toNat p.2) 0 = some n := by
      rw [rd_set_ne _ _ _ _ (by omega) (by omega)]
      exact h0
    obtain ⟨h', a', e1, e2, e3, e4⟩ := ih _ _ ha' (by simpa using hl) h0'
      (fun q hq => hall q (List.mem_cons_of_mem _ hq))
    refine ⟨h', a', ?_, e2, e3, e4⟩
    obtain ⟨index, val⟩ := p
    simp only [heap_stores, hst]
    exact e1

/-- Counterexample to C10 as stated: with the length `2147483647` on top of the stack,
the sum `operand_stack[stack_pointer - 1] + 1` of the guard overflows `int`, which is
undefined behaviour: the pass has no defined result, so `newarray` does not replace the
length by a reference to a new array of `2147483648` slots and does not advance the
program counter by 2. -/
theorem newarray_max_length_counterexample :
    step no_call (method_of_code [i_newarray, 10]) empty_class
        (frame_at [2147483647, 0, 0, 0] 1 0 []) = Step.stop Outcome.undefined ∧
    ¬ ∃ s', step no_call (method_of_code [i_newarray, 10]) empty_class
        (frame_at [2147483647, 0, 0, 0] 1 0 []) = Step.cont s' ∧
      s'.heap.length = 1 ∧ s'.counter = 2 := by
  have h : step no_call (method_of_code [i_newarray, 10]) empty_class
      (frame_at [2147483647, 0, 0, 0] 1 0 []) = Step.stop Outcome.undefined := by decide
  refine ⟨h, ?_⟩
  rintro ⟨s', h1, _, _⟩
  rw [h] at h1
  exact absurd h1 (by simp)

/-- C10, amended: for every length `n` with `0 ≤ n ≤ 2^31 - 2` on top of the stack,
`newarray` replaces `n` by a reference `r` to a newly added heap array of `n + 1` slots
laid out as `[n, 0, ..., 0]`, leaves the stack depth, the other stack slots, the locals
and all existing heap arrays unchanged, and advances the program counter by 2; after
any stores into the elements `0 .. n-1` of that array, `arraylength` executed with `r`
on top replaces `r` by `n`. -/
theorem newarray_allocates_zeroed_array
    (call : method_t → List Int → heap_t → String → Outcome)
    (m : method_t) (cls : class_file_t) (s : State) (n : Int)
    (hop : rd m.code.code s.counter = some i_newarray)
    (hn : rd s.operand_stack (s.stack_pointer - 1) = some n)
    (h0 : 0 ≤ n) (h1 : n ≤ 2 ^ 31 - 2) :
    ∃ s' r, step call m cls s = Step.cont s' ∧
      s'.stack_pointer = s.stack_pointer ∧
      rd s'.operand_stack (s'.stack_pointer - 1) = some r ∧
      (∀ i : Int, i ≠ s.stack_pointer - 1 → rd s'.operand_stack i = rd s.operand_stack i) ∧
      s'.operand_stack.length = s.operand_stack.length ∧
      heap_get s.heap r = none ∧
      heap_get s'.heap r = some (n :: List.replicate n.toNat 0) ∧
      ((n :: List.replicate n.toNat 0).length : Int) = n + 1 ∧
      s'.heap.length = s.heap.length + 1 ∧
      (∀ (r' : Int) (a : List Int), heap_get s.heap r' = some a →
        heap_get s'.heap r' = some a) ∧
      s'.counter = s.counter + 2 ∧ s'.locals = s.locals ∧ s'.out = s.out ∧
      (∀ stores : List (Int × Int), (∀ p ∈ stores, 0 ≤ p.1 ∧ p.1 < n) →
        ∃ h', heap_stores r s'.heap stores = some h' ∧
          ∀ t : State, rd m.code.code t.counter = some i_arraylength → t.heap = h' →
            rd t.operand_stack (t.stack_pointer - 1) = some r →
            ∃ t', step call m cls t = Step.cont t' ∧
              t'.stack_pointer = t.stack_pointer ∧
              rd t'.operand_stack (t'.stack_pointer - 1) = some n ∧
              t'.counter = t.counter + 1 ∧ t'.heap = t.heap) := by
  have hb := rd_lt_length hn
  have hnew : heap_get (s.heap ++ [n :: List.replicate n.toNat 0]) (s.heap.length : Int) =
      some (n :: List.replicate n.toNat 0) := by
    unfold heap_get rd
    simp
  refine ⟨{ s with
            operand_stack :=
              s.operand_stack.set (s.stack_pointer - 1).toNat (s.heap.length : Int),
            heap := s.heap ++ [n :: List.replicate n.toNat 0],
            counter := s.counter + 2 }, (s.heap.length : Int), ?_, rfl, ?_, ?_, ?_, ?_,
    hnew, ?_, ?_, ?_, rfl, rfl, rfl, ?_⟩
  · rw [step_newarray call m cls s hop, case_newarray_eq s n hn h0 (by omega)]
    rfl
  · exact rd_set_same _ _ _ hb.1 hb.2
  · intro i hi
    exact rd_set_ne _ _ _ _ hb.1 hi
  · simp
  · unfold heap_get rd
    simp
  · simp
    omega
  · simp
  · intro r' a ha
    have hr' := rd_lt_length ha
    unfold heap_get rd at ha ⊢
    rw [if_pos hr'.1] at ha ⊢
    rw [List.getElem?_append_left hr'.2]
    exact ha
  · intro stores hall
    obtain ⟨h', a', e1, e2, _, e4⟩ :=
      heap_stores_keep_length n (by omega) (s.heap.length : Int) stores
        (s.heap ++ [n :: List.replicate n.toNat 0]) (n :: List.replicate n.toNat 0) hnew
        (by simp; omega) (by unfold rd; simp) hall
    refine ⟨h', e1, ?_⟩
    intro t hlen hheap htop
    have hbt := rd_lt_length htop
    refine ⟨{ t with
              operand_stack := t.operand_stack.set (t.stack_pointer - 1).toNat n,
              counter := t.counter + 1 }, ?_, rfl, ?_, rfl, rfl⟩
    · rw [step_arraylength call m cls t hlen,
        case_arraylength_eq t _ n a' htop (by rw [hheap]; exact e2) e4]
      rfl
    · exact rd_set_same _ _ _ hbt.1 hbt.2

/-- Witness of C10: `newarray` with length 3 on an empty heap pushes the reference 0 to
the array `[3, 0, 0, 0]`, and after the stores of 11, 22, 33 at the indices 0, 1, 2
`arraylength` on that reference gives 3. -/
theorem newarray_allocates_zeroed_array_witness :
    ∃ s', step no_call (method_of_code [i_newarray, 10, i_arraylength]) empty_class
        (frame_at [3, 0, 0, 0] 1 0 []) = Step.cont s' ∧
      rd s'.operand_stack 0 = some 0 ∧ s'.heap = [[3, 0, 0, 0]] ∧ s'.counter = 2 ∧
      ∃ t', step no_call (method_of_code [i_newarray, 10, i_arraylength]) empty_class
          { operand_stack := [0, 0, 0, 0], stack_pointer := 1, counter := 2,
            ret_flag := false, locals := [], heap := [[3, 11, 22, 33]], out := "" } =
          Step.cont t' ∧
        rd t'.operand_stack 0 = some 3 := by
  obtain ⟨s', r, h1, h2, h3, _, _, _, h7, _, h9, _, h11, _, _, h14⟩ :=
    newarray_allocates_zeroed_array no_call
      (method_of_code [i_newarray, 10, i_arraylength]) empty_class
      (frame_at [3, 0, 0, 0] 1 0 []) 3 (by decide) (by decide) (by decide) (by decide)
  have hs : step no_call (method_of_code [i_newarray, 10, i_arraylength]) empty_class
      (frame_at [3, 0, 0, 0] 1 0 []) =
      Step.cont { operand_stack := [0, 0, 0, 0], stack_pointer := 1, counter := 2,
                  ret_flag := false, locals := [], heap := [[3, 0, 0, 0]], out := "" } := by
    decide
  rw [hs] at h1
  injection h1 with h1
  subst h1
  have hr : r = 0 := by
    have : rd [0, 0, 0, 0] ((1 : Int) - 1) = some r := h3
    have h' : rd ([0, 0, 0, 0] : List Int) ((1 : Int) - 1) = some 0 := by decide
    rw [h'] at this
    exact (Option.some.inj this).symm
  subst hr
  obtain ⟨h', e1, e2⟩ := h14 [(0, 11), (1, 22), (2, 33)] (by decide)
  have hh : h' = [[3, 11, 22, 33]] := by
    have : heap_stores 0 [[3, 0, 0, 0]] [(0, 11), (1, 22), (2, 33)] =
        some [[3, 11, 22, 33]] := by decide
    have e1' : heap_stores 0 [[3, 0, 0, 0]] [(0, 11), (1, 22), (2, 33)] = some h' := e1
    rw [this] at e1'
    exact (Option.some.inj e1').symm
  subst hh
  obtain ⟨t', g1, g2, g3, _⟩ := e2
    { operand_stack := [0, 0, 0, 0], stack_pointer := 1, counter := 2,
      ret_flag := false, locals := [], heap := [[3, 11, 22, 33]], out := "" }
    rfl rfl rfl
  rw [g2] at g3
  exact ⟨_, hs, rfl, rfl, rfl, t', g1, g3⟩

theorem step_bipush (call : method_t → List Int → heap_t → String → Outcome)
    (m : method_t) (cls : class_file_t) (s : State)
    (h : rd m.code.code s.counter = some i_bipush) :
    step call m cls s = Step.ofOption (case_bipush m s) := by
  unfold step
  rw [h]
  rfl

theorem step_sipush (call : method_t → List Int → heap_t → String → Outcome)
    (m : method_t) (cls : class_file_t) (s : State)
    (h : rd m.code.code s.counter = some i_sipush) :
    step call m cls s = Step.ofOption (case_sipush m s) := by
  unfold step
  rw [h]
  rfl

theorem step_iload (call : method_t → List Int → heap_t → String → Outcome)
    (m : method_t) (cls : class_file_t) (s : State)
    (h : rd m.code.code s.counter = some i_iload) :
    step call m cls s = Step.ofOption (case_iload m s) := by
  unfold step
  rw [h]
  rfl

theorem step_istore (call : method_t → List Int → heap_t → String → Outcome)
    (m : method_t) (cls : class_file_t) (s : State)
    (h : rd m.code.code s.counter = some i_istore) :
    step call m cls s = Step.ofOption (case_istore m s) := by
  unfold step
  rw [h]
  rfl

theorem step_aload (call : method_t → List Int → heap_t → String → Outcome)
    (m : method_t) (cls : class_file_t) (s : State)
    (h : rd m.code.code s.counter = some i_aload) :
    step call m cls s = Step.ofOption (case_aload m s) := by
  unfold step
  rw [h]
  rfl

theorem step_astore (call : method_t → List Int → heap_t → String → Outcome)
    (m : method_t) (cls : class_file_t) (s : State)
    (h : rd m.code.code s.counter = some i_astore) :
    step call m cls s = Step.ofOption (case_astore m s) := by
  unfold step
  rw [h]
  rfl

theorem step_return (call : method_t → List Int → heap_t → String → Outcome)
    (m : method_t) (cls : class_file_t) (s : State)
    (h : rd m.code.code s.counter = some i_return) :
    step call m cls s = Step.ofOption (case_return s) := by
  unfold step
  rw [h]
  rfl

theorem step_invokevirtual (call : method_t → List Int → heap_t → String → Outcome)
    (m : method_t) (cls : class_file_t) (s : State)
    (h : rd m.code.code s.counter = some i_invokevirtual) :
    step call m cls s = Step.ofOption (case_invokevirtual s) := by
  unfold step
  rw [h]
  rfl

theorem step_getstatic (call : method_t → List Int → heap_t → String → Outcome)
    (m : method_t) (cls : class_file_t) (s : State)
    (h : rd m.code.code s.counter = some i_getstatic) :
    step call m cls s = Step.ofOption (case_getstatic s) := by
  unfold step
  rw [h]
  rfl

theorem step_nop (call : method_t → List Int → heap_t → String → Outcome)
    (m : method_t) (cls : class_file_t) (s : State)
    (h : rd m.code.code s.counter = some i_nop) :
    step call m cls s = Step.ofOption (case_nop s) := by
  unfold step
  rw [h]
  rfl

theorem step_ishl (call : method_t → List Int → heap_t → String → Outcome)
    (m : method_t) (cls : class_file_t) (s : State)
    (h : rd m.code.code s.counter = some i_ishl) :
    step call m cls s = Step.ofOption (binary_case op_ishl s) := by
  unfold step
  rw [h]
  rfl

theorem step_ishr (call : method_t → List Int → heap_t → String → Outcome)
    (m : method_t) (cls : class_file_t) (s : State)
    (h : rd m.code.code s.counter = some i_ishr) :
    step call m cls s = Step.ofOption (binary_case op_ishr s) := by
  unfold step
  rw [h]
  rfl

theorem step_iushr (call : method_t → List Int → heap_t → String → Outcome)
    (m : method_t) (cls : class_file_t) (s : State)
    (h : rd m.code.code s.counter = some i_iushr) :
    step call m cls s = Step.ofOption (binary_case op_iushr s) := by
  unfold step
  rw [h]
  rfl

theorem step_ireturn (call : method_t → List Int → heap_t → String → Outcome)
    (m : method_t) (cls : class_file_t) (s : State)
    (h : rd m.code.code s.counter = some i_ireturn) :
    step call m cls s = case_ireturn s := by
  unfold step
  rw [h]
  rfl

theorem step_areturn (call : method_t → List Int → heap_t → String → Outcome)
    (m : method_t) (cls : class_file_t) (s : State)
    (h : rd m.code.code s.counter = some i_areturn) :
    step call m cls s = case_ireturn s := by
  unfold step
  rw [h]
  rfl

theorem step_iload_0 (call : method_t → List Int → heap_t → String → Outcome)
    (m : method_t) (cls : class_file_t) (s : State)
    (h : rd m.code.code s.counter = some i_iload_0) :
    step call m cls s = Step.ofOption (case_iload_n i_iload_0 s) := by
  unfold step
  rw [h]
  rfl

theorem step_iload_1 (call : method_t → List Int → heap_t → String → Outcome)
    (m : method_t) (cls : class_file_t) (s : State)
    (h : rd m.code.code s.counter = some i_iload_1) :
    step call m cls s = Step.ofOption (case_iload_n i_iload_1 s) := by
  unfold step
  rw [h]
  rfl

theorem step_iload_2 (call : method_t → List Int → heap_t → String → Outcome)
    (m : method_t) (cls : class_file_t) (s : State)
    (h : rd m.code.code s.counter = some i_iload_2) :
    step call m cls s = Step.ofOption (case_iload_n i_iload_2 s) := by
  unfold step
  rw [h]
  rfl

theorem step_iload_3 (call : method_t → List Int → heap_t → String → Outcome)
    (m : method_t) (cls : class_file_t) (s : State)
    (h : rd m.code.code s.counter = some i_iload_3) :
    step call m cls s = Step.ofOption (case_iload_n i_iload_3 s) := by
  unfold step
  rw [h]
  rfl

theorem step_istore_0 (call : method_t → List Int → heap_t → String → Outcome)
    (m : method_t) (cls : class_file_t) (s : State)
    (h : rd m.code.code s.counter = some i_istore_0) :
    step call m cls s = Step.ofOption (case_istore_n i_istore_0 s) := by
  unfold step
  rw [h]
  rfl

theorem step_istore_1 (call : method_t → List Int → heap_t → String → Outcome)
    (m : method_t) (cls : class_file_t) (s : State)
    (h : rd m.code.code s.counter = some i_istore_1) :
    step call m cls s = Step.ofOption (case_istore_n i_istore_1 s) := by
  unfold step
  rw [h]
  rfl

theorem step_istore_2 (call : method_t → List Int → heap_t → String → Outcome)
    (m : method_t) (cls : class_file_t) (s : State)
    (h : rd m.code.code s.counter = some i_istore_2) :
    step call m cls s = Step.ofOption (case_istore_n i_istore_2 s) := by
  unfold step
  rw [h]
  rfl

theorem step_istore_3 (call : method_t → List Int → heap_t → String → Outcome)
    (m : method_t) (cls : class_file_t) (s : State)
    (h : rd m.code.code s.counter = some i_istore_3) :
    step call m cls s = Step.ofOption (case_istore_n i_istore_3 s) := by
  unfold step
  rw [h]
  rfl

theorem step_aload_0 (call : method_t → List Int → heap_t → String → Outcome)
    (m : method_t) (cls : class_file_t) (s : State)
    (h : rd m.code.code s.counter = some i_aload_0) :
    step call m cls s = Step.ofOption (case_aload_n i_aload_0 s) := by
  unfold step
  rw [h]
  rfl

theorem step_aload_1 (call : method_t → List Int → heap_t → String → Outcome)
    (m : method_t) (cls : class_file_t) (s : State)
    (h : rd m.code.code s.counter = some i_aload_1) :
    step call m cls s = Step.ofOption (case_aload_n i_aload_1 s) := by
  unfold step
  rw [h]
  rfl

theorem step_aload_2 (call : method_t → List Int → heap_t → String → Outcome)
    (m : method_t) (cls : class_file_t) (s : State)
    (h : rd m.code.code s.counter = some i_aload_2) :
    step call m cls s = Step.ofOption (case_aload_n i_aload_2 s) := by
  unfold step
  rw [h]
  rfl

theorem step_aload_3 (call : method_t → List Int → heap_t → String → Outcome)
    (m : method_t) (cls : class_file_t) (s : State)
    (h : rd m.code.code s.counter = some i_aload_3) :
    step call m cls s = Step.ofOption (case_aload_n i_aload_3 s) := by
  unfold step
  rw [h]
  rfl

theorem step_astore_0 (call : method_t → List Int → heap_t → String → Outcome)
    (m : method_t) (cls : class_file_t) (s : State)
    (h : rd m.code.code s.counter = some i_astore_0) :
    step call m cls s = Step.ofOption (case_astore_n i_astore_0 s) := by
  unfold step
  rw [h]
  rfl

theorem step_astore_1 (call : method_t → List Int → heap_t → String → Outcome)
    (m : method_t) (cls : class_file_t) (s : State)
    (h : rd m.code.code s.counter = some i_astore_1) :
    step call m cls s = Step.ofOption (case_astore_n i_astore_1 s) := by
  unfold step
  rw [h]
  rfl

theorem step_astore_2 (call : method_t → List Int → heap_t → String → Outcome)
    (m : method_t) (cls : class_file_t) (s : State)
    (h : rd m.code.code s.counter = some i_astore_2) :
    step call m cls s = Step.ofOption (case_astore_n i_astore_2 s) := by
  unfold step
  rw [h]
  rfl

theorem step_astore_3 (call : method_t → List Int → heap_t → String → Outcome)
    (m : method_t) (cls : class_file_t) (s : State)
    (h : rd m.code.code s.counter = some i_astore_3) :
    step call m cls s = Step.ofOption (case_astore_n i_astore_3 s) := by
  unfold step
  rw [h]
  rfl

/-- When the loop guard fails, `execute` returns `result`, which has no value. -/
theorem loop_exit (call : method_t → List Int → heap_t → String → Outcome)
    (m : method_t) (cls : class_file_t) (s : State) (fuel : Nat)
    (h : ¬ (s.counter < (m.code.code.length : Int) ∧ s.ret_flag = false)) :
    loop call m cls (fuel + 1) s =
      Outcome.returned { has_value := false, value := 0 } s.heap s.out := by
  simp only [loop, h, if_false]

/-- After `k` passes that lead from `s` to `s'`, the loop goes on from `s'`. -/
theorem loop_of_passes (call : method_t → List Int → heap_t → String → Outcome)
    (m : method_t) (cls : class_file_t) :
    ∀ (k : Nat) (s s' : State), passes call m cls k s = some s' →
      ∀ j : Nat, loop call m cls (k + j) s = loop call m cls j s' := by
  intro k
  induction k with
  | zero =>
    intro s s' h j
    simp only [passes, Option.some.injEq] at h
    rw [h, Nat.zero_add]
  | succ k ih =>
    intro s s' h j
    have e : k + 1 + j = (k + j) + 1 := by omega
    rw [e]
    simp only [passes] at h
    split at h
    · rename_i hg
      cases hs : step call m cls s with
      | cont s1 =>
        rw [hs] at h
        simp only [loop, hg, hs, and_self, if_true]
        exact ih s1 s' h j
      | stop o =>
        rw [hs] at h
        exact absurd h (by simp)
    · exact absurd h (by simp)

/-- An activation whose first `k` passes lead to the state `s` continues as the loop
from `s` with the fuel that is left. -/
theorem execute_of_passes (cls : class_file_t) (m : method_t) (locals : List Int)
    (heap : heap_t) (out : String) (k F : Nat) (s : State)
    (hp : passes (execute F cls) m cls k (initial_state m locals heap out) = some s)
    (j : Nat) (hF : F + 1 = k + j) :
    execute (F + 1) cls m locals heap out = loop (execute F cls) m cls j s := by
  rw [execute_succ, hF]
  exact loop_of_passes (execute F cls) m cls k _ s hp j

/-- C11: a method whose execution moves the program counter to a value at or beyond
`code_length` without having executed `return`, `ireturn` or `areturn` (the first `k`
passes of the loop all come back to the loop head and lead to such a state) makes
`execute` terminate and return the optional value with `has_value = false`, not an
error; in particular `execute` on a method with empty bytecode returns no value. -/
theorem run_off_the_end_returns_no_value (cls : class_file_t) (m : method_t)
    (locals : List Int) (heap : heap_t) (out : String) (k F : Nat) (s : State)
    (hF : k ≤ F)
    (hp : passes (execute F cls) m cls k (initial_state m locals heap out) = some s)
    (hpc : (m.code.code.length : Int) ≤ s.counter) :
    execute (F + 1) cls m locals heap out =
      Outcome.returned { has_value := false, value := 0 } s.heap s.out ∧
    (m.code.code = [] → ∀ fuel : Nat, execute (fuel + 1) cls m locals heap out =
      Outcome.returned { has_value := false, value := 0 } heap out) := by
  constructor
  · have e : F + 1 = k + ((F - k) + 1) := by omega
    rw [execute_of_passes cls m locals heap out k F s hp _ e]
    exact loop_exit _ m cls s _ (by omega)
  · intro hempty fuel
    rw [execute_succ]
    exact loop_exit _ m cls _ _ (by
      rw [hempty]
      simp [initial_state])

/-- Witness of C11: `iconst_1; nop` runs off the end after two passes and returns no
value. -/
theorem run_off_the_end_returns_no_value_witness :
    execute 3 empty_class fall_off_method [0] [] "" =
      Outcome.returned { has_value := false, value := 0 } [] "" :=
  (run_off_the_end_returns_no_value empty_class fall_off_method [0] [] "" 2 2
    { operand_stack := [1], stack_pointer := 1, counter := 2, ret_flag := false,
      locals := [0], heap := [], out := "" }
    (by decide) (by decide) (by decide)).1

/-- C12: on a stack with top `v`, `invokevirtual` appends exactly the decimal rendering
of `v` followed by one newline to the output, pops `v` and advances the program counter
by 3, changing nothing else; the `main` made of `getstatic`, `iconst_2`, `iconst_3`,
`iadd`, `invokevirtual`, `return`, started on an empty stack with no output, produces
exactly the line `5` and returns no value. -/
theorem invokevirtual_prints_decimal_line
    (call : method_t → List Int → heap_t → String → Outcome)
    (m : method_t) (cls : class_file_t) (s : State) (v : Int)
    (hop : rd m.code.code s.counter = some i_invokevirtual)
    (hv : rd s.operand_stack (s.stack_pointer - 1) = some v) :
    step call m cls s =
      Step.cont { s with out := s.out ++ toString v ++ "\n",
                         stack_pointer := s.stack_pointer - 1,
                         counter := s.counter + 3 } ∧
    execute 7 empty_class print_sum_method [0] [] "" =
      Outcome.returned { has_value := false, value := 0 } [] "5\n" := by
  constructor
  · rw [step_invokevirtual call m cls s hop]
    simp only [case_invokevirtual, hv, Option.bind_eq_bind, Option.some_bind]
    rfl
  · decide

/-- Witness of C12: printing the top value `-12` appends the line `-12` to the output
`5` and newline written before. -/
theorem invokevirtual_prints_decimal_line_witness :
    step no_call (method_of_code [i_invokevirtual, 0x00, 0x03]) empty_class
        { operand_stack := [7, -12, 0, 0], stack_pointer := 2, counter := 0,
          ret_flag := false, locals := [], heap := [], out := "5\n" } =
      Step.cont { operand_stack := [7, -12, 0, 0], stack_pointer := 1, counter := 3,
                  ret_flag := false, locals := [], heap := [], out := "5\n-12\n" } := by
  have h := (invokevirtual_prints_decimal_line no_call
    (method_of_code [i_invokevirtual, 0x00, 0x03]) empty_class
    { operand_stack := [7, -12, 0, 0], stack_pointer := 2, counter := 0,
      ret_flag := false, locals := [], heap := [], out := "5\n" } (-12)
    (by decide) (by decide)).1
  rw [h]
  decide

/-- C13: on a non-empty stack with top `v`, `ireturn` and `areturn` leave `execute` at
once with the optional value `has_value = true`, `value = v`, whatever instructions
follow and whatever else is on the stack: the pass of the loop ends in that `return`,
and so does every activation whose first `k` passes lead to this state. -/
theorem ireturn_areturn_return_top
    (call : method_t → List Int → heap_t → String → Outcome)
    (m : method_t) (cls : class_file_t) (s : State) (op : u1) (v : Int)
    (hop : rd m.code.code s.counter = some op)
    (hor : op = i_ireturn ∨ op = i_areturn)
    (hflag : s.ret_flag = false)
    (hv : rd s.operand_stack (s.stack_pointer - 1) = some v) :
    step call m cls s =
      Step.stop (Outcome.returned { has_value := true, value := v } s.heap s.out) ∧
    (∀ fuel : Nat, loop call m cls (fuel + 1) s =
      Outcome.returned { has_value := true, value := v } s.heap s.out) ∧
    (∀ (locals : List Int) (heap : heap_t) (out : String) (k F : Nat), k ≤ F →
      passes (execute F cls) m cls k (initial_state m locals heap out) = some s →
      execute (F + 1) cls m locals heap out =
        Outcome.returned { has_value := true, value := v } s.heap s.out) := by
  have hstep : ∀ c : method_t → List Int → heap_t → String → Outcome,
      step c m cls s =
        Step.stop (Outcome.returned { has_value := true, value := v } s.heap s.out) := by
    intro c
    rcases hor with e | e
    · subst e
      rw [step_ireturn c m cls s hop]
      simp only [case_ireturn, hv]
    · subst e
      rw [step_areturn c m cls s hop]
      simp only [case_ireturn, hv]
  have hc : s.counter < (m.code.code.length : Int) := by
    have := rd_lt_length hop
    omega
  have hloop : ∀ (c : method_t → List Int → heap_t → String → Outcome) (fuel : Nat),
      loop c m cls (fuel + 1) s =
        Outcome.returned { has_value := true, value := v } s.heap s.out := by
    intro c fuel
    exact loop_stop fuel (hstep c) (decide_eq_true hc) hflag
  refine ⟨hstep call, hloop call, ?_⟩
  intro locals heap out k F hF hp
  have e : F + 1 = k + ((F - k) + 1) := by omega
  rw [execute_of_passes cls m locals heap out k F s hp _ e]
  exact hloop _ _

/-- Witness of C13: `ireturn` with 9 on top of a stack of depth two returns 9 although
more instructions follow. -/
theorem ireturn_areturn_return_top_witness :
    loop no_call (method_of_code [i_ireturn, i_iconst_5, i_ireturn]) empty_class 1
        (frame_at [4, 9, 0, 0] 2 0 []) =
      Outcome.returned { has_value := true, value := 9 } [] "" :=
  (ireturn_areturn_return_top no_call (method_of_code [i_ireturn, i_iconst_5, i_ireturn])
    empty_class (frame_at [4, 9, 0, 0] 2 0 []) i_ireturn 9
    (by decide) (by decide) (by decide) (by decide)).2.1 0

/-- C14: the `return` opcode only sets `ret_flag`, so the loop is left before the next
pass and `execute` returns no value (`has_value = false`), however many values remain
on the operand stack and whatever instructions follow. -/
theorem return_ends_frame_without_value
    (call : method_t → List Int → heap_t → String → Outcome)
    (m : method_t) (cls : class_file_t) (s : State)
    (hop : rd m.code.code s.counter = some i_return)
    (hflag : s.ret_flag = false) :
    step call m cls s = Step.cont { s with ret_flag := true } ∧
    (∀ fuel : Nat, loop call m cls (fuel + 2) s =
      Outcome.returned { has_value := false, value := 0 } s.heap s.out) ∧
    (∀ (locals : List Int) (heap : heap_t) (out : String) (k F : Nat), k < F →
      passes (execute F cls) m cls k (initial_state m locals heap out) = some s →
      execute (F + 1) cls m locals heap out =
        Outcome.returned { has_value := false, value := 0 } s.heap s.out) := by
  have hstep : ∀ c : method_t → List Int → heap_t → String → Outcome,
      step c m cls s = Step.cont { s with ret_flag := true } := by
    intro c
    rw [step_return c m cls s hop]
    rfl
  have hc : s.counter < (m.code.code.length : Int) := by
    have := rd_lt_length hop
    omega
  have hloop : ∀ (c : method_t → List Int → heap_t → String → Outcome) (fuel : Nat),
      loop c m cls (fuel + 2) s =
        Outcome.returned { has_value := false, value := 0 } s.heap s.out := by
    intro c fuel
    rw [loop_cont (fuel + 1) (hstep c) (decide_eq_true hc) hflag]
    exact loop_exit c m cls _ fuel (by simp)
  refine ⟨hstep call, hloop call, ?_⟩
  intro locals heap out k F hF hp
  have e : F + 1 = k + ((F - k - 1) + 2) := by omega
  rw [execute_of_passes cls m locals heap out k F s hp _ e]
  exact hloop _ _

/-- Witness of C14: `return` with three values on the stack and more instructions
behind it ends the activation with no value. -/
theorem return_ends_frame_without_value_witness :
    loop no_call (method_of_code [i_return, i_iconst_5, i_ireturn]) empty_class 2
        (frame_at [4, 9, 1, 0] 3 0 []) =
      Outcome.returned { has_value := false, value := 0 } [] "" :=
  (return_ends_frame_without_value no_call
    (method_of_code [i_return, i_iconst_5, i_ireturn])
    empty_class (frame_at [4, 9, 1, 0] 3 0 []) (by decide) (by decide)).2.1 0

/-- An opcode without a `case` label takes the `default` branch. -/
theorem step_default (call : method_t → List Int → heap_t → String → Outcome)
    (m : method_t) (cls : class_file_t) (s : State) (op : u1)
    (hop : rd m.code.code s.counter = some op) (hun : op ∉ handled_opcodes) :
    step call m cls s = Step.cont s := by
  unfold step
  rw [hop]
  simp only [handled_opcodes, List.mem_cons, List.mem_singleton, List.not_mem_nil,
    not_or, or_false] at hun
  simp only [hun, or_self, if_false]

/-- A state whose pass changes nothing is never left: the loop uses up any fuel. -/
theorem loop_stuck (call : method_t → List Int → heap_t → String → Outcome)
    (m : method_t) (cls : class_file_t) (s : State)
    (hc : s.counter < (m.code.code.length : Int)) (hflag : s.ret_flag = false)
    (hs : step call m cls s = Step.cont s) :
    ∀ fuel : Nat, loop call m cls fuel s = Outcome.timeout := by
  intro fuel
  induction fuel with
  | zero => rfl
  | succ n ih => rw [loop_cont n hs (decide_eq_true hc) hflag, ih]

/-- A state whose pass changes nothing is the state after any number of passes. -/
theorem passes_stuck (call : method_t → List Int → heap_t → String → Outcome)
    (m : method_t) (cls : class_file_t) (s : State)
    (hc : s.counter < (m.code.code.length : Int)) (hflag : s.ret_flag = false)
    (hs : step call m cls s = Step.cont s) :
    ∀ n : Nat, passes call m cls n s = some s := by
  intro n
  induction n with
  | zero => rfl
  | succ n ih => simp only [passes, hc, hflag, hs, and_self, if_true, ih]

/-- C15: when the program counter points at a byte that is not a handled opcode, one
pass of the loop raises no error and leaves the whole state (stack, locals, heap,
output and also the program counter) as it is; so the state after any number of
further passes is the same state, the loop uses up any fuel, and `execute` never
returns on a method that starts with such a byte. -/
theorem unknown_opcode_is_skipped_forever
    (call : method_t → List Int → heap_t → String → Outcome)
    (m : method_t) (cls : class_file_t) (s : State) (op : u1)
    (hop : rd m.code.code s.counter = some op) (hun : op ∉ handled_opcodes)
    (hflag : s.ret_flag = false) :
    step call m cls s = Step.cont s ∧
    (∀ n : Nat, passes call m cls n s = some s) ∧
    (∀ fuel : Nat, loop call m cls fuel s = Outcome.timeout) ∧
    (∀ (locals : List Int) (heap : heap_t) (out : String),
      s = initial_state m locals heap out →
      ∀ fuel : Nat, execute fuel cls m locals heap out = Outcome.timeout) := by
  have hstep : ∀ c : method_t → List Int → heap_t → String → Outcome,
      step c m cls s = Step.cont s := fun c => step_default c m cls s op hop hun
  have hc : s.counter < (m.code.code.length : Int) := by
    have := rd_lt_length hop
    omega
  refine ⟨hstep call, passes_stuck call m cls s hc hflag (hstep call),
    loop_stuck call m cls s hc hflag (hstep call), ?_⟩
  intro locals heap out hs fuel
  cases fuel with
  | zero => rfl
  | succ n =>
    rw [execute_succ, ← hs]
    exact loop_stuck _ m cls s hc hflag (hstep _) (n + 1)

/-- Witness of C15: the byte `0x01` has no case; a method that starts with it keeps its
initial state and `execute` runs out of any fuel, here 1000. -/
theorem unknown_opcode_is_skipped_forever_witness :
    step no_call (method_of_code [0x01, i_return]) empty_class
        (initial_state (method_of_code [0x01, i_return]) [0, 0, 0, 0] [] "") =
      Step.cont (initial_state (method_of_code [0x01, i_return]) [0, 0, 0, 0] [] "") ∧
    execute 1000 empty_class (method_of_code [0x01, i_return]) [0, 0, 0, 0] [] "" =
      Outcome.timeout := by
  have h := unknown_opcode_is_skipped_forever no_call (method_of_code [0x01, i_return])
    empty_class (initial_state (method_of_code [0x01, i_return]) [0, 0, 0, 0] [] "") 0x01
    (by decide) (by decide) (by decide)
  exact ⟨h.1, h.2.2.2 [0, 0, 0, 0] [] "" rfl 1000⟩

/-- The loads `aload k`, `aload_<k>` do in every state what `iload k`, `iload_<k>` do,
and on a non-empty stack `astore k`, `astore_<k>` do what `istore k`, `istore_<k>` do. -/
theorem aload_astore_agree_where_guarded (m : method_t) (s : State) :
    case_aload m s = case_iload m s ∧
    case_aload_n i_aload_0 s = case_iload_n i_iload_0 s ∧
    case_aload_n i_aload_1 s = case_iload_n i_iload_1 s ∧
    case_aload_n i_aload_2 s = case_iload_n i_iload_2 s ∧
    case_aload_n i_aload_3 s = case_iload_n i_iload_3 s ∧
    (0 < s.stack_pointer →
      case_astore m s = case_istore m s ∧
      case_astore_n i_astore_0 s = case_istore_n i_istore_0 s ∧
      case_astore_n i_astore_1 s = case_istore_n i_istore_1 s ∧
      case_astore_n i_astore_2 s = case_istore_n i_istore_2 s ∧
      case_astore_n i_astore_3 s = case_istore_n i_istore_3 s) := by
  have e2 : s.counter + 1 + 1 = s.counter + 2 := by ring
  refine ⟨?_, rfl, rfl, rfl, rfl, ?_⟩
  · simp only [case_aload, case_iload, e2]
  · intro hsp
    have h1 : 1 ≤ s.stack_pointer := by omega
    refine ⟨?_, ?_, ?_, ?_, ?_⟩
    · simp only [case_astore, case_istore, hsp, if_true, e2]
    · simp only [case_astore_n, case_istore_n, h1, if_true]
      rfl
    · simp only [case_astore_n, case_istore_n, h1, if_true]
      rfl
    · simp only [case_astore_n, case_istore_n, h1, if_true]
      rfl
    · simp only [case_astore_n, case_istore_n, h1, if_true]
      rfl

/-- C16, at the failing input: on an empty operand stack `istore_0` and `istore 0` are
guarded and only advance the program counter by one, whereas `astore_0` and `astore 0`
decrement the stack pointer without a guard and read `operand_stack[-1]`, which is
outside the buffer; so `astore` does not have the effect of `istore` there. -/
theorem astore_on_empty_stack_differs_from_istore :
    step no_call (method_of_code [i_istore_0]) empty_class (frame_at [0, 0, 0, 0] 0 0 [5]) =
      Step.cont (frame_at [0, 0, 0, 0] 0 1 [5]) ∧
    step no_call (method_of_code [i_astore_0]) empty_class (frame_at [0, 0, 0, 0] 0 0 [5]) =
      Step.stop Outcome.undefined ∧
    step no_call (method_of_code [i_istore, 0x00]) empty_class
        (frame_at [0, 0, 0, 0] 0 0 [5]) =
      Step.cont (frame_at [0, 0, 0, 0] 0 1 [5]) ∧
    step no_call (method_of_code [i_astore, 0x00]) empty_class
        (frame_at [0, 0, 0, 0] 0 0 [5]) =
      Step.stop Outcome.undefined := by
  decide

/-- Writing to the slot at the stack pointer when the buffer has room. -/
theorem wr_at_stack_pointer (s : State) (v : Int) (h0 : 0 ≤ s.stack_pointer)
    (h1 : s.stack_pointer < (s.operand_stack.length : Int)) :
    wr s.operand_stack s.stack_pointer v =
      some (s.operand_stack.set s.stack_pointer.toNat v) := by
  unfold wr
  rw [if_pos ⟨h0, by omega⟩]

/-- The slot below the new stack pointer after a push. -/
theorem rd_top_after_push (s : State) (v : Int) (h0 : 0 ≤ s.stack_pointer)
    (h1 : s.stack_pointer < (s.operand_stack.length : Int)) :
    rd (s.operand_stack.set s.stack_pointer.toNat v) (s.stack_pointer + 1 - 1) =
      some v := by
  rw [Int.add_sub_cancel]
  exact rd_set_same _ _ _ h0 (by omega)

/-- C17: for every operand byte `b`, `bipush` pushes `b` if `b < 128` and `b - 256`
otherwise (the byte sign-extended), increases the stack depth by one (the frame has a
free slot), keeps the slots below and the locals, and advances the program counter
by 2. -/
theorem bipush_pushes_sign_extended_byte
    (call : method_t → List Int → heap_t → String → Outcome)
    (m : method_t) (cls : class_file_t) (s : State) (b : u1)
    (hop : rd m.code.code s.counter = some i_bipush)
    (hb : rd m.code.code (s.counter + 1) = some b)
    (h0 : 0 ≤ s.stack_pointer)
    (h1 : s.stack_pointer < (s.operand_stack.length : Int)) :
    ∃ s', step call m cls s = Step.cont s' ∧
      s'.stack_pointer = s.stack_pointer + 1 ∧
      rd s'.operand_stack (s'.stack_pointer - 1) =
        some (if b.val < 128 then (b.val : Int) else (b.val : Int) - 256) ∧
      (∀ i : Int, i < s.stack_pointer → rd s'.operand_stack i = rd s.operand_stack i) ∧
      s'.operand_stack.length = s.operand_stack.length ∧
      s'.counter = s.counter + 2 ∧ s'.locals = s.locals ∧ s'.heap = s.heap ∧
      s'.out = s.out ∧ s'.ret_flag = s.ret_flag := by
  have hval : to_int8 (b.val : Int) =
      (if b.val < 128 then (b.val : Int) else (b.val : Int) - 256) := by
    have := b.isLt
    unfold to_int8
    split <;> omega
  refine ⟨{ s with
            operand_stack := s.operand_stack.set s.stack_pointer.toNat (to_int8 (b.val : Int)),
            stack_pointer := s.stack_pointer + 1,
            counter := s.counter + 1 + 1 }, ?_, rfl, ?_, ?_, ?_, ?_, rfl, rfl, rfl, rfl⟩
  · rw [step_bipush call m cls s hop]
    simp only [case_bipush, hb, wr_at_stack_pointer s _ h0 h1, Option.bind_eq_bind,
      Option.some_bind]
    rfl
  · rw [← hval]
    exact rd_top_after_push s _ h0 h1
  · intro i hi
    exact rd_set_ne _ _ _ _ h0 (by omega)
  · simp
  · show s.counter + 1 + 1 = s.counter + 2
    ring

/-- Witness of C17: `bipush 0xf0` pushes `-16` and `bipush 0x7f` pushes `127`. -/
theorem bipush_pushes_sign_extended_byte_witness :
    (∃ s', step no_call (method_of_code [i_bipush, 0xf0]) empty_class
          (frame_at [3, 0, 0, 0] 1 0 []) = Step.cont s' ∧
        s'.stack_pointer = 2 ∧ rd s'.operand_stack 1 = some (-16) ∧ s'.counter = 2) ∧
    (∃ s', step no_call (method_of_code [i_bipush, 0x7f]) empty_class
          (frame_at [3, 0, 0, 0] 1 0 []) = Step.cont s' ∧
        s'.stack_pointer = 2 ∧ rd s'.operand_stack 1 = some 127 ∧ s'.counter = 2) := by
  constructor
  · obtain ⟨s', h1, h2, h3, _, _, h6, _⟩ :=
      bipush_pushes_sign_extended_byte no_call (method_of_code [i_bipush, 0xf0]) empty_class
        (frame_at [3, 0, 0, 0] 1 0 []) 0xf0 (by decide) (by decide) (by decide) (by decide)
    rw [h2] at h3
    exact ⟨s', h1, h2, h3, h6⟩
  · obtain ⟨s', h1, h2, h3, _, _, h6, _⟩ :=
      bipush_pushes_sign_extended_byte no_call (method_of_code [i_bipush, 0x7f]) empty_class
        (frame_at [3, 0, 0, 0] 1 0 []) 0x7f (by decide) (by decide) (by decide) (by decide)
    rw [h2] at h3
    exact ⟨s', h1, h2, h3, h6⟩

/-- C18: for every pair of operand bytes `hi`, `lo`, `sipush` pushes `u = hi * 256 + lo`
if `u < 32768` and `u - 65536` otherwise (the big-endian 16-bit operand sign-extended),
increases the stack depth by one (the frame has a free slot), keeps the slots below and
the locals, and advances the program counter by 3. -/
theorem sipush_pushes_sign_extended_short
    (call : method_t → List Int → heap_t → String → Outcome)
    (m : method_t) (cls : class_file_t) (s : State) (hi lo : u1)
    (hop : rd m.code.code s.counter = some i_sipush)
    (hhi : rd m.code.code (s.counter + 1) = some hi)
    (hlo : rd m.code.code (s.counter + 2) = some lo)
    (h0 : 0 ≤ s.stack_pointer)
    (h1 : s.stack_pointer < (s.operand_stack.length : Int)) :
    ∃ s', step call m cls s = Step.cont s' ∧
      s'.stack_pointer = s.stack_pointer + 1 ∧
      rd s'.operand_stack (s'.stack_pointer - 1) =
        some (if hi.val * 256 + lo.val < 32768 then (hi.val * 256 + lo.val : Int)
              else (hi.val * 256 + lo.val : Int) - 65536) ∧
      (∀ i : Int, i < s.stack_pointer → rd s'.operand_stack i = rd s.operand_stack i) ∧
      s'.operand_stack.length = s.operand_stack.length ∧
      s'.counter = s.counter + 3 ∧ s'.locals = s.locals ∧ s'.heap = s.heap ∧
      s'.out = s.out ∧ s'.ret_flag = s.ret_flag := by
  refine ⟨{ s with
            operand_stack := s.operand_stack.set s.stack_pointer.toNat (operand16 hi lo),
            stack_pointer := s.stack_pointer + 1,
            counter := s.counter + 3 }, ?_, rfl, ?_, ?_, ?_, rfl, rfl, rfl, rfl, rfl⟩
  · rw [step_sipush call m cls s hop]
    simp only [case_sipush, hhi, hlo, wr_at_stack_pointer s _ h0 h1, Option.bind_eq_bind,
      Option.some_bind]
    rfl
  · have e := operand16_eq_signed16 hi lo
    unfold signed16 at e
    rw [← e]
    exact rd_top_after_push s _ h0 h1
  · intro i hi'
    exact rd_set_ne _ _ _ _ h0 (by omega)
  · simp

/-- Witness of C18: `sipush 0xff 0x38` pushes `-200` and `sipush 0x01 0x2c` pushes
`300`. -/
theorem sipush_pushes_sign_extended_short_witness :
    (∃ s', step no_call (method_of_code [i_sipush, 0xff, 0x38]) empty_class
          (frame_at [3, 0, 0, 0] 1 0 []) = Step.cont s' ∧
        s'.stack_pointer = 2 ∧ rd s'.operand_stack 1 = some (-200) ∧ s'.counter = 3) ∧
    (∃ s', step no_call (method_of_code [i_sipush, 0x01, 0x2c]) empty_class
          (frame_at [3, 0, 0, 0] 1 0 []) = Step.cont s' ∧
        s'.stack_pointer = 2 ∧ rd s'.operand_stack 1 = some 300 ∧ s'.counter = 3) := by
  constructor
  · obtain ⟨s', h1, h2, h3, _, _, h6, _⟩ :=
      sipush_pushes_sign_extended_short no_call (method_of_code [i_sipush, 0xff, 0x38])
        empty_class (frame_at [3, 0, 0, 0] 1 0 []) 0xff 0x38
        (by decide) (by decide) (by decide) (by decide) (by decide)
    rw [h2] at h3
    exact ⟨s', h1, h2, h3, h6⟩
  · obtain ⟨s', h1, h2, h3, _, _, h6, _⟩ :=
      sipush_pushes_sign_extended_short no_call (method_of_code [i_sipush, 0x01, 0x2c])
        empty_class (frame_at [3, 0, 0, 0] 1 0 []) 0x01 0x2c
        (by decide) (by decide) (by decide) (by decide) (by decide)
    rw [h2] at h3
    exact ⟨s', h1, h2, h3, h6⟩

/-- The unsigned shift `(u4) v >> k` is the floor of `(v mod 2^32) / 2^k`. -/
theorem u4_shiftRight_eq (v : Int) (k : Nat) :
    ((((to_u4 v).toNat >>> k : Nat) : Int)) = (v % 2 ^ 32) / 2 ^ k := by
  have hnn : 0 ≤ v % 2 ^ 32 := Int.emod_nonneg v (by norm_num)
  unfold to_u4
  rw [Nat.shiftRight_eq_div_pow, Int.natCast_div, Int.toNat_of_nonneg hnn, Nat.cast_pow]
  rfl

/-- The arithmetic shift `v >> k` is the floor of `v / 2^k`. -/
theorem int_shiftRight_eq (v : Int) (k : Nat) : v >>> k = v / 2 ^ k := by
  rw [Int.shiftRight_eq_div_pow]
  push_cast
  rfl

/-- Floor property of integer division by a power of two. -/
theorem ediv_two_pow_floor (x : Int) (k : Nat) :
    x / 2 ^ k * 2 ^ k ≤ x ∧ x < (x / 2 ^ k + 1) * 2 ^ k := by
  have hp : (0 : Int) < 2 ^ k := by positivity
  exact ⟨Int.ediv_mul_le x (ne_of_gt hp), Int.lt_ediv_add_one_mul_self x hp⟩

/-- C19: with the value `v` second from the top and the shift amount `sh`,
`0 ≤ sh ≤ 31`, on top, `iushr` pushes the floor of `(v mod 2^32) / 2^sh` reinterpreted
as a 32-bit signed integer, which for `sh ≥ 1` is that quotient itself and is
non-negative also for negative `v` (`-1 iushr 28 = 15`), whereas `ishr` pushes the floor
of `v / 2^sh`, which keeps the sign of `v`. -/
theorem iushr_is_logical_ishr_is_arithmetic
    (call : method_t → List Int → heap_t → String → Outcome)
    (m : method_t) (cls : class_file_t) (s t : State) (v sh : Int)
    (hu : rd m.code.code s.counter = some i_iushr)
    (hs : rd m.code.code t.counter = some i_ishr)
    (hsp : 2 ≤ s.stack_pointer) (htp : 2 ≤ t.stack_pointer)
    (hsv : rd s.operand_stack (s.stack_pointer - 2) = some v)
    (hss : rd s.operand_stack (s.stack_pointer - 1) = some sh)
    (htv : rd t.operand_stack (t.stack_pointer - 2) = some v)
    (hts : rd t.operand_stack (t.stack_pointer - 1) = some sh)
    (h0 : 0 ≤ sh) (h31 : sh ≤ 31) :
    ∃ s' t' ru rs, step call m cls s = Step.cont s' ∧ step call m cls t = Step.cont t' ∧
      s'.stack_pointer = s.stack_pointer - 1 ∧ t'.stack_pointer = t.stack_pointer - 1 ∧
      s'.counter = s.counter + 1 ∧ t'.counter = t.counter + 1 ∧
      rd s'.operand_stack (s'.stack_pointer - 1) = some ru ∧
      rd t'.operand_stack (t'.stack_pointer - 1) = some rs ∧
      ru = to_int32 ((v % 2 ^ 32) / 2 ^ sh.toNat) ∧
      ((v % 2 ^ 32) / 2 ^ sh.toNat * 2 ^ sh.toNat ≤ v % 2 ^ 32 ∧
        v % 2 ^ 32 < ((v % 2 ^ 32) / 2 ^ sh.toNat + 1) * 2 ^ sh.toNat) ∧
      (1 ≤ sh → ru = (v % 2 ^ 32) / 2 ^ sh.toNat ∧ 0 ≤ ru) ∧
      rs = v / 2 ^ sh.toNat ∧
      (rs * 2 ^ sh.toNat ≤ v ∧ v < (rs + 1) * 2 ^ sh.toNat) ∧
      (v < 0 → rs < 0) ∧ (0 ≤ v → 0 ≤ rs) ∧
      (v = -1 → sh = 28 → ru = 15 ∧ rs = -1) := by
  have hg : 0 ≤ sh ∧ sh < 32 := ⟨h0, by omega⟩
  have hp : (0 : Int) < 2 ^ sh.toNat := by positivity
  have hnn : 0 ≤ v % 2 ^ 32 := Int.emod_nonneg v (by norm_num)
  have hlt : v % 2 ^ 32 < 2 ^ 32 := Int.emod_lt_of_pos v (by norm_num)
  have hqu : op_iushr v sh = some (to_int32 ((v % 2 ^ 32) / 2 ^ sh.toNat)) := by
    simp only [op_iushr, hg, and_self, if_true, u4_shiftRight_eq]
  have hqs : op_ishr v sh = some (v / 2 ^ sh.toNat) := by
    simp only [op_ishr, hg, and_self, if_true, int_shiftRight_eq]
  have hq0 : 0 ≤ (v % 2 ^ 32) / 2 ^ sh.toNat := Int.ediv_nonneg hnn (le_of_lt hp)
  refine ⟨{ s with
            operand_stack := s.operand_stack.set (s.stack_pointer - 2).toNat
              (to_int32 ((v % 2 ^ 32) / 2 ^ sh.toNat)),
            stack_pointer := s.stack_pointer - 1, counter := s.counter + 1 },
    { t with
      operand_stack := t.operand_stack.set (t.stack_pointer - 2).toNat (v / 2 ^ sh.toNat),
      stack_pointer := t.stack_pointer - 1, counter := t.counter + 1 },
    to_int32 ((v % 2 ^ 32) / 2 ^ sh.toNat), v / 2 ^ sh.toNat, ?_, ?_, rfl, rfl, rfl, rfl,
    rd_top_after_binary s v _ hsv, rd_top_after_binary t v _ htv, rfl,
    ediv_two_pow_floor _ _, ?_, rfl, ediv_two_pow_floor _ _, ?_, ?_, ?_⟩
  · rw [step_iushr call m cls s hu, binary_case_eq op_iushr s v sh _ hsp hsv hss hqu]
    rfl
  · rw [step_ishr call m cls t hs, binary_case_eq op_ishr t v sh _ htp htv hts hqs]
    rfl
  · intro h1
    have h2 : (2 : Int) ≤ 2 ^ sh.toNat := by
      have : (2 : Int) ^ 1 ≤ 2 ^ sh.toNat :=
        pow_le_pow_right₀ (by norm_num) (by omega)
      simpa using this
    have hq1 : (v % 2 ^ 32) / 2 ^ sh.toNat < 2 ^ 31 :=
      Int.ediv_lt_of_lt_mul hp (by nlinarith)
    have e := to_int32_of_range _ (by omega) hq1
    rw [e]
    exact ⟨rfl, hq0⟩
  · intro hv
    exact Int.ediv_neg' hv hp
  · intro hv
    exact Int.ediv_nonneg hv (le_of_lt hp)
  · intro e1 e2
    subst e1 e2
    decide

/-- Witness of C19: on the value `-1` with shift amount 28, `iushr` pushes 15 and
`ishr` pushes `-1`. -/
theorem iushr_is_logical_ishr_is_arithmetic_witness :
    ∃ s' t', step no_call (method_of_code [i_iushr, i_ishr]) empty_class
        (frame_at [-1, 28, 0, 0] 2 0 []) = Step.cont s' ∧
      step no_call (method_of_code [i_iushr, i_ishr]) empty_class
        (frame_at [-1, 28, 0, 0] 2 1 []) = Step.cont t' ∧
      s'.stack_pointer = 1 ∧ t'.stack_pointer = 1 ∧
      rd s'.operand_stack 0 = some 15 ∧ rd t'.operand_stack 0 = some (-1) := by
  obtain ⟨s', t', ru, rs, h1, h2, h3, h4, _, _, h7, h8, _, _, _, _, _, _, _, h16⟩ :=
    iushr_is_logical_ishr_is_arithmetic no_call (method_of_code [i_iushr, i_ishr])
      empty_class (frame_at [-1, 28, 0, 0] 2 0 []) (frame_at [-1, 28, 0, 0] 2 1 [])
      (-1) 28 (by decide) (by decide) (by decide) (by decide) (by decide) (by decide)
      (by decide) (by decide) (by decide) (by decide)
  obtain ⟨hu, hs⟩ := h16 rfl rfl
  subst hu hs
  rw [h3] at h7
  rw [h4] at h8
  exact ⟨s', t', h1, h2, h3, h4, h7, h8⟩

/-- Counterexample to C20 as stated: with the value 1 and the shift amount 32 on the
stack, the C expression `1 << 32` on `int` has no defined result, so `ishl` pushes no
value at all, neither one computed from 32 nor one computed from `32 mod 32`. -/
theorem ishl_amount_32_counterexample :
    step no_call (method_of_code [i_ishl]) empty_class (frame_at [1, 32, 0, 0] 2 0 []) =
      Step.stop Outcome.undefined ∧
    ¬ ∃ s', step no_call (method_of_code [i_ishl]) empty_class
        (frame_at [1, 32, 0, 0] 2 0 []) = Step.cont s' := by
  have h : step no_call (method_of_code [i_ishl]) empty_class
      (frame_at [1, 32, 0, 0] 2 0 []) = Step.stop Outcome.undefined := by decide
  refine ⟨h, ?_⟩
  rintro ⟨s', h1⟩
  rw [h] at h1
  exact absurd h1 (by simp)

/-- C20, amended: `ishl` takes the shift amount `sh` from the top of the stack and the
value `v` below it and hands `sh` to the C shift as it is, without masking it to its
low 5 bits: for `0 ≤ sh ≤ 31` it pops both and pushes `v * 2^sh` wrapped to 32-bit
two's complement (depth minus one, program counter plus one), and for `sh` outside
`0 .. 31` the shift is undefined behaviour of C, so no result is defined. -/
theorem ishl_shifts_by_unmasked_amount
    (call : method_t → List Int → heap_t → String → Outcome)
    (m : method_t) (cls : class_file_t) (s : State) (v sh : Int)
    (hop : rd m.code.code s.counter = some i_ishl)
    (hsp : 2 ≤ s.stack_pointer)
    (hv : rd s.operand_stack (s.stack_pointer - 2) = some v)
    (hs : rd s.operand_stack (s.stack_pointer - 1) = some sh) :
    (0 ≤ sh → sh ≤ 31 →
      ∃ s', step call m cls s = Step.cont s' ∧
        s'.stack_pointer = s.stack_pointer - 1 ∧
        rd s'.operand_stack (s'.stack_pointer - 1) = some (to_int32 (v * 2 ^ sh.toNat)) ∧
        (-2 ^ 31 ≤ to_int32 (v * 2 ^ sh.toNat) ∧ to_int32 (v * 2 ^ sh.toNat) < 2 ^ 31 ∧
          to_int32 (v * 2 ^ sh.toNat) ≡ v * 2 ^ sh.toNat [ZMOD 2 ^ 32]) ∧
        (∀ i : Int, i < s.stack_pointer - 2 →
          rd s'.operand_stack i = rd s.operand_stack i) ∧
        s'.counter = s.counter + 1 ∧ s'.locals = s.locals ∧ s'.heap = s.heap ∧
        s'.out = s.out) ∧
    (sh < 0 ∨ 32 ≤ sh → step call m cls s = Step.stop Outcome.undefined) := by
  have hr := rd_lt_length hv
  constructor
  · intro h0 h31
    have hq : op_ishl v sh = some (to_int32 (v * 2 ^ sh.toNat)) := by
      have hg : 0 ≤ sh ∧ sh < 32 := ⟨h0, by omega⟩
      simp only [op_ishl, hg, and_self, if_true]
    refine ⟨{ s with
              operand_stack := s.operand_stack.set (s.stack_pointer - 2).toNat
                (to_int32 (v * 2 ^ sh.toNat)),
              stack_pointer := s.stack_pointer - 1, counter := s.counter + 1 },
      ?_, rfl, rd_top_after_binary s v _ hv,
      ⟨(to_int32_range _).1, (to_int32_range _).2, to_int32_modEq _⟩, ?_, rfl, rfl, rfl,
      rfl⟩
    · rw [step_ishl call m cls s hop, binary_case_eq op_ishl s v sh _ hsp hv hs hq]
      rfl
    · intro i hi
      exact rd_set_ne _ _ _ _ hr.1 (by omega)
  · intro hout
    have hg : ¬ (0 ≤ sh ∧ sh < 32) := by omega
    rw [step_ishl call m cls s hop]
    simp only [binary_case, hsp, hv, hs, op_ishl, hg, if_true, if_false,
      Option.bind_eq_bind, Option.some_bind, Option.none_bind]
    rfl

/-- Witness of C20: `3 ishl 4` pushes 48, `1 ishl 31` pushes `-2147483648`, and with
the shift amount 33 no result is defined. -/
theorem ishl_shifts_by_unmasked_amount_witness :
    (∃ s', step no_call (method_of_code [i_ishl]) empty_class
          (frame_at [3, 4, 0, 0] 2 0 []) = Step.cont s' ∧
        s'.stack_pointer = 1 ∧ rd s'.operand_stack 0 = some 48 ∧ s'.counter = 1) ∧
    (∃ s', step no_call (method_of_code [i_ishl]) empty_class
          (frame_at [1, 31, 0, 0] 2 0 []) = Step.cont s' ∧
        s'.stack_pointer = 1 ∧ rd s'.operand_stack 0 = some (-2147483648)) ∧
    step no_call (method_of_code [i_ishl]) empty_class (frame_at [1, 33, 0, 0] 2 0 []) =
      Step.stop Outcome.undefined := by
  refine ⟨?_, ?_, ?_⟩
  · obtain ⟨s', h1, h2, h3, _, _, h6, _⟩ :=
      (ishl_shifts_by_unmasked_amount no_call (method_of_code [i_ishl]) empty_class
        (frame_at [3, 4, 0, 0] 2 0 []) 3 4 (by decide) (by decide) (by decide)
        (by decide)).1 (by decide) (by decide)
    rw [h2] at h3
    exact ⟨s', h1, h2, h3, h6⟩
  · obtain ⟨s', h1, h2, h3, _⟩ :=
      (ishl_shifts_by_unmasked_amount no_call (method_of_code [i_ishl]) empty_class
        (frame_at [1, 31, 0, 0] 2 0 []) 1 31 (by decide) (by decide) (by decide)
        (by decide)).1 (by decide) (by decide)
    rw [h2] at h3
    exact ⟨s', h1, h2, h3⟩
  · exact (ishl_shifts_by_unmasked_amount no_call (method_of_code [i_ishl]) empty_class
      (frame_at [1, 33, 0, 0] 2 0 []) 1 33 (by decide) (by decide) (by decide)
      (by decide)).2 (Or.inr (by decide))

theorem step_iinc (call : method_t → List Int → heap_t → String → Outcome)
    (m : method_t) (cls : class_file_t) (s : State)
    (h : rd m.code.code s.counter = some i_iinc) :
    step call m cls s = Step.ofOption (case_iinc m s) := by
  unfold step
  rw [h]
  rfl

theorem step_ldc (call : method_t → List Int → heap_t → String → Outcome)
    (m : method_t) (cls : class_file_t) (s : State)
    (h : rd m.code.code s.counter = some i_ldc) :
    step call m cls s = Step.ofOption (case_ldc m cls s) := by
  unfold step
  rw [h]
  rfl

theorem step_isub (call : method_t → List Int → heap_t → String → Outcome)
    (m : method_t) (cls : class_file_t) (s : State)
    (h : rd m.code.code s.counter = some i_isub) :
    step call m cls s = Step.ofOption (binary_case op_isub s) := by
  unfold step
  rw [h]
  rfl

theorem step_imul (call : method_t → List Int → heap_t → String → Outcome)
    (m : method_t) (cls : class_file_t) (s : State)
    (h : rd m.code.code s.counter = some i_imul) :
    step call m cls s = Step.ofOption (binary_case op_imul s) := by
  unfold step
  rw [h]
  rfl

theorem step_iand (call : method_t → List Int → heap_t → String → Outcome)
    (m : method_t) (cls : class_file_t) (s : State)
    (h : rd m.code.code s.counter = some i_iand) :
    step call m cls s = Step.ofOption (binary_case op_iand s) := by
  unfold step
  rw [h]
  rfl

theorem step_ior (call : method_t → List Int → heap_t → String → Outcome)
    (m : method_t) (cls : class_file_t) (s : State)
    (h : rd m.code.code s.counter = some i_ior) :
    step call m cls s = Step.ofOption (binary_case op_ior s) := by
  unfold step
  rw [h]
  rfl

theorem step_ixor (call : method_t → List Int → heap_t → String → Outcome)
    (m : method_t) (cls : class_file_t) (s : State)
    (h : rd m.code.code s.counter = some i_ixor) :
    step call m cls s = Step.ofOption (binary_case op_ixor s) := by
  unfold step
  rw [h]
  rfl

theorem step_ineg (call : method_t → List Int → heap_t → String → Outcome)
    (m : method_t) (cls : class_file_t) (s : State)
    (h : rd m.code.code s.counter = some i_ineg) :
    step call m cls s = Step.ofOption (case_ineg s) := by
  unfold step
  rw [h]
  rfl

theorem step_dup (call : method_t → List Int → heap_t → String → Outcome)
    (m : method_t) (cls : class_file_t) (s : State)
    (h : rd m.code.code s.counter = some i_dup) :
    step call m cls s = Step.ofOption (case_dup s) := by
  unfold step
  rw [h]
  rfl

/-- C21: for a slot index `k` below `max_locals` and an operand byte `c`, `iinc k c`
replaces `locals[k]` by `locals[k]` plus `c` read as a signed 8-bit integer, wrapped to
32-bit two's complement, leaves every other locals slot and the whole operand stack
(buffer and depth) unchanged, and advances the program counter by 3. -/
theorem iinc_adds_signed_byte_in_place
    (call : method_t → List Int → heap_t → String → Outcome)
    (m : method_t) (cls : class_file_t) (s : State) (k c : u1) (v : Int)
    (hop : rd m.code.code s.counter = some i_iinc)
    (hk : rd m.code.code (s.counter + 1) = some k)
    (hc : rd m.code.code (s.counter + 2) = some c)
    (hv : rd s.locals (k.val : Int) = some v) :
    ∃ s', step call m cls s = Step.cont s' ∧
      rd s'.locals (k.val : Int) =
        some (to_int32 (v + (if c.val < 128 then (c.val : Int) else (c.val : Int) - 256))) ∧
      (∀ j : Int, j ≠ (k.val : Int) → rd s'.locals j = rd s.locals j) ∧
      s'.locals.length = s.locals.length ∧
      s'.operand_stack = s.operand_stack ∧ s'.stack_pointer = s.stack_pointer ∧
      s'.counter = s.counter + 3 ∧ s'.heap = s.heap ∧ s'.out = s.out ∧
      s'.ret_flag = s.ret_flag := by
  have hval : to_int8 (c.val : Int) =
      (if c.val < 128 then (c.val : Int) else (c.val : Int) - 256) := by
    have := c.isLt
    unfold to_int8
    split <;> omega
  have hb := rd_lt_length hv
  have e2 : s.counter + 1 + 1 = s.counter + 2 := by ring
  refine ⟨{ s with
            locals := s.locals.set (k.val : Int).toNat (to_int32 (v + to_int8 (c.val : Int))),
            counter := s.counter + 1 + 2 }, ?_, ?_, ?_, ?_, rfl, rfl, ?_, rfl, rfl, rfl⟩
  · rw [step_iinc call m cls s hop]
    simp only [case_iinc, hk, e2, hc, hv, wr_of_rd hv _, Option.bind_eq_bind,
      Option.some_bind]
    rfl
  · rw [← hval]
    exact rd_set_same _ _ _ hb.1 hb.2
  · intro j hj
    exact rd_set_ne _ _ _ _ hb.1 hj
  · simp
  · show s.counter + 1 + 2 = s.counter + 3
    ring

/-- Witness of C21: `iinc 1 0xfe` turns `locals[1] = 10` into 8 and `iinc 0 0x01` turns
`locals[0] = 2147483647` into `-2147483648`. -/
theorem iinc_adds_signed_byte_in_place_witness :
    (∃ s', step no_call (method_of_code [i_iinc, 0x01, 0xfe]) empty_class
          (frame_at [4, 0, 0, 0] 1 0 [2147483647, 10]) = Step.cont s' ∧
        s'.locals = [2147483647, 8] ∧ s'.operand_stack = [4, 0, 0, 0] ∧
        s'.stack_pointer = 1 ∧ s'.counter = 3) ∧
    (∃ s', step no_call (method_of_code [i_iinc, 0x00, 0x01]) empty_class
          (frame_at [4, 0, 0, 0] 1 0 [2147483647, 10]) = Step.cont s' ∧
        rd s'.locals 0 = some (-2147483648)) := by
  constructor
  · obtain ⟨s', h1, _, _, _, h5, h6, h7, _⟩ :=
      iinc_adds_signed_byte_in_place no_call (method_of_code [i_iinc, 0x01, 0xfe])
        empty_class (frame_at [4, 0, 0, 0] 1 0 [2147483647, 10]) 0x01 0xfe 10
        (by decide) (by decide) (by decide) (by decide)
    have hs : step no_call (method_of_code [i_iinc, 0x01, 0xfe]) empty_class
        (frame_at [4, 0, 0, 0] 1 0 [2147483647, 10]) =
        Step.cont (frame_at [4, 0, 0, 0] 1 3 [2147483647, 8]) := by decide
    rw [hs] at h1
    injection h1 with h1
    subst h1
    exact ⟨_, hs, rfl, h5, h6, h7⟩
  · obtain ⟨s', h1, h2, _⟩ :=
      iinc_adds_signed_byte_in_place no_call (method_of_code [i_iinc, 0x00, 0x01])
        empty_class (frame_at [4, 0, 0, 0] 1 0 [2147483647, 10]) 0x00 0x01 2147483647
        (by decide) (by decide) (by decide) (by decide)
    exact ⟨s', h1, h2⟩

/-- C22: for an operand byte `idx ≥ 1` whose constant-pool entry number `idx` counted
from one (`constant_pool[idx - 1]`, so `idx` is at most the pool size) is the integer
constant `c`,
`ldc` pushes `c`, increases the stack depth by one (the frame has a free slot), keeps
the slots below and the locals, and advances the program counter by 2. -/
theorem ldc_pushes_one_based_constant
    (call : method_t → List Int → heap_t → String → Outcome)
    (m : method_t) (cls : class_file_t) (s : State) (idx : u1) (c : Int)
    (hop : rd m.code.code s.counter = some i_ldc)
    (hidx : rd m.code.code (s.counter + 1) = some idx)
    (h1 : 1 ≤ idx.val)
    (hc : cls.constant_pool[idx.val - 1]? = some (cp_info.Integer c))
    (hs0 : 0 ≤ s.stack_pointer)
    (hs1 : s.stack_pointer < (s.operand_stack.length : Int)) :
    ∃ s', step call m cls s = Step.cont s' ∧
      s'.stack_pointer = s.stack_pointer + 1 ∧
      rd s'.operand_stack (s'.stack_pointer - 1) = some c ∧
      (∀ i : Int, i < s.stack_pointer → rd s'.operand_stack i = rd s.operand_stack i) ∧
      s'.operand_stack.length = s.operand_stack.length ∧
      s'.counter = s.counter + 2 ∧ s'.locals = s.locals ∧ s'.heap = s.heap ∧
      s'.out = s.out ∧ s'.ret_flag = s.ret_flag := by
  have hentry : rd cls.constant_pool ((idx.val : Int) - 1) = some (cp_info.Integer c) := by
    unfold rd
    rw [if_pos (by omega)]
    have : ((idx.val : Int) - 1).toNat = idx.val - 1 := by omega
    rw [this]
    exact hc
  refine ⟨{ s with
            operand_stack := s.operand_stack.set s.stack_pointer.toNat c,
            counter := s.counter + 1 + 1,
            stack_pointer := s.stack_pointer + 1 }, ?_, rfl, ?_, ?_, ?_, ?_, rfl, rfl, rfl,
    rfl⟩
  · rw [step_ldc call m cls s hop]
    simp only [case_ldc, hidx, hentry, wr_at_stack_pointer s _ hs0 hs1, Option.bind_eq_bind,
      Option.some_bind]
    rfl
  · exact rd_top_after_push s _ hs0 hs1
  · intro i hi
    exact rd_set_ne _ _ _ _ hs0 (by omega)
  · simp
  · show s.counter + 1 + 1 = s.counter + 2
    ring

/-- Witness of C22: with the constant pool `[other, Integer 100000, Integer (-7)]`,
`ldc 2` pushes `100000` and `ldc 3` pushes `-7`. -/
theorem ldc_pushes_one_based_constant_witness :
    (∃ s', step no_call (method_of_code [i_ldc, 0x02]) pool_class
          (frame_at [4, 0, 0, 0] 1 0 []) = Step.cont s' ∧
        s'.stack_pointer = 2 ∧ rd s'.operand_stack 1 = some 100000 ∧ s'.counter = 2) ∧
    (∃ s', step no_call (method_of_code [i_ldc, 0x03]) pool_class
          (frame_at [4, 0, 0, 0] 1 0 []) = Step.cont s' ∧
        s'.stack_pointer = 2 ∧ rd s'.operand_stack 1 = some (-7) ∧ s'.counter = 2) := by
  constructor
  · obtain ⟨s', h1, h2, h3, _, _, h6, _⟩ :=
      ldc_pushes_one_based_constant no_call (method_of_code [i_ldc, 0x02]) pool_class
        (frame_at [4, 0, 0, 0] 1 0 []) 0x02 100000 (by decide) (by decide) (by decide)
        (by decide) (by decide) (by decide)
    rw [h2] at h3
    exact ⟨s', h1, h2, h3, h6⟩
  · obtain ⟨s', h1, h2, h3, _, _, h6, _⟩ :=
      ldc_pushes_one_based_constant no_call (method_of_code [i_ldc, 0x03]) pool_class
        (frame_at [4, 0, 0, 0] 1 0 []) 0x03 (-7) (by decide) (by decide) (by decide)
        (by decide) (by decide) (by decide)
    rw [h2] at h3
    exact ⟨s', h1, h2, h3, h6⟩

/-- C24: when an `invokestatic` comes back to the loop head (its callee has returned),
the caller's locals array is, slot by slot, the one before the call, whatever the
callee did to its own locals; of the caller's frame only the stack pointer, the slot
for a returned value and the program counter change, and the heap and the output are
those the callee left. -/
theorem invokestatic_keeps_caller_locals
    (call : method_t → List Int → heap_t → String → Outcome)
    (m : method_t) (cls : class_file_t) (s s' : State)
    (hop : rd m.code.code s.counter = some i_invokestatic)
    (hstep : step call m cls s = Step.cont s') :
    s'.locals = s.locals ∧
    (∀ j : Int, rd s'.locals j = rd s.locals j) ∧
    s'.counter = s.counter + 3 ∧ s'.ret_flag = s.ret_flag ∧
    ∃ (target : method_t) (calleeLocals : List Int) (r : optional_value_t),
      call target calleeLocals s.heap s.out = Outcome.returned r s'.heap s'.out := by
  rw [step_invokestatic call m cls s hop] at hstep
  unfold case_invokestatic at hstep
  split at hstep
  · rename_i b1 b2 _ _
    split at hstep
    · exact absurd hstep (by simp)
    · rename_i target _
      dsimp only at hstep
      split at hstep
      · exact absurd hstep (by simp)
      · rename_i calleeLocals sp _
        cases hc : call target calleeLocals s.heap s.out with
        | returned r heap out =>
          rw [hc] at hstep
          simp only [finish_invokestatic] at hstep
          split at hstep
          · split at hstep
            · exact absurd hstep (by simp)
            · injection hstep with hstep
              subst hstep
              exact ⟨rfl, fun _ => rfl, rfl, rfl, target, calleeLocals, r, hc⟩
          · injection hstep with hstep
            subst hstep
            exact ⟨rfl, fun _ => rfl, rfl, rfl, target, calleeLocals, r, hc⟩
        | undefined =>
          rw [hc] at hstep
          simp only [finish_invokestatic] at hstep
          exact absurd hstep (by simp)
        | timeout =>
          rw [hc] at hstep
          simp only [finish_invokestatic] at hstep
          exact absurd hstep (by simp)
  · exact absurd hstep (by simp)

/-- Witness of C24: the callee `bump` overwrites and increments its own `locals[0]`
(`iinc 0 5; iload_0; istore_1; iload_1; ireturn`), and the caller's locals `[7, 8]` are
the same after the call, which pushed `3 + 5 = 8`. -/
theorem invokestatic_keeps_caller_locals_witness :
    step (execute 10 bump_class) (method_of_code [i_invokestatic, 0x00, 0x02]) bump_class
        (frame_at [3, 0, 0, 0] 1 0 [7, 8]) =
      Step.cont (frame_at [8, 0, 0, 0] 1 3 [7, 8]) ∧
    (frame_at [8, 0, 0, 0] 1 3 [7, 8]).locals = (frame_at [3, 0, 0, 0] 1 0 [7, 8]).locals := by
  have hs : step (execute 10 bump_class) (method_of_code [i_invokestatic, 0x00, 0x02])
      bump_class (frame_at [3, 0, 0, 0] 1 0 [7, 8]) =
      Step.cont (frame_at [8, 0, 0, 0] 1 3 [7, 8]) := by decide
  exact ⟨hs, (invokestatic_keeps_caller_locals (execute 10 bump_class)
    (method_of_code [i_invokestatic, 0x00, 0x02]) bump_class
    (frame_at [3, 0, 0, 0] 1 0 [7, 8]) (frame_at [8, 0, 0, 0] 1 3 [7, 8])
    (by decide) hs).1⟩

/-- Writing into a buffer the value the slot already holds leaves the buffer as it is. -/
theorem set_same_of_rd {α : Type} (xs : List α) (i : Int) (v : α) (h : rd xs i = some v) :
    xs.set i.toNat v = xs := by
  rw [rd_eq_some_iff] at h
  apply List.ext_getElem?
  intro j
  by_cases hj : i.toNat = j
  · subst hj
    have hlt : i.toNat < xs.length := by
      have h2 := h.2
      rw [List.getElem?_eq_some_iff] at h2
      exact h2.1
    rw [List.getElem?_set_self hlt, h.2]
  · rw [List.getElem?_set_ne hj]

/-- The fast store opcodes `0x3b + n`, `n ≤ 3`, all take the case `i_istore_0 .. 3`. -/
theorem step_istore_fast (call : method_t → List Int → heap_t → String → Outcome)
    (m : method_t) (cls : class_file_t) (s : State) (op : u1) (n : Nat)
    (h : rd m.code.code s.counter = some op) (hn : n ≤ 3) (hop : op.val = 0x3b + n) :
    step call m cls s = Step.ofOption (case_istore_n op s) := by
  have hcases : op = i_istore_0 ∨ op = i_istore_1 ∨ op = i_istore_2 ∨ op = i_istore_3 := by
    have h0 : n = 0 ∨ n = 1 ∨ n = 2 ∨ n = 3 := by omega
    rcases h0 with e | e | e | e <;> subst e
    · exact Or.inl (Fin.ext hop)
    · exact Or.inr (Or.inl (Fin.ext hop))
    · exact Or.inr (Or.inr (Or.inl (Fin.ext hop)))
    · exact Or.inr (Or.inr (Or.inr (Fin.ext hop)))
  rcases hcases with e | e | e | e <;> subst e
  · exact step_istore_0 call m cls s h
  · exact step_istore_1 call m cls s h
  · exact step_istore_2 call m cls s h
  · exact step_istore_3 call m cls s h

/-- The fast load opcodes `0x1a + n`, `n ≤ 3`, all take the case `i_iload_0 .. 3`. -/
theorem step_iload_fast (call : method_t → List Int → heap_t → String → Outcome)
    (m : method_t) (cls : class_file_t) (s : State) (op : u1) (n : Nat)
    (h : rd m.code.code s.counter = some op) (hn : n ≤ 3) (hop : op.val = 0x1a + n) :
    step call m cls s = Step.ofOption (case_iload_n op s) := by
  have hcases : op = i_iload_0 ∨ op = i_iload_1 ∨ op = i_iload_2 ∨ op = i_iload_3 := by
    have h0 : n = 0 ∨ n = 1 ∨ n = 2 ∨ n = 3 := by omega
    rcases h0 with e | e | e | e <;> subst e
    · exact Or.inl (Fin.ext hop)
    · exact Or.inr (Or.inl (Fin.ext hop))
    · exact Or.inr (Or.inr (Or.inl (Fin.ext hop)))
    · exact Or.inr (Or.inr (Or.inr (Fin.ext hop)))
  rcases hcases with e | e | e | e <;> subst e
  · exact step_iload_0 call m cls s h
  · exact step_iload_1 call m cls s h
  · exact step_iload_2 call m cls s h
  · exact step_iload_3 call m cls s h

/-- A store of the top value `v` into the locals slot `k`, by `istore k` (two bytes)
or by the case of the fast forms with `opcode - ISTORE_OFFSET = k`. -/
theorem store_top_eq (s : State) (k : Int) (v : Int)
    (hv : rd s.operand_stack (s.stack_pointer - 1) = some v)
    (hk0 : 0 ≤ k) (hk1 : k < (s.locals.length : Int)) :
    wr s.locals k v = some (s.locals.set k.toNat v) ∧ 0 < s.stack_pointer := by
  have hb := rd_lt_length hv
  refine ⟨?_, by omega⟩
  unfold wr
  rw [if_pos ⟨hk0, by omega⟩]

/-- C25: on a non-empty stack with top `v` and for a slot `k` below `max_locals`,
`istore k` followed by `iload k` leaves the operand stack exactly as it was before the
`istore` (same buffer, same depth, `v` on top), sets `locals[k] = v`, leaves every other
locals slot unchanged and advances the program counter by 4 in total; the same holds
for `istore_<n>` followed by `iload_<n>`, `n` in `0..3`, with the program counter
advanced by 2. -/
theorem istore_then_iload_restores_stack
    (call : method_t → List Int → heap_t → String → Outcome)
    (m : method_t) (cls : class_file_t) (s t : State) (k ops opl : u1) (n : Nat)
    (v w : Int)
    (hst : rd m.code.code s.counter = some i_istore)
    (hk1 : rd m.code.code (s.counter + 1) = some k)
    (hld : rd m.code.code (s.counter + 2) = some i_iload)
    (hk2 : rd m.code.code (s.counter + 3) = some k)
    (hv : rd s.operand_stack (s.stack_pointer - 1) = some v)
    (hk : k.val < s.locals.length)
    (hn : n ≤ 3) (hops : ops.val = 0x3b + n) (hopl : opl.val = 0x1a + n)
    (hts : rd m.code.code t.counter = some ops)
    (htl : rd m.code.code (t.counter + 1) = some opl)
    (hw : rd t.operand_stack (t.stack_pointer - 1) = some w)
    (htn : n < t.locals.length) :
    (∃ s1 s2, step call m cls s = Step.cont s1 ∧ step call m cls s1 = Step.cont s2 ∧
      s2.operand_stack = s.operand_stack ∧ s2.stack_pointer = s.stack_pointer ∧
      rd s2.operand_stack (s2.stack_pointer - 1) = some v ∧
      rd s2.locals (k.val : Int) = some v ∧
      (∀ j : Int, j ≠ (k.val : Int) → rd s2.locals j = rd s.locals j) ∧
      s2.locals.length = s.locals.length ∧
      s2.counter = s.counter + 4 ∧ s2.heap = s.heap ∧ s2.out = s.out) ∧
    (∃ t1 t2, step call m cls t = Step.cont t1 ∧ step call m cls t1 = Step.cont t2 ∧
      t2.operand_stack = t.operand_stack ∧ t2.stack_pointer = t.stack_pointer ∧
      rd t2.operand_stack (t2.stack_pointer - 1) = some w ∧
      rd t2.locals (n : Int) = some w ∧
      (∀ j : Int, j ≠ (n : Int) → rd t2.locals j = rd t.locals j) ∧
      t2.locals.length = t.locals.length ∧
      t2.counter = t.counter + 2 ∧ t2.heap = t.heap ∧ t2.out = t.out) := by
  constructor
  · obtain ⟨hwr, hsp⟩ := store_top_eq s (k.val : Int) v hv (by omega) (by omega)
    have hb := rd_lt_length hv
    have hkb : (k.val : Int).toNat < s.locals.length := by omega
    have e2 : s.counter + 1 + 1 = s.counter + 2 := by ring
    have e3 : s.counter + 1 + 1 + 1 = s.counter + 3 := by ring
    have hs1 : step call m cls s =
        Step.cont { s with
                    locals := s.locals.set (k.val : Int).toNat v,
                    counter := s.counter + 1 + 1,
                    stack_pointer := s.stack_pointer - 1 } := by
      rw [step_istore call m cls s hst]
      simp only [case_istore, hsp, hk1, hv, hwr, if_true, Option.bind_eq_bind,
        Option.some_bind]
      rfl
    have hrdk : rd (s.locals.set (k.val : Int).toNat v) (k.val : Int) = some v :=
      rd_set_same _ _ _ (by omega) hkb
    have hwr2 : wr s.operand_stack (s.stack_pointer - 1) v =
        some (s.operand_stack.set (s.stack_pointer - 1).toNat v) := wr_of_rd hv v
    have hs2 : step call m cls
        { s with
          locals := s.locals.set (k.val : Int).toNat v,
          counter := s.counter + 1 + 1,
          stack_pointer := s.stack_pointer - 1 } =
        Step.cont { s with
                    locals := s.locals.set (k.val : Int).toNat v,
                    counter := s.counter + 1 + 1 + 1 + 1,
                    stack_pointer := s.stack_pointer - 1 + 1 } := by
      rw [step_iload call m cls _ (by rw [← hld]; simp only [e2])]
      simp only [case_iload, e3, hk2, hrdk, hwr2, set_same_of_rd _ _ _ hv,
        Option.bind_eq_bind, Option.some_bind]
      rfl
    refine ⟨_, _, hs1, hs2, rfl, ?_, ?_, hrdk, ?_, ?_, ?_, rfl, rfl⟩
    · show s.stack_pointer - 1 + 1 = s.stack_pointer
      ring
    · show rd s.operand_stack (s.stack_pointer - 1 + 1 - 1) = some v
      rw [Int.add_sub_cancel]
      exact hv
    · intro j hj
      exact rd_set_ne _ _ _ _ (by omega) hj
    · simp
    · show s.counter + 1 + 1 + 1 + 1 = s.counter + 4
      ring
  · obtain ⟨hwr, hsp⟩ := store_top_eq t (n : Int) w hw (by omega) (by omega)
    have hb := rd_lt_length hw
    have hsp1 : 1 ≤ t.stack_pointer := by omega
    have hidx : (ops.val : Int) - (ISTORE_OFFSET.val : Int) = (n : Int) := by
      rw [hops]
      show ((0x3b + n : Nat) : Int) - ((0x3b : Nat) : Int) = (n : Int)
      omega
    have hidx2 : (opl.val : Int) - (ILOAD_OFFSET.val : Int) = (n : Int) := by
      rw [hopl]
      show ((0x1a + n : Nat) : Int) - ((0x1a : Nat) : Int) = (n : Int)
      omega
    have ht1 : step call m cls t =
        Step.cont { t with
                    locals := t.locals.set (n : Int).toNat w,
                    stack_pointer := t.stack_pointer - 1,
                    counter := t.counter + 1 } := by
      rw [step_istore_fast call m cls t ops n hts hn hops]
      simp only [case_istore_n, hsp1, hidx, hw, hwr, if_true, Option.bind_eq_bind,
        Option.some_bind]
      rfl
    have hrdn : rd (t.locals.set (n : Int).toNat w) (n : Int) = some w :=
      rd_set_same _ _ _ (by omega) (by omega)
    have hwr2 : wr t.operand_stack (t.stack_pointer - 1) w =
        some (t.operand_stack.set (t.stack_pointer - 1).toNat w) := wr_of_rd hw w
    have ht2 : step call m cls
        { t with
          locals := t.locals.set (n : Int).toNat w,
          stack_pointer := t.stack_pointer - 1,
          counter := t.counter + 1 } =
        Step.cont { t with
                    locals := t.locals.set (n : Int).toNat w,
                    counter := t.counter + 1 + 1,
                    stack_pointer := t.stack_pointer - 1 + 1 } := by
      rw [step_iload_fast call m cls _ opl n htl hn hopl]
      simp only [case_iload_n, hidx2, hrdn, hwr2, set_same_of_rd _ _ _ hw,
        Option.bind_eq_bind, Option.some_bind]
      rfl
    refine ⟨_, _, ht1, ht2, rfl, ?_, ?_, hrdn, ?_, ?_, ?_, rfl, rfl⟩
    · show t.stack_pointer - 1 + 1 = t.stack_pointer
      ring
    · show rd t.operand_stack (t.stack_pointer - 1 + 1 - 1) = some w
      rw [Int.add_sub_cancel]
      exact hw
    · intro j hj
      exact rd_set_ne _ _ _ _ (by omega) hj
    · simp
    · show t.counter + 1 + 1 = t.counter + 2
      ring

/-- Witness of C25: with 9 on top of a stack of depth two, `istore 2; iload 2` leaves
the stack as it was with `locals[2] = 9` and the program counter at 4, and
`istore_1; iload_1` does the same for `locals[1]` with the program counter advanced
by 2. -/
theorem istore_then_iload_restores_stack_witness :
    (∃ s1 s2, step no_call
          (method_of_code [i_istore, 0x02, i_iload, 0x02, i_istore_1, i_iload_1])
          empty_class (frame_at [5, 9, 0, 0] 2 0 [1, 2, 3, 4]) = Step.cont s1 ∧
        step no_call (method_of_code [i_istore, 0x02, i_iload, 0x02, i_istore_1, i_iload_1])
          empty_class s1 = Step.cont s2 ∧
        s2.operand_stack = [5, 9, 0, 0] ∧ s2.stack_pointer = 2 ∧
        rd s2.locals 2 = some 9 ∧ s2.counter = 4) ∧
    (∃ t1 t2, step no_call
          (method_of_code [i_istore, 0x02, i_iload, 0x02, i_istore_1, i_iload_1])
          empty_class (frame_at [5, 9, 0, 0] 2 4 [1, 2, 3, 4]) = Step.cont t1 ∧
        step no_call (method_of_code [i_istore, 0x02, i_iload, 0x02, i_istore_1, i_iload_1])
          empty_class t1 = Step.cont t2 ∧
        t2.operand_stack = [5, 9, 0, 0] ∧ t2.stack_pointer = 2 ∧
        rd t2.locals 1 = some 9 ∧ t2.counter = 6) := by
  obtain ⟨⟨s1, s2, a1, a2, a3, a4, _, a6, _, _, a9, _⟩,
      ⟨t1, t2, b1, b2, b3, b4, _, b6, _, _, b9, _⟩⟩ :=
    istore_then_iload_restores_stack no_call
      (method_of_code [i_istore, 0x02, i_iload, 0x02, i_istore_1, i_iload_1]) empty_class
      (frame_at [5, 9, 0, 0] 2 0 [1, 2, 3, 4]) (frame_at [5, 9, 0, 0] 2 4 [1, 2, 3, 4])
      0x02 i_istore_1 i_iload_1 1 9 9
      (by decide) (by decide) (by decide) (by decide) (by decide) (by decide) (by decide)
      (by decide) (by decide) (by decide) (by decide) (by decide) (by decide)
  exact ⟨⟨s1, s2, a1, a2, a3, a4, a6, a9⟩, ⟨t1, t2, b1, b2, b3, b4, b6, b9⟩⟩

/-- C26: let `r` refer to an array of `n` elements (`n + 1` slots, the stored length in
slot 0) and let `r`, `idx`, `v` be the three top stack values with `-1 ≤ idx < n`.
`iastore` pops exactly the three values, advances the program counter by 1 and writes
`v` into slot `idx + 1` of the array `r` only: every other slot of `r`, every other
heap array, the operand stack buffer and the locals are unchanged. For `0 ≤ idx` this
changes element `idx` and keeps the stored length; for `idx = -1` the slot written is
slot 0, so the stored length is overwritten with `v`, no bounds check being made. -/
theorem iastore_writes_one_slot
    (call : method_t → List Int → heap_t → String → Outcome)
    (m : method_t) (cls : class_file_t) (s : State) (r idx v n : Int) (arr : List Int)
    (hop : rd m.code.code s.counter = some i_iastore)
    (harr : heap_get s.heap r = some arr) (hlen : (arr.length : Int) = n + 1)
    (hn : n < 2 ^ 31) (hlo : -1 ≤ idx) (hhi : idx < n)
    (hsv : rd s.operand_stack (s.stack_pointer - 1) = some v)
    (hsi : rd s.operand_stack (s.stack_pointer - 2) = some idx)
    (hsr : rd s.operand_stack (s.stack_pointer - 3) = some r) :
    ∃ s' arr', step call m cls s = Step.cont s' ∧
      s'.stack_pointer = s.stack_pointer - 3 ∧ s'.counter = s.counter + 1 ∧
      s'.operand_stack = s.operand_stack ∧ s'.locals = s.locals ∧ s'.out = s.out ∧
      heap_get s'.heap r = some arr' ∧
      rd arr' (idx + 1) = some v ∧
      (∀ j : Int, j ≠ idx + 1 → rd arr' j = rd arr j) ∧
      arr'.length = arr.length ∧
      (0 ≤ idx → rd arr' 0 = rd arr 0) ∧
      (idx = -1 → rd arr' 0 = some v) ∧
      (∀ r' : Int, r' ≠ r → heap_get s'.heap r' = heap_get s.heap r') ∧
      s'.heap.length = s.heap.length := by
  have hidx : to_int32 (idx + 1) = idx + 1 := to_int32_of_range _ (by omega) (by omega)
  have hb0 : 0 ≤ to_int32 (idx + 1) := by omega
  have hb1 : to_int32 (idx + 1) < (arr.length : Int) := by omega
  have hr := rd_lt_length harr
  have hset : rd (arr.set (idx + 1).toNat v) (idx + 1) = some v :=
    rd_set_same _ _ _ (by omega) (by omega)
  refine ⟨{ s with
            heap := s.heap.set r.toNat (arr.set (idx + 1).toNat v),
            stack_pointer := s.stack_pointer - 3, counter := s.counter + 1 },
    arr.set (idx + 1).toNat v, ?_, rfl, rfl, rfl, rfl, rfl,
    heap_get_set_same s.heap r arr _ harr, hset, ?_, ?_, ?_, ?_, ?_, ?_⟩
  · rw [step_iastore call m cls s hop,
      case_iastore_eq s r idx v arr hsv hsi hsr harr hb0 hb1, hidx]
    rfl
  · intro j hj
    exact rd_set_ne _ _ _ _ (by omega) hj
  · simp
  · intro h0
    exact rd_set_ne _ _ _ _ (by omega) (by omega)
  · intro e
    subst e
    exact hset
  · intro r' hne
    exact heap_get_set_ne s.heap r r' _ hr.1 hne
  · simp

/-- Witness of C26: on the heap `[[2, 5, 6], [1, 9]]`, storing 77 at index 1 of the
array 0 changes its slot 2 only (length 2 and element 0 stay, the array 1 stays), and
storing 77 at index `-1` overwrites the stored length. -/
theorem iastore_writes_one_slot_witness :
    (∃ s' arr', step no_call (method_of_code [i_iastore]) empty_class
          { operand_stack := [0, 1, 77, 0], stack_pointer := 3, counter := 0,
            ret_flag := false, locals := [], heap := [[2, 5, 6], [1, 9]], out := "" } =
          Step.cont s' ∧
        s'.stack_pointer = 0 ∧ s'.counter = 1 ∧ heap_get s'.heap 0 = some arr' ∧
        rd arr' 2 = some 77 ∧ rd arr' 1 = some 5 ∧ rd arr' 0 = some 2 ∧
        heap_get s'.heap 1 = some [1, 9]) ∧
    (∃ t' arr', step no_call (method_of_code [i_iastore]) empty_class
          { operand_stack := [0, -1, 77, 0], stack_pointer := 3, counter := 0,
            ret_flag := false, locals := [], heap := [[2, 5, 6], [1, 9]], out := "" } =
          Step.cont t' ∧
        heap_get t'.heap 0 = some arr' ∧ rd arr' 0 = some 77) := by
  constructor
  · obtain ⟨s', arr', h1, h2, h3, _, _, _, h7, h8, h9, _, h11, _, h13, _⟩ :=
      iastore_writes_one_slot no_call (method_of_code [i_iastore]) empty_class
        { operand_stack := [0, 1, 77, 0], stack_pointer := 3, counter := 0,
          ret_flag := false, locals := [], heap := [[2, 5, 6], [1, 9]], out := "" }
        0 1 77 2 [2, 5, 6] (by decide) (by decide) (by decide) (by decide) (by decide)
        (by decide) (by decide) (by decide) (by decide)
    exact ⟨s', arr', h1, h2, h3, h7, h8, (h9 1 (by decide)).trans (by decide),
      (h11 (by decide)).trans (by decide), (h13 1 (by decide)).trans (by decide)⟩
  · obtain ⟨t', arr', g1, _, _, _, _, _, g7, _, _, _, _, g12, _⟩ :=
      iastore_writes_one_slot no_call (method_of_code [i_iastore]) empty_class
        { operand_stack := [0, -1, 77, 0], stack_pointer := 3, counter := 0,
          ret_flag := false, locals := [], heap := [[2, 5, 6], [1, 9]], out := "" }
        0 (-1) 77 2 [2, 5, 6] (by decide) (by decide) (by decide) (by decide) (by decide)
        (by decide) (by decide) (by decide) (by decide)
    exact ⟨t', arr', g1, g7, g12 rfl⟩

/-- A binary case on a stack of depth below two only advances the program counter,
whatever the operator: the operator is not applied and no slot is read. -/
theorem binary_case_underflow (op : Int → Int → Option Int) (s : State)
    (hsp : s.stack_pointer < 2) :
    binary_case op s = some { s with counter := s.counter + 1 } := by
  have h : ¬ (2 ≤ s.stack_pointer) := by omega
  simp only [binary_case, h, if_false]

/-- Every opcode of `binary_opcodes` is dispatched to `binary_case` with some operator. -/
theorem step_binary (call : method_t → List Int → heap_t → String → Outcome)
    (m : method_t) (cls : class_file_t) (s : State) (op : u1)
    (hop : rd m.code.code s.counter = some op) (hmem : op ∈ binary_opcodes) :
    ∃ f : Int → Int → Option Int, step call m cls s = Step.ofOption (binary_case f s) := by
  simp only [binary_opcodes, List.mem_cons, List.mem_singleton, List.not_mem_nil,
    or_false] at hmem
  rcases hmem with e | e | e | e | e | e | e | e | e | e | e <;> subst e
  · exact ⟨op_iadd, step_iadd call m cls s hop⟩
  · exact ⟨op_isub, step_isub call m cls s hop⟩
  · exact ⟨op_imul, step_imul call m cls s hop⟩
  · exact ⟨op_idiv, step_idiv call m cls s hop⟩
  · exact ⟨op_irem, step_irem call m cls s hop⟩
  · exact ⟨op_ishl, step_ishl call m cls s hop⟩
  · exact ⟨op_ishr, step_ishr call m cls s hop⟩
  · exact ⟨op_iushr, step_iushr call m cls s hop⟩
  · exact ⟨op_iand, step_iand call m cls s hop⟩
  · exact ⟨op_ior, step_ior call m cls s hop⟩
  · exact ⟨op_ixor, step_ixor call m cls s hop⟩

/-- C28: each binary opcode (`iadd`, `isub`, `imul`, `idiv`, `irem`, `ishl`, `ishr`,
`iushr`, `iand`, `ior`, `ixor`) executed with stack depth below 2, and `ineg` executed
with depth 0, leaves the operand stack (buffer and depth), the locals and everything
else unchanged and only advances the program counter by 1; the step is defined, so no
slot outside the buffer is touched and no division is evaluated. -/
theorem guarded_opcodes_skip_on_underflow
    (call : method_t → List Int → heap_t → String → Outcome)
    (m : method_t) (cls : class_file_t) (s : State) (op : u1)
    (hop : rd m.code.code s.counter = some op)
    (hcase : (op ∈ binary_opcodes ∧ s.stack_pointer < 2) ∨
      (op = i_ineg ∧ s.stack_pointer < 1)) :
    step call m cls s = Step.cont { s with counter := s.counter + 1 } := by
  rcases hcase with ⟨hmem, hsp⟩ | ⟨e, hsp⟩
  · obtain ⟨f, hf⟩ := step_binary call m cls s op hop hmem
    rw [hf, binary_case_underflow f s hsp]
    rfl
  · subst e
    have h : ¬ (1 ≤ s.stack_pointer) := by omega
    rw [step_ineg call m cls s hop]
    simp only [case_ineg, h, if_false]
    rfl

/-- Witness of C28: `idiv` with the single value 0 on the stack, and `ineg` on an empty
stack, only advance the program counter. -/
theorem guarded_opcodes_skip_on_underflow_witness :
    step no_call (method_of_code [i_idiv, i_ineg]) empty_class
        (frame_at [0, 0, 0, 0] 1 0 [3]) = Step.cont (frame_at [0, 0, 0, 0] 1 1 [3]) ∧
    step no_call (method_of_code [i_idiv, i_ineg]) empty_class
        (frame_at [0, 0, 0, 0] 0 1 [3]) = Step.cont (frame_at [0, 0, 0, 0] 0 2 [3]) := by
  have h1 := guarded_opcodes_skip_on_underflow no_call (method_of_code [i_idiv, i_ineg])
    empty_class (frame_at [0, 0, 0, 0] 1 0 [3]) i_idiv (by decide)
    (Or.inl ⟨by decide, by decide⟩)
  have h2 := guarded_opcodes_skip_on_underflow no_call (method_of_code [i_idiv, i_ineg])
    empty_class (frame_at [0, 0, 0, 0] 0 1 [3]) i_ineg (by decide)
    (Or.inr ⟨rfl, by decide⟩)
  rw [h1, h2]
  decide

/-- C29: on an empty operand stack the two-byte instruction `istore k` leaves stack and
locals unchanged and advances the program counter by 1 only, so that the next opcode
fetched is the operand byte `k`; on a non-empty stack with top `v` (and `k` below
`max_locals`) it stores `v`, pops it and advances the program counter by 2. The
one-byte forms `istore_0 .. istore_3` on an empty stack leave stack and locals
unchanged and advance the program counter by 1. -/
theorem istore_on_empty_stack_advances_by_one
    (call : method_t → List Int → heap_t → String → Outcome)
    (m : method_t) (cls : class_file_t) (s : State) (op : u1)
    (hop : rd m.code.code s.counter = some op) :
    (op = i_istore → s.stack_pointer = 0 →
      step call m cls s = Step.cont { s with counter := s.counter + 1 } ∧
      ∀ k : u1, rd m.code.code (s.counter + 1) = some k →
        rd m.code.code ({ s with counter := s.counter + 1 } : State).counter = some k) ∧
    (op = i_istore → ∀ (k : u1) (v : Int), rd m.code.code (s.counter + 1) = some k →
      rd s.operand_stack (s.stack_pointer - 1) = some v → k.val < s.locals.length →
      step call m cls s =
        Step.cont { s with
                    locals := s.locals.set k.val v,
                    counter := s.counter + 2,
                    stack_pointer := s.stack_pointer - 1 }) ∧
    (op = i_istore_0 ∨ op = i_istore_1 ∨ op = i_istore_2 ∨ op = i_istore_3 →
      s.stack_pointer = 0 →
      step call m cls s = Step.cont { s with counter := s.counter + 1 }) := by
  refine ⟨?_, ?_, ?_⟩
  · intro e hsp
    subst e
    have h : ¬ (0 < s.stack_pointer) := by omega
    refine ⟨?_, fun k hk => hk⟩
    rw [step_istore call m cls s hop]
    simp only [case_istore, h, if_false]
    rfl
  · intro e k v hk hv hkl
    subst e
    obtain ⟨hwr, hsp⟩ := store_top_eq s (k.val : Int) v hv (by omega) (by omega)
    have e2 : s.counter + 1 + 1 = s.counter + 2 := by ring
    rw [step_istore call m cls s hop]
    simp only [case_istore, hsp, hk, hv, hwr, if_true, Option.bind_eq_bind,
      Option.some_bind, e2, Int.toNat_ofNat]
    rfl
  · intro e hsp
    have h : ¬ (1 ≤ s.stack_pointer) := by omega
    have hd : step call m cls s = Step.ofOption (case_istore_n op s) := by
      rcases e with e | e | e | e <;> subst e
      · exact step_istore_0 call m cls s hop
      · exact step_istore_1 call m cls s hop
      · exact step_istore_2 call m cls s hop
      · exact step_istore_3 call m cls s hop
    rw [hd]
    simp only [case_istore_n, h, if_false]
    rfl

/-- Witness of C29: `istore 4` on an empty stack moves the program counter from 0 to 1,
where the operand byte `0x04` is then executed as `iconst_1`; on a stack with top 9 the
same instruction stores 9 into `locals[4]` and moves the program counter to 2. -/
theorem istore_on_empty_stack_advances_by_one_witness :
    step no_call (method_of_code [i_istore, 0x04]) empty_class
        (frame_at [0, 0, 0, 0] 0 0 [0, 0, 0, 0, 0]) =
      Step.cont (frame_at [0, 0, 0, 0] 0 1 [0, 0, 0, 0, 0]) ∧
    step no_call (method_of_code [i_istore, 0x04]) empty_class
        (frame_at [0, 0, 0, 0] 0 1 [0, 0, 0, 0, 0]) =
      Step.cont (frame_at [1, 0, 0, 0] 1 2 [0, 0, 0, 0, 0]) ∧
    step no_call (method_of_code [i_istore, 0x04]) empty_class
        (frame_at [9, 0, 0, 0] 1 0 [0, 0, 0, 0, 0]) =
      Step.cont (frame_at [9, 0, 0, 0] 0 2 [0, 0, 0, 0, 9]) := by
  have h := istore_on_empty_stack_advances_by_one no_call
    (method_of_code [i_istore, 0x04]) empty_class
    (frame_at [0, 0, 0, 0] 0 0 [0, 0, 0, 0, 0]) i_istore (by decide)
  have h1 := (h.1 rfl rfl).1
  have h2 := (istore_on_empty_stack_advances_by_one no_call
    (method_of_code [i_istore, 0x04]) empty_class
    (frame_at [9, 0, 0, 0] 1 0 [0, 0, 0, 0, 0]) i_istore (by decide)).2.1 rfl 0x04 9
    (by decide) (by decide) (by decide)
  rw [h1, h2]
  decide

/-- Counterexample to C30 as stated: for the length `2147483647` the sum `n + 1` in
32-bit signed arithmetic is `-2147483648`, which is not positive; but in the guard of
`newarray` the sum overflows `int`, which is undefined behaviour: the pass does not
leave the state as it is, and the loop does not run the same instruction again for
ever but has no defined result, whatever the fuel. -/
theorem newarray_max_count_counterexample :
    to_int32 (2147483647 + 1) ≤ 0 ∧
    step no_call (method_of_code [i_newarray, 10]) empty_class
        (frame_at [2147483647, 0, 0, 0] 1 0 []) = Step.stop Outcome.undefined ∧
    ∀ fuel : Nat, loop no_call (method_of_code [i_newarray, 10]) empty_class (fuel + 1)
        (frame_at [2147483647, 0, 0, 0] 1 0 []) = Outcome.undefined := by
  refine ⟨by decide, by decide, ?_⟩
  intro fuel
  exact loop_stop fuel (by decide) (by decide) (by decide)

/-- C30, amended: when `newarray` is executed with a top-of-stack length `n ≤ -1`, the
pass changes nothing at all: no array is allocated, the stack is unchanged and the
program counter is not advanced; so the state after any number of passes is the same
state, the loop uses up any fuel, and `execute` does not return once it has reached
such a state. -/
theorem newarray_nonpositive_size_spins
    (call : method_t → List Int → heap_t → String → Outcome)
    (m : method_t) (cls : class_file_t) (s : State) (n : Int)
    (hop : rd m.code.code s.counter = some i_newarray)
    (hn : rd s.operand_stack (s.stack_pointer - 1) = some n)
    (hsize : n ≤ -1)
    (hflag : s.ret_flag = false) :
    step call m cls s = Step.cont s ∧
    (∀ k : Nat, passes call m cls k s = some s) ∧
    (∀ fuel : Nat, loop call m cls fuel s = Outcome.timeout) ∧
    (∀ (locals : List Int) (heap : heap_t) (out : String) (k F : Nat),
      passes (execute F cls) m cls k (initial_state m locals heap out) = some s →
      k ≤ F → execute (F + 1) cls m locals heap out = Outcome.timeout) := by
  have hstep : ∀ c : method_t → List Int → heap_t → String → Outcome,
      step c m cls s = Step.cont s := by
    intro c
    have h1 : ¬ ((2 : Int) ^ 31 ≤ n + 1) := by omega
    have h2 : ¬ (0 < n + 1) := by omega
    rw [step_newarray c m cls s hop]
    simp only [case_newarray, hn, h1, h2, if_false, Option.bind_eq_bind, Option.some_bind]
    rfl
  have hc : s.counter < (m.code.code.length : Int) := by
    have := rd_lt_length hop
    omega
  refine ⟨hstep call, passes_stuck call m cls s hc hflag (hstep call),
    loop_stuck call m cls s hc hflag (hstep call), ?_⟩
  intro locals heap out k F hp hF
  have e : F + 1 = k + (F + 1 - k) := by omega
  rw [execute_of_passes cls m locals heap out k F s hp _ e]
  exact loop_stuck _ m cls s hc hflag (hstep _) _

/-- Witness of C30: `iconst_m1; newarray` reaches `newarray` with length `-1` after one
pass and then never leaves it: `execute` runs out of the fuel 1000. -/
theorem newarray_nonpositive_size_spins_witness :
    execute 1000 empty_class (method_of_code [i_iconst_m1, i_newarray, 10, i_return])
        [0, 0, 0, 0] [] "" = Outcome.timeout :=
  (newarray_nonpositive_size_spins no_call
    (method_of_code [i_iconst_m1, i_newarray, 10, i_return]) empty_class
    (frame_at [-1, 0, 0, 0] 1 1 [0, 0, 0, 0]) (-1)
    (by decide) (by decide) (by decide) (by decide)).2.2.2 [0, 0, 0, 0] [] "" 1 999
    (by decide) (by decide)

/-- A value written by the conversion to `int32_t` is an `int32_t`. -/
theorem is_int32_to_int32 (x : Int) : is_int32 (to_int32 x) := to_int32_range x

theorem is_int32_to_int16 (x : Int) : is_int32 (to_int16 x) := by
  unfold is_int32 to_int16
  constructor <;> omega

theorem is_int32_to_int8 (x : Int) : is_int32 (to_int8 x) := by
  unfold is_int32 to_int8
  constructor <;> omega

/-- An `int32_t` as a constructor of `Int`: a natural number below `2^31` or the
negative successor of one. -/
theorem is_int32_ofNat (m : Nat) : is_int32 (Int.ofNat m) ↔ m < 2 ^ 31 := by
  unfold is_int32
  constructor
  · intro h
    have := h.2
    simp only [Int.ofNat_eq_coe] at this
    omega
  · intro h
    simp only [Int.ofNat_eq_coe]
    constructor <;> omega

theorem is_int32_negSucc (m : Nat) : is_int32 (Int.negSucc m) ↔ m < 2 ^ 31 := by
  unfold is_int32
  rw [Int.negSucc_eq]
  constructor
  · intro h
    have := h.1
    omega
  · intro h
    constructor <;> omega

theorem ldiff_lt_two_pow {x y n : Nat} (hx : x < 2 ^ n) (hy : y < 2 ^ n) :
    Nat.ldiff x y < 2 ^ n := by
  unfold Nat.ldiff
  exact Nat.bitwise_lt_two_pow hx hy

/-- The bitwise operators of `iand`, `ior`, `ixor` keep `int32_t` values in range. -/
theorem is_int32_land (a b : Int) (ha : is_int32 a) (hb : is_int32 b) :
    is_int32 (Int.land a b) := by
  cases a with
  | ofNat m =>
    cases b with
    | ofNat n =>
      rw [is_int32_ofNat] at ha hb
      exact (is_int32_ofNat _).2 (Nat.and_lt_two_pow m hb)
    | negSucc n =>
      rw [is_int32_ofNat] at ha
      rw [is_int32_negSucc] at hb
      exact (is_int32_ofNat _).2 (ldiff_lt_two_pow ha hb)
  | negSucc m =>
    cases b with
    | ofNat n =>
      rw [is_int32_negSucc] at ha
      rw [is_int32_ofNat] at hb
      exact (is_int32_ofNat _).2 (ldiff_lt_two_pow hb ha)
    | negSucc n =>
      rw [is_int32_negSucc] at ha hb
      exact (is_int32_negSucc _).2 (Nat.or_lt_two_pow ha hb)

theorem is_int32_lor (a b : Int) (ha : is_int32 a) (hb : is_int32 b) :
    is_int32 (Int.lor a b) := by
  cases a with
  | ofNat m =>
    cases b with
    | ofNat n =>
      rw [is_int32_ofNat] at ha hb
      exact (is_int32_ofNat _).2 (Nat.or_lt_two_pow ha hb)
    | negSucc n =>
      rw [is_int32_ofNat] at ha
      rw [is_int32_negSucc] at hb
      exact (is_int32_negSucc _).2 (ldiff_lt_two_pow hb ha)
  | negSucc m =>
    cases b with
    | ofNat n =>
      rw [is_int32_negSucc] at ha
      rw [is_int32_ofNat] at hb
      exact (is_int32_negSucc _).2 (ldiff_lt_two_pow ha hb)
    | negSucc n =>
      rw [is_int32_negSucc] at ha hb
      exact (is_int32_negSucc _).2 (Nat.and_lt_two_pow m hb)

theorem is_int32_xor (a b : Int) (ha : is_int32 a) (hb : is_int32 b) :
    is_int32 (Int.xor a b) := by
  cases a with
  | ofNat m =>
    cases b with
    | ofNat n =>
      rw [is_int32_ofNat] at ha hb
      exact (is_int32_ofNat _).2 (Nat.xor_lt_two_pow ha hb)
    | negSucc n =>
      rw [is_int32_ofNat] at ha
      rw [is_int32_negSucc] at hb
      exact (is_int32_negSucc _).2 (Nat.xor_lt_two_pow ha hb)
  | negSucc m =>
    cases b with
    | ofNat n =>
      rw [is_int32_negSucc] at ha
      rw [is_int32_ofNat] at hb
      exact (is_int32_negSucc _).2 (Nat.xor_lt_two_pow ha hb)
    | negSucc n =>
      rw [is_int32_negSucc] at ha hb
      exact (is_int32_ofNat _).2 (Nat.xor_lt_two_pow ha hb)

/-- The truncated quotient of two `int32_t` values is an `int32_t`, except for
`INT_MIN / -1`. -/
theorem is_int32_tdiv (a b : Int) (ha : is_int32 a) (hmin : ¬ (a = -2 ^ 31 ∧ b = -1)) :
    is_int32 (Int.tdiv a b) := by
  unfold is_int32 at ha ⊢
  have hq : (Int.tdiv a b).natAbs ≤ a.natAbs := by
    rw [Int.natAbs_tdiv]
    exact Nat.div_le_self _ _
  by_cases hb1 : b = -1
  · subst hb1
    have e : Int.tdiv a (-1) = -a := by
      rw [Int.tdiv_neg, Int.tdiv_one]
    rw [e]
    have : a ≠ -2 ^ 31 := fun h => hmin ⟨h, rfl⟩
    constructor <;> omega
  · by_cases hb2 : b = 1
    · subst hb2
      rw [Int.tdiv_one]
      exact ha
    · by_cases hb0 : b = 0
      · subst hb0
        rw [Int.tdiv_zero]
        constructor <;> norm_num
      · have h2 : 2 ≤ b.natAbs := by omega
        have hq2 : (Int.tdiv a b).natAbs ≤ a.natAbs / 2 := by
          rw [Int.natAbs_tdiv]
          exact Nat.div_le_div_left h2 (by norm_num)
        constructor <;> omega

/-- The remainder of two `int32_t` values is an `int32_t`. -/
theorem is_int32_tmod (a b : Int) (hb : is_int32 b) (hb0 : b ≠ 0) :
    is_int32 (Int.tmod a b) := by
  have h := (tmod_facts a b hb0).1
  unfold is_int32 at hb ⊢
  have h1 := abs_lt.mp h
  have h2 : |b| ≤ 2 ^ 31 := abs_le.mpr ⟨by omega, by omega⟩
  constructor <;> omega

/-- The arithmetic right shift of an `int32_t` is an `int32_t`. -/
theorem is_int32_shiftRight (a : Int) (k : Nat) (ha : is_int32 a) : is_int32 (a >>> k) := by
  rw [int_shiftRight_eq]
  unfold is_int32 at ha ⊢
  have hp : (1 : Int) ≤ 2 ^ k := by
    have : (0 : Int) < 2 ^ k := by positivity
    omega
  constructor
  · rw [Int.le_ediv_iff_mul_le (by omega)]
    nlinarith
  · rw [Int.ediv_lt_iff_lt_mul (by omega)]
    nlinarith

/-- Each operator of the binary cases maps `int32_t` operands to an `int32_t`. -/
theorem binary_ops_int32 (a b r : Int) (ha : is_int32 a) (hb : is_int32 b) :
    (op_iadd a b = some r → is_int32 r) ∧ (op_isub a b = some r → is_int32 r) ∧
    (op_imul a b = some r → is_int32 r) ∧ (op_idiv a b = some r → is_int32 r) ∧
    (op_irem a b = some r → is_int32 r) ∧ (op_ishl a b = some r → is_int32 r) ∧
    (op_ishr a b = some r → is_int32 r) ∧ (op_iushr a b = some r → is_int32 r) ∧
    (op_iand a b = some r → is_int32 r) ∧ (op_ior a b = some r → is_int32 r) ∧
    (op_ixor a b = some r → is_int32 r) := by
  refine ⟨?_, ?_, ?_, ?_, ?_, ?_, ?_, ?_, ?_, ?_, ?_⟩
  · intro h
    simp only [op_iadd, Option.some.injEq] at h
    rw [← h]
    exact is_int32_to_int32 _
  · intro h
    simp only [op_isub, Option.some.injEq] at h
    rw [← h]
    exact is_int32_to_int32 _
  · intro h
    simp only [op_imul, Option.some.injEq] at h
    rw [← h]
    exact is_int32_to_int32 _
  · intro h
    unfold op_idiv at h
    split at h
    · exact absurd h (by simp)
    · rename_i hg
      simp only [Option.some.injEq] at h
      rw [← h]
      exact is_int32_tdiv a b ha (by
        unfold INT_MIN at hg
        tauto)
  · intro h
    unfold op_irem at h
    split at h
    · exact absurd h (by simp)
    · rename_i hg
      simp only [Option.some.injEq] at h
      rw [← h]
      exact is_int32_tmod a b hb (by tauto)
  · intro h
    unfold op_ishl at h
    split at h
    · simp only [Option.some.injEq] at h
      rw [← h]
      exact is_int32_to_int32 _
    · exact absurd h (by simp)
  · intro h
    unfold op_ishr at h
    split at h
    · simp only [Option.some.injEq] at h
      rw [← h]
      exact is_int32_shiftRight a _ ha
    · exact absurd h (by simp)
  · intro h
    unfold op_iushr at h
    split at h
    · simp only [Option.some.injEq] at h
      rw [← h]
      exact is_int32_to_int32 _
    · exact absurd h (by simp)
  · intro h
    simp only [op_iand, Option.some.injEq] at h
    rw [← h]
    exact is_int32_land a b ha hb
  · intro h
    simp only [op_ior, Option.some.injEq] at h
    rw [← h]
    exact is_int32_lor a b ha hb
  · intro h
    simp only [op_ixor, Option.some.injEq] at h
    rw [← h]
    exact is_int32_xor a b ha hb
/-- A property of all slots survives a write of a value that has the property. -/
theorem all_of_wr {α : Type} {P : α → Prop} {xs ys : List α} {i : Int} {v : α}
    (hw : wr xs i v = some ys) (h : ∀ x ∈ xs, P x) (hv : P v) : ∀ x ∈ ys, P x := by
  obtain ⟨_, _, e⟩ := wr_eq_some hw
  subst e
  intro x hx
  rcases List.mem_or_eq_of_mem_set hx with h1 | h1
  · exact h x h1
  · rw [h1]
    exact hv

/-- A value read from a buffer has every property all slots have. -/
theorem of_rd {α : Type} {P : α → Prop} {xs : List α} {i : Int} {v : α}
    (hr : rd xs i = some v) (h : ∀ x ∈ xs, P x) : P v := by
  rw [rd_eq_some_iff] at hr
  exact h v (List.getElem?_mem hr.2)

/-- The typing is kept by a write of an `int32_t` into the operand stack buffer. -/
theorem keeps_of_stack_write (s s' : State) (i v : Int)
    (hw : wr s.operand_stack i v = some s'.operand_stack)
    (hv : int32_state s → is_int32 v)
    (hl : s'.locals = s.locals) (hh : s'.heap = s.heap) : keeps_int32 s s' := by
  refine ⟨by rw [hh], fun hinv _ => ⟨all_of_wr hw hinv.1 (hv hinv), ?_, ?_⟩⟩
  · rw [hl]
    exact hinv.2.1
  · rw [hh]
    exact hinv.2.2

/-- The typing is kept by a write of an `int32_t` into the locals. -/
theorem keeps_of_locals_write (s s' : State) (i v : Int)
    (hw : wr s.locals i v = some s'.locals) (hv : int32_state s → is_int32 v)
    (hl : s'.operand_stack = s.operand_stack) (hh : s'.heap = s.heap) :
    keeps_int32 s s' := by
  refine ⟨by rw [hh], fun hinv _ => ⟨?_, all_of_wr hw hinv.2.1 (hv hinv), ?_⟩⟩
  · rw [hl]
    exact hinv.1
  · rw [hh]
    exact hinv.2.2

/-- The typing is kept when stack buffer, locals and heap are not written. -/
theorem keeps_of_same (s s' : State)
    (hs : s'.operand_stack = s.operand_stack) (hl : s'.locals = s.locals)
    (hh : s'.heap = s.heap) : keeps_int32 s s' := by
  refine ⟨by rw [hh], fun hinv _ => ?_⟩
  unfold int32_state
  rw [hs, hl, hh]
  exact hinv

theorem ofOption_cont {o : Option State} {s' : State}
    (h : Step.ofOption o = Step.cont s') : o = some s' := by
  cases o with
  | none => exact absurd h (by simp [Step.ofOption])
  | some x =>
    simp only [Step.ofOption, Step.cont.injEq] at h
    rw [h]

theorem inv_iconst (opcode : u1) (s s' : State)
    (h : case_iconst opcode s = some s') : keeps_int32 s s' := by
  simp only [case_iconst, Option.bind_eq_bind, Option.bind_eq_some, Option.some.injEq] at h
  obtain ⟨st, hst, rfl⟩ := h
  refine keeps_of_stack_write s _ _ _ hst (fun _ => ?_) rfl rfl
  have := opcode.isLt
  unfold is_int32
  constructor <;> omega

theorem inv_bipush (m : method_t) (s s' : State)
    (h : case_bipush m s = some s') : keeps_int32 s s' := by
  simp only [case_bipush, Option.bind_eq_bind, Option.bind_eq_some, Option.some.injEq] at h
  obtain ⟨b, _, st, hst, rfl⟩ := h
  exact keeps_of_stack_write s _ _ _ hst
      (fun _ => is_int32_to_int8 _) rfl rfl

theorem inv_sipush (m : method_t) (s s' : State)
    (h : case_sipush m s = some s') : keeps_int32 s s' := by
  simp only [case_sipush, Option.bind_eq_bind, Option.bind_eq_some, Option.some.injEq] at h
  obtain ⟨b1, _, b2, _, st, hst, rfl⟩ := h
  exact keeps_of_stack_write s _ _ _ hst
      (fun _ => is_int32_to_int16 _) rfl rfl

theorem inv_binary (op : Int → Int → Option Int) (s s' : State)
    (hop : ∀ a b r : Int, is_int32 a → is_int32 b → op a b = some r → is_int32 r)
    (h : binary_case op s = some s') : keeps_int32 s s' := by
  unfold binary_case at h
  split at h
  · simp only [Option.bind_eq_bind, Option.bind_eq_some, Option.some.injEq] at h
    obtain ⟨a, ha, b, hb, r, hr, st, hst, rfl⟩ := h
    exact keeps_of_stack_write s _ _ _ hst
      (fun hinv => hop a b r (of_rd ha hinv.1) (of_rd hb hinv.1) hr) rfl rfl
  · simp only [Option.some.injEq] at h
    subst h
    exact keeps_of_same s _ rfl rfl rfl

theorem inv_ineg (s s' : State)
    (h : case_ineg s = some s') : keeps_int32 s s' := by
  unfold case_ineg at h
  split at h
  · simp only [Option.bind_eq_bind, Option.bind_eq_some, Option.some.injEq] at h
    obtain ⟨a, _, st, hst, rfl⟩ := h
    exact keeps_of_stack_write s _ _ _ hst
      (fun _ => is_int32_to_int32 _) rfl rfl
  · simp only [Option.some.injEq] at h
    subst h
    exact keeps_of_same s _ rfl rfl rfl
theorem inv_getstatic (s s' : State)
    (h : case_getstatic s = some s') : keeps_int32 s s' := by
  simp only [case_getstatic, Option.some.injEq] at h
  subst h
  exact keeps_of_same s _ rfl rfl rfl

theorem inv_return (s s' : State)
    (h : case_return s = some s') : keeps_int32 s s' := by
  simp only [case_return, Option.some.injEq] at h
  subst h
  exact keeps_of_same s _ rfl rfl rfl

theorem inv_nop (s s' : State)
    (h : case_nop s = some s') : keeps_int32 s s' := by
  simp only [case_nop, Option.some.injEq] at h
  subst h
  exact keeps_of_same s _ rfl rfl rfl

theorem inv_invokevirtual (s s' : State)
    (h : case_invokevirtual s = some s') : keeps_int32 s s' := by
  simp only [case_invokevirtual, Option.bind_eq_bind, Option.bind_eq_some,
    Option.some.injEq] at h
  obtain ⟨v, _, rfl⟩ := h
  exact keeps_of_same s _ rfl rfl rfl

theorem inv_goto (m : method_t) (s s' : State)
    (h : case_goto m s = some s') : keeps_int32 s s' := by
  simp only [case_goto, Option.bind_eq_bind, Option.bind_eq_some, Option.some.injEq] at h
  obtain ⟨b1, _, b2, _, rfl⟩ := h
  exact keeps_of_same s _ rfl rfl rfl

theorem inv_if (cond : Int → Bool) (m : method_t) (s s' : State)
    (h : case_if cond m s = some s') : keeps_int32 s s' := by
  simp only [case_if, Option.bind_eq_bind, Option.bind_eq_some] at h
  obtain ⟨b1, _, b2, _, v, _, h⟩ := h
  split at h <;>
    · simp only [Option.some.injEq] at h
      subst h
      exact keeps_of_same s _ rfl rfl rfl

theorem inv_if_icmp (cond : Int → Int → Bool) (m : method_t) (s s' : State) (h : case_if_icmp cond m s = some s') : keeps_int32 s s' := by
  simp only [case_if_icmp, Option.bind_eq_bind, Option.bind_eq_some] at h
  obtain ⟨b1, _, b2, _, v2, _, v1, _, h⟩ := h
  split at h <;>
    · simp only [Option.some.injEq] at h
      subst h
      exact keeps_of_same s _ rfl rfl rfl

theorem inv_iload (m : method_t) (s s' : State)
    (h : case_iload m s = some s') : keeps_int32 s s' := by
  simp only [case_iload, Option.bind_eq_bind, Option.bind_eq_some, Option.some.injEq] at h
  obtain ⟨k, _, v, hv, st, hst, rfl⟩ := h
  exact keeps_of_stack_write s _ _ _ hst
      (fun hinv => of_rd hv hinv.2.1) rfl rfl

theorem inv_aload (m : method_t) (s s' : State)
    (h : case_aload m s = some s') : keeps_int32 s s' := by
  simp only [case_aload, Option.bind_eq_bind, Option.bind_eq_some, Option.some.injEq] at h
  obtain ⟨k, _, v, hv, st, hst, rfl⟩ := h
  exact keeps_of_stack_write s _ _ _ hst
      (fun hinv => of_rd hv hinv.2.1) rfl rfl

theorem inv_iload_n (opcode : u1) (s s' : State)
    (h : case_iload_n opcode s = some s') : keeps_int32 s s' := by
  simp only [case_iload_n, Option.bind_eq_bind, Option.bind_eq_some, Option.some.injEq] at h
  obtain ⟨v, hv, st, hst, rfl⟩ := h
  exact keeps_of_stack_write s _ _ _ hst
      (fun hinv => of_rd hv hinv.2.1) rfl rfl

theorem inv_aload_n (opcode : u1) (s s' : State)
    (h : case_aload_n opcode s = some s') : keeps_int32 s s' := by
  simp only [case_aload_n, Option.bind_eq_bind, Option.bind_eq_some, Option.some.injEq] at h
  obtain ⟨v, hv, st, hst, rfl⟩ := h
  exact keeps_of_stack_write s _ _ _ hst
      (fun hinv => of_rd hv hinv.2.1) rfl rfl

theorem inv_dup (s s' : State)
    (h : case_dup s = some s') : keeps_int32 s s' := by
  simp only [case_dup, Option.bind_eq_bind, Option.bind_eq_some, Option.some.injEq] at h
  obtain ⟨v, hv, st, hst, rfl⟩ := h
  exact keeps_of_stack_write s _ _ _ hst
      (fun hinv => of_rd hv hinv.1) rfl rfl

theorem inv_istore (m : method_t) (s s' : State)
    (h : case_istore m s = some s') : keeps_int32 s s' := by
  unfold case_istore at h
  split at h
  · simp only [Option.bind_eq_bind, Option.bind_eq_some, Option.some.injEq] at h
    obtain ⟨k, _, v, hv, ls, hls, rfl⟩ := h
    exact keeps_of_locals_write s _ _ _ hls
      (fun hinv => of_rd hv hinv.1) rfl rfl
  · simp only [Option.some.injEq] at h
    subst h
    exact keeps_of_same s _ rfl rfl rfl

theorem inv_istore_n (opcode : u1) (s s' : State)
    (h : case_istore_n opcode s = some s') : keeps_int32 s s' := by
  unfold case_istore_n at h
  split at h
  · simp only [Option.bind_eq_bind, Option.bind_eq_some, Option.some.injEq] at h
    obtain ⟨v, hv, ls, hls, rfl⟩ := h
    exact keeps_of_locals_write s _ _ _ hls
      (fun hinv => of_rd hv hinv.1) rfl rfl
  · simp only [Option.some.injEq] at h
    subst h
    exact keeps_of_same s _ rfl rfl rfl

theorem inv_astore (m : method_t) (s s' : State)
    (h : case_astore m s = some s') : keeps_int32 s s' := by
  simp only [case_astore, Option.bind_eq_bind, Option.bind_eq_some, Option.some.injEq] at h
  obtain ⟨k, _, v, hv, ls, hls, rfl⟩ := h
  exact keeps_of_locals_write s _ _ _ hls
      (fun hinv => of_rd hv hinv.1) rfl rfl

theorem inv_astore_n (opcode : u1) (s s' : State)
    (h : case_astore_n opcode s = some s') : keeps_int32 s s' := by
  simp only [case_astore_n, Option.bind_eq_bind, Option.bind_eq_some, Option.some.injEq] at h
  obtain ⟨v, hv, ls, hls, rfl⟩ := h
  exact keeps_of_locals_write s _ _ _ hls
      (fun hinv => of_rd hv hinv.1) rfl rfl

theorem inv_iinc (m : method_t) (s s' : State)
    (h : case_iinc m s = some s') : keeps_int32 s s' := by
  simp only [case_iinc, Option.bind_eq_bind, Option.bind_eq_some, Option.some.injEq] at h
  obtain ⟨k, _, c, _, v, _, ls, hls, rfl⟩ := h
  exact keeps_of_locals_write s _ _ _ hls
      (fun _ => is_int32_to_int32 _) rfl rfl

theorem inv_ldc (m : method_t) (cls : class_file_t) (s s' : State)
    (hcp : ∀ c : Int, cp_info.Integer c ∈ cls.constant_pool → is_int32 c)
    (h : case_ldc m cls s = some s') : keeps_int32 s s' := by
  simp only [case_ldc, Option.bind_eq_bind, Option.bind_eq_some] at h
  obtain ⟨index, _, entry, hentry, h⟩ := h
  cases entry with
  | Integer bytes =>
    simp only [Option.bind_eq_bind, Option.bind_eq_some, Option.some.injEq] at h
    obtain ⟨st, hst, rfl⟩ := h
    rw [rd_eq_some_iff] at hentry
    exact keeps_of_stack_write s _ _ _ hst
      (fun _ => hcp bytes (List.getElem?_mem hentry.2)) rfl rfl
  | other => exact absurd h (by simp)

theorem inv_arraylength (s s' : State)
    (h : case_arraylength s = some s') : keeps_int32 s s' := by
  simp only [case_arraylength, Option.bind_eq_bind, Option.bind_eq_some,
    Option.some.injEq] at h
  obtain ⟨ref, _, arr, harr, len, hlen, st, hst, rfl⟩ := h
  exact keeps_of_stack_write s _ _ _ hst
      (fun hinv => of_rd hlen (of_rd harr hinv.2.2)) rfl rfl

theorem inv_iaload (s s' : State)
    (h : case_iaload s = some s') : keeps_int32 s s' := by
  simp only [case_iaload, Option.bind_eq_bind, Option.bind_eq_some, Option.some.injEq] at h
  obtain ⟨index, _, refe, _, arr, harr, v, hv, st, hst, rfl⟩ := h
  exact keeps_of_stack_write s _ _ _ hst
      (fun hinv => of_rd hv (of_rd harr hinv.2.2)) rfl rfl

theorem inv_iastore (s s' : State)
    (h : case_iastore s = some s') : keeps_int32 s s' := by
  simp only [case_iastore, Option.bind_eq_bind, Option.bind_eq_some, Option.some.injEq] at h
  obtain ⟨val, hval, index, _, refe, _, heap, hheap, rfl⟩ := h
  unfold heap_store at hheap
  split at hheap
  · exact absurd hheap (by simp)
  · rename_i arr harr
    split at hheap
    · exact absurd hheap (by simp)
    · rename_i arr' harr'
      obtain ⟨_, _, e⟩ := wr_eq_some hheap
      refine ⟨?_, fun hinv _ => ⟨hinv.1, hinv.2.1, all_of_wr hheap hinv.2.2
        (all_of_wr harr' (of_rd harr hinv.2.2) (of_rd hval hinv.1))⟩⟩
      show s.heap.length ≤ heap.length
      rw [e, List.length_set]

theorem inv_newarray (s s' : State)
    (h : case_newarray s = some s') : keeps_int32 s s' := by
  simp only [case_newarray, Option.bind_eq_bind, Option.bind_eq_some] at h
  obtain ⟨count, hcount, h⟩ := h
  split at h
  · exact absurd h (by simp)
  · split at h
    · simp only [Option.bind_eq_bind, Option.bind_eq_some, Option.some.injEq, heap_add] at h
      obtain ⟨iarray, harr, st, hst, rfl⟩ := h
      have hzero : all_int32 (List.replicate (count + 1).toNat (0 : Int)) := by
        intro x hx
        rw [List.eq_of_mem_replicate hx]
        unfold is_int32
        constructor <;> norm_num
      refine ⟨by simp, fun hinv hlen => ⟨all_of_wr hst hinv.1 ⟨by omega, ?_⟩, hinv.2.1, ?_⟩⟩
      · simp only [List.length_append, List.length_singleton, Nat.cast_add,
          Nat.cast_one] at hlen
        omega
      · intro arr hmem
        rcases List.mem_append.mp hmem with h1 | h1
        · exact hinv.2.2 arr h1
        · rw [List.mem_singleton.mp h1]
          exact all_of_wr harr hzero (of_rd hcount hinv.1)
    · simp only [Option.some.injEq] at h
      subst h
      exact keeps_of_same s _ rfl rfl rfl

/-- The argument loop of `invokestatic` fills the callee locals with `int32_t` values. -/
theorem pop_args_int32 (os : List Int) (hos : all_int32 os) :
    ∀ (n : Nat) (sp : Int) (locs L : List Int) (sp' : Int), all_int32 locs →
      pop_args os n sp locs = some (L, sp') → all_int32 L := by
  intro n
  induction n with
  | zero =>
    intro sp locs L sp' hl h
    simp only [pop_args, Option.some.injEq, Prod.mk.injEq] at h
    rw [← h.1]
    exact hl
  | succ n ih =>
    intro sp locs L sp' hl h
    simp only [pop_args] at h
    split at h
    · exact absurd h (by simp)
    · rename_i v hv
      split at h
      · exact absurd h (by simp)
      · rename_i locs' hw
        exact ih _ _ _ _ (all_of_wr hw hl (of_rd hv hos)) h

theorem inv_invokestatic (call : method_t → List Int → heap_t → String → Outcome)
    (hcall : returns_int32 call) (m : method_t) (cls : class_file_t) (s s' : State)
    (h : case_invokestatic call m cls s = Step.cont s') : keeps_int32 s s' := by
  unfold case_invokestatic at h
  split at h
  · split at h
    · exact absurd h (by simp)
    · rename_i target _
      dsimp only at h
      split at h
      · exact absurd h (by simp)
      · rename_i calleeLocals sp hpop
        have hzero : all_int32 (List.replicate target.code.max_locals (0 : Int)) := by
          intro x hx
          rw [List.eq_of_mem_replicate hx]
          unfold is_int32
          constructor <;> norm_num
        cases hc : call target calleeLocals s.heap s.out with
        | returned r heap out =>
          obtain ⟨hmono, hr⟩ := hcall target calleeLocals s.heap s.out r heap out hc
          rw [hc] at h
          simp only [finish_invokestatic] at h
          split at h
          · rename_i hv
            split at h
            · exact absurd h (by simp)
            · rename_i st hst
              injection h with h
              subst h
              refine ⟨hmono, fun hinv hlen => ?_⟩
              have hL := pop_args_int32 s.operand_stack hinv.1 _ _ _ _ _ hzero hpop
              obtain ⟨h1, h2⟩ := hr hL hinv.2.2 hlen
              exact ⟨all_of_wr hst hinv.1 (h1 hv), hinv.2.1, h2⟩
          · injection h with h
            subst h
            refine ⟨hmono, fun hinv hlen => ?_⟩
            have hL := pop_args_int32 s.operand_stack hinv.1 _ _ _ _ _ hzero hpop
            exact ⟨hinv.1, hinv.2.1, (hr hL hinv.2.2 hlen).2⟩
        | undefined =>
          rw [hc] at h
          simp only [finish_invokestatic] at h
          exact absurd h (by simp)
        | timeout =>
          rw [hc] at h
          simp only [finish_invokestatic] at h
          exact absurd h (by simp)
  · exact absurd h (by simp)

/-- The operators of the binary cases in the form `inv_binary` takes them. -/
theorem op_int32 (a b r : Int) (ha : is_int32 a) (hb : is_int32 b) :
    ∀ op ∈ [op_iadd, op_isub, op_imul, op_idiv, op_irem, op_ishl, op_ishr, op_iushr,
      op_iand, op_ior, op_ixor], op a b = some r → is_int32 r := by
  have h := binary_ops_int32 a b r ha hb
  intro op hmem
  simp only [List.mem_cons, List.mem_singleton, List.not_mem_nil, or_false] at hmem
  rcases hmem with e | e | e | e | e | e | e | e | e | e | e <;> subst e
  · exact h.1
  · exact h.2.1
  · exact h.2.2.1
  · exact h.2.2.2.1
  · exact h.2.2.2.2.1
  · exact h.2.2.2.2.2.1
  · exact h.2.2.2.2.2.2.1
  · exact h.2.2.2.2.2.2.2.1
  · exact h.2.2.2.2.2.2.2.2.1
  · exact h.2.2.2.2.2.2.2.2.2.1
  · exact h.2.2.2.2.2.2.2.2.2.2

/-- The cases `ireturn` and `areturn` never go back to the loop head. -/
theorem ireturn_stops (s s' : State) : case_ireturn s ≠ Step.cont s' := by
  unfold case_ireturn
  split <;> simp

/-- A fact that follows from either branch of a dispatch test follows from the test. -/
theorem ite_cont_elim {P : Prop} [Decidable P] {a b : Step} {s' : State} {Q : Prop}
    (ha : a = Step.cont s' → Q) (hb : b = Step.cont s' → Q) :
    (if P then a else b) = Step.cont s' → Q := by
  intro h
  split at h
  · exact ha h
  · exact hb h

/-- The same for a pass that leaves `execute`. -/
theorem ite_stop_elim {P : Prop} [Decidable P] {a b : Step} {o : Outcome} {Q : Prop}
    (ha : a = Step.stop o → Q) (hb : b = Step.stop o → Q) :
    (if P then a else b) = Step.stop o → Q := by
  intro h
  split at h
  · exact ha h
  · exact hb h

/-- A pass back to the loop head keeps the typing, whatever the opcode, when the calls
of methods do. -/
theorem step_keeps (call : method_t → List Int → heap_t → String → Outcome)
    (hcall : returns_int32 call) (m : method_t) (cls : class_file_t) (s s' : State)
    (hcp : ∀ c : Int, cp_info.Integer c ∈ cls.constant_pool → is_int32 c)
    (hstep : step call m cls s = Step.cont s') : keeps_int32 s s' := by
  have hb : ∀ op ∈ [op_iadd, op_isub, op_imul, op_idiv, op_irem, op_ishl, op_ishr,
      op_iushr, op_iand, op_ior, op_ixor],
      ∀ a b r : Int, is_int32 a → is_int32 b → op a b = some r → is_int32 r :=
    fun op hmem a b r ha hb => op_int32 a b r ha hb op hmem
  unfold step at hstep
  split at hstep
  · exact absurd hstep (by simp)
  · revert hstep
    refine ite_cont_elim (fun hstep => inv_iconst _ s s' (ofOption_cont hstep)) ?_
    refine ite_cont_elim (fun hstep => inv_bipush m s s' (ofOption_cont hstep)) ?_
    refine ite_cont_elim (fun hstep => inv_sipush m s s' (ofOption_cont hstep)) ?_
    refine ite_cont_elim (fun hstep =>
      inv_binary op_iadd s s' (hb op_iadd (by simp)) (ofOption_cont hstep)) ?_
    refine ite_cont_elim (fun hstep =>
      inv_binary op_isub s s' (hb op_isub (by simp)) (ofOption_cont hstep)) ?_
    refine ite_cont_elim (fun hstep =>
      inv_binary op_imul s s' (hb op_imul (by simp)) (ofOption_cont hstep)) ?_
    refine ite_cont_elim (fun hstep =>
      inv_binary op_idiv s s' (hb op_idiv (by simp)) (ofOption_cont hstep)) ?_
    refine ite_cont_elim (fun hstep =>
      inv_binary op_irem s s' (hb op_irem (by simp)) (ofOption_cont hstep)) ?_
    refine ite_cont_elim (fun hstep => inv_ineg s s' (ofOption_cont hstep)) ?_
    refine ite_cont_elim (fun hstep =>
      inv_binary op_ishl s s' (hb op_ishl (by simp)) (ofOption_cont hstep)) ?_
    refine ite_cont_elim (fun hstep =>
      inv_binary op_ishr s s' (hb op_ishr (by simp)) (ofOption_cont hstep)) ?_
    refine ite_cont_elim (fun hstep =>
      inv_binary op_iushr s s' (hb op_iushr (by simp)) (ofOption_cont hstep)) ?_
    refine ite_cont_elim (fun hstep =>
      inv_binary op_iand s s' (hb op_iand (by simp)) (ofOption_cont hstep)) ?_
    refine ite_cont_elim (fun hstep =>
      inv_binary op_ior s s' (hb op_ior (by simp)) (ofOption_cont hstep)) ?_
    refine ite_cont_elim (fun hstep =>
      inv_binary op_ixor s s' (hb op_ixor (by simp)) (ofOption_cont hstep)) ?_
    refine ite_cont_elim (fun hstep => inv_getstatic s s' (ofOption_cont hstep)) ?_
    refine ite_cont_elim (fun hstep => inv_return s s' (ofOption_cont hstep)) ?_
    refine ite_cont_elim (fun hstep => inv_invokevirtual s s' (ofOption_cont hstep)) ?_
    refine ite_cont_elim (fun hstep => inv_iload m s s' (ofOption_cont hstep)) ?_
    refine ite_cont_elim (fun hstep => inv_istore m s s' (ofOption_cont hstep)) ?_
    refine ite_cont_elim (fun hstep => inv_iinc m s s' (ofOption_cont hstep)) ?_
    refine ite_cont_elim (fun hstep => inv_iload_n _ s s' (ofOption_cont hstep)) ?_
    refine ite_cont_elim (fun hstep => inv_istore_n _ s s' (ofOption_cont hstep)) ?_
    refine ite_cont_elim (fun hstep => inv_ldc m cls s s' hcp (ofOption_cont hstep)) ?_
    refine ite_cont_elim (fun hstep => inv_if _ m s s' (ofOption_cont hstep)) ?_
    refine ite_cont_elim (fun hstep => inv_if _ m s s' (ofOption_cont hstep)) ?_
    refine ite_cont_elim (fun hstep => inv_if _ m s s' (ofOption_cont hstep)) ?_
    refine ite_cont_elim (fun hstep => inv_if _ m s s' (ofOption_cont hstep)) ?_
    refine ite_cont_elim (fun hstep => inv_if _ m s s' (ofOption_cont hstep)) ?_
    refine ite_cont_elim (fun hstep => inv_if _ m s s' (ofOption_cont hstep)) ?_
    refine ite_cont_elim (fun hstep => inv_if_icmp _ m s s' (ofOption_cont hstep)) ?_
    refine ite_cont_elim (fun hstep => inv_if_icmp _ m s s' (ofOption_cont hstep)) ?_
    refine ite_cont_elim (fun hstep => inv_if_icmp _ m s s' (ofOption_cont hstep)) ?_
    refine ite_cont_elim (fun hstep => inv_if_icmp _ m s s' (ofOption_cont hstep)) ?_
    refine ite_cont_elim (fun hstep => inv_if_icmp _ m s s' (ofOption_cont hstep)) ?_
    refine ite_cont_elim (fun hstep => inv_if_icmp _ m s s' (ofOption_cont hstep)) ?_
    refine ite_cont_elim (fun hstep => inv_goto m s s' (ofOption_cont hstep)) ?_
    refine ite_cont_elim (fun hstep => inv_invokestatic call hcall m cls s s' hstep) ?_
    refine ite_cont_elim (fun hstep => absurd hstep (ireturn_stops s s')) ?_
    refine ite_cont_elim (fun hstep => inv_nop s s' (ofOption_cont hstep)) ?_
    refine ite_cont_elim (fun hstep => inv_dup s s' (ofOption_cont hstep)) ?_
    refine ite_cont_elim (fun hstep => inv_newarray s s' (ofOption_cont hstep)) ?_
    refine ite_cont_elim (fun hstep => inv_arraylength s s' (ofOption_cont hstep)) ?_
    refine ite_cont_elim (fun hstep => absurd hstep (ireturn_stops s s')) ?_
    refine ite_cont_elim (fun hstep => inv_iastore s s' (ofOption_cont hstep)) ?_
    refine ite_cont_elim (fun hstep => inv_iaload s s' (ofOption_cont hstep)) ?_
    refine ite_cont_elim (fun hstep => inv_aload m s s' (ofOption_cont hstep)) ?_
    refine ite_cont_elim (fun hstep => inv_astore m s s' (ofOption_cont hstep)) ?_
    refine ite_cont_elim (fun hstep => inv_aload_n _ s s' (ofOption_cont hstep)) ?_
    refine ite_cont_elim (fun hstep => inv_astore_n _ s s' (ofOption_cont hstep)) ?_
    intro hstep
    injection hstep with hstep
    subst hstep
    exact keeps_of_same s _ rfl rfl rfl

/-- A case that goes through `Step.ofOption` does not make `execute` return a result. -/
theorem ofOption_stop {x : Option State} {r : optional_value_t} {heap : heap_t}
    {out : String} {Q : Prop}
    (h : Step.ofOption x = Step.stop (Outcome.returned r heap out)) : Q := by
  cases x with
  | none => simp [Step.ofOption] at h
  | some y => simp [Step.ofOption] at h

/-- The case `invokestatic` does not make the caller return a result. -/
theorem invokestatic_stop {call : method_t → List Int → heap_t → String → Outcome}
    {m : method_t} {cls : class_file_t} {s : State} {r : optional_value_t} {heap : heap_t}
    {out : String} {Q : Prop}
    (h : case_invokestatic call m cls s = Step.stop (Outcome.returned r heap out)) : Q := by
  unfold case_invokestatic at h
  split at h
  · split at h
    · simp at h
    · rename_i target _
      dsimp only at h
      split at h
      · simp at h
      · rename_i calleeLocals sp _
        cases hc : call target calleeLocals s.heap s.out with
        | returned r1 heap1 out1 =>
          rw [hc] at h
          simp only [finish_invokestatic] at h
          split at h
          · split at h <;> simp at h
          · simp at h
        | undefined =>
          rw [hc] at h
          simp [finish_invokestatic] at h
        | timeout =>
          rw [hc] at h
          simp [finish_invokestatic] at h
  · simp at h

/-- The result that the cases `ireturn` and `areturn` return is the top of the stack,
and the heap is the heap of the frame. -/
theorem ireturn_stop {s : State} {r : optional_value_t} {heap : heap_t} {out : String}
    (h : case_ireturn s = Step.stop (Outcome.returned r heap out)) :
    heap = s.heap ∧ rd s.operand_stack (s.stack_pointer - 1) = some r.value := by
  unfold case_ireturn at h
  split at h
  · simp at h
  · rename_i v hv
    simp only [Step.stop.injEq, Outcome.returned.injEq] at h
    obtain ⟨h1, h2, _⟩ := h
    rw [hv, ← h1, ← h2]
    exact ⟨rfl, rfl⟩

/-- A pass that makes `execute` return a result is an `ireturn` or an `areturn`. -/
theorem step_stop_returned (call : method_t → List Int → heap_t → String → Outcome)
    (m : method_t) (cls : class_file_t) (s : State) (r : optional_value_t) (heap : heap_t)
    (out : String)
    (hstep : step call m cls s = Step.stop (Outcome.returned r heap out)) :
    heap = s.heap ∧ rd s.operand_stack (s.stack_pointer - 1) = some r.value := by
  unfold step at hstep
  split at hstep
  · simp at hstep
  · revert hstep
    refine ite_stop_elim (fun hstep => ofOption_stop hstep) ?_
    refine ite_stop_elim (fun hstep => ofOption_stop hstep) ?_
    refine ite_stop_elim (fun hstep => ofOption_stop hstep) ?_
    refine ite_stop_elim (fun hstep => ofOption_stop hstep) ?_
    refine ite_stop_elim (fun hstep => ofOption_stop hstep) ?_
    refine ite_stop_elim (fun hstep => ofOption_stop hstep) ?_
    refine ite_stop_elim (fun hstep => ofOption_stop hstep) ?_
    refine ite_stop_elim (fun hstep => ofOption_stop hstep) ?_
    refine ite_stop_elim (fun hstep => ofOption_stop hstep) ?_
    refine ite_stop_elim (fun hstep => ofOption_stop hstep) ?_
    refine ite_stop_elim (fun hstep => ofOption_stop hstep) ?_
    refine ite_stop_elim (fun hstep => ofOption_stop hstep) ?_
    refine ite_stop_elim (fun hstep => ofOption_stop hstep) ?_
    refine ite_stop_elim (fun hstep => ofOption_stop hstep) ?_
    refine ite_stop_elim (fun hstep => ofOption_stop hstep) ?_
    refine ite_stop_elim (fun hstep => ofOption_stop hstep) ?_
    refine ite_stop_elim (fun hstep => ofOption_stop hstep) ?_
    refine ite_stop_elim (fun hstep => ofOption_stop hstep) ?_
    refine ite_stop_elim (fun hstep => ofOption_stop hstep) ?_
    refine ite_stop_elim (fun hstep => ofOption_stop hstep) ?_
    refine ite_stop_elim (fun hstep => ofOption_stop hstep) ?_
    refine ite_stop_elim (fun hstep => ofOption_stop hstep) ?_
    refine ite_stop_elim (fun hstep => ofOption_stop hstep) ?_
    refine ite_stop_elim (fun hstep => ofOption_stop hstep) ?_
    refine ite_stop_elim (fun hstep => ofOption_stop hstep) ?_
    refine ite_stop_elim (fun hstep => ofOption_stop hstep) ?_
    refine ite_stop_elim (fun hstep => ofOption_stop hstep) ?_
    refine ite_stop_elim (fun hstep => ofOption_stop hstep) ?_
    refine ite_stop_elim (fun hstep => ofOption_stop hstep) ?_
    refine ite_stop_elim (fun hstep => ofOption_stop hstep) ?_
    refine ite_stop_elim (fun hstep => ofOption_stop hstep) ?_
    refine ite_stop_elim (fun hstep => ofOption_stop hstep) ?_
    refine ite_stop_elim (fun hstep => ofOption_stop hstep) ?_
    refine ite_stop_elim (fun hstep => ofOption_stop hstep) ?_
    refine ite_stop_elim (fun hstep => ofOption_stop hstep) ?_
    refine ite_stop_elim (fun hstep => ofOption_stop hstep) ?_
    refine ite_stop_elim (fun hstep => ofOption_stop hstep) ?_
    refine ite_stop_elim (fun hstep => invokestatic_stop hstep) ?_
    refine ite_stop_elim (fun hstep => ireturn_stop hstep) ?_
    refine ite_stop_elim (fun hstep => ofOption_stop hstep) ?_
    refine ite_stop_elim (fun hstep => ofOption_stop hstep) ?_
    refine ite_stop_elim (fun hstep => ofOption_stop hstep) ?_
    refine ite_stop_elim (fun hstep => ofOption_stop hstep) ?_
    refine ite_stop_elim (fun hstep => ireturn_stop hstep) ?_
    refine ite_stop_elim (fun hstep => ofOption_stop hstep) ?_
    refine ite_stop_elim (fun hstep => ofOption_stop hstep) ?_
    refine ite_stop_elim (fun hstep => ofOption_stop hstep) ?_
    refine ite_stop_elim (fun hstep => ofOption_stop hstep) ?_
    refine ite_stop_elim (fun hstep => ofOption_stop hstep) ?_
    refine ite_stop_elim (fun hstep => ofOption_stop hstep) ?_
    intro hstep
    simp at hstep

/-- The loop of `execute` keeps the typing: the heap that it returns has at least the
arrays of the heap that it starts from, and the value and the heap arrays that it
returns from a state with `int32_t` slots are `int32_t` values, as long as the heap has
fewer than `2^31` arrays. -/
theorem loop_returns_int32 (call : method_t → List Int → heap_t → String → Outcome)
    (hcall : returns_int32 call) (m : method_t) (cls : class_file_t)
    (hcp : ∀ c : Int, cp_info.Integer c ∈ cls.constant_pool → is_int32 c) :
    ∀ (fuel : Nat) (s : State) (r : optional_value_t) (heap : heap_t) (out : String),
      loop call m cls fuel s = Outcome.returned r heap out →
      s.heap.length ≤ heap.length ∧
      (int32_state s → (heap.length : Int) ≤ 2 ^ 31 →
        (r.has_value = true → is_int32 r.value) ∧ ∀ arr ∈ heap, all_int32 arr) := by
  intro fuel
  induction fuel with
  | zero =>
    intro s r heap out h
    simp [loop] at h
  | succ fuel ih =>
    intro s r heap out h
    simp only [loop] at h
    split at h
    · cases hs : step call m cls s with
      | cont s1 =>
        rw [hs] at h
        obtain ⟨k1, k2⟩ := step_keeps call hcall m cls s s1 hcp hs
        obtain ⟨i1, i2⟩ := ih s1 r heap out h
        refine ⟨Nat.le_trans k1 i1, fun hinv hlen => i2 (k2 hinv ?_) hlen⟩
        have : (s1.heap.length : Int) ≤ (heap.length : Int) := Int.ofNat_le.mpr i1
        omega
      | stop o =>
        rw [hs] at h
        simp only at h
        subst h
        obtain ⟨e1, e2⟩ := step_stop_returned call m cls s r heap out hs
        subst e1
        exact ⟨Nat.le_refl _, fun hinv _ => ⟨fun _ => of_rd e2 hinv.1, hinv.2.2⟩⟩
    · simp only [Outcome.returned.injEq] at h
      obtain ⟨h1, h2, _⟩ := h
      subst h1 h2
      exact ⟨Nat.le_refl _, fun hinv _ => ⟨fun hv => absurd hv (by simp), hinv.2.2⟩⟩

/-- What `execute` returns keeps the typing, for every fuel. -/
theorem execute_returns_int32 (cls : class_file_t)
    (hcp : ∀ c : Int, cp_info.Integer c ∈ cls.constant_pool → is_int32 c) :
    ∀ fuel : Nat, returns_int32 (execute fuel cls) := by
  intro fuel
  induction fuel with
  | zero =>
    intro target locals heap0 out0 r heap out h
    simp [execute] at h
  | succ fuel ih =>
    intro target locals heap0 out0 r heap out h
    rw [execute_succ] at h
    obtain ⟨h1, h2⟩ := loop_returns_int32 (execute fuel cls) ih target cls hcp (fuel + 1)
      (initial_state target locals heap0 out0) r heap out h
    refine ⟨h1, fun hl hh hlen => h2 ⟨?_, hl, hh⟩ hlen⟩
    intro x hx
    rw [List.eq_of_mem_replicate hx]
    unfold is_int32
    constructor <;> norm_num

/-- A binary case that goes back to the loop head on a stack of depth at least two has
computed a defined result and written it below the top. -/
theorem binary_case_cont (op : Int → Int → Option Int) (s s' : State) (a b : Int)
    (hsp : 2 ≤ s.stack_pointer)
    (ha : rd s.operand_stack (s.stack_pointer - 2) = some a)
    (hb : rd s.operand_stack (s.stack_pointer - 1) = some b)
    (h : binary_case op s = some s') :
    ∃ r, op a b = some r ∧
      s' = { s with operand_stack := s.operand_stack.set (s.stack_pointer - 2).toNat r,
                    stack_pointer := s.stack_pointer - 1, counter := s.counter + 1 } := by
  cases hr : op a b with
  | none => simp [binary_case, hsp, ha, hb, hr] at h
  | some r =>
    rw [binary_case_eq op s a b r hsp ha hb hr] at h
    injection h with h
    exact ⟨r, rfl, h.symm⟩

/-- A value of type `int32_t` is not changed by the conversion to `int32_t`. -/
theorem to_int32_of_is_int32 (x : Int) (h : is_int32 x) : to_int32 x = x :=
  to_int32_of_range x h.1 h.2

/-- Each operator of the binary cases, where it is defined on two `int32_t` operands,
gives the exact result of its opcode truncated to `int32_t`. -/
theorem op_exact (a b r : Int) (ha : is_int32 a) (hb : is_int32 b) :
    (op_iadd a b = some r → r = to_int32 (spec_exact_result i_iadd a b)) ∧
    (op_isub a b = some r → r = to_int32 (spec_exact_result i_isub a b)) ∧
    (op_imul a b = some r → r = to_int32 (spec_exact_result i_imul a b)) ∧
    (op_idiv a b = some r → r = to_int32 (spec_exact_result i_idiv a b)) ∧
    (op_irem a b = some r → r = to_int32 (spec_exact_result i_irem a b)) ∧
    (op_ishl a b = some r → r = to_int32 (spec_exact_result i_ishl a b)) ∧
    (op_ishr a b = some r → r = to_int32 (spec_exact_result i_ishr a b)) ∧
    (op_iushr a b = some r → r = to_int32 (spec_exact_result i_iushr a b)) ∧
    (op_iand a b = some r → r = to_int32 (spec_exact_result i_iand a b)) ∧
    (op_ior a b = some r → r = to_int32 (spec_exact_result i_ior a b)) ∧
    (op_ixor a b = some r → r = to_int32 (spec_exact_result i_ixor a b)) := by
  have e1 : spec_exact_result i_iadd a b = a + b := rfl
  have e2 : spec_exact_result i_isub a b = a - b := rfl
  have e3 : spec_exact_result i_imul a b = a * b := rfl
  have e4 : spec_exact_result i_idiv a b = Int.tdiv a b := rfl
  have e5 : spec_exact_result i_irem a b = Int.tmod a b := rfl
  have e6 : spec_exact_result i_ishl a b = a * 2 ^ b.toNat := rfl
  have e7 : spec_exact_result i_ishr a b = a / 2 ^ b.toNat := rfl
  have e8 : spec_exact_result i_iushr a b = (a % 2 ^ 32) / 2 ^ b.toNat := rfl
  have e9 : spec_exact_result i_iand a b = Int.land a b := rfl
  have e10 : spec_exact_result i_ior a b = Int.lor a b := rfl
  have e11 : spec_exact_result i_ixor a b = Int.xor a b := rfl
  refine ⟨?_, ?_, ?_, ?_, ?_, ?_, ?_, ?_, ?_, ?_, ?_⟩
  · intro h
    simp only [op_iadd, Option.some.injEq] at h
    rw [e1, ← h, Int.add_comm]
  · intro h
    simp only [op_isub, Option.some.injEq] at h
    rw [e2, ← h]
  · intro h
    simp only [op_imul, Option.some.injEq] at h
    rw [e3, ← h, Int.mul_comm]
  · intro h
    unfold op_idiv at h
    split at h
    · exact absurd h (by simp)
    · rename_i hc
      simp only [Option.some.injEq] at h
      rw [e4, ← h]
      exact (to_int32_of_is_int32 _ (is_int32_tdiv a b ha
        (fun hm => hc (Or.inr hm)))).symm
  · intro h
    unfold op_irem at h
    split at h
    · exact absurd h (by simp)
    · rename_i hc
      simp only [Option.some.injEq] at h
      rw [e5, ← h]
      exact (to_int32_of_is_int32 _ (is_int32_tmod a b hb
        (fun h0 => hc (Or.inl h0)))).symm
  · intro h
    unfold op_ishl at h
    split at h
    · simp only [Option.some.injEq] at h
      rw [e6, ← h]
    · exact absurd h (by simp)
  · intro h
    unfold op_ishr at h
    split at h
    · simp only [Option.some.injEq] at h
      rw [e7, ← h, ← int_shiftRight_eq]
      exact (to_int32_of_is_int32 _ (is_int32_shiftRight a _ ha)).symm
    · exact absurd h (by simp)
  · intro h
    unfold op_iushr at h
    split at h
    · simp only [Option.some.injEq] at h
      rw [e8, ← h, u4_shiftRight_eq]
    · exact absurd h (by simp)
  · intro h
    simp only [op_iand, Option.some.injEq] at h
    rw [e9, ← h]
    exact (to_int32_of_is_int32 _ (is_int32_land a b ha hb)).symm
  · intro h
    simp only [op_ior, Option.some.injEq] at h
    rw [e10, ← h]
    exact (to_int32_of_is_int32 _ (is_int32_lor a b ha hb)).symm
  · intro h
    simp only [op_ixor, Option.some.injEq] at h
    rw [e11, ← h]
    exact (to_int32_of_is_int32 _ (is_int32_xor a b ha hb)).symm

/-- A pass of a binary opcode that goes back to the loop head on a stack of depth at
least two, with `int32_t` values `a` below the top and `b` on top, has written the exact
result of the opcode truncated to `int32_t` below the top. -/
theorem binary_step_exact (call : method_t → List Int → heap_t → String → Outcome)
    (m : method_t) (cls : class_file_t) (s s' : State) (op : u1) (a b : Int)
    (hmem : op ∈ binary_opcodes)
    (hop : rd m.code.code s.counter = some op)
    (hsp : 2 ≤ s.stack_pointer)
    (ha : rd s.operand_stack (s.stack_pointer - 2) = some a)
    (hb : rd s.operand_stack (s.stack_pointer - 1) = some b)
    (ia : is_int32 a) (ib : is_int32 b)
    (hstep : step call m cls s = Step.cont s') :
    s' = { s with
           operand_stack :=
             s.operand_stack.set (s.stack_pointer - 2).toNat
               (to_int32 (spec_exact_result op a b)),
           stack_pointer := s.stack_pointer - 1, counter := s.counter + 1 } := by
  have key : ∀ (f : Int → Int → Option Int),
      step call m cls s = Step.ofOption (binary_case f s) →
      (∀ r, f a b = some r → r = to_int32 (spec_exact_result op a b)) →
      s' = { s with
             operand_stack :=
               s.operand_stack.set (s.stack_pointer - 2).toNat
                 (to_int32 (spec_exact_result op a b)),
             stack_pointer := s.stack_pointer - 1, counter := s.counter + 1 } := by
    intro f hf hex
    rw [hf] at hstep
    obtain ⟨r, hr, e⟩ := binary_case_cont f s s' a b hsp ha hb (ofOption_cont hstep)
    rw [e, hex r hr]
  simp only [binary_opcodes, List.mem_cons, List.mem_singleton, List.not_mem_nil,
    or_false] at hmem
  rcases hmem with e | e | e | e | e | e | e | e | e | e | e <;> subst e
  · exact key op_iadd (step_iadd call m cls s hop) (fun r => (op_exact a b r ia ib).1)
  · exact key op_isub (step_isub call m cls s hop) (fun r => (op_exact a b r ia ib).2.1)
  · exact key op_imul (step_imul call m cls s hop) (fun r => (op_exact a b r ia ib).2.2.1)
  · exact key op_idiv (step_idiv call m cls s hop)
      (fun r => (op_exact a b r ia ib).2.2.2.1)
  · exact key op_irem (step_irem call m cls s hop)
      (fun r => (op_exact a b r ia ib).2.2.2.2.1)
  · exact key op_ishl (step_ishl call m cls s hop)
      (fun r => (op_exact a b r ia ib).2.2.2.2.2.1)
  · exact key op_ishr (step_ishr call m cls s hop)
      (fun r => (op_exact a b r ia ib).2.2.2.2.2.2.1)
  · exact key op_iushr (step_iushr call m cls s hop)
      (fun r => (op_exact a b r ia ib).2.2.2.2.2.2.2.1)
  · exact key op_iand (step_iand call m cls s hop)
      (fun r => (op_exact a b r ia ib).2.2.2.2.2.2.2.2.1)
  · exact key op_ior (step_ior call m cls s hop)
      (fun r => (op_exact a b r ia ib).2.2.2.2.2.2.2.2.2.1)
  · exact key op_ixor (step_ixor call m cls s hop)
      (fun r => (op_exact a b r ia ib).2.2.2.2.2.2.2.2.2.2)

/-- A pass of a binary opcode on a stack of depth at least two goes back to the loop
head when C defines the operation on the two top values: the divisor of `idiv` and
`irem` is not zero and the division is not `INT_MIN / -1`, and the amount of a shift is
in `0..31`. -/
theorem binary_step_defined (call : method_t → List Int → heap_t → String → Outcome)
    (m : method_t) (cls : class_file_t) (s : State) (op : u1) (a b : Int)
    (hmem : op ∈ binary_opcodes)
    (hop : rd m.code.code s.counter = some op)
    (hsp : 2 ≤ s.stack_pointer)
    (ha : rd s.operand_stack (s.stack_pointer - 2) = some a)
    (hb : rd s.operand_stack (s.stack_pointer - 1) = some b)
    (hdiv : op = i_idiv ∨ op = i_irem → b ≠ 0 ∧ ¬ (a = -2 ^ 31 ∧ b = -1))
    (hsh : op = i_ishl ∨ op = i_ishr ∨ op = i_iushr → 0 ≤ b ∧ b < 32) :
    ∃ s', step call m cls s = Step.cont s' := by
  have key : ∀ (f : Int → Int → Option Int),
      step call m cls s = Step.ofOption (binary_case f s) →
      (∃ r, f a b = some r) → ∃ s', step call m cls s = Step.cont s' := by
    intro f hf hr
    obtain ⟨r, hr⟩ := hr
    rw [hf, binary_case_eq f s a b r hsp ha hb hr]
    exact ⟨_, rfl⟩
  simp only [binary_opcodes, List.mem_cons, List.mem_singleton, List.not_mem_nil,
    or_false] at hmem
  rcases hmem with e | e | e | e | e | e | e | e | e | e | e <;> subst e
  · exact key op_iadd (step_iadd call m cls s hop) ⟨_, rfl⟩
  · exact key op_isub (step_isub call m cls s hop) ⟨_, rfl⟩
  · exact key op_imul (step_imul call m cls s hop) ⟨_, rfl⟩
  · obtain ⟨h0, hmin⟩ := hdiv (Or.inl rfl)
    have hg : ¬ (b = 0 ∨ (a = INT_MIN ∧ b = -1)) := by
      unfold INT_MIN
      tauto
    exact key op_idiv (step_idiv call m cls s hop) ⟨_, by
      simp only [op_idiv, hg, if_false]; rfl⟩
  · obtain ⟨h0, hmin⟩ := hdiv (Or.inr rfl)
    have hg : ¬ (b = 0 ∨ (a = INT_MIN ∧ b = -1)) := by
      unfold INT_MIN
      tauto
    exact key op_irem (step_irem call m cls s hop) ⟨_, by
      simp only [op_irem, hg, if_false]; rfl⟩
  · have hg := hsh (Or.inl rfl)
    exact key op_ishl (step_ishl call m cls s hop) ⟨_, by
      simp only [op_ishl, hg, and_self, if_true]; rfl⟩
  · have hg := hsh (Or.inr (Or.inl rfl))
    exact key op_ishr (step_ishr call m cls s hop) ⟨_, by
      simp only [op_ishr, hg, and_self, if_true]; rfl⟩
  · have hg := hsh (Or.inr (Or.inr rfl))
    exact key op_iushr (step_iushr call m cls s hop) ⟨_, by
      simp only [op_iushr, hg, and_self, if_true]; rfl⟩
  · exact key op_iand (step_iand call m cls s hop) ⟨_, rfl⟩
  · exact key op_ior (step_ior call m cls s hop) ⟨_, rfl⟩
  · exact key op_ixor (step_ixor call m cls s hop) ⟨_, rfl⟩

/-- A pass of `ineg` on a stack of depth at least one replaces the top `a` by `-a`
truncated to `int32_t`. -/
theorem ineg_step_exact (call : method_t → List Int → heap_t → String → Outcome)
    (m : method_t) (cls : class_file_t) (s : State) (a : Int)
    (hop : rd m.code.code s.counter = some i_ineg)
    (hsp : 1 ≤ s.stack_pointer)
    (ha : rd s.operand_stack (s.stack_pointer - 1) = some a) :
    step call m cls s = Step.cont { s with
      operand_stack := s.operand_stack.set (s.stack_pointer - 1).toNat (to_int32 (-a)),
      counter := s.counter + 1 } := by
  rw [step_ineg call m cls s hop]
  have hw := wr_of_rd ha (to_int32 (-a))
  simp only [case_ineg, hsp, ha, hw, if_true, Option.bind_eq_bind, Option.some_bind]
  rfl

/-- A pass of `iinc k c` replaces the local `v` of index `k` by `v` plus the signed byte
`c`, truncated to `int32_t`. -/
theorem iinc_step_exact (call : method_t → List Int → heap_t → String → Outcome)
    (m : method_t) (cls : class_file_t) (s : State) (k c : u1) (v : Int)
    (hop : rd m.code.code s.counter = some i_iinc)
    (hk : rd m.code.code (s.counter + 1) = some k)
    (hc : rd m.code.code (s.counter + 2) = some c)
    (hv : rd s.locals (k.val : Int) = some v) :
    step call m cls s = Step.cont { s with
      locals := s.locals.set k.val (to_int32 (v + to_int8 (c.val : Int))),
      counter := s.counter + 3 } := by
  rw [step_iinc call m cls s hop]
  have hw := wr_of_rd hv (to_int32 (v + to_int8 (c.val : Int)))
  have e2 : s.counter + 1 + 1 = s.counter + 2 := by omega
  have e3 : s.counter + 1 + 2 = s.counter + 3 := by omega
  simp only [case_iinc, hk, e2, e3, hc, hv, hw, Option.bind_eq_bind, Option.some_bind]
  rfl

/-- C23: invariant of the interpreter pass, for a pass of `execute` (the callees of
`invokestatic` are run by `execute` itself). If every slot of the operand stack buffer
and of the locals holds a value in `[-2^31, 2^31 - 1]` before a pass (and so do the
other `int32_t` objects the pass can read: the heap arrays, the integer constants and
the references of the heap arrays), then the same holds after the pass, whatever the
opcode, the values a callee returned included. The results of the arithmetic opcodes
are the exact results truncated to 32-bit two's complement: a binary opcode among
`iadd`, `isub`, `imul`, `idiv`, `irem`, `ishl`, `ishr`, `iushr`, `iand`, `ior`, `ixor`
on a stack with `a` below the top `b` writes `to_int32 (spec_exact_result op a b)` over
`a` and moves the stack pointer and the program counter by one, in every pass that goes
back to the loop head, and the pass does go back to the loop head when C defines the
operation; `ineg` writes `to_int32 (-a)` over the top `a`, and `iinc k c` writes
`to_int32 (v + (int8_t) c)` over the local `v` of index `k`; `2147483647 iadd 1` is
`-2147483648` and `ineg` of `-2147483648` is `-2147483648`. -/
theorem step_keeps_int32_values
    (fuel : Nat) (m : method_t) (cls : class_file_t) (s : State)
    (hinv : int32_state s)
    (hcp : ∀ c : Int, cp_info.Integer c ∈ cls.constant_pool → is_int32 c) :
    (∀ s' : State, step (execute fuel cls) m cls s = Step.cont s' →
      (s'.heap.length : Int) ≤ 2 ^ 31 → int32_state s') ∧
    (∀ (op : u1) (a b : Int), op ∈ binary_opcodes →
      rd m.code.code s.counter = some op → 2 ≤ s.stack_pointer →
      rd s.operand_stack (s.stack_pointer - 2) = some a →
      rd s.operand_stack (s.stack_pointer - 1) = some b →
      (∀ s' : State, step (execute fuel cls) m cls s = Step.cont s' →
        s' = { s with
               operand_stack :=
                 s.operand_stack.set (s.stack_pointer - 2).toNat
                   (to_int32 (spec_exact_result op a b)),
               stack_pointer := s.stack_pointer - 1, counter := s.counter + 1 }) ∧
      ((op = i_idiv ∨ op = i_irem → b ≠ 0 ∧ ¬ (a = -2 ^ 31 ∧ b = -1)) →
        (op = i_ishl ∨ op = i_ishr ∨ op = i_iushr → 0 ≤ b ∧ b < 32) →
        step (execute fuel cls) m cls s =
          Step.cont { s with
            operand_stack :=
              s.operand_stack.set (s.stack_pointer - 2).toNat
                (to_int32 (spec_exact_result op a b)),
            stack_pointer := s.stack_pointer - 1, counter := s.counter + 1 })) ∧
    (∀ a : Int, rd m.code.code s.counter = some i_ineg → 1 ≤ s.stack_pointer →
      rd s.operand_stack (s.stack_pointer - 1) = some a →
      step (execute fuel cls) m cls s =
        Step.cont { s with
          operand_stack :=
            s.operand_stack.set (s.stack_pointer - 1).toNat (to_int32 (-a)),
          counter := s.counter + 1 }) ∧
    (∀ (k c : u1) (v : Int), rd m.code.code s.counter = some i_iinc →
      rd m.code.code (s.counter + 1) = some k → rd m.code.code (s.counter + 2) = some c →
      rd s.locals (k.val : Int) = some v →
      step (execute fuel cls) m cls s =
        Step.cont { s with
          locals := s.locals.set k.val (to_int32 (v + to_int8 (c.val : Int))),
          counter := s.counter + 3 }) ∧
    step no_call (method_of_code [i_iadd]) empty_class
      (frame_at [2147483647, 1, 0, 0] 2 0 []) =
      Step.cont (frame_at [-2147483648, 1, 0, 0] 1 1 []) ∧
    step no_call (method_of_code [i_ineg]) empty_class
      (frame_at [-2147483648, 0, 0, 0] 1 0 []) =
      Step.cont (frame_at [-2147483648, 0, 0, 0] 1 1 []) := by
  refine ⟨?_, ?_, ?_, ?_, by decide, by decide⟩
  · intro s' hstep hheap
    exact (step_keeps (execute fuel cls) (execute_returns_int32 cls hcp fuel) m cls s s'
      hcp hstep).2 hinv hheap
  · intro op a b hmem hop hsp ha hb
    have hex : ∀ s' : State, step (execute fuel cls) m cls s = Step.cont s' →
        s' = { s with
               operand_stack :=
                 s.operand_stack.set (s.stack_pointer - 2).toNat
                   (to_int32 (spec_exact_result op a b)),
               stack_pointer := s.stack_pointer - 1, counter := s.counter + 1 } :=
      fun s' hstep => binary_step_exact (execute fuel cls) m cls s s' op a b hmem hop hsp
        ha hb (of_rd ha hinv.1) (of_rd hb hinv.1) hstep
    refine ⟨hex, fun hdiv hsh => ?_⟩
    obtain ⟨s', hstep⟩ := binary_step_defined (execute fuel cls) m cls s op a b hmem hop
      hsp ha hb hdiv hsh
    rw [hstep, hex s' hstep]
  · intro a hop hsp ha
    exact ineg_step_exact (execute fuel cls) m cls s a hop hsp ha
  · intro k c v hop hk hc hv
    exact iinc_step_exact (execute fuel cls) m cls s k c v hop hk hc hv

/-- Witness of C23: the pass `invokestatic factorial` from the frame with the stack
`3, 5` runs the callee in `execute` and goes back to the loop head with the returned 120
on the stack, all slots `int32_t` values; and the pass `iadd` on `2147483647, 1` writes
the exact sum `2147483648` truncated to `int32_t`, which is `-2147483648`. -/
theorem step_keeps_int32_values_witness :
    int32_state (frame_at [3, 5, 0, 0] 2 0 [7]) ∧
    step (execute 20 factorial_class) (method_of_code [i_invokestatic, 0x00, 0x02])
      factorial_class (frame_at [3, 5, 0, 0] 2 0 [7]) =
      Step.cont (frame_at [3, 120, 0, 0] 2 3 [7]) ∧
    int32_state (frame_at [3, 120, 0, 0] 2 3 [7]) ∧
    spec_exact_result i_iadd 2147483647 1 = 2147483648 ∧
    to_int32 (spec_exact_result i_iadd 2147483647 1) = -2147483648 ∧
    step (execute 20 factorial_class) (method_of_code [i_iadd]) factorial_class
      (frame_at [2147483647, 1, 0, 0] 2 0 [7]) =
      Step.cont { frame_at [2147483647, 1, 0, 0] 2 0 [7] with
        operand_stack :=
          [2147483647, 1, 0, 0].set 0 (to_int32 (spec_exact_result i_iadd 2147483647 1)),
        stack_pointer := 1, counter := 1 } :=
  have hcp : ∀ c : Int, cp_info.Integer c ∈ factorial_class.constant_pool → is_int32 c := by
    simp [factorial_class]
  have hinv : int32_state (frame_at [3, 5, 0, 0] 2 0 [7]) := by
    simp [int32_state, all_int32, is_int32, frame_at]
  have hcall : step (execute 20 factorial_class)
      (method_of_code [i_invokestatic, 0x00, 0x02]) factorial_class
      (frame_at [3, 5, 0, 0] 2 0 [7]) = Step.cont (frame_at [3, 120, 0, 0] 2 3 [7]) := by
    decide
  have hinv2 : int32_state (frame_at [2147483647, 1, 0, 0] 2 0 [7]) := by
    simp [int32_state, all_int32, is_int32, frame_at]
  ⟨hinv, hcall,
    (step_keeps_int32_values 20 (method_of_code [i_invokestatic, 0x00, 0x02])
      factorial_class (frame_at [3, 5, 0, 0] 2 0 [7]) hinv hcp).1
      (frame_at [3, 120, 0, 0] 2 3 [7]) hcall (by decide),
    by decide, by decide,
    ((step_keeps_int32_values 20 (method_of_code [i_iadd]) factorial_class
      (frame_at [2147483647, 1, 0, 0] 2 0 [7]) hinv2 hcp).2.1 i_iadd 2147483647 1
      (by decide) (by decide) (by decide) (by decide) (by decide)).2
      (by decide) (by decide)⟩

end TeenyJVM

namespace Compile

/-! ## Claims on `compile.c` -/

theorem to_int64_range (x : Int) : is_int64 (to_int64 x) := by
  unfold is_int64 to_int64
  constructor <;> omega

theorem to_int64_of_range (x : Int) (h : is_int64 x) : to_int64 x = x := by
  unfold is_int64 at h
  unfold to_int64
  omega

/-- The quotient of two `int64_t` values is an `int64_t`, the case `INT64_MIN / -1`
apart. -/
theorem is_int64_tdiv (a b : Int) (ha : is_int64 a) (hmin : ¬ (a = -2 ^ 63 ∧ b = -1)) :
    is_int64 (Int.tdiv a b) := by
  unfold is_int64 at ha ⊢
  by_cases hb1 : b = -1
  · subst hb1
    have e : Int.tdiv a (-1) = -a := by
      rw [Int.tdiv_neg, Int.tdiv_one]
    rw [e]
    have : a ≠ -2 ^ 63 := fun h => hmin ⟨h, rfl⟩
    constructor <;> omega
  · have hq : (Int.tdiv a b).natAbs ≤ a.natAbs := by
      rw [Int.natAbs_tdiv]
      exact Nat.div_le_self _ _
    by_cases hb2 : b = 1
    · subst hb2
      rw [Int.tdiv_one]
      exact ha
    · by_cases hb0 : b = 0
      · subst hb0
        rw [Int.tdiv_zero]
        constructor <;> norm_num
      · have h2 : 2 ≤ b.natAbs := by omega
        have hq2 : (Int.tdiv a b).natAbs ≤ a.natAbs / 2 := by
          rw [Int.natAbs_tdiv]
          exact Nat.div_le_div_left h2 (by norm_num)
        constructor <;> omega

/-- The value of an arithmetic tree is an `int64_t`. -/
theorem expr_value_range : ∀ t : node_t, arithmetic_tree t = true → is_int64 (expr_value t)
  | node_t.NUM value, h => by
    simpa [arithmetic_tree, expr_value, is_int64] using h
  | node_t.BINARY_OP op left right, _ => by
    unfold expr_value
    split_ifs <;> exact to_int64_range _
  | node_t.PRINT _, h => by simp [arithmetic_tree] at h
  | node_t.SEQUENCE _, h => by simp [arithmetic_tree] at h
  | node_t.VAR _, h => by simp [arithmetic_tree] at h
  | node_t.LET _ _, h => by simp [arithmetic_tree] at h
  | node_t.IF _ _ _, h => by simp [arithmetic_tree] at h
  | node_t.WHILE _ _, h => by simp [arithmetic_tree] at h

/-- An arithmetic tree is a constant tree. -/
theorem arithmetic_tree_is_constant :
    ∀ t : node_t, arithmetic_tree t = true → constant_tree_found t = true
  | node_t.NUM _, _ => rfl
  | node_t.BINARY_OP op left right, h => by
    simp only [arithmetic_tree, Bool.and_eq_true, decide_eq_true_eq] at h
    obtain ⟨hop, hl, hr⟩ := h
    have hbad : ¬ (op = '>' ∨ op = '=' ∨ op = '<') := by
      rcases hop with e | e | e | e <;> subst e <;> decide
    simp only [constant_tree_found, hbad, if_false, Bool.and_eq_true]
    exact ⟨arithmetic_tree_is_constant left hl, arithmetic_tree_is_constant right hr⟩
  | node_t.PRINT _, h => by simp [arithmetic_tree] at h
  | node_t.SEQUENCE _, h => by simp [arithmetic_tree] at h
  | node_t.VAR _, h => by simp [arithmetic_tree] at h
  | node_t.LET _ _, h => by simp [arithmetic_tree] at h
  | node_t.IF _ _ _, h => by simp [arithmetic_tree] at h
  | node_t.WHILE _ _, h => by simp [arithmetic_tree] at h

/-- On an arithmetic tree whose divisions are all defined, `evaluation_tree` returns
the value of the expression. -/
theorem evaluation_tree_eq : ∀ t : node_t, arithmetic_tree t = true →
    no_zero_divisor t = true → no_overflowing_division t = true →
    evaluation_tree t = some (expr_value t)
  | node_t.NUM _, _, _, _ => rfl
  | node_t.BINARY_OP op left right, h, hz, hm => by
    simp only [arithmetic_tree, Bool.and_eq_true, decide_eq_true_eq] at h
    simp only [no_zero_divisor, Bool.and_eq_true, decide_eq_true_eq] at hz
    simp only [no_overflowing_division, Bool.and_eq_true, decide_eq_true_eq] at hm
    obtain ⟨hop, hl, hr⟩ := h
    obtain ⟨hz0, hzl, hzr⟩ := hz
    obtain ⟨hm0, hml, hmr⟩ := hm
    have el := evaluation_tree_eq left hl hzl hml
    have er := evaluation_tree_eq right hr hzr hmr
    unfold evaluation_tree expr_value
    rw [el, er]
    rcases hop with e | e | e | e <;> subst e
    · rfl
    · rfl
    · rfl
    · have h0 := hz0 rfl
      have h1 := hm0 rfl
      have hd : div_int64 (expr_value left) (expr_value right) =
          some (Int.tdiv (expr_value left) (expr_value right)) := by
        unfold div_int64
        rw [if_neg]
        rintro (h | h)
        · exact h0 h
        · exact h1 h
      have hq := to_int64_of_range _
        (is_int64_tdiv _ _ (expr_value_range left hl) h1)
      simp only [Char.reduceEq, if_false, if_true, Option.bind_eq_bind, Option.some_bind,
        hd, hq]
  | node_t.PRINT _, h, _, _ => by simp [arithmetic_tree] at h
  | node_t.SEQUENCE _, h, _, _ => by simp [arithmetic_tree] at h
  | node_t.VAR _, h, _, _ => by simp [arithmetic_tree] at h
  | node_t.LET _ _, h, _, _ => by simp [arithmetic_tree] at h
  | node_t.IF _ _ _, h, _, _ => by simp [arithmetic_tree] at h
  | node_t.WHILE _ _, h, _, _ => by simp [arithmetic_tree] at h

/-- A tree with a `VAR` leaf or a comparison operator is not a constant tree. -/
theorem var_or_comparison_not_constant :
    ∀ t : node_t, has_var_or_comparison t = true → constant_tree_found t = false
  | node_t.VAR _, _ => rfl
  | node_t.BINARY_OP op left right, h => by
    simp only [has_var_or_comparison, Bool.or_eq_true, decide_eq_true_eq] at h
    unfold constant_tree_found
    by_cases hbad : op = '>' ∨ op = '=' ∨ op = '<'
    · rw [if_pos hbad]
    · rw [if_neg hbad]
      rcases h with h | h | h
      · exact absurd (by tauto) hbad
      · rw [var_or_comparison_not_constant left h]
        rfl
      · rw [var_or_comparison_not_constant right h]
        exact Bool.and_false _
  | node_t.NUM _, h => by simp [has_var_or_comparison] at h
  | node_t.PRINT _, _ => rfl
  | node_t.SEQUENCE _, _ => rfl
  | node_t.LET _ _, _ => rfl
  | node_t.IF _ _ _, _ => rfl
  | node_t.WHILE _ _, _ => rfl

/-- Counterexample of C31: the expression `(0 - 9223372036854775807 - 1) / (0 - 1)` is
built only from `NUM` leaves and the operators `-` and `/`, and its one division has
the right operand `-1`, not 0; but the left operand evaluates to `-2^63`, the quotient
is not an `int64_t`, and the C division is undefined: `evaluation_tree` returns no
value and `compile_ast` emits no line. -/
theorem min_over_minus_one_counterexample :
    arithmetic_tree min_over_minus_one = true ∧
    no_zero_divisor min_over_minus_one = true ∧
    constant_tree_found min_over_minus_one = true ∧
    evaluation_tree min_over_minus_one = none ∧
    compile_ast min_over_minus_one initial = none := by
  decide

/-- C31 (amended): for every expression tree built only from `NUM` leaves and
`BINARY_OP` nodes with the operators `+`, `-`, `*`, `/`, in which no division has a
right operand evaluating to 0 and no division has the left operand `-2^63` with the
right operand `-1`, `constant_tree_found` returns true, `evaluation_tree` returns the
value of the expression under 64-bit signed arithmetic with division truncating toward
zero, and `compile_ast` on the root appends exactly the line `movq $<value>, %rdi` to
the output, changes nothing else and returns true; and `constant_tree_found` returns
false for every tree with a `VAR` leaf or one of the operators `<`, `=`, `>`. -/
theorem constant_tree_is_folded (t : node_t) (s : compiler_t)
    (harith : arithmetic_tree t = true)
    (hzero : no_zero_divisor t = true)
    (hmin : no_overflowing_division t = true) :
    constant_tree_found t = true ∧
    evaluation_tree t = some (expr_value t) ∧
    is_int64 (expr_value t) ∧
    compile_ast t s =
      some (true, { s with
                    out := s.out ++ ("movq $" ++ toString (expr_value t) ++ ", %rdi\n") }) ∧
    ∀ u : node_t, has_var_or_comparison u = true → constant_tree_found u = false := by
  have hc := arithmetic_tree_is_constant t harith
  have he := evaluation_tree_eq t harith hzero hmin
  refine ⟨hc, he, expr_value_range t harith, ?_, var_or_comparison_not_constant⟩
  cases t with
  | NUM value => rfl
  | BINARY_OP op left right =>
    unfold compile_ast
    rw [if_pos hc, he]
    rfl
  | PRINT _ => simp [arithmetic_tree] at harith
  | SEQUENCE _ => simp [arithmetic_tree] at harith
  | VAR _ => simp [arithmetic_tree] at harith
  | LET _ _ => simp [arithmetic_tree] at harith
  | IF _ _ _ => simp [arithmetic_tree] at harith
  | WHILE _ _ => simp [arithmetic_tree] at harith

/-- Witness of C31: the expression `(2 + 3) * 4 - 20 / 6` is folded into the single line
`movq $17, %rdi`. -/
theorem constant_tree_is_folded_witness :
    evaluation_tree sample_expression = some 17 ∧
    compile_ast sample_expression initial =
      some (true, { if_label_count := 0, while_count_l := 0, out := "movq $17, %rdi\n" }) :=
  have h := constant_tree_is_folded sample_expression initial (by decide) (by decide)
    (by decide)
  have e : expr_value sample_expression = 17 := by decide
  ⟨by rw [h.2.1, e], by rw [h.2.2.2.1, e]; rfl⟩

end Compile

namespace Queue

/-! ## Claims on `queue.c` -/

/-- Every node of a linked list of nodes is in the store. -/
theorem linked_mem (heap : Nat → Option node_t) :
    ∀ (nodes : List (Nat × Int)) (a : Nat), linked heap nodes →
      a ∈ nodes.map Prod.fst → heap a ≠ none
  | [], a, _, ha => by simp at ha
  | [(b, v)], a, h, ha => by
    simp only [List.map_cons, List.map_nil, List.mem_singleton] at ha
    subst ha
    simp only [linked] at h
    rw [h]
    simp
  | (b, v) :: (c, w) :: rest, a, h, ha => by
    simp only [linked] at h
    rw [List.map_cons, List.mem_cons] at ha
    rcases ha with ha | ha
    · subst ha
      rw [h.1]
      simp
    · exact linked_mem heap ((c, w) :: rest) a h.2 ha

/-- A store that agrees with another one on the nodes of a linked list links them too. -/
theorem linked_congr (heap heap' : Nat → Option node_t) :
    ∀ (nodes : List (Nat × Int)), (∀ a ∈ nodes.map Prod.fst, heap' a = heap a) →
      linked heap nodes → linked heap' nodes
  | [], _, _ => trivial
  | [(b, v)], he, h => by
    simp only [linked] at h ⊢
    rw [he b (by simp), h]
  | (b, v) :: (c, w) :: rest, he, h => by
    simp only [linked] at h ⊢
    refine ⟨by rw [he b (by simp), h.1], ?_⟩
    exact linked_congr heap heap' ((c, w) :: rest)
      (fun a ha => he a (by rw [List.map_cons]; exact List.mem_cons_of_mem _ ha)) h.2

/-- The first node of a linked list points to the second one, if there is one. -/
theorem linked_head (heap : Nat → Option node_t) (a : Nat) (v : Int)
    (rest : List (Nat × Int)) (h : linked heap ((a, v) :: rest)) :
    heap a = some { value := v, nextptr := (rest.head?).map Prod.fst } ∧ linked heap rest := by
  cases rest with
  | nil => exact ⟨by simpa [linked] using h, trivial⟩
  | cons b rest =>
    obtain ⟨b, w⟩ := b
    simp only [linked] at h
    exact ⟨by simpa using h.1, h.2⟩

/-- Linking a new node behind the last node of a linked list gives the list with the
new node at its end. -/
theorem linked_snoc (heap heap' : Nat → Option node_t) (p : Nat) (v : Int) (t : Nat) (w : Int) :
    ∀ (nodes : List (Nat × Int)), linked heap nodes → (nodes.map Prod.fst).Nodup →
      nodes.getLast? = some (t, w) →
      (∀ a ∈ nodes.map Prod.fst, a ≠ t → heap' a = heap a) →
      heap' t = some { value := w, nextptr := some p } →
      heap' p = some { value := v, nextptr := none } →
      linked heap' (nodes ++ [(p, v)])
  | [], _, _, hl, _, _, _ => by simp at hl
  | [(b, u)], _, _, hl, _, ht, hp => by
    simp only [List.getLast?_singleton, Option.some.injEq, Prod.mk.injEq] at hl
    obtain ⟨rfl, rfl⟩ := hl
    simp only [List.singleton_append, linked]
    exact ⟨ht, hp⟩
  | (b, u) :: (c, x) :: rest, h, hn, hl, he, ht, hp => by
    simp only [linked] at h
    rw [List.getLast?_cons_cons] at hl
    simp only [List.map_cons, List.nodup_cons] at hn
    have htm : t ∈ ((c, x) :: rest).map Prod.fst := by
      have := List.mem_of_getLast?_eq_some hl
      exact List.mem_map_of_mem Prod.fst this
    have hbt : b ≠ t := by
      intro e
      subst e
      exact hn.1 (by simpa using htm)
    have e1 : heap' b = some { value := u, nextptr := some c } := by
      rw [he b (by simp) hbt, h.1]
    have ih := linked_snoc heap heap' p v t w ((c, x) :: rest) h.2
      (by simpa using hn.2) hl
      (fun a ha => he a (by rw [List.map_cons]; exact List.mem_cons_of_mem _ ha)) ht hp
    simp only [List.cons_append, linked] at ih ⊢
    exact ⟨e1, ih⟩

/-- The last node of a linked list has no successor. -/
theorem linked_last (heap : Nat → Option node_t) (t : Nat) (w : Int) :
    ∀ (nodes : List (Nat × Int)), linked heap nodes → nodes.getLast? = some (t, w) →
      heap t = some { value := w, nextptr := none }
  | [], _, hl => by simp at hl
  | [(b, u)], h, hl => by
    simp only [List.getLast?_singleton, Option.some.injEq, Prod.mk.injEq] at hl
    obtain ⟨rfl, rfl⟩ := hl
    simpa [linked] using h
  | (b, u) :: (c, x) :: rest, h, hl => by
    simp only [linked] at h
    rw [List.getLast?_cons_cons] at hl
    exact linked_last heap t w ((c, x) :: rest) h.2 hl

/-- On a queue that holds `nodes`, `queue_enqueue` with a fresh address returns, and the
queue then holds `nodes` followed by the new node. -/
theorem enqueue_holds (queue : queue_t) (nodes : List (Nat × Int)) (p : Nat) (v : Int)
    (h : holds queue nodes) (hp : queue.heap p = none) :
    ∃ queue1, queue_enqueue queue p v = some queue1 ∧ holds queue1 (nodes ++ [(p, v)]) := by
  obtain ⟨hh, ht, hl, hn⟩ := h
  rcases List.eq_nil_or_concat nodes with e | ⟨init, ⟨t, w⟩, e⟩
  · subst e
    simp only [List.head?_nil, List.getLast?_nil, Option.map_none'] at hh ht
    refine ⟨{ queue_head := some p, queue_tail := some p,
              heap := Function.update queue.heap p (some { value := v, nextptr := none }) },
      ?_, ?_⟩
    · simp only [queue_enqueue, hh, ht, and_self, if_true]
    · refine ⟨rfl, rfl, ?_, by simp⟩
      simp only [List.nil_append, linked, Function.update_same]
  · have hlast : nodes.getLast? = some (t, w) := by
      rw [e, List.concat_eq_append, List.getLast?_append]
      simp
    have htm : t ∈ nodes.map Prod.fst :=
      List.mem_map_of_mem Prod.fst (List.mem_of_getLast?_eq_some hlast)
    have hpm : p ∉ nodes.map Prod.fst := fun hm => linked_mem queue.heap nodes p hl hm hp
    have hpt : t ≠ p := by
      intro e
      subst e
      exact hpm htm
    have hheadne : ¬ (queue.queue_head = none ∧ queue.queue_tail = none) := by
      rw [ht, hlast]
      simp
    have htail : queue.queue_tail = some t := by
      rw [ht, hlast]
      rfl
    have hget : Function.update queue.heap p (some { value := v, nextptr := none }) t =
        some { value := w, nextptr := none } := by
      rw [Function.update_noteq hpt]
      exact linked_last queue.heap t w nodes hl hlast
    refine ⟨{ queue_head := queue.queue_head, queue_tail := some p,
              heap := Function.update
                (Function.update queue.heap p (some { value := v, nextptr := none })) t
                (some { value := w, nextptr := some p }) }, ?_, ?_⟩
    · simp [queue_enqueue, htail, hget]
    · refine ⟨?_, ?_, ?_, ?_⟩
      · show queue.queue_head = _
        rw [hh]
        cases nodes with
        | nil => simp at hlast
        | cons a rest => rfl
      · show some p = _
        rw [List.getLast?_append]
        simp
      · refine linked_snoc queue.heap _ p v t w nodes hl hn hlast ?_ ?_ ?_
        · intro a ha hat
          show Function.update (Function.update queue.heap p _) t _ a = _
          rw [Function.update_noteq hat, Function.update_noteq]
          intro e
          subst e
          exact hpm ha
        · show Function.update (Function.update queue.heap p _) t _ t = _
          rw [Function.update_same]
        · show Function.update (Function.update queue.heap p _) t _ p = _
          rw [Function.update_noteq (Ne.symm hpt), Function.update_same]
      · rw [List.map_append, List.nodup_append]
        refine ⟨hn, by simp, ?_⟩
        intro a ha hb
        simp only [List.map_cons, List.map_nil, List.mem_singleton] at hb
        subst hb
        exact hpm ha

/-- On a queue that holds the node `(a, v)` followed by `rest`, `queue_dequeue` returns
`v`, and the queue then holds `rest`. -/
theorem dequeue_holds (queue : queue_t) (a : Nat) (v : Int) (rest : List (Nat × Int))
    (h : holds queue ((a, v) :: rest)) :
    ∃ queue1, queue_dequeue queue = dequeue_t.returned v queue1 ∧ holds queue1 rest := by
  obtain ⟨hh, ht, hl, hn⟩ := h
  simp only [List.head?_cons, Option.map_some'] at hh
  obtain ⟨hget, hrest⟩ := linked_head queue.heap a v rest hl
  simp only [List.map_cons, List.nodup_cons] at hn
  have hne : ¬ (queue.queue_head = none ∧ queue.queue_tail = none) := by
    rw [hh]
    simp
  have hkeep : linked (Function.update queue.heap a none) rest := by
    refine linked_congr queue.heap _ rest ?_ hrest
    intro b hb
    rw [Function.update_noteq]
    intro e
    subst e
    exact hn.1 hb
  cases rest with
  | nil =>
    have htail : queue.queue_tail = some a := by
      rw [ht]
      rfl
    refine ⟨{ queue_head := none, queue_tail := none,
              heap := Function.update queue.heap a none }, ?_, ?_⟩
    · simp [queue_dequeue, hh, hget, htail]
    · exact ⟨rfl, rfl, trivial, by simp⟩
  | cons b rest =>
    have hlast : ((a, v) :: b :: rest).getLast? = (b :: rest).getLast? :=
      List.getLast?_cons_cons
    obtain ⟨x, hx⟩ : ∃ x, (b :: rest).getLast? = some x := by
      cases hq : (b :: rest).getLast? with
      | none => simp at hq
      | some x => exact ⟨x, rfl⟩
    have hxm : x.1 ∈ (b :: rest).map Prod.fst :=
      List.mem_map_of_mem Prod.fst (List.mem_of_getLast?_eq_some hx)
    have htail : queue.queue_tail = some x.1 := by
      rw [ht, hlast, hx]
      rfl
    have hax : ¬ (a = x.1) := by
      intro e
      rw [e] at hn
      exact hn.1 hxm
    refine ⟨{ queue_head := ((b :: rest).head?).map Prod.fst,
              queue_tail := queue.queue_tail,
              heap := Function.update queue.heap a none }, ?_, ?_⟩
    · simp [queue_dequeue, hh, hget, htail, hax]
    · refine ⟨rfl, ?_, hkeep, hn.2⟩
      show queue.queue_tail = _
      rw [ht, hlast]

/-- An empty queue in the sense of `holds` is one with both pointers `NULL`. -/
theorem holds_null (queue : queue_t) (nodes : List (Nat × Int)) (h : holds queue nodes) :
    (queue.queue_head = none ↔ queue.queue_tail = none) ∧
    (queue.queue_head = none ↔ nodes = []) := by
  obtain ⟨hh, ht, _, _⟩ := h
  rw [hh, ht]
  cases nodes with
  | nil => simp
  | cons a rest =>
    have : (a :: rest).getLast? ≠ none := by simp
    simp [this]

/-- Simulation of the calls by a list of nodes: the values enqueued so far are the
values returned so far followed by the values still in the queue. -/
theorem run_holds : ∀ (calls : List call_t) (queue : queue_t) (nodes : List (Nat × Int)),
    holds queue nodes → admissible calls queue = true →
    ∃ values queue1 nodes1, run calls queue = some (values, queue1) ∧
      holds queue1 nodes1 ∧
      nodes.map Prod.snd ++ enqueued calls = values ++ nodes1.map Prod.snd ∧
      values.length = dequeues calls
  | [], queue, nodes, h, _ => ⟨[], queue, nodes, rfl, h, by simp [enqueued], rfl⟩
  | call_t.enqueue p v :: rest, queue, nodes, h, ha => by
    simp only [admissible, Bool.and_eq_true, Option.isNone_iff_eq_none] at ha
    obtain ⟨queue1, he, hh⟩ := enqueue_holds queue nodes p v h ha.1
    have ha2 := ha.2
    rw [he] at ha2
    obtain ⟨values, queue2, nodes2, hr, hh2, hv, hl⟩ :=
      run_holds rest queue1 (nodes ++ [(p, v)]) hh ha2
    refine ⟨values, queue2, nodes2, ?_, hh2, ?_, ?_⟩
    · simp only [run, he, hr]
    · rw [← hv]
      simp [enqueued]
    · rw [hl]
      rfl
  | call_t.dequeue :: rest, queue, nodes, h, ha => by
    simp only [admissible, Bool.and_eq_true, Bool.not_eq_true', Bool.and_eq_false_iff,
      Option.isNone_eq_false_iff, Option.isSome_iff_ne_none] at ha
    have hnull := holds_null queue nodes h
    cases nodes with
    | nil =>
      have h1 := hnull.2.2 rfl
      have h2 := hnull.1.1 h1
      rcases ha.1 with h3 | h3
      · exact absurd h1 h3
      · exact absurd h2 h3
    | cons x nodes =>
      obtain ⟨a, v⟩ := x
      obtain ⟨queue1, hd, hh⟩ := dequeue_holds queue a v nodes h
      have ha2 := ha.2
      rw [hd] at ha2
      obtain ⟨values, queue2, nodes2, hr, hh2, hv, hl⟩ := run_holds rest queue1 nodes hh ha2
      refine ⟨v :: values, queue2, nodes2, ?_, hh2, ?_, ?_⟩
      · simp only [run, hd, hr]
      · simp only [List.map_cons, List.cons_append, enqueued, List.cons.injEq, true_and]
        exact hv
      · simp only [List.length_cons, dequeues, hl]

/-- The calls that come first in an admissible sequence of calls are admissible. -/
theorem admissible_append : ∀ (first rest : List call_t) (queue : queue_t),
    admissible (first ++ rest) queue = true → admissible first queue = true
  | [], _, _, _ => rfl
  | call_t.enqueue p v :: first, rest, queue, h => by
    simp only [List.cons_append, admissible, Bool.and_eq_true] at h ⊢
    refine ⟨h.1, ?_⟩
    have h2 := h.2
    cases he : queue_enqueue queue p v with
    | none => rfl
    | some queue1 =>
      rw [he] at h2
      exact admissible_append first rest queue1 h2
  | call_t.dequeue :: first, rest, queue, h => by
    simp only [List.cons_append, admissible, Bool.and_eq_true] at h ⊢
    refine ⟨h.1, ?_⟩
    have h2 := h.2
    cases he : queue_dequeue queue with
    | returned value queue1 =>
      rw [he] at h2
      exact admissible_append first rest queue1 h2
    | waits => rfl
    | undefined => rfl

/-- C32: in the linked queue run sequentially from `queue_init`, for every sequence of
calls of `queue_enqueue` and `queue_dequeue` in which no `queue_dequeue` is made on an
empty queue (and `malloc` hands out addresses that are not in use), every call returns,
and after each number `n` of calls: as many values have been returned as calls of
`queue_dequeue` were made, the `k`-th value returned is the value passed to the `k`-th
call of `queue_enqueue` (first in, first out), `queue_head` is `NULL` exactly when
`queue_tail` is `NULL`, and that is the case exactly when every value enqueued has been
returned. -/
theorem queue_is_first_in_first_out (calls : List call_t)
    (hadm : admissible calls queue_init = true) (n : Nat) :
    ∃ values queue, run (calls.take n) queue_init = some (values, queue) ∧
      values.length = dequeues (calls.take n) ∧
      (∀ k : Nat, k < values.length → values[k]? = (enqueued (calls.take n))[k]?) ∧
      values = (enqueued (calls.take n)).take (dequeues (calls.take n)) ∧
      (queue.queue_head = none ↔ queue.queue_tail = none) ∧
      (queue.queue_head = none ↔
        (enqueued (calls.take n)).length = dequeues (calls.take n)) := by
  have hinit : holds queue_init [] := ⟨rfl, rfl, trivial, by simp⟩
  have hpre : admissible (calls.take n) queue_init = true := by
    apply admissible_append (calls.take n) (calls.drop n)
    rw [List.take_append_drop]
    exact hadm
  obtain ⟨values, queue, nodes, hr, hh, hv, hl⟩ :=
    run_holds (calls.take n) queue_init [] hinit hpre
  simp only [List.map_nil, List.nil_append] at hv
  have hnull := holds_null queue nodes hh
  refine ⟨values, queue, hr, hl, ?_, ?_, hnull.1, ?_⟩
  · intro k hk
    rw [hv, List.getElem?_append_left hk]
  · rw [← hl, hv, List.take_left']
    rfl
  · rw [hnull.2, hv, ← hl, List.length_append, List.length_map]
    constructor
    · intro e
      rw [e]
      rfl
    · intro e
      exact List.length_eq_zero.mp (by omega)

/-- Witness of C32: two values are enqueued, one is dequeued, a third value is enqueued
in a node at the address just freed, and two values are dequeued: the values come out
as 7, 8, 9, and the queue ends with both pointers `NULL`. -/
theorem queue_is_first_in_first_out_witness :
    ∃ queue, run sample_calls queue_init = some ([7, 8, 9], queue) ∧
      queue.queue_head = none ∧ queue.queue_tail = none := by
  obtain ⟨values, queue, hr, _, _, hv, hn, _⟩ :=
    queue_is_first_in_first_out sample_calls (by decide) 6
  have e : List.take 6 sample_calls = sample_calls := by decide
  have e2 : (enqueued sample_calls).take (dequeues sample_calls) = [7, 8, 9] := by decide
  rw [e] at hr hv
  rw [e2] at hv
  subst hv
  have hq : (run sample_calls queue_init).map (fun r => r.2.queue_head) = some none := by
    decide
  rw [hr] at hq
  simp only [Option.map_some', Option.some.injEq] at hq
  exact ⟨queue, hr, hq, hn.1 hq⟩

end Queue

namespace MMImplicit

/-! ## Claims on `mm-implicit.c` -/

/-- The mask `~1` clears the lowest bit of a word. -/
theorem word_and_mask (h : Nat) : h &&& (2 ^ 64 - 2) = 2 * (h / 2 % 2 ^ 63) := by
  have e1 : h = Nat.bit (h % 2 == 1) (h / 2) := by
    rw [Nat.bit_val]
    rcases Nat.mod_two_eq_zero_or_one h with e | e <;> simp [e] <;> omega
  have e2 : (2 ^ 64 - 2 : Nat) = Nat.bit false (2 ^ 63 - 1) := by
    rw [Nat.bit_val]
    norm_num
  conv_lhs => rw [e1, e2]
  rw [Nat.land_bit, Bool.and_false, Nat.and_pow_two_sub_one_eq_mod, Nat.bit_val]
  simp

/-- Setting the lowest bit of an even word adds one. -/
theorem even_or_one (x : Nat) (hx : x % 2 = 0) : x ||| 1 = x + 1 := by
  have e1 : x = Nat.bit false (x / 2) := by
    rw [Nat.bit_val]
    simp
    omega
  have e2 : (1 : Nat) = Nat.bit true 0 := by
    rw [Nat.bit_val]
    simp
  conv_lhs => rw [e1, e2]
  rw [Nat.lor_bit, Bool.false_or, Nat.or_zero, Nat.bit_val]
  simp
  omega

/-- The size read from a header is an even `size_t`. -/
theorem get_size_bound (s : mm_t) (block size : Nat) (h : get_size s block = some size) :
    size < 2 ^ 64 ∧ size % 2 = 0 ∧ s.lo ≤ block ∧ block + 8 ≤ s.brk := by
  unfold get_size load at h
  split at h
  · rename_i hb
    simp only [Option.map_some', Option.some.injEq] at h
    rw [word_and_mask] at h
    omega
  · simp at h

/-- The header of an allocated block of even size. -/
theorem header_allocated (size : Nat) (h2 : size % 2 = 0) (h64 : size < 2 ^ 64) :
    (size ||| 1) &&& (2 ^ 64 - 2) = size ∧ (size ||| 1) &&& 1 = 1 := by
  rw [even_or_one size h2, word_and_mask, Nat.and_one_is_mod]
  omega

/-- The header of a free block of even size. -/
theorem header_free (size : Nat) (h2 : size % 2 = 0) (h64 : size < 2 ^ 64) :
    (size ||| 0) &&& (2 ^ 64 - 2) = size ∧ (size ||| 0) &&& 1 = 0 := by
  rw [Nat.or_zero, word_and_mask, Nat.and_one_is_mod]
  omega

/-- Every block of a block walk is at or behind the block where the walk starts. -/
theorem walk_ge (s : mm_t) (last : Nat) :
    ∀ (fuel curr : Nat) (l : List Nat), block_walk s last fuel curr = some l →
      ∀ a ∈ l, curr ≤ a := by
  intro fuel
  induction fuel with
  | zero =>
    intro curr l h
    simp [block_walk] at h
  | succ fuel ih =>
    intro curr l h a ha
    simp only [block_walk] at h
    split at h
    · injection h with h
      subst h
      simp only [List.mem_singleton] at ha
      omega
    · split at h
      · simp at h
      · split at h
        · simp at h
        · rename_i size _
          simp only [Option.map_eq_some'] at h
          obtain ⟨l0, h0, rfl⟩ := h
          rcases List.mem_cons.mp ha with e | e
          · omega
          · have := ih _ _ h0 a e
            omega

/-- A block walk that arrives starts at or before the last block. -/
theorem walk_le_last (s : mm_t) (last : Nat) (fuel curr : Nat) (l : List Nat)
    (h : block_walk s last fuel curr = some l) : curr ≤ last := by
  cases fuel with
  | zero => simp [block_walk] at h
  | succ fuel =>
    simp only [block_walk] at h
    split at h
    · omega
    · split at h
      · simp at h
      · omega

/-- More fuel does not change a block walk that arrives. -/
theorem walk_mono (s : mm_t) (last : Nat) :
    ∀ (fuel curr : Nat) (l : List Nat), block_walk s last fuel curr = some l →
      block_walk s last (fuel + 1) curr = some l := by
  intro fuel
  induction fuel with
  | zero =>
    intro curr l h
    simp [block_walk] at h
  | succ fuel ih =>
    intro curr l h
    simp only [block_walk] at h
    rw [block_walk]
    split at h
    · rename_i hc
      rw [if_pos hc]
      exact h
    · rename_i hc
      rw [if_neg hc]
      split at h
      · simp at h
      · rename_i hl
        rw [if_neg hl]
        split at h
        · simp at h
        · rename_i size hs
          simp only [Option.map_eq_some'] at h
          obtain ⟨l0, h0, rfl⟩ := h
          simp only [ih _ _ h0, Option.map_some']

/-- A block walk reads the headers at and behind its start only. -/
theorem walk_congr (s s1 : mm_t) (last : Nat) :
    ∀ (fuel curr : Nat), (∀ a : Nat, curr ≤ a → get_size s1 a = get_size s a) →
      block_walk s1 last fuel curr = block_walk s last fuel curr := by
  intro fuel
  induction fuel with
  | zero =>
    intro curr _
    rfl
  | succ fuel ih =>
    intro curr h
    simp only [block_walk]
    rw [h curr (Nat.le_refl _)]
    split
    · rfl
    · split
      · rfl
      · split
        · rfl
        · rename_i size _
          rw [ih (curr + size) (fun a ha => h a (by omega))]

/-- The block walk after a split: the free remainder is met behind the block that was
split, and the walk arrives at the remainder when that block was the last one. -/
theorem walk_split (s s1 : mm_t) (last block size block_size : Nat) (h0 : 0 < size)
    (hlt : size < block_size)
    (hsize : get_size s block = some block_size)
    (hblock : get_size s1 block = some size)
    (hrest : get_size s1 (block + size) = some (block_size - size))
    (hsame : ∀ a : Nat, a ≠ block → a ≠ block + size → get_size s1 a = get_size s a) :
    ∀ (fuel curr : Nat) (l : List Nat), block_walk s last fuel curr = some l → block ∈ l →
      ∃ l1, block_walk s1 (if block = last then block + size else last) (fuel + 1) curr =
          some l1 ∧
        (∀ a ∈ l1, a ∈ l ∨ a = block + size) ∧ block + size ∈ l1 := by
  intro fuel
  induction fuel with
  | zero =>
    intro curr l h
    simp [block_walk] at h
  | succ fuel ih =>
    intro curr l h hmem
    simp only [block_walk] at h
    split at h
    · rename_i hc
      injection h with h
      subst h
      simp only [List.mem_singleton] at hmem
      subst hmem
      subst hc
      refine ⟨[block, block + size], ?_, ?_, by simp⟩
      · have e1 : ¬ (block = block + size) := by omega
        have e2 : ¬ (block + size < block) := by omega
        simp only [block_walk, if_true, e1, e2, if_false, hblock, Option.map_some']
      · intro a ha
        simp only [List.mem_cons, List.mem_singleton, List.not_mem_nil, or_false] at ha
        rcases ha with e | e
        · exact Or.inl (by simp [e])
        · exact Or.inr e
    · rename_i hc
      split at h
      · simp at h
      · rename_i hl
        split at h
        · simp at h
        · rename_i n hn
          simp only [Option.map_eq_some'] at h
          obtain ⟨l0, hw, rfl⟩ := h
          by_cases hbc : block = curr
          · subst hbc
            rw [hsize] at hn
            injection hn with hn
            subst hn
            have hle := walk_le_last s last fuel _ l0 hw
            have e0 : ¬ (block = last) := hc
            have e1 : ¬ (block + size = last) := by omega
            have e2 : ¬ (last < block + size) := by omega
            have e3 : block + size + (block_size - size) = block + block_size := by omega
            have hc1 : block_walk s1 last fuel (block + block_size) = some l0 := by
              rw [walk_congr s s1 last fuel (block + block_size)
                (fun a ha => hsame a (by omega) (by omega))]
              exact hw
            refine ⟨block :: (block + size) :: l0, ?_, ?_, by simp⟩
            · rw [if_neg e0]
              simp only [block_walk, hc, hl, if_false, hblock, e1, e2, hrest, e3, hc1,
                Option.map_some']
            · intro a ha
              simp only [List.mem_cons] at ha
              rcases ha with e | e | e
              · exact Or.inl (by simp [e])
              · exact Or.inr e
              · exact Or.inl (List.mem_cons_of_mem _ e)
          · have hb0 : block ∈ l0 := by
              rcases List.mem_cons.mp hmem with e | e
              · exact absurd e hbc
              · exact e
            have hge := walk_ge s last fuel _ l0 hw block hb0
            have hcb : curr < block := by omega
            obtain ⟨l1, hw1, hsub, hin⟩ := ih _ _ hw hb0
            have hg : get_size s1 curr = some n := by
              rw [hsame curr (by omega) (by omega)]
              exact hn
            refine ⟨curr :: l1, ?_, ?_, List.mem_cons_of_mem _ hin⟩
            · rw [block_walk]
              have e1 : ¬ (curr = if block = last then block + size else last) := by
                split <;> omega
              have e2 : ¬ ((if block = last then block + size else last) < curr) := by
                split <;> omega
              rw [if_neg e1, if_neg e2, hg]
              simp only [hw1, Option.map_some']
            · intro a ha
              rcases List.mem_cons.mp ha with e | e
              · exact Or.inl (by simp [e])
              · rcases hsub a e with e | e
                · exact Or.inl (List.mem_cons_of_mem _ e)
                · exact Or.inr e

/-- The size and the allocation bit read from a word of the heap. -/
theorem header_read (s : mm_t) (a w : Nat) (hlo : s.lo ≤ a) (hbrk : a + 8 ≤ s.brk)
    (hw : s.mem a = w) :
    get_size s a = some (w &&& (2 ^ 64 - 2)) ∧
    is_allocated s a = some (decide (w &&& 1 ≠ 0)) := by
  unfold get_size is_allocated load
  rw [if_pos ⟨hlo, hbrk⟩, hw]
  exact ⟨rfl, rfl⟩

/-- States with the same heap bounds that hold the same word at an address give the same
header there. -/
theorem header_same (s s1 : mm_t) (a : Nat) (hlo : s1.lo = s.lo) (hbrk : s1.brk = s.brk)
    (hw : s1.mem a = s.mem a) :
    get_size s1 a = get_size s a ∧ is_allocated s1 a = is_allocated s a := by
  unfold get_size is_allocated load
  rw [hlo, hbrk, hw]
  exact ⟨rfl, rfl⟩

/-- A store inside the heap. -/
theorem store_eq (s : mm_t) (addr value : Nat) (hlo : s.lo ≤ addr) (hbrk : addr + 8 ≤ s.brk) :
    store s addr value = some { s with mem := Function.update s.mem addr value } := by
  unfold store
  rw [if_pos ⟨hlo, hbrk⟩]

/-- The reuse of a free block by `mm_malloc`, in a heap whose block walk reaches
`mm_heap_last` and whose block sizes are multiples of 16: a block of `block_size` bytes
that lies inside the heap is used for a request of `size ≤ block_size` bytes (a
positive multiple of 16). Either `block_size = size`, and the block is marked allocated
with that size; or `block_size - size ≥ 16`, and the block is split into an allocated
block of `size` bytes and a free block of `block_size - size` bytes, which becomes
`mm_heap_last` when the block was. The sizes add up to `block_size`, no other header
changes, the block walk from `mm_heap_first` reaches `mm_heap_last` again, and the block
sizes are multiples of 16 again. -/
theorem place_splits_or_fits (s : mm_t) (block size block_size fuel : Nat) (l : List Nat)
    (hwalk : block_walk s s.mm_heap_last fuel s.mm_heap_first = some l)
    (hinv : ∀ a ∈ l, ∃ n, get_size s a = some n ∧ 16 ∣ n)
    (hmem : block ∈ l)
    (hsize : get_size s block = some block_size)
    (h16 : 16 ∣ size) (h0 : 0 < size) (hle : size ≤ block_size)
    (hend : block + block_size ≤ s.brk) :
    ∃ s1 l1, place s block size = some s1 ∧
      get_size s1 block = some size ∧ is_allocated s1 block = some true ∧
      ((block_size = size ∧ l1 = l ∧ s1.mm_heap_last = s.mm_heap_last) ∨
        (16 ≤ block_size - size ∧
          get_size s1 (block + size) = some (block_size - size) ∧
          is_allocated s1 (block + size) = some false ∧ block + size ∈ l1 ∧
          s1.mm_heap_last =
            if block = s.mm_heap_last then block + size else s.mm_heap_last)) ∧
      size + (block_size - size) = block_size ∧
      (∀ a : Nat, a ≠ block → a ≠ block + size →
        get_size s1 a = get_size s a ∧ is_allocated s1 a = is_allocated s a) ∧
      block_walk s1 s1.mm_heap_last (fuel + 1) s1.mm_heap_first = some l1 ∧
      (∀ a ∈ l1, a ∈ l ∨ a = block + size) ∧
      (∀ a ∈ l1, ∃ n, get_size s1 a = some n ∧ 16 ∣ n) := by
  obtain ⟨hb64, hb2, hlo, hbrk⟩ := get_size_bound s block block_size hsize
  have hb16 : 16 ∣ block_size := by
    obtain ⟨n, hn, hd⟩ := hinv block hmem
    rw [hsize] at hn
    injection hn with hn
    rw [hn]
    exact hd
  have hs8 : to_size_t (size + sizeof_block_t) = size + 8 := by
    unfold to_size_t sizeof_block_t
    exact Nat.mod_eq_of_lt (by omega)
  have halloc := header_allocated size (by omega) (by omega)
  by_cases hfit : block_size = size
  · subst hfit
    have hplace : place s block block_size =
        some { s with mem := Function.update s.mem block (block_size ||| 1) } := by
      have hno : ¬ (block_size + 8 ≤ block_size) := by omega
      simp only [place, hsize, split_block, hs8, hno, if_false, Option.bind_eq_bind,
        Option.some_bind, set_header, if_true]
      exact store_eq s block _ hlo hbrk
    have hread := header_read { s with mem := Function.update s.mem block (block_size ||| 1) }
      block (block_size ||| 1) hlo hbrk (by simp)
    rw [halloc.1, halloc.2] at hread
    have hother : ∀ a : Nat, a ≠ block →
        get_size { s with mem := Function.update s.mem block (block_size ||| 1) } a =
            get_size s a ∧
          is_allocated { s with mem := Function.update s.mem block (block_size ||| 1) } a =
            is_allocated s a :=
      fun a ha => header_same s _ a rfl rfl (by simp [Function.update_noteq ha])
    have hall : ∀ a : Nat,
        get_size { s with mem := Function.update s.mem block (block_size ||| 1) } a =
          get_size s a := by
      intro a
      by_cases ha : a = block
      · subst ha
        rw [hread.1, hsize]
      · exact (hother a ha).1
    have hw : block_walk { s with mem := Function.update s.mem block (block_size ||| 1) }
        s.mm_heap_last fuel s.mm_heap_first = some l := by
      rw [walk_congr s _ s.mm_heap_last fuel s.mm_heap_first (fun a _ => hall a)]
      exact hwalk
    refine ⟨_, l, hplace, hread.1, by simpa using hread.2, Or.inl ⟨rfl, rfl, rfl⟩, by omega,
      fun a ha _ => hother a ha, walk_mono _ _ _ _ _ hw, fun a ha => Or.inl ha, ?_⟩
    intro a ha
    rw [hall a]
    exact hinv a ha
  · have hgap : size + 16 ≤ block_size := by omega
    have hsub : to_size_t (block_size + 2 ^ 64 - size) = block_size - size := by
      unfold to_size_t
      have : block_size + 2 ^ 64 - size = block_size - size + 2 ^ 64 := by omega
      rw [this, Nat.add_mod_right]
      exact Nat.mod_eq_of_lt (by omega)
    have hfree := header_free (block_size - size) (by omega) (by omega)
    have hst1 : set_header s (block + size) (block_size - size) false =
        some { s with
               mem := Function.update s.mem (block + size) (block_size - size ||| 0) } := by
      simp only [set_header, Bool.false_eq_true, if_false]
      exact store_eq s (block + size) _ (by omega) (by omega)
    have hplace : place s block size =
        some { mem := Function.update
                 (Function.update s.mem (block + size) (block_size - size ||| 0)) block
                 (size ||| 1),
               lo := s.lo, brk := s.brk, hi := s.hi, mm_heap_first := s.mm_heap_first,
               mm_heap_last :=
                 if block = s.mm_heap_last then block + size else s.mm_heap_last } := by
      have hyes : size + 8 ≤ block_size := by omega
      simp only [place, hsize, split_block, hs8, hyes, if_true, hsub, hst1, Option.bind_eq_bind,
        Option.some_bind]
      by_cases hl : block = s.mm_heap_last
      · simp only [hl, if_true, Option.some_bind, set_header]
        exact store_eq _ _ _ (by simpa [hl] using hlo) (by simpa [hl] using hbrk)
      · simp only [hl, if_false, Option.some_bind, set_header, if_true]
        exact store_eq _ _ _ (by exact hlo) (by exact hbrk)
    have hne : block + size ≠ block := by omega
    have hread := header_read
      { mem := Function.update
          (Function.update s.mem (block + size) (block_size - size ||| 0)) block (size ||| 1),
        lo := s.lo, brk := s.brk, hi := s.hi, mm_heap_first := s.mm_heap_first,
        mm_heap_last := if block = s.mm_heap_last then block + size else s.mm_heap_last }
      block (size ||| 1) hlo hbrk (by simp)
    rw [halloc.1, halloc.2] at hread
    have hread2 := header_read
      { mem := Function.update
          (Function.update s.mem (block + size) (block_size - size ||| 0)) block (size ||| 1),
        lo := s.lo, brk := s.brk, hi := s.hi, mm_heap_first := s.mm_heap_first,
        mm_heap_last := if block = s.mm_heap_last then block + size else s.mm_heap_last }
      (block + size) (block_size - size ||| 0) (by show s.lo ≤ _; omega)
      (by show _ ≤ s.brk; omega) (by simp [Function.update_noteq hne])
    rw [hfree.1, hfree.2] at hread2
    have hother : ∀ a : Nat, a ≠ block → a ≠ block + size →
        get_size
          { mem := Function.update
              (Function.update s.mem (block + size) (block_size - size ||| 0)) block
              (size ||| 1),
            lo := s.lo, brk := s.brk, hi := s.hi, mm_heap_first := s.mm_heap_first,
            mm_heap_last := if block = s.mm_heap_last then block + size else s.mm_heap_last }
          a = get_size s a ∧
        is_allocated
          { mem := Function.update
              (Function.update s.mem (block + size) (block_size - size ||| 0)) block
              (size ||| 1),
            lo := s.lo, brk := s.brk, hi := s.hi, mm_heap_first := s.mm_heap_first,
            mm_heap_last := if block = s.mm_heap_last then block + size else s.mm_heap_last }
          a = is_allocated s a :=
      fun a ha hb => header_same s _ a rfl rfl
        (by simp [Function.update_noteq ha, Function.update_noteq hb])
    obtain ⟨l1, hw1, hsub1, hin1⟩ := walk_split s _ s.mm_heap_last block size block_size h0
      (by omega) hsize hread.1 hread2.1 (fun a ha hb => (hother a ha hb).1) fuel
      s.mm_heap_first l hwalk hmem
    refine ⟨_, l1, hplace, hread.1, by simpa using hread.2,
      Or.inr ⟨by omega, hread2.1, by simpa using hread2.2, hin1, rfl⟩, by omega, hother, hw1,
      hsub1, ?_⟩
    intro a ha
    by_cases hab : a = block
    · subst hab
      exact ⟨size, hread.1, h16⟩
    · by_cases has : a = block + size
      · subst has
        exact ⟨block_size - size, hread2.1, (Nat.dvd_sub' hb16 h16)⟩
      · rw [(hother a hab has).1]
        rcases hsub1 a ha with e | e
        · exact hinv a e
        · exact absurd e has

/-- An instance of the reuse of a free block: the block of 64 bytes at 4104, the last
one of the heap, is split for a request of 48 bytes, and the free remainder of 16 bytes
at 4152 is the last block afterwards. -/
theorem place_splits_or_fits_example :
    ∃ s1, place one_free_block 4104 48 = some s1 ∧ get_size s1 4104 = some 48 ∧
      get_size s1 4152 = some 16 ∧ s1.mm_heap_last = 4152 ∧
      block_walk s1 4152 2 4104 = some [4104, 4152] := by
  obtain ⟨s1, l1, h1, h2, _, h4, _, _, _, _, _⟩ :=
    place_splits_or_fits one_free_block 4104 48 64 1 [4104] (by decide)
      (by
        intro a ha
        simp only [List.mem_singleton] at ha
        subst ha
        exact ⟨64, by decide, by decide⟩)
      (by simp) (by decide) (by decide) (by decide) (by decide) (by decide)
  have e : place one_free_block 4104 48 =
      some { mem := Function.update (Function.update one_free_block.mem 4152 16) 4104 49,
             lo := 4096, brk := 4168, hi := 8192, mm_heap_first := 4104,
             mm_heap_last := 4152 } := by
    rfl
  rw [e] at h1
  injection h1 with h1
  subst h1
  rcases h4 with ⟨h, _⟩ | ⟨_, h5, _, _, h6⟩
  · exact absurd h (by decide)
  · exact ⟨_, e, h2, h5, rfl, by decide⟩

/-- The block that `find_fit` returns is free and has at least the size asked for. -/
theorem find_fit_from_spec (s : mm_t) (size : Nat) :
    ∀ (fuel curr block : Nat), find_fit_from s size fuel curr = some block → block ≠ 0 →
      is_allocated s block = some false ∧
      ∃ block_size, get_size s block = some block_size ∧ size ≤ block_size := by
  intro fuel
  induction fuel with
  | zero =>
    intro curr block h
    simp [find_fit_from] at h
  | succ fuel ih =>
    intro curr block h hb
    simp only [find_fit_from] at h
    split at h
    · simp only [Option.bind_eq_bind, Option.bind_eq_some] at h
      obtain ⟨allocated, ha, curr_size, hs, h⟩ := h
      split at h
      · rename_i hc
        injection h with h
        subst h
        rw [ha, hc.1]
        exact ⟨rfl, curr_size, hs, hc.2⟩
      · exact ih _ _ h hb
    · injection h with h
      exact absurd h.symm hb

/-- When the coalescing pass of `mm_malloc` gives the state `s1` and `find_fit` finds the
block `block` in it, `mm_malloc` returns the payload of that block and the state that
`place` gives. -/
theorem mm_malloc_reuses (fuel : Nat) (s s1 : mm_t) (size block : Nat)
    (hc : coalesce_from fuel s s.mm_heap_first = some s1)
    (hf : find_fit fuel s1 (round_up (to_size_t (sizeof_block_t + size)) ALIGNMENT) =
      some block)
    (hb : block ≠ 0) :
    mm_malloc fuel s size =
      (place s1 block (round_up (to_size_t (sizeof_block_t + size)) ALIGNMENT)).map
        (fun s2 => (block + sizeof_block_t, s2)) := by
  simp only [mm_malloc, hc, hf, Option.bind_eq_bind, Option.some_bind, hb, ne_eq,
    not_false_eq_true, if_true]
  cases place s1 block (round_up (to_size_t (sizeof_block_t + size)) ALIGNMENT) <;> rfl

/-- A request whose size wraps around to 0 when the header is added turns the free
block that it finds into an allocated block of size 0. -/
theorem wrapped_request_makes_empty_block :
    round_up (to_size_t (sizeof_block_t + (2 ^ 64 - 8))) ALIGNMENT = 0 ∧
    (two_free_blocks.bind (fun s => mm_malloc 8 s (2 ^ 64 - 8))).map
      (fun r => (r.1, r.2.mem 4104)) = some (4112, 1) := by
  decide

/-- C33 (the divergence): after `mm_init`, two calls `mm_malloc(24)` and the release of
both blocks, the heap has the two free blocks 4104 and 4136 of 32 bytes each, and the
block walk from `mm_heap_first` reaches `mm_heap_last = 4136`. The call `mm_malloc(40)`
asks for 48 bytes; its coalescing pass merges the two blocks into one block of 64 bytes
at 4104 and leaves `mm_heap_last` at 4136; the block is then split into an allocated
block of 48 bytes at 4104 and a free block of 16 bytes at 4152, and `mm_heap_last` is
still 4136, which is no block any more: the block walk from `mm_heap_first` goes from
4104 to 4152 and does not reach `mm_heap_last`, whatever the fuel. The free block at
4152 is behind `mm_heap_last`, and a following `mm_malloc(8)`, which it would fit,
extends the heap instead of using it. -/
theorem coalescing_leaves_stale_heap_last :
    two_free_blocks.map (fun s =>
        (block_walk s s.mm_heap_last 2 s.mm_heap_first,
          [s.mm_heap_first, s.mm_heap_last, s.brk, s.mem 4104, s.mem 4136])) =
      some (some [4104, 4136], [4104, 4136, 4168, 32, 32]) ∧
    (two_free_blocks.bind (fun s => mm_malloc 8 s 40)).map (fun r =>
        (r.1, [r.2.mm_heap_first, r.2.mm_heap_last, r.2.brk, r.2.mem 4104, r.2.mem 4152])) =
      some (4112, [4104, 4136, 4168, 49, 16]) ∧
    (two_free_blocks.bind (fun s => mm_malloc 8 s 40)).map (fun r =>
        block_walk r.2 4152 2 r.2.mm_heap_first) = some (some [4104, 4152]) ∧
    ((two_free_blocks.bind (fun s => mm_malloc 8 s 40)).bind
        (fun r => mm_malloc 8 r.2 8)).map (fun r => (r.1, r.2.brk, r.2.mem 4152)) =
      some (4176, 4184, 16) ∧
    ∀ fuel : Nat, (two_free_blocks.bind (fun s => mm_malloc 8 s 40)).map
      (fun r => reaches_last fuel r.2) = some false := by
  refine ⟨by decide, by decide, by decide, by decide, ?_⟩
  intro fuel
  cases fuel with
  | zero => decide
  | succ fuel =>
    cases fuel with
    | zero => decide
    | succ fuel => rfl

end MMImplicit

namespace MMExplicit

/-! ## Claims on `mm-explicit.c` -/

/-- Without wrap-around the block size computed for a request is `size + 16` rounded up
to a multiple of 16. -/
theorem request_size_eq (size : Nat) (h : size + 31 < 2 ^ 64) :
    request_size size = (size + 31) / 16 * 16 := by
  unfold request_size round_up to_size_t sizeof_block_t sizeof_foot_t ALIGNMENT
  have h1 : (8 + size) % 2 ^ 64 = 8 + size := Nat.mod_eq_of_lt (by omega)
  have h2 : (8 + size + 8) % 2 ^ 64 = 8 + size + 8 := Nat.mod_eq_of_lt (by omega)
  have h3 : (8 + size + 8 + (16 - 1)) % 2 ^ 64 = size + 31 := by
    rw [Nat.mod_eq_of_lt (by omega)]
    omega
  rw [h1, h2, h3]

/-- A store changes the word at its address and nothing else. -/
theorem store_mem (s s1 : mm_t) (addr value : Nat) (h : store s addr value = some s1) :
    s1.mem = Function.update s.mem addr value ∧ s1.head = s.head := by
  unfold store at h
  split at h
  · injection h with h
    subst h
    exact ⟨rfl, rfl⟩
  · exact absurd h (by simp)

/-- The stores of `set_header` and `insert_into_free_list` on a block that is freed: the
link `prev` is `NULL`, the link `next` is the old head, and no word other than the four
words of the free block and the link `prev` of the old head is changed. -/
theorem free_block_writes (s s1 s2 : mm_t) (block block_size : Nat)
    (h1 : set_header s block block_size false = some s1)
    (h2 : insert_into_free_list s1 block = some s2) :
    s2.mem (block + 8) = 0 ∧
    (s.head + 8 ≠ block + 16 → s2.mem (block + 16) = s.head) ∧
    ∀ a : Nat, a ∉ free_block_words block block_size → a ≠ s.head + 8 →
      s2.mem a = s.mem a := by
  unfold set_header at h1
  simp only [Option.bind_eq_bind, Option.bind_eq_some] at h1
  obtain ⟨t1, ht1, ht2⟩ := h1
  obtain ⟨m1, hd1⟩ := store_mem _ _ _ _ ht1
  obtain ⟨m2, hd2⟩ := store_mem _ _ _ _ ht2
  unfold insert_into_free_list at h2
  simp only [Option.bind_eq_bind, Option.bind_eq_some, Option.some.injEq] at h2
  obtain ⟨u1, hu1, u2, hu2, u3, hu3, rfl⟩ := h2
  obtain ⟨n1, hh1⟩ := store_mem _ _ _ _ hu1
  obtain ⟨n3, _⟩ := store_mem _ _ _ _ hu3
  have hhead : u1.head = s.head := by rw [hh1, hd2, hd1]
  have n2 : u2.mem = u1.mem ∨
      u2.mem = Function.update u1.mem (s.head + 8) block := by
    split at hu2
    · rw [← hhead]
      exact Or.inr (store_mem _ _ _ _ hu2).1
    · injection hu2 with hu2
      subst hu2
      exact Or.inl rfl
  unfold offsetof_prev offsetof_next at *
  simp only [sizeof_foot_t] at m2
  refine ⟨?_, ?_, ?_⟩
  · show u3.mem (block + 8) = _
    rw [n3, Function.update_same]
  · intro hne
    show u3.mem (block + 16) = _
    rw [n3, Function.update_noteq (by omega)]
    have e : u1.mem (block + 16) = s.head := by
      rw [n1, Function.update_same, hd2, hd1]
    rcases n2 with n2 | n2
    · rw [n2, e]
    · rw [n2, Function.update_noteq (Ne.symm hne), e]
  · intro a ha hah
    simp only [free_block_words, offsetof_prev, offsetof_next, sizeof_foot_t, List.mem_cons,
      List.mem_singleton, List.not_mem_nil, or_false, not_or] at ha
    obtain ⟨a1, a2, a3, a4⟩ := ha
    show u3.mem a = _
    have e : u1.mem a = s.mem a := by
      rw [n1, Function.update_noteq a3, m2, Function.update_noteq a4, m1,
        Function.update_noteq a1]
    rw [n3, Function.update_noteq a2]
    rcases n2 with n2 | n2
    · rw [n2, e]
    · rw [n2, Function.update_noteq hah, e]

/-- The remainder that `mm_malloc` splits off a free block. -/
theorem split_remainder_large (block_size size remainder : Nat) (hb : 16 ∣ block_size)
    (hs : 16 ∣ size) (hle : size ≤ block_size) (hlt : block_size < 2 ^ 64 - 16)
    (h : split_remainder block_size size = some remainder) :
    remainder = block_size - size ∧ 32 ≤ remainder ∧ 16 ∣ remainder := by
  obtain ⟨k, rfl⟩ := hb
  obtain ⟨j, rfl⟩ := hs
  unfold split_remainder to_size_t sizeof_block_t sizeof_foot_t at h
  have e1 : (16 * j + 8) % 2 ^ 64 = 16 * j + 8 := Nat.mod_eq_of_lt (by omega)
  have e2 : (16 * j + 8 + 8) % 2 ^ 64 = 16 * j + 8 + 8 := Nat.mod_eq_of_lt (by omega)
  have e3 : (16 * k + 2 ^ 64 - 16 * j) % 2 ^ 64 = 16 * k - 16 * j := by
    have : 16 * k + 2 ^ 64 - 16 * j = 16 * k - 16 * j + 2 ^ 64 := by omega
    rw [this, Nat.add_mod_right]
    exact Nat.mod_eq_of_lt (by omega)
  rw [e1, e2, e3] at h
  split at h
  · injection h with h
    subst h
    refine ⟨rfl, by omega, ?_⟩
    rw [← Nat.mul_sub]
    exact Dvd.intro _ rfl
  · exact absurd h (by simp)

/-- Counterexample of C34: for the request `size = 2^64 - 1`, which is at least 1, the
sum `size + 16` wraps around, and the block size computed is 16: less than 32, and not
a number that is at least `size + 16`. For `size = 2^64 - 16` it is 0. -/
theorem request_size_wraps_counterexample :
    1 ≤ 2 ^ 64 - 1 ∧ request_size (2 ^ 64 - 1) = 16 ∧ request_size (2 ^ 64 - 16) = 0 := by
  decide

/-- C34 (amended): for a request of `size` bytes with `size ≤ 2^64 - 32` the block size
that `mm_malloc` computes is the least multiple of 16 that is at least `size + 16`; it
is at least 32 bytes for `size ≥ 1` and 16 bytes for `size = 0`. The words that
`set_header` and `insert_into_free_list` write when a block is freed are its header,
its links `prev` and `next` and its footer, at the offsets 0, 8, 16 and `size - 8`:
four different words inside the block exactly when the block has at least 32 bytes; for
a block of 16 bytes the link `next` is the word behind the block, so that freeing the
16-byte block of `mm_malloc(0)` overwrites the header of the block that follows it. A
remainder split off a free block whose size is a multiple of 16 has at least 32
bytes. -/
theorem request_size_is_rounded (size : Nat) (hsize : size + 31 < 2 ^ 64) :
    16 ∣ request_size size ∧ size + 16 ≤ request_size size ∧
    (∀ m : Nat, 16 ∣ m → size + 16 ≤ m → request_size size ≤ m) ∧
    (1 ≤ size → 32 ≤ request_size size) ∧
    request_size 0 = 16 ∧
    (∀ block block_size : Nat, 16 ∣ block_size → 16 ≤ block_size →
      (((free_block_words block block_size).Nodup ∧
        ∀ a ∈ free_block_words block block_size, block ≤ a ∧ a + 8 ≤ block + block_size) ↔
        32 ≤ block_size)) ∧
    (∀ (s s1 s2 : mm_t) (block block_size : Nat),
      set_header s block block_size false = some s1 →
      insert_into_free_list s1 block = some s2 →
      s2.mem (block + 8) = 0 ∧
      (s.head + 8 ≠ block + 16 → s2.mem (block + 16) = s.head) ∧
      ∀ a : Nat, a ∉ free_block_words block block_size → a ≠ s.head + 8 →
        s2.mem a = s.mem a) ∧
    (small_then_large.map (fun r => (r.1, r.2.1, r.2.2.mem 4104, r.2.2.mem 4120)) =
        some (4112, 4128, 17, 49) ∧
      (small_then_large.bind (fun r => mm_free r.2.2 r.1)).map (fun s => s.mem 4120) =
        some 0) ∧
    (∀ block_size size1 remainder : Nat, 16 ∣ block_size → 16 ∣ size1 →
      size1 ≤ block_size → block_size < 2 ^ 64 - 16 →
      split_remainder block_size size1 = some remainder →
      remainder = block_size - size1 ∧ 32 ≤ remainder ∧ 16 ∣ remainder) := by
  have e := request_size_eq size hsize
  refine ⟨?_, ?_, ?_, ?_, by decide, ?_, free_block_writes, ⟨by decide, by decide⟩,
    split_remainder_large⟩
  · rw [e]
    exact Dvd.intro_left _ rfl
  · rw [e]
    omega
  · intro m hm hle
    rw [e]
    obtain ⟨k, rfl⟩ := hm
    omega
  · intro h1
    rw [e]
    omega
  · intro block block_size hd hle
    obtain ⟨k, rfl⟩ := hd
    unfold free_block_words offsetof_prev offsetof_next sizeof_foot_t
    constructor
    · rintro ⟨_, hin⟩
      have h2 := hin (block + 16) (by simp)
      omega
    · intro h32
      constructor
      · simp only [List.nodup_cons, List.mem_cons, List.mem_singleton, List.not_mem_nil,
          List.nodup_nil, not_false_eq_true, and_true, not_or, or_false]
        omega
      · intro a ha
        simp only [List.mem_cons, List.mem_singleton, List.not_mem_nil, or_false] at ha
        omega

/-- Witness of C34: a request of 1 byte gets a block of 32 bytes and a request of 24
bytes one of 48 bytes. -/
theorem request_size_is_rounded_witness :
    request_size 1 = 32 ∧ request_size 24 = 48 := by
  have h1 := request_size_is_rounded 1 (by decide)
  have h2 := request_size_is_rounded 24 (by decide)
  have a1 := h1.2.2.2.1 (by decide)
  have b1 := h1.2.2.1 32 (by decide) (by decide)
  have a2 := h2.2.1
  have b2 := h2.2.2.1 48 (by decide) (by decide)
  constructor <;> omega

end MMExplicit
